import Mathlib

/-! Logical query plan: join-node dependency propagation, plan-graph copying and logical costs.

A shallow embedding of `JoinNode` (src/lib/logical_query_plan/join_node.cpp),
`build_transitive_od_closure` (src/lib/logical_query_plan/data_dependencies/order_dependency.cpp),
the plan-node graph contract declared in src/lib/logical_query_plan/abstract_lqp_node.hpp,
`CostEstimatorLogical` (src/lib/cost_estimation/cost_estimator_logical.cpp), the predicate
reordering rule (src/lib/optimizer/strategy/predicate_reordering_rule.cpp) and the set-based
inclusion check of the IND validator
(src/plugins/dependency_discovery/validation_strategy/ind_validation_rule_ablation.cpp).

Conventions of the embedding.
* `std::unordered_set<T>` is a `Finset T`: iteration order is unspecified in the source and
  every loop over a set in the embedded code only reads the set it iterates.
* `Assert(...)` failures and null dereferences are the result `none`; `DebugAssert` is elided
  (release build), except in definitions that say otherwise.
* `float` values are the elements of a type with the operations the source applies to them
  (`FloatArithmetic`), applied in the order of the source.
* Input plans are polymorphic in the source (`virtual` calls on `left_input()` and
  `right_input()`); an input is represented by the results of those calls (`InputNode`).
-/

namespace hyrise

/-! ## Types of types.hpp and the expression classes (declarations not part of the sources) -/

/-- Modelled from the spec: the join modes listed in §3 for `JoinNode` (types.hpp is missing). -/
inductive JoinMode
  | Inner | Left | Right | FullOuter | Cross | Semi | AntiNullAsTrue | AntiNullAsFalse
deriving DecidableEq, Repr

/-- Modelled from the spec: the condition of a binary predicate (types.hpp is missing); the
join code only distinguishes `Equals` from every other condition. -/
inductive PredicateCondition
  | Equals | NotEquals | LessThan | LessThanEquals | GreaterThan | GreaterThanEquals
deriving DecidableEq, Repr

/-- Modelled from the spec: expression trees (the expression classes are missing). A column of
a plan node (`LQPColumnExpression`: original node identity and column id), a literal, a binary
predicate (`BinaryPredicateExpression`), one further computed kind with two arguments, and a
subquery (`LQPSubqueryExpression`: the identity of the subquery plan and the parameter
expressions it is called with). Node identities (`shared_ptr` targets) are natural numbers. -/
inductive Expression
  | lqp_column (original_node : Nat) (original_column_id : Nat)
  | value (v : Int)
  | binary_predicate (predicate_condition : PredicateCondition)
      (left_operand right_operand : Expression)
  | arithmetic (op : Nat) (left_operand right_operand : Expression)
  | lqp_subquery (lqp : Nat) (arguments : List Expression)

mutual
/-- `AbstractExpression::operator==`: structural equality of two expressions. -/
def Expression.decide_eq : (a b : Expression) → Decidable (a = b)
  | .lqp_column n c, .lqp_column n2 c2 =>
    if h : n = n2 ∧ c = c2 then isTrue (by rw [h.1, h.2])
    else isFalse (fun h2 => by injection h2 with h3 h4; exact h ⟨h3, h4⟩)
  | .value v, .value v2 =>
    if h : v = v2 then isTrue (by rw [h])
    else isFalse (fun h2 => by injection h2 with h3; exact h h3)
  | .binary_predicate pc l r, .binary_predicate pc2 l2 r2 =>
    match decEq pc pc2, Expression.decide_eq l l2, Expression.decide_eq r r2 with
    | isTrue h1, isTrue h2, isTrue h3 => isTrue (by rw [h1, h2, h3])
    | isFalse h1, _, _ => isFalse (fun h => by injection h with a b c; exact h1 a)
    | _, isFalse h1, _ => isFalse (fun h => by injection h with a b c; exact h1 b)
    | _, _, isFalse h1 => isFalse (fun h => by injection h with a b c; exact h1 c)
  | .arithmetic op l r, .arithmetic op2 l2 r2 =>
    match decEq op op2, Expression.decide_eq l l2, Expression.decide_eq r r2 with
    | isTrue h1, isTrue h2, isTrue h3 => isTrue (by rw [h1, h2, h3])
    | isFalse h1, _, _ => isFalse (fun h => by injection h with a b c; exact h1 a)
    | _, isFalse h1, _ => isFalse (fun h => by injection h with a b c; exact h1 b)
    | _, _, isFalse h1 => isFalse (fun h => by injection h with a b c; exact h1 c)
  | .lqp_subquery q as, .lqp_subquery q2 as2 =>
    match decEq q q2, Expression.decide_eq_list as as2 with
    | isTrue h1, isTrue h2 => isTrue (by rw [h1, h2])
    | isFalse h1, _ => isFalse (fun h => by injection h with a b; exact h1 a)
    | _, isFalse h1 => isFalse (fun h => by injection h with a b; exact h1 b)
  | .lqp_column .., .value .. => isFalse (fun h => Expression.noConfusion h)
  | .lqp_column .., .binary_predicate .. => isFalse (fun h => Expression.noConfusion h)
  | .lqp_column .., .arithmetic .. => isFalse (fun h => Expression.noConfusion h)
  | .lqp_column .., .lqp_subquery .. => isFalse (fun h => Expression.noConfusion h)
  | .value .., .lqp_column .. => isFalse (fun h => Expression.noConfusion h)
  | .value .., .binary_predicate .. => isFalse (fun h => Expression.noConfusion h)
  | .value .., .arithmetic .. => isFalse (fun h => Expression.noConfusion h)
  | .value .., .lqp_subquery .. => isFalse (fun h => Expression.noConfusion h)
  | .binary_predicate .., .lqp_column .. => isFalse (fun h => Expression.noConfusion h)
  | .binary_predicate .., .value .. => isFalse (fun h => Expression.noConfusion h)
  | .binary_predicate .., .arithmetic .. => isFalse (fun h => Expression.noConfusion h)
  | .binary_predicate .., .lqp_subquery .. => isFalse (fun h => Expression.noConfusion h)
  | .arithmetic .., .lqp_column .. => isFalse (fun h => Expression.noConfusion h)
  | .arithmetic .., .value .. => isFalse (fun h => Expression.noConfusion h)
  | .arithmetic .., .binary_predicate .. => isFalse (fun h => Expression.noConfusion h)
  | .arithmetic .., .lqp_subquery .. => isFalse (fun h => Expression.noConfusion h)
  | .lqp_subquery .., .lqp_column .. => isFalse (fun h => Expression.noConfusion h)
  | .lqp_subquery .., .value .. => isFalse (fun h => Expression.noConfusion h)
  | .lqp_subquery .., .binary_predicate .. => isFalse (fun h => Expression.noConfusion h)
  | .lqp_subquery .., .arithmetic .. => isFalse (fun h => Expression.noConfusion h)
termination_by structural a => a
/-- Structural equality of two expression lists. -/
def Expression.decide_eq_list : (a b : List Expression) → Decidable (a = b)
  | [], [] => isTrue rfl
  | [], _ :: _ => isFalse (fun h => List.noConfusion h)
  | _ :: _, [] => isFalse (fun h => List.noConfusion h)
  | x :: xs, y :: ys =>
    match Expression.decide_eq x y, Expression.decide_eq_list xs ys with
    | isTrue h1, isTrue h2 => isTrue (by rw [h1, h2])
    | isFalse h1, _ => isFalse (fun h => by injection h with a b; exact h1 a)
    | _, isFalse h1 => isFalse (fun h => by injection h with a b; exact h1 b)
termination_by structural a => a
end

instance : DecidableEq Expression := Expression.decide_eq

/-- Result of `std::dynamic_pointer_cast<BinaryPredicateExpression>(e)`: the condition and the
two operands, or `none` for the null pointer. -/
def as_binary_predicate : Expression → Option (PredicateCondition × Expression × Expression)
  | .binary_predicate c l r => some (c, l, r)
  | _ => none

/-- Modelled from the spec: `is_semi_or_anti_join` of types.hpp (Semi and the two Anti modes). -/
def is_semi_or_anti_join (m : JoinMode) : Bool :=
  m = .Semi || m = .AntiNullAsTrue || m = .AntiNullAsFalse

/-- Modelled from the spec: `find_expression_idx` of expression_utils (missing): the position of
the first structurally equal expression, if any. -/
def find_expression_idx (e : Expression) (es : List Expression) : Option Nat :=
  if es.indexOf e < es.length then some (es.indexOf e) else none

/-- Modelled from the spec: `first_expressions_match` of expression_utils (missing): the two
lists agree on their common leading positions (a "prefix match"). -/
def first_expressions_match (a b : List Expression) : Bool :=
  a.take (min a.length b.length) == b.take (min a.length b.length)

/-! ## Dependency records -/

/-- Modelled from the spec: `UniqueColumnCombination`, a set of expressions that is a key. -/
structure UniqueColumnCombination where
  expressions : Finset Expression
deriving DecidableEq

/-- `OrderDependency` (order_dependency.cpp): sorting by `ordering_expressions` also sorts
`ordered_expressions`. The constructor `Assert`s that both lists are non-empty. -/
structure OrderDependency where
  ordering_expressions : List Expression
  ordered_expressions : List Expression
  ordering_nonempty : ordering_expressions ≠ []
  ordered_nonempty : ordered_expressions ≠ []

/-- `OrderDependency::operator==` (order_dependency.cpp:18-39): equal lengths and pairwise
equal expressions on both sides, which is equality of the two expression lists. -/
instance : DecidableEq OrderDependency := fun a b =>
  decidable_of_iff
    (a.ordering_expressions = b.ordering_expressions ∧
      a.ordered_expressions = b.ordered_expressions)
    ⟨fun h => by cases a; cases b; simp only [OrderDependency.mk.injEq]; exact h,
     fun h => by subst h; exact ⟨rfl, rfl⟩⟩

/-- Modelled from the spec: `InclusionDependency`, the values of the `foreign` expressions
appear among the `key` columns. -/
structure InclusionDependency where
  foreign : List Expression
  key : List Expression
deriving DecidableEq

/-- Modelled from the spec: `FunctionalDependency`, "determinant expression set → dependent
expression set". -/
structure FunctionalDependency where
  determinants : Finset Expression
  dependents : Finset Expression
deriving DecidableEq

abbrev UniqueColumnCombinations := Finset UniqueColumnCombination
abbrev OrderDependencies := Finset OrderDependency
abbrev InclusionDependencies := Finset InclusionDependency
abbrev ExpressionUnorderedSet := Finset Expression
abbrev FunctionalDependencies := Finset FunctionalDependency

/-- Modelled from the spec: `contains_matching_unique_column_combination` (missing): some UCC
of the set is made of the given expressions only. -/
def contains_matching_unique_column_combination (uccs : UniqueColumnCombinations)
    (expressions : ExpressionUnorderedSet) : Bool :=
  decide (∃ ucc ∈ uccs, ucc.expressions ⊆ expressions)

/-- `expression_vector(e)`: the one-element vector. -/
def expression_vector (e : Expression) : List Expression := [e]

/-- Modelled from the spec: `union_fds` (functional_dependency.cpp is missing): the FDs of both
collections, "deduplicate[d] by determinant set": the FDs with the same determinants are merged
into one FD that has all their dependents. -/
def union_fds (fds_a fds_b : FunctionalDependencies) : FunctionalDependencies :=
  (fds_a ∪ fds_b).image fun fd =>
    { determinants := fd.determinants,
      dependents :=
        ((fds_a ∪ fds_b).filter fun other => other.determinants = fd.determinants).biUnion
          (·.dependents) }

/-! ## Transitive closure of order dependencies (order_dependency.cpp:74-111) -/

/-- The candidate `OrderDependency(od.ordering_expressions, candidate_od.ordered_expressions)`
of order_dependency.cpp:89. -/
def transitive_od (od candidate_od : OrderDependency) : OrderDependency :=
  ⟨od.ordering_expressions, candidate_od.ordered_expressions, od.ordering_nonempty,
    candidate_od.ordered_nonempty⟩

/-- The body of the inner loop of `build_transitive_od_closure` (order_dependency.cpp:81-101):
`true` when the pair reaches `transitive_ods.emplace_back`, `false` on either `continue`. -/
def emits_transitive_od (order_dependencies : OrderDependencies)
    (od candidate_od : OrderDependency) : Bool :=
  let ordered_expressions := od.ordered_expressions
  let candidate_expressions := candidate_od.ordering_expressions
  if decide (ordered_expressions.length < candidate_expressions.length) ||
      !first_expressions_match candidate_expressions ordered_expressions then false
  else if decide (transitive_od od candidate_od ∈ order_dependencies) ||
      (transitive_od od candidate_od).ordering_expressions.any
        (fun expression =>
          (find_expression_idx expression candidate_od.ordered_expressions).isSome) then false
  else true

/-- One pass of the two nested loops (order_dependency.cpp:78-103): the collected
`transitive_ods`, as a set. -/
def collect_transitive_ods (order_dependencies : OrderDependencies) : OrderDependencies :=
  order_dependencies.biUnion fun od =>
    (order_dependencies.filter fun candidate_od =>
      emits_transitive_od order_dependencies od candidate_od = true).image (transitive_od od)

/-- The `while (true)` loop of `build_transitive_od_closure`, bounded by a number of passes. -/
def build_transitive_od_closure_loop : Nat → OrderDependencies → Option OrderDependencies
  | 0, _ => none
  | passes + 1, order_dependencies =>
    let transitive_ods := collect_transitive_ods order_dependencies
    if transitive_ods = ∅ then some order_dependencies
    else build_transitive_od_closure_loop passes (order_dependencies ∪ transitive_ods)

/-- `build_transitive_od_closure` (order_dependency.cpp:74-111). Every pass that does not
return adds a new pair of an existing ordering list and an existing ordered list, so
`card * card + 1` passes always suffice (`build_transitive_od_closure_terminates`). -/
def build_transitive_od_closure (order_dependencies : OrderDependencies) :
    Option OrderDependencies :=
  build_transitive_od_closure_loop (order_dependencies.card * order_dependencies.card + 1)
    order_dependencies

/-! ## Plan nodes as seen from a join -/

/-- What a `JoinNode` reads from one of its inputs: the results of the input's virtual
`output_expressions()`, `unique_column_combinations()`, `order_dependencies()`,
`inclusion_dependencies()` and of `has_matching_ind(foreign_keys, keys, included_node)`, whose
last argument is the identity `id` of the included node; further the results of
`functional_dependencies()`, `non_trivial_functional_dependencies()` and
`is_column_nullable(column_id)`. -/
structure InputNode where
  id : Nat := 0
  output_expressions : List Expression := []
  unique_column_combinations : UniqueColumnCombinations := ∅
  order_dependencies : OrderDependencies := ∅
  inclusion_dependencies : InclusionDependencies := ∅
  has_matching_ind : ExpressionUnorderedSet → ExpressionUnorderedSet → Nat → Bool :=
    fun _ _ _ => false
  functional_dependencies : FunctionalDependencies := ∅
  non_trivial_functional_dependencies : FunctionalDependencies := ∅
  is_column_nullable : Nat → Bool := fun _ => false

/-- `JoinNode`: join mode, join predicates (`node_expressions`), the semi-reduction flag, the
weak reference to the reduced join (the identity of a node, `none` when it was never set) and
the two input slots. -/
structure JoinNode where
  join_mode : JoinMode
  node_expressions : List Expression := []
  _is_semi_reduction : Bool := false
  left_input : Option InputNode := none
  right_input : Option InputNode := none
  _reduced_join_node : Option Nat := none

namespace JoinNode

/-- `JoinNode::join_predicates` (join_node.cpp:395). -/
def join_predicates (j : JoinNode) : List Expression := j.node_expressions

/-- `JoinNode::_output_unique_column_combinations` (join_node.cpp:94-146). -/
def _output_unique_column_combinations (j : JoinNode)
    (left_unique_column_combinations right_unique_column_combinations : UniqueColumnCombinations) :
    UniqueColumnCombinations :=
  if left_unique_column_combinations = ∅ ∧ right_unique_column_combinations = ∅ then ∅
  else
    let predicates := j.join_predicates
    if predicates.isEmpty || decide (predicates.length > 1) then ∅
    else
      match predicates.head? >>= as_binary_predicate with
      | none => ∅
      | some (predicate_condition, left_operand, right_operand) =>
        if predicate_condition ≠ .Equals then ∅
        else
          let left_operand_is_unique :=
            !decide (left_unique_column_combinations = ∅) &&
              contains_matching_unique_column_combination left_unique_column_combinations
                {left_operand}
          let right_operand_is_unique :=
            !decide (right_unique_column_combinations = ∅) &&
              contains_matching_unique_column_combination right_unique_column_combinations
                {right_operand}
          if left_operand_is_unique && right_operand_is_unique then
            left_unique_column_combinations ∪ right_unique_column_combinations
          else if left_operand_is_unique then right_unique_column_combinations
          else if right_operand_is_unique then left_unique_column_combinations
          else ∅

/-- Modelled from the spec: `AbstractLQPNode::_forward_left_unique_column_combinations` (body
missing; documented at abstract_lqp_node.hpp:277-281 as returning "All unique column
combinations from the left input node"); fails without a left input. -/
def _forward_left_unique_column_combinations (j : JoinNode) : Option UniqueColumnCombinations :=
  j.left_input.map (·.unique_column_combinations)

/-- `JoinNode::unique_column_combinations` (join_node.cpp:77-92). -/
def unique_column_combinations (j : JoinNode) : Option UniqueColumnCombinations :=
  if j.join_mode = .Cross then some ∅
  else if is_semi_or_anti_join j.join_mode then j._forward_left_unique_column_combinations
  else
    match j.left_input, j.right_input with
    | some l, some r =>
      some (j._output_unique_column_combinations l.unique_column_combinations
        r.unique_column_combinations)
    | _, _ => none

/-- Modelled from the spec: `AbstractLQPNode::_forward_left_order_dependencies` (declared at
abstract_lqp_node.hpp:283, body missing): "forward left input's ODs"; fails without a left
input. -/
def _forward_left_order_dependencies (j : JoinNode) : Option OrderDependencies :=
  j.left_input.map (·.order_dependencies)

/-- The lambda `get_original_node` of join_node.cpp:179-186: the original node of a column
expression whose `weak_ptr` can still be locked, the null pointer otherwise. -/
def get_original_node (is_alive : Nat → Bool) (expression : Expression) : Option Nat :=
  match expression with
  | .lqp_column original_node _ => if is_alive original_node then some original_node else none
  | _ => none

/-- `JoinNode::order_dependencies` (join_node.cpp:148-199). `is_alive n` tells whether the weak
reference to node `n` can be locked; `lqp_equals n m` is `AbstractLQPNode::operator==` on the
nodes `n` and `m` (deep equality, abstract_lqp_node.hpp:237-240). Dereferencing the null result
of `get_original_node(join_key_2)` is a failure. -/
def order_dependencies (j : JoinNode) (is_alive : Nat → Bool) (lqp_equals : Nat → Nat → Bool) :
    Option OrderDependencies :=
  if is_semi_or_anti_join j.join_mode then j._forward_left_order_dependencies
  else
    match j.left_input, j.right_input with
    | some l, some r =>
      let order_dependencies := l.order_dependencies ∪ r.order_dependencies
      let predicates := j.join_predicates
      if j.join_mode ≠ .Inner ∨ predicates.length ≠ 1 then some order_dependencies
      else
        match predicates.head? >>= as_binary_predicate with
        | none => some order_dependencies
        | some (predicate_condition, join_key_1, join_key_2) =>
          if predicate_condition ≠ .Equals then some order_dependencies
          else
            match get_original_node is_alive join_key_1 with
            | none => some order_dependencies
            | some original_node_1 =>
              match get_original_node is_alive join_key_2 with
              | none => none
              | some original_node_2 =>
                if lqp_equals original_node_1 original_node_2 then some order_dependencies
                else
                  build_transitive_od_closure
                    (insert
                      ⟨expression_vector join_key_2, expression_vector join_key_1,
                        List.cons_ne_nil _ _, List.cons_ne_nil _ _⟩
                      (insert
                        ⟨expression_vector join_key_1, expression_vector join_key_2,
                          List.cons_ne_nil _ _, List.cons_ne_nil _ _⟩
                        order_dependencies))
    | _, _ => none

/-- The `for` loop of `_output_inclusion_dependencies` (join_node.cpp:261-280) over the
remaining predicates: the two key sets, or `none` when a predicate is not an `equals_()`
predicate (the loop then returns an empty set from the function). -/
def map_join_keys (left_expressions : List Expression) :
    List Expression → ExpressionUnorderedSet × ExpressionUnorderedSet →
      Option (ExpressionUnorderedSet × ExpressionUnorderedSet)
  | [], sets => some sets
  | expression :: rest, (left_input_join_predicates, right_input_join_predicates) =>
    match as_binary_predicate expression with
    | none => none
    | some (predicate_condition, left_operand, right_operand) =>
      if predicate_condition ≠ .Equals then none
      else if (find_expression_idx left_operand left_expressions).isSome then
        map_join_keys left_expressions rest
          (insert left_operand left_input_join_predicates,
            insert right_operand right_input_join_predicates)
      else
        map_join_keys left_expressions rest
          (insert right_operand left_input_join_predicates,
            insert left_operand right_input_join_predicates)

/-- `JoinNode::_output_inclusion_dependencies` (join_node.cpp:237-300), with the two inputs the
function reads through `left_input()` and `right_input()`. `none` is the failure of the
`Assert` "Could not resolve all join predicates.". -/
def _output_inclusion_dependencies (j : JoinNode) (l r : InputNode)
    (left_inclusion_dependencies right_inclusion_dependencies : InclusionDependencies) :
    Option InclusionDependencies :=
  if left_inclusion_dependencies = ∅ ∧
      (j.join_mode = .Semi ∨ right_inclusion_dependencies = ∅) then some ∅
  else
    let inclusion_dependencies : InclusionDependencies :=
      if j.join_mode = .Left then left_inclusion_dependencies
      else if j.join_mode = .Right then right_inclusion_dependencies
      else ∅
    let join_predicates := j.join_predicates
    let predicate_count := join_predicates.length
    match map_join_keys l.output_expressions join_predicates (∅, ∅) with
    | none => some ∅
    | some (left_input_join_predicates, right_input_join_predicates) =>
      if ¬ (left_input_join_predicates.card = predicate_count ∧
          right_input_join_predicates.card = predicate_count) then none
      else
        let inclusion_dependencies :=
          if r.has_matching_ind left_input_join_predicates right_input_join_predicates l.id then
            inclusion_dependencies ∪ left_inclusion_dependencies
          else inclusion_dependencies
        if j.join_mode = .Semi then some inclusion_dependencies
        else if l.has_matching_ind right_input_join_predicates left_input_join_predicates r.id
        then some (inclusion_dependencies ∪ right_inclusion_dependencies)
        else some inclusion_dependencies

/-- `JoinNode::inclusion_dependencies` (join_node.cpp:201-235). -/
def inclusion_dependencies (j : JoinNode) : Option InclusionDependencies :=
  match j.join_mode with
  | .Cross | .FullOuter =>
    match j.left_input, j.right_input with
    | some l, some r => some (l.inclusion_dependencies ∪ r.inclusion_dependencies)
    | _, _ => none
  | .AntiNullAsFalse | .AntiNullAsTrue => some ∅
  | .Left | .Right | .Semi | .Inner =>
    match j.left_input, j.right_input with
    | some l, some r =>
      j._output_inclusion_dependencies l r l.inclusion_dependencies r.inclusion_dependencies
    | _, _ => none

/-- `JoinNode::output_expressions` (join_node.cpp:52-75). -/
def output_expressions (j : JoinNode) : Option (List Expression) :=
  match j.left_input, j.right_input with
  | some l, some r =>
    let left_expressions := l.output_expressions
    let output_both_inputs := !is_semi_or_anti_join j.join_mode
    if !output_both_inputs then some left_expressions
    else some (left_expressions ++ r.output_expressions)
  | _, _ => none

/-- `JoinNode::is_column_nullable` (join_node.cpp:368-393). `ColumnID` and its
`ColumnID::base_type` are declared in the missing types.hpp: `column_id_bits` is the width of
that unsigned type, in which the count is truncated and the difference wraps. -/
def is_column_nullable (j : JoinNode) (column_id_bits : Nat) (column_id : Nat) : Option Bool :=
  match j.left_input, j.right_input with
  | some l, some r =>
    let left_input_column_count := l.output_expressions.length
    let column_is_from_left_input := decide (column_id < left_input_column_count)
    if j.join_mode = .Left ∧ column_is_from_left_input = false then some true
    else if j.join_mode = .Right ∧ column_is_from_left_input = true then some true
    else if j.join_mode = .FullOuter then some true
    else if column_is_from_left_input then some (l.is_column_nullable column_id)
    else
      let right_column_id : Int :=
        ((column_id : Int) - ((left_input_column_count % 2 ^ column_id_bits : Nat) : Int)) %
          ((2 ^ column_id_bits : Nat) : Int)
      some (r.is_column_nullable right_column_id.toNat)
  | _, _ => none

/-- Modelled from the spec: `remove_invalid_fds(lqp, fds)` (lqp_utils is missing) for a join
`lqp`: "strip any FD invalidated by the new nullability": an FD is kept when each of its
determinants is an output expression of the join that is not nullable. -/
def remove_invalid_fds (lqp : JoinNode) (column_id_bits : Nat) (fds : FunctionalDependencies) :
    Option FunctionalDependencies :=
  match lqp.output_expressions with
  | none => none
  | some output_expressions =>
    some (fds.filter fun fd =>
      ∀ determinant ∈ fd.determinants,
        (find_expression_idx determinant output_expressions).any
          (fun column_id => lqp.is_column_nullable column_id_bits column_id == some false) =
            true)

/-- `JoinNode::non_trivial_functional_dependencies` (join_node.cpp:302-366). -/
def non_trivial_functional_dependencies (j : JoinNode) (column_id_bits : Nat) :
    Option FunctionalDependencies :=
  if is_semi_or_anti_join j.join_mode then
    j.left_input.map (·.non_trivial_functional_dependencies)
  else
    match j.left_input, j.right_input with
    | some l, some r =>
      let left_unique_column_combinations := l.unique_column_combinations
      let right_unique_column_combinations := r.unique_column_combinations
      let output_unique_column_combinations :=
        j._output_unique_column_combinations left_unique_column_combinations
          right_unique_column_combinations
      let fds : FunctionalDependencies × FunctionalDependencies :=
        if output_unique_column_combinations = ∅ ∧ left_unique_column_combinations ≠ ∅ ∧
            right_unique_column_combinations ≠ ∅ then
          (l.functional_dependencies, r.functional_dependencies)
        else if (output_unique_column_combinations = ∅ ∨
            output_unique_column_combinations = right_unique_column_combinations) ∧
            left_unique_column_combinations ≠ ∅ then
          (l.functional_dependencies, r.non_trivial_functional_dependencies)
        else if (output_unique_column_combinations = ∅ ∨
            output_unique_column_combinations = left_unique_column_combinations) ∧
            right_unique_column_combinations ≠ ∅ then
          (l.non_trivial_functional_dependencies, r.functional_dependencies)
        else (l.non_trivial_functional_dependencies, r.non_trivial_functional_dependencies)
      let fds_out := union_fds fds.1 fds.2
      if fds_out ≠ ∅ ∧
          (j.join_mode = .FullOuter ∨ j.join_mode = .Left ∨ j.join_mode = .Right) then
        j.remove_invalid_fds column_id_bits fds_out
      else some fds_out
    | _, _ => none

/-- `JoinNode::mark_as_semi_reduction` (join_node.cpp:399-410): whether the call returned (no
`Assert` failed) and the node after the call; `reduced_join_node` is the identity of the
reduced join or `none` for the null pointer. -/
def mark_as_semi_reduction (j : JoinNode) (reduced_join_node : Option Nat) : Bool × JoinNode :=
  if j._is_semi_reduction then (false, j)
  else if reduced_join_node = none then (false, j)
  else if j.join_mode ≠ .Semi then (false, j)
  else (true, { j with _is_semi_reduction := true, _reduced_join_node := reduced_join_node })

/-- `JoinNode::is_semi_reduction` (join_node.cpp:416-419). -/
def is_semi_reduction (j : JoinNode) : Bool := j._is_semi_reduction

end JoinNode

/-! ## The plan-node graph (abstract_lqp_node.hpp) and the copy hooks of `JoinNode` -/

/-- `LQPNodeType` (abstract_lqp_node.hpp:14-42). -/
inductive LQPNodeType
  | Aggregate | Alias | ChangeMetaTable | CreateTable | CreatePreparedPlan | CreateView | Delete
  | DropView | DropTable | DummyTable | Except | Export | Import | Insert | Intersect | Join
  | Limit | Predicate | Projection | Root | Sort | StaticTable | StoredTable | Update | Union
  | Validate | Mock
deriving DecidableEq, Repr

/-- Modelled from the spec: the modes of a Union node, "position-list mode", "Union-all mode" and
"Union-unique mode" (`SetOperationMode`; types.hpp is missing). -/
inductive SetOperationMode
  | Unique | All | Positions
deriving DecidableEq, Repr

/-- `LQPInputSide` (abstract_lqp_node.hpp:44). -/
inductive LQPInputSide
  | Left | Right
deriving DecidableEq, Repr

/-- `LQPNodeMapping` (abstract_lqp_node.hpp:52): a map from node identities to node identities,
kept as an association list whose first entry for a key is the one that counts. -/
abbrev LQPNodeMapping := List (Nat × Nat)

/-- `node_mapping.find(node)`. -/
def LQPNodeMapping.find : LQPNodeMapping → Nat → Option Nat
  | [], _ => none
  | (k, v) :: rest, n => if n = k then some v else LQPNodeMapping.find rest n

mutual
/-- Modelled from the spec: `expression_adapt_to_different_lqp` (expression_utils is missing):
the copy of an expression in which every column refers to the node that the mapping gives for
its original node ("equality must translate references through the mapping"); it fails on a
column whose original node the mapping does not know. The parameters of a subquery are
adapted, the identity of its plan is kept. -/
def expression_adapt_to_different_lqp (m : LQPNodeMapping) : Expression → Option Expression
  | .lqp_column n c =>
    match m.find n with
    | some copied => some (.lqp_column copied c)
    | none => none
  | .value v => some (.value v)
  | .binary_predicate pc l r =>
    match expression_adapt_to_different_lqp m l, expression_adapt_to_different_lqp m r with
    | some l2, some r2 => some (.binary_predicate pc l2 r2)
    | _, _ => none
  | .arithmetic op l r =>
    match expression_adapt_to_different_lqp m l, expression_adapt_to_different_lqp m r with
    | some l2, some r2 => some (.arithmetic op l2 r2)
    | _, _ => none
  | .lqp_subquery q arguments =>
    match expressions_copy_and_adapt_to_different_lqp arguments m with
    | some adapted => some (.lqp_subquery q adapted)
    | none => none
termination_by structural e => e
/-- Modelled from the spec: `expressions_copy_and_adapt_to_different_lqp` (missing), the
adaptation of every expression of a list. -/
def expressions_copy_and_adapt_to_different_lqp :
    List Expression → LQPNodeMapping → Option (List Expression)
  | [], _ => some []
  | e :: es, m =>
    match expression_adapt_to_different_lqp m e,
      expressions_copy_and_adapt_to_different_lqp es m with
    | some e2, some es2 => some (e2 :: es2)
    | _, _ => none
termination_by structural es => es
end

/-- Modelled from the spec: `expressions_equal_to_expressions_in_different_lqp` (missing):
"equal expressions up to the node_mapping". -/
def expressions_equal_to_expressions_in_different_lqp (a b : List Expression)
    (m : LQPNodeMapping) : Bool :=
  decide (expressions_copy_and_adapt_to_different_lqp a m = some b)

mutual
/-- The original nodes of the columns of an expression. -/
def Expression.original_nodes : Expression → List Nat
  | .lqp_column n _ => [n]
  | .value _ => []
  | .binary_predicate _ l r => l.original_nodes ++ r.original_nodes
  | .arithmetic _ l r => l.original_nodes ++ r.original_nodes
  | .lqp_subquery _ arguments => Expression.original_nodes_of_list arguments
termination_by structural e => e
/-- The original nodes of the columns of a list of expressions. -/
def Expression.original_nodes_of_list : List Expression → List Nat
  | [] => []
  | e :: es => e.original_nodes ++ Expression.original_nodes_of_list es
termination_by structural es => es
end

/-- `boost::hash_value(join_mode)`: the value of the enumerator. -/
def JoinMode.hash_value : JoinMode → Nat
  | .Inner => 0 | .Left => 1 | .Right => 2 | .FullOuter => 3 | .Cross => 4 | .Semi => 5
  | .AntiNullAsTrue => 6 | .AntiNullAsFalse => 7

namespace JoinNode

/-- `JoinNode::JoinNode(mode)` (join_node.cpp:25-27): only Cross joins have no predicate. -/
def make (init_join_mode : JoinMode) : Option JoinNode :=
  if init_join_mode = .Cross then some { join_mode := init_join_mode } else none

/-- `JoinNode::JoinNode(mode, predicates)` (join_node.cpp:32-37). -/
def make_with_predicates (init_join_mode : JoinMode) (init_join_predicates : List Expression) :
    Option JoinNode :=
  if init_join_mode ≠ .Cross ∧ init_join_predicates ≠ [] then
    some { join_mode := init_join_mode, node_expressions := init_join_predicates }
  else none

/-- `JoinNode::JoinNode(mode, predicate)` (join_node.cpp:29-30): delegates to the constructor
with a list of predicates. -/
def make_with_predicate (init_join_mode : JoinMode) (join_predicate : Expression) :
    Option JoinNode :=
  make_with_predicates init_join_mode [join_predicate]

/-- `JoinNode::_on_shallow_hash` (join_node.cpp:455-459); `hash_combine seed h` is the seed
after `boost::hash_combine(seed, v)` for a value `v` with `boost::hash_value(v) = h`. -/
def _on_shallow_hash (hash_combine : Nat → Nat → Nat) (j : JoinNode) : Nat :=
  hash_combine j.join_mode.hash_value (if j._is_semi_reduction then 1 else 0)

/-- `JoinNode::_on_shallow_copy` (join_node.cpp:461-470). -/
def _on_shallow_copy (j : JoinNode) (node_mapping : LQPNodeMapping) : Option JoinNode :=
  if j.join_predicates = [] then
    if j.join_mode ≠ .Cross then none else make j.join_mode
  else
    match expressions_copy_and_adapt_to_different_lqp j.join_predicates node_mapping with
    | none => none
    | some adapted =>
      match make_with_predicates j.join_mode adapted with
      | none => none
      | some copied_join_node =>
        some { copied_join_node with _is_semi_reduction := j._is_semi_reduction }

/-- `JoinNode::_on_shallow_equals` (join_node.cpp:472-479). -/
def _on_shallow_equals (j rhs : JoinNode) (node_mapping : LQPNodeMapping) : Bool :=
  if j.join_mode ≠ rhs.join_mode ∨ j._is_semi_reduction ≠ rhs._is_semi_reduction then false
  else
    expressions_equal_to_expressions_in_different_lqp j.join_predicates rhs.join_predicates
      node_mapping

end JoinNode

/-- A plan node in memory: the members of `AbstractLQPNode` (type, `node_expressions`, the two
input slots, as node identities), the members `join_mode` and `_is_semi_reduction` read when
the node is a `JoinNode`, the member `set_operation_mode` read when it is a `UnionNode`, and
the further type-specific data of the other node types. -/
structure LQPNode where
  type : LQPNodeType
  node_expressions : List Expression := []
  left_input : Option Nat := none
  right_input : Option Nat := none
  join_mode : JoinMode := .Cross
  _is_semi_reduction : Bool := false
  type_specific_data : Nat := 0
  set_operation_mode : SetOperationMode := .Positions
deriving DecidableEq

/-- The memory holding the plan nodes; the identity of a node is its position. -/
abbrev Heap := List LQPNode

namespace LQPNode

/-- `static_cast<const JoinNode&>(node)`: the join members of a node, without its inputs. -/
def as_join (n : LQPNode) : JoinNode :=
  { join_mode := n.join_mode, node_expressions := n.node_expressions,
    _is_semi_reduction := n._is_semi_reduction }

/-- A freshly made `JoinNode` as a plan node without inputs. -/
def of_join (j : JoinNode) : LQPNode :=
  { type := .Join, node_expressions := j.node_expressions, join_mode := j.join_mode,
    _is_semi_reduction := j._is_semi_reduction }

/-- `left_input()` or `right_input()`. -/
def input (n : LQPNode) : LQPInputSide → Option Nat
  | .Left => n.left_input
  | .Right => n.right_input

/-- Modelled from the spec: the `_on_shallow_copy` hook of the node types other than Join
(their sources are missing): the same type-specific data with the expressions adapted to the
mapping, and no inputs yet. -/
def other_on_shallow_copy (n : LQPNode) (node_mapping : LQPNodeMapping) : Option LQPNode :=
  (expressions_copy_and_adapt_to_different_lqp n.node_expressions node_mapping).map
    fun adapted => { n with node_expressions := adapted, left_input := none,
                            right_input := none }

/-- Modelled from the spec: the `_on_shallow_equals` hook of the node types other than Join
(their sources are missing): "equal type-specific data" and "equal expressions up to the
node_mapping". -/
def other_on_shallow_equals (n rhs : LQPNode) (node_mapping : LQPNodeMapping) : Bool :=
  decide (n.type_specific_data = rhs.type_specific_data) &&
    decide (n.set_operation_mode = rhs.set_operation_mode) &&
    expressions_equal_to_expressions_in_different_lqp n.node_expressions rhs.node_expressions
      node_mapping

/-- Modelled from the spec: the `_on_shallow_hash` hook of the node types other than Join
(their sources are missing): a hash of the type-specific data. -/
def other_on_shallow_hash (n : LQPNode) : Nat := n.type_specific_data

/-- The virtual call `_on_shallow_copy` (abstract_lqp_node.hpp:274):
`JoinNode::_on_shallow_copy` for a Join node. -/
def _on_shallow_copy (n : LQPNode) (node_mapping : LQPNodeMapping) : Option LQPNode :=
  if n.type = .Join then (n.as_join._on_shallow_copy node_mapping).map of_join
  else n.other_on_shallow_copy node_mapping

/-- The virtual call `_on_shallow_equals` (abstract_lqp_node.hpp:275):
`JoinNode::_on_shallow_equals` for a Join node. -/
def _on_shallow_equals (n rhs : LQPNode) (node_mapping : LQPNodeMapping) : Bool :=
  if n.type = .Join then n.as_join._on_shallow_equals rhs.as_join node_mapping
  else n.other_on_shallow_equals rhs node_mapping

/-- The virtual call `_on_shallow_hash` (abstract_lqp_node.hpp:273):
`JoinNode::_on_shallow_hash` for a Join node. -/
def _on_shallow_hash (hash_combine : Nat → Nat → Nat) (n : LQPNode) : Nat :=
  if n.type = .Join then n.as_join._on_shallow_hash hash_combine else n.other_on_shallow_hash

/-- Modelled from the spec: `AbstractLQPNode::shallow_equals` (abstract_lqp_node.cpp is
missing): "equal type, equal type-specific data (via a per-variant shallow-equals hook), and
equal expressions up to the node_mapping". -/
def shallow_equals (n rhs : LQPNode) (node_mapping : LQPNodeMapping) : Bool :=
  if n.type ≠ rhs.type then false else n._on_shallow_equals rhs node_mapping

end LQPNode

/-- `boost::hash_value(type)`: the value of the enumerator. -/
def LQPNodeType.hash_value (t : LQPNodeType) : Nat := t.toCtorIdx

/-- The memory and the `LQPNodeMapping&` threaded through a deep copy. -/
structure CopyState where
  heap : Heap
  node_mapping : LQPNodeMapping

/-- The node that `_deep_copy_impl` leaves in memory for `node` under the final mapping: the
shallow copy wired to the copies of the inputs. -/
def expected_copy (node : LQPNode) (m : LQPNodeMapping) : Option LQPNode :=
  (node._on_shallow_copy m).map fun shallow_copy =>
    { shallow_copy with left_input := node.left_input.bind m.find,
                        right_input := node.right_input.bind m.find }

/-- Modelled from the spec: `AbstractLQPNode::_shallow_copy` (declared at
abstract_lqp_node.hpp:294, body missing): "a node already present in node_mapping is reused
rather than recopied"; otherwise the copy made by `_on_shallow_copy` is allocated and
recorded in the mapping. -/
def _shallow_copy (n : Nat) (st : CopyState) : Option (Nat × CopyState) :=
  match st.node_mapping.find n with
  | some copied => some (copied, st)
  | none =>
    match st.heap[n]? with
    | none => none
    | some node =>
      match node._on_shallow_copy st.node_mapping with
      | none => none
      | some shallow_copy =>
        some (st.heap.length,
          { heap := st.heap ++ [shallow_copy],
            node_mapping := (n, st.heap.length) :: st.node_mapping })

/-- `set_left_input` and `set_right_input` on the node at position `c`. -/
def set_inputs (heap : Heap) (c : Nat) (left right : Option Nat) : Heap :=
  match heap[c]? with
  | none => heap
  | some node => heap.set c { node with left_input := left, right_input := right }

/-- The copy of an input slot by the given copier: nothing to do for an empty slot. -/
def copy_input (copier : Nat → CopyState → Option (Nat × CopyState)) (input : Option Nat)
    (st : CopyState) : Option (Option Nat × CopyState) :=
  match input with
  | none => some (none, st)
  | some i =>
    match copier i st with
    | none => none
    | some (copied, st2) => some (some copied, st2)

/-- Modelled from the spec: `AbstractLQPNode::_deep_copy_impl` (declared at
abstract_lqp_node.hpp:293, body missing): the "recursive structural copy" that threads the
node mapping: the inputs are copied first, then the node itself is copied or reused, and the
copy is wired to the copied inputs. The first argument bounds the depth of the recursion. -/
def _deep_copy_impl : Nat → Nat → CopyState → Option (Nat × CopyState)
  | 0, _, _ => none
  | depth + 1, n, st =>
    match st.heap[n]? with
    | none => none
    | some node =>
      match copy_input (_deep_copy_impl depth) node.left_input st with
      | none => none
      | some (copied_left_input, st1) =>
        match copy_input (_deep_copy_impl depth) node.right_input st1 with
        | none => none
        | some (copied_right_input, st2) =>
          match _shallow_copy n st2 with
          | none => none
          | some (copied, st3) =>
            some (copied,
              { st3 with
                heap := (set_inputs st3.heap copied copied_left_input copied_right_input) })

/-- Modelled from the spec: `AbstractLQPNode::deep_copy` (abstract_lqp_node.hpp:115-120) with
the default, empty `input_node_mapping`: the position of the copy of `root`, the memory after
the copy and the final node mapping. A path of an acyclic plan visits no node twice, so the
number of nodes bounds the depth. -/
def deep_copy (heap : Heap) (root : Nat) : Option (Nat × CopyState) :=
  _deep_copy_impl heap.length root { heap := heap, node_mapping := [] }

/-- Modelled from the spec: the traversal behind the deep `operator==`
(abstract_lqp_node.hpp:237-240): "every node pair, visited in the same traversal order, has
equal type, equal type-specific data and equal expressions up to the node_mapping", where the
mapping relates the nodes of the input plans of the pair (abstract_lqp_node.hpp:122-127).
`none` is a mismatch; otherwise the mapping extended by the visited pairs is returned. -/
def lqp_find_subplan_match (heap : Heap) :
    Nat → Option Nat → Option Nat → LQPNodeMapping → Option LQPNodeMapping
  | _, none, none, m => some m
  | _, none, some _, _ => none
  | _, some _, none, _ => none
  | 0, some _, some _, _ => none
  | depth + 1, some a, some b, m =>
    match heap[a]?, heap[b]? with
    | some lhs, some rhs =>
      match lqp_find_subplan_match heap depth lhs.left_input rhs.left_input m with
      | none => none
      | some m1 =>
        match lqp_find_subplan_match heap depth lhs.right_input rhs.right_input m1 with
        | none => none
        | some m2 =>
          if lhs.shallow_equals rhs m2 then
            some (if (m2.find a).isSome then m2 else (a, b) :: m2)
          else none
    | _, _ => none

/-- Modelled from the spec: `AbstractLQPNode::operator==`, the deep equality of the plans
rooted at `a` and `b`. -/
def lqp_equals (heap : Heap) (a b : Nat) : Bool :=
  decide (a = b) || (lqp_find_subplan_match heap heap.length (some a) (some b) []).isSome

/-- Modelled from the spec: the recursion of `AbstractLQPNode::hash`
(abstract_lqp_node.hpp:243-246, body missing): "combines node type, a per-variant shallow
hash, and input hashes recursively"; an absent input contributes the hash 0. `none` when the
depth bound is exhausted or a node is missing. -/
def lqp_hash (hash_combine : Nat → Nat → Nat) (heap : Heap) : Nat → Option Nat → Option Nat
  | _, none => some 0
  | 0, some _ => none
  | depth + 1, some n =>
    match heap[n]? with
    | none => none
    | some node =>
      match lqp_hash hash_combine heap depth node.left_input,
        lqp_hash hash_combine heap depth node.right_input with
      | some left_hash, some right_hash =>
        some (hash_combine
          (hash_combine
            (hash_combine node.type.hash_value (node._on_shallow_hash hash_combine))
            left_hash)
          right_hash)
      | _, _ => none

/-- Modelled from the spec: `AbstractLQPNode::hash`, the hash of the plan rooted at `root`; the
number of nodes bounds the depth of an acyclic plan. -/
def hash (hash_combine : Nat → Nat → Nat) (heap : Heap) (root : Nat) : Option Nat :=
  lqp_hash hash_combine heap heap.length (some root)

/-- The node reached from `n` along a path of input sides. -/
def follow_inputs (heap : Heap) : Nat → List LQPInputSide → Option Nat
  | n, [] => if n < heap.length then some n else none
  | n, side :: rest =>
    match heap[n]? with
    | none => none
    | some node =>
      match node.input side with
      | none => none
      | some i => follow_inputs heap i rest

/-- The nodes of the plan rooted at `n`, one entry per path, down to the given depth. -/
def subplan_nodes (heap : Heap) : Nat → Nat → List Nat
  | 0, _ => []
  | depth + 1, n =>
    match heap[n]? with
    | none => []
    | some node =>
      n :: ((match node.left_input with
              | none => []
              | some i => subplan_nodes heap depth i) ++
            (match node.right_input with
              | none => []
              | some i => subplan_nodes heap depth i))

/-- The nodes of the plans rooted at the inputs of the node at position `n`. -/
def input_plan_nodes (heap : Heap) (n : Nat) : List Nat :=
  (subplan_nodes heap (n + 1) n).tail

/-- A well-formed node at position `n`: its inputs are allocated before it (the memory lists
every node after its inputs, so the graph is acyclic), the columns of its expressions belong to
nodes of its input plans, and a Join node satisfies what its constructors and
`mark_as_semi_reduction` establish: no predicate exactly for Cross joins, and the
semi-reduction flag only on Semi joins. -/
def LQPNode.well_formed (heap : Heap) (n : Nat) (node : LQPNode) : Bool :=
  decide (∀ i ∈ node.left_input, i < n) && decide (∀ i ∈ node.right_input, i < n) &&
  node.node_expressions.all (fun e => e.original_nodes.all (fun k => k ∈ input_plan_nodes heap n))
  && (decide (node.type ≠ .Join) ||
      (decide (node.node_expressions = [] ↔ node.join_mode = .Cross) &&
        (!node._is_semi_reduction || decide (node.join_mode = .Semi))))

/-- A well-formed plan memory. -/
def Heap.well_formed (heap : Heap) : Bool :=
  (List.range heap.length).all fun n =>
    match heap[n]? with
    | none => false
    | some node => node.well_formed heap n

/-! ## Invariants of the deep copy -/

/-- Every entry of the first mapping is an entry of the second. -/
def mapping_le (m m2 : LQPNodeMapping) : Prop :=
  ∀ k v, m.find k = some v → m2.find k = some v

/-- The mapping knows every node of the list. -/
def covers (m : LQPNodeMapping) (nodes : List Nat) : Prop :=
  ∀ k ∈ nodes, ∃ v, m.find k = some v

/-- What the constructors of `JoinNode` and `mark_as_semi_reduction` establish. -/
def join_invariant (node : LQPNode) : Prop :=
  node.type = .Join →
    (node.node_expressions = [] ↔ node.join_mode = .Cross) ∧
    (node._is_semi_reduction = true → node.join_mode = .Semi)

/-- The state of a deep copy of a plan in the memory `original`: the memory only grew, by one
node per entry of the mapping, and every entry leads from a node of `original` to its wired
shallow copy, whose inputs are mapped as well. -/
structure CopyInvariant (original : Heap) (st : CopyState) : Prop where
  extends_heap : ∃ ext, st.heap = original ++ ext
  length_eq : st.heap.length = original.length + st.node_mapping.length
  keys_nodup : (st.node_mapping.map Prod.fst).Nodup
  entries : ∀ n c, st.node_mapping.find n = some c →
    original.length ≤ c ∧ ∃ node cp, original[n]? = some node ∧ st.heap[c]? = some cp ∧
      expected_copy node st.node_mapping = some cp ∧
      (∀ i, node.left_input = some i → ∃ v, st.node_mapping.find i = some v) ∧
      (∀ i, node.right_input = some i → ∃ v, st.node_mapping.find i = some v)

/-- What a copier achieves on the nodes above which the plan is at most `depth` deep: it
returns, keeps the invariant, only extends the mapping, maps the node, and adds only nodes of
the plan below the node to the mapping. -/
def CopierSpec (original : Heap) (depth : Nat)
    (copier : Nat → CopyState → Option (Nat × CopyState)) : Prop :=
  ∀ n st, CopyInvariant original st → n < depth → n < original.length →
    ∃ c st2, copier n st = some (c, st2) ∧ CopyInvariant original st2 ∧
      mapping_le st.node_mapping st2.node_mapping ∧ st2.node_mapping.find n = some c ∧
      (∀ k v, st2.node_mapping.find k = some v →
        (∃ w, st.node_mapping.find k = some w) ∨ k ∈ subplan_nodes original depth n)

/-- The statement proved about the parallel traversal of a plan and its copy for the nodes
below position `f`. -/
def MatchSpec (original : Heap) (st : CopyState) (f : Nat) : Prop :=
  ∀ a c fuel meq, a < f → f ≤ fuel → st.node_mapping.find a = some c →
    mapping_le meq st.node_mapping →
    ∃ meq2, lqp_find_subplan_match st.heap fuel (some a) (some c) meq = some meq2 ∧
      mapping_le meq2 st.node_mapping ∧ mapping_le meq meq2 ∧
      ∀ d, covers meq2 (subplan_nodes original d a)

/-- The statement proved about the hashes of a node and its copy for the nodes below
position `f`. -/
def HashSpec (hash_combine : Nat → Nat → Nat) (original : Heap) (st : CopyState) (f : Nat) :
    Prop :=
  ∀ a c fuel fuel0, a < f → f ≤ fuel → f ≤ fuel0 → st.node_mapping.find a = some c →
    ∃ h, lqp_hash hash_combine original fuel0 (some a) = some h ∧
      lqp_hash hash_combine st.heap fuel (some c) = some h

/-! ## Upward traversal of a plan and the reduced join of a semi-reduction -/

/-- `LQPUpwardVisitation` (declared in lqp_utils.hpp, which is not part of the sources). -/
inductive LQPUpwardVisitation
  | VisitOutputs
  | DoNotVisitOutputs
deriving DecidableEq

/-- Modelled from the spec: `visit_lqp_upwards(lqp, visitor)` (lqp_utils.hpp is missing), "walking
upward through the graph's outputs": breadth-first from `lqp`, every node visited once, the
outputs of a node enqueued when the visitor answers `VisitOutputs`. `outputs n` is the result of
`n->outputs()`; the visitor threads the state it captures by reference and may fail; the first
argument bounds the number of dequeued nodes, and running out of it is a failure. -/
def visit_lqp_upwards {σ : Type} (outputs : Nat → List Nat)
    (visitor : σ → Nat → Option (LQPUpwardVisitation × σ)) :
    Nat → List Nat → List Nat → σ → Option σ
  | _, [], _, state => some state
  | 0, _ :: _, _, _ => none
  | fuel + 1, node :: node_queue, visited_nodes, state =>
    if node ∈ visited_nodes then
      visit_lqp_upwards outputs visitor fuel node_queue visited_nodes state
    else
      match visitor state node with
      | none => none
      | some (.VisitOutputs, state2) =>
        visit_lqp_upwards outputs visitor fuel (node_queue ++ outputs node)
          (node :: visited_nodes) state2
      | some (.DoNotVisitOutputs, state2) =>
        visit_lqp_upwards outputs visitor fuel node_queue (node :: visited_nodes) state2

/-- The number of dequeued nodes of an upward traversal of a plan with the nodes of `heap`: the
start node and every output of every node. -/
def upward_visit_bound (heap : Heap) (outputs : Nat → List Nat) : Nat :=
  1 + ((List.range heap.length).map fun n => (outputs n).length).sum

namespace JoinNode

/-- The visitor of `JoinNode::get_or_find_reduced_join_node` (join_node.cpp:435-447) on the join
at address `self`; the state is the member `_reduced_join_node`, captured by reference. -/
def reduced_join_visitor (heap : Heap) (self : Nat) (reduction_predicate : Expression)
    (_reduced_join_node : Option Nat) (current_node : Nat) :
    Option (LQPUpwardVisitation × Option Nat) :=
  match heap[current_node]? with
  | none => none
  | some node =>
    if node.type ≠ .Join ∨ current_node = self then some (.VisitOutputs, _reduced_join_node)
    else if node.as_join.join_predicates.all fun predicate =>
        !decide (predicate = reduction_predicate) then
      some (.VisitOutputs, _reduced_join_node)
    else some (.DoNotVisitOutputs, some current_node)

/-- `std::weak_ptr::expired()` of a reference to a plan node: unset, or set to a node that is
not alive any more. -/
def expired (is_alive : Nat → Bool) (reference : Option Nat) : Bool :=
  !reference.any is_alive

/-- `JoinNode::get_or_find_reduced_join_node` (join_node.cpp:428-453) of the join `j` at address
`self` in a plan with the nodes of `heap`: the returned node and the join with its updated
(mutable) member `_reduced_join_node`; `none` when an `Assert` fails or `join_predicates()[0]`
does not exist. -/
def get_or_find_reduced_join_node (j : JoinNode) (self : Nat) (heap : Heap)
    (outputs : Nat → List Nat) (is_alive : Nat → Bool) : Option (Nat × JoinNode) :=
  if j._is_semi_reduction = false then none
  else if expired is_alive j._reduced_join_node then
    match j.join_predicates[0]? with
    | none => none
    | some reduction_predicate =>
      match visit_lqp_upwards outputs (reduced_join_visitor heap self reduction_predicate)
          (upward_visit_bound heap outputs) [self] [] j._reduced_join_node with
      | none => none
      | some found =>
        if expired is_alive found then none
        else found.map fun reduced => (reduced, { j with _reduced_join_node := found })
  else j._reduced_join_node.map fun reduced => (reduced, j)

end JoinNode

/-- A node is a join other than the semi-reduction at `self` that has a join predicate equal to
the reduction predicate. -/
def is_reduced_join (heap : Heap) (self : Nat) (reduction_predicate : Expression) (n : Nat) :
    Prop :=
  ∃ node, heap[n]? = some node ∧ node.type = .Join ∧ n ≠ self ∧
    reduction_predicate ∈ node.as_join.join_predicates

/-- The node `b` is an output of the node `a`. -/
def is_output_of (outputs : Nat → List Nat) (a b : Nat) : Prop := b ∈ outputs a

/-- The work left for an upward traversal: the queued nodes and the outputs of the nodes not
visited yet. -/
def upward_visit_potential (heap : Heap) (outputs : Nat → List Nat) (node_queue : List Nat)
    (visited_nodes : List Nat) : Nat :=
  node_queue.length +
    ∑ n in (Finset.range heap.length).filter (fun n => n ∉ visited_nodes), (outputs n).length

/-- The invariant of the upward traversal from `semi_reduction`: the start node is visited or queued, the
outputs of every visited node that is not a reduced join are visited or queued, and once a
reduced join has been visited, the state refers to a reduced join. -/
structure UpwardVisitInvariant (heap : Heap) (outputs : Nat → List Nat) (semi_reduction : Nat)
    (reduction_predicate : Expression) (node_queue visited_nodes : List Nat)
    (state : Option Nat) : Prop where
  start : semi_reduction ∈ visited_nodes ∨ semi_reduction ∈ node_queue
  closed : ∀ v ∈ visited_nodes, ¬ is_reduced_join heap semi_reduction reduction_predicate v →
    ∀ m ∈ outputs v, m ∈ visited_nodes ∨ m ∈ node_queue
  found : (∃ v ∈ visited_nodes, is_reduced_join heap semi_reduction reduction_predicate v) →
    ∃ r, state = some r ∧ is_reduced_join heap semi_reduction reduction_predicate r

/-- Modelled from the spec: `outputs()` of the node `n` in a plan whose nodes are those of
`heap`: "setting an input on node B to node A atomically updates both B's input slot and A's
output back-reference set", so the outputs of `n` are the nodes that have `n` as an input, once
for every input slot. -/
def plan_outputs (heap : Heap) (n : Nat) : List Nat :=
  (List.range heap.length).flatMap fun m =>
    match heap[m]? with
    | none => []
    | some node =>
      (if node.left_input = some n then [m] else []) ++
        (if node.right_input = some n then [m] else [])

/-! ## The logical cost estimator (cost_estimator_logical.cpp) -/

/-- The arithmetic of `float` the cost estimator and the predicate reordering rule use: the
constants `0.0f` and `1.0f`, `+`, `-`, `*`, `<`, `std::max` and `std::log`. -/
structure FloatArithmetic (F : Type) where
  zero : F
  one : F
  add : F → F → F
  sub : F → F → F
  mul : F → F → F
  lt : F → F → Bool
  max : F → F → F
  log : F → F

/-- Exact arithmetic in an ordered field, with a given logarithm: the arithmetic of the "real
numbers" of the specification, without the rounding of `float`. -/
def exactArithmetic (F : Type) [LinearOrderedField F] (log : F → F) : FloatArithmetic F :=
  { zero := 0, one := 1, add := fun a b => a + b, sub := fun a b => a - b,
    mul := fun a b => a * b, lt := fun a b => decide (a < b),
    max := fun a b => if a < b then b else a, log := log }

mutual
/-- Modelled from the spec: the sub-expressions on which `visit_expression`
(expression_utils.hpp is missing) calls a visitor that always answers `VisitArguments`: the
expression and the sub-expressions of its arguments, every occurrence once. -/
def Expression.sub_expressions : Expression → List Expression
  | .lqp_column n c => [.lqp_column n c]
  | .value v => [.value v]
  | .binary_predicate c l r => .binary_predicate c l r :: (l.sub_expressions ++ r.sub_expressions)
  | .arithmetic op l r => .arithmetic op l r :: (l.sub_expressions ++ r.sub_expressions)
  | .lqp_subquery q arguments =>
    .lqp_subquery q arguments :: Expression.sub_expressions_of_list arguments
termination_by structural e => e
/-- The sub-expressions of a list of arguments. -/
def Expression.sub_expressions_of_list : List Expression → List Expression
  | [] => []
  | e :: es => e.sub_expressions ++ Expression.sub_expressions_of_list es
termination_by structural es => es
end

/-- The expression has the type `ExpressionType::LQPColumn`. -/
def Expression.is_lqp_column : Expression → Bool
  | .lqp_column _ _ => true
  | _ => false

/-- Modelled from the spec: the expression is a subquery for which
`LQPSubqueryExpression::is_correlated()` holds (the expression classes are missing), a
"correlated-subquery reference": a subquery that is called with parameter expressions. -/
def Expression.is_correlated_subquery : Expression → Bool
  | .lqp_subquery _ arguments => !arguments.isEmpty
  | _ => false

/-- `expression_cost_multiplier` (cost_estimator_logical.cpp:16-32). -/
def expression_cost_multiplier {F : Type} (ops : FloatArithmetic F) (expression : Expression) :
    F :=
  let multiplier := expression.sub_expressions.foldl
    (fun multiplier sub_expression =>
      if sub_expression.is_lqp_column || sub_expression.is_correlated_subquery then
        ops.add multiplier ops.one
      else multiplier)
    ops.zero
  ops.max ops.one multiplier

/-- The estimated cardinality of an input, `0.0f` for an absent input
(cost_estimator_logical.cpp:44-47). -/
def input_row_count {F : Type} (ops : FloatArithmetic F) (estimate_cardinality : Nat → F)
    (input : Option Nat) : F :=
  match input with
  | some input_node => estimate_cardinality input_node
  | none => ops.zero

/-- `CostEstimatorLogical::estimate_node_cost` (cost_estimator_logical.cpp:42-92) for the node
at address `node`; `estimate_cardinality` is `cardinality_estimator->estimate_cardinality`, and
`PredicateNode::predicate()` (predicate_node.hpp is missing) is the first node expression.
`none` when `Assert` or `Fail` is reached. -/
def estimate_node_cost {F : Type} (ops : FloatArithmetic F) (estimate_cardinality : Nat → F)
    (heap : Heap) (node : Nat) : Option F :=
  match heap[node]? with
  | none => none
  | some n =>
    let output_row_count := estimate_cardinality node
    let left_input_row_count := input_row_count ops estimate_cardinality n.left_input
    let right_input_row_count := input_row_count ops estimate_cardinality n.right_input
    match n.type with
    | .Join => some (ops.add (ops.add left_input_row_count right_input_row_count) output_row_count)
    | .Sort =>
      some (ops.add (ops.mul left_input_row_count (ops.log left_input_row_count))
        output_row_count)
    | .Union =>
      let union_mode := n.set_operation_mode
      if union_mode ≠ .Positions then none
      else
        match union_mode with
        | .Positions =>
          some (ops.add
            (ops.add (ops.mul left_input_row_count (ops.log left_input_row_count))
              (ops.mul right_input_row_count (ops.log right_input_row_count)))
            output_row_count)
        | .All => some ops.zero
        | .Unique => none
    | .StoredTable => some ops.zero
    | .Predicate =>
      match n.node_expressions.head? with
      | none => none
      | some predicate =>
        some (ops.add (ops.mul left_input_row_count (expression_cost_multiplier ops predicate))
          output_row_count)
    | _ => some (ops.add left_input_row_count output_row_count)

/-- The number `k` as a `float`: `k` times `+ 1.0f`, from `0.0f`. -/
def FloatArithmetic.of_count {F : Type} (ops : FloatArithmetic F) (k : Nat) : F :=
  (fun multiplier => ops.add multiplier ops.one)^[k] ops.zero

/-- The multiplier of a predicate as the specification describes it: "max(1, count of distinct
referenced columns + count of correlated-subquery references in the predicate expression)". -/
def specified_cost_multiplier {F : Type} (ops : FloatArithmetic F) (expression : Expression) :
    F :=
  ops.max ops.one
    (ops.of_count
      ((expression.sub_expressions.filter Expression.is_lqp_column).toFinset.card +
        (expression.sub_expressions.filter Expression.is_correlated_subquery).length))

/-! ## Join predicates of join operators (operator_join_predicate.hpp) -/

/-- Modelled from the spec: `flip_predicate_condition` (types.hpp is missing): the condition
of a comparison whose operands are exchanged. -/
def flip_predicate_condition : PredicateCondition → PredicateCondition
  | .Equals => .Equals
  | .NotEquals => .NotEquals
  | .LessThan => .GreaterThan
  | .LessThanEquals => .GreaterThanEquals
  | .GreaterThan => .LessThan
  | .GreaterThanEquals => .LessThanEquals

/-- `OperatorJoinPredicate` (operator_join_predicate.hpp:15-40): `column_ids` is the
`ColumnIDPair` of the column in the left and the column in the right input. -/
structure OperatorJoinPredicate where
  column_ids : Nat × Nat
  predicate_condition : PredicateCondition
  flipped : Bool := false
deriving DecidableEq

namespace OperatorJoinPredicate

/-- The constructor (operator_join_predicate.hpp:34); `flipped` starts as `false`. -/
def make (init_column_ids : Nat × Nat) (init_predicate_condition : PredicateCondition) :
    OperatorJoinPredicate :=
  { column_ids := init_column_ids, predicate_condition := init_predicate_condition }

/-- Modelled from the spec: `OperatorJoinPredicate::flip()` (operator_join_predicate.cpp is
missing), "Flip operands and PredicateCondition": the two column ids are exchanged, the
condition is flipped, and the member `flipped` is toggled. -/
def flip (p : OperatorJoinPredicate) : OperatorJoinPredicate :=
  { column_ids := (p.column_ids.2, p.column_ids.1),
    predicate_condition := flip_predicate_condition p.predicate_condition,
    flipped := !p.flipped }

/-- Modelled from the spec: `OperatorJoinPredicate::is_flipped()`, "Returns whether
OperatorJoinPredicate has been flipped or not". -/
def is_flipped (p : OperatorJoinPredicate) : Bool := p.flipped

end OperatorJoinPredicate

/-! ## Input and output links of plan nodes (abstract_lqp_node.hpp:76-107, 301-306) -/

/-- The links between plan nodes: the member `_inputs` (two slots) and the member `_outputs`
(back-references, in the order in which they were added) of every node. -/
structure PlanLinks where
  _inputs : Nat → LQPInputSide → Option Nat
  _outputs : Nat → List Nat

/-- A call of one of the three functions that set an input of `node`; `none` is the null
pointer. -/
inductive SetInputCall
  | set_left_input (node : Nat) (left : Option Nat)
  | set_right_input (node : Nat) (right : Option Nat)
  | set_input (node : Nat) (side : LQPInputSide) (input : Option Nat)

namespace PlanLinks

/-- Nodes without inputs and outputs. -/
def unlinked : PlanLinks := { _inputs := fun _ _ => none, _outputs := fun _ => [] }

/-- Modelled from the spec: `node->_add_output_pointer(output)` (abstract_lqp_node.hpp:301;
the body is missing): "Add ... a output without manipulating this output's input ptr". -/
def _add_output_pointer (links : PlanLinks) (node output : Nat) : PlanLinks :=
  { links with
    _outputs := fun n => if n = node then links._outputs n ++ [output] else links._outputs n }

/-- Modelled from the spec: `node->_remove_output_pointer(output)` (abstract_lqp_node.hpp:302;
the body is missing): one back-reference to `output` is removed. -/
def _remove_output_pointer (links : PlanLinks) (node output : Nat) : PlanLinks :=
  { links with
    _outputs := fun n =>
      if n = node then (links._outputs n).erase output else links._outputs n }

/-- Modelled from the spec: `node->set_input(side, input)` (abstract_lqp_node.hpp:82; the body
is missing): "replaces a slot; must detach the old input's back-reference to this node (if any)
and attach the new one; no-op safe when the node is null (detaches without attaching)". -/
def set_input (links : PlanLinks) (node : Nat) (side : LQPInputSide) (input : Option Nat) :
    PlanLinks :=
  let detached :=
    match links._inputs node side with
    | some current_input => links._remove_output_pointer current_input node
    | none => links
  let replaced : PlanLinks :=
    { detached with
      _inputs := fun n s => if n = node ∧ s = side then input else detached._inputs n s }
  match input with
  | some new_input => replaced._add_output_pointer new_input node
  | none => replaced

/-- `node->set_left_input(left)` (abstract_lqp_node.hpp:80). -/
def set_left_input (links : PlanLinks) (node : Nat) (left : Option Nat) : PlanLinks :=
  links.set_input node .Left left

/-- `node->set_right_input(right)` (abstract_lqp_node.hpp:81). -/
def set_right_input (links : PlanLinks) (node : Nat) (right : Option Nat) : PlanLinks :=
  links.set_input node .Right right

/-- One call. -/
def call (links : PlanLinks) : SetInputCall → PlanLinks
  | .set_left_input node left => links.set_left_input node left
  | .set_right_input node right => links.set_right_input node right
  | .set_input node side input => links.set_input node side input

/-- A sequence of calls, in order. -/
def calls (links : PlanLinks) (sequence : List SetInputCall) : PlanLinks :=
  sequence.foldl call links

/-- The number of input slots of `a` that hold `x`. -/
def slots_holding (links : PlanLinks) (a x : Nat) : Nat :=
  (if links._inputs a .Left = some x then 1 else 0) +
    (if links._inputs a .Right = some x then 1 else 0)

/-- The wiring invariant: every node `a` appears in the outputs of every node `x` as often as
`x` is held in an input slot of `a`. -/
def wired (links : PlanLinks) : Prop :=
  ∀ a x, (links._outputs x).count a = links.slots_holding a x

end PlanLinks

/-! ## The predicate reordering rule (predicate_reordering_rule.cpp) -/

/-- The node with one input slot replaced. -/
def LQPNode.with_input (n : LQPNode) (side : LQPInputSide) (input : Option Nat) : LQPNode :=
  match side with
  | .Left => { n with left_input := input }
  | .Right => { n with right_input := input }

/-- The members of a node other than its input slots. -/
def LQPNode.data (n : LQPNode) : LQPNode :=
  { n with left_input := none, right_input := none }

/-- Modelled from the spec: `node->set_input(side, input)` on a plan in memory
(abstract_lqp_node.hpp:82; the body is missing): the slot is replaced. The output
back-references need no update here: `plan_outputs` reads them off the input slots. -/
def Heap.set_input (heap : Heap) (node : Nat) (side : LQPInputSide) (input : Option Nat) :
    Heap :=
  match heap[node]? with
  | none => heap
  | some n => heap.set node (n.with_input side input)

/-- Modelled from the spec: `node->get_input_side(output)` (abstract_lqp_node.hpp:86-90),
"whether this is the left or right input in the specified output"; it "fails (signals a usage
error) if `output` does not currently reference `this` as an input". -/
def get_input_side (heap : Heap) (node output : Nat) : Option LQPInputSide :=
  match heap[output]? with
  | none => none
  | some o =>
    if o.left_input = some node then some .Left
    else if o.right_input = some node then some .Right
    else none

/-- `get_input_side` of every node of a list of outputs. -/
def get_input_sides_of (heap : Heap) (node : Nat) : List Nat → Option (List LQPInputSide)
  | [] => some []
  | output :: outputs =>
    match get_input_side heap node output, get_input_sides_of heap node outputs with
    | some side, some sides => some (side :: sides)
    | _, _ => none

/-- `node->get_input_sides()` (abstract_lqp_node.hpp:92-95):
`{get_input_side(outputs()[0]), ..., get_input_side(outputs()[n-1])}`. -/
def get_input_sides (heap : Heap) (node : Nat) : Option (List LQPInputSide) :=
  get_input_sides_of heap node (plan_outputs heap node)

/-- A list of calls `node->set_input(side, input)`, in order. -/
def set_inputs_of (heap : Heap) (calls : List (Nat × LQPInputSide × Option Nat)) : Heap :=
  calls.foldl (fun h call => h.set_input call.1 call.2.1 call.2.2) heap

/-- Modelled from the spec: `lqp_remove_node(node, AllowRightInput::Yes)` (lqp_utils.hpp is
missing), "detach the chain from the graph": the node gives up its left input, and every
output of the node takes that input in the slot in which it held the node. -/
def lqp_remove_node (heap : Heap) (node : Nat) : Option Heap :=
  match heap[node]?, get_input_sides heap node with
  | some n, some input_sides =>
    let outputs := plan_outputs heap node
    let left_input := n.left_input
    some (set_inputs_of (heap.set_input node .Left none)
      ((outputs.zip input_sides).map fun output => (output.1, output.2, left_input)))
  | _, _ => none

/-- `is_predicate_style_node` (predicate_reordering_rule.cpp:18-41) on the members of a
node. -/
def LQPNode.is_predicate_style (n : LQPNode) : Bool :=
  if n.type = .Predicate then true
  else if n.type = .Validate then true
  else if n.type = .Join then
    is_semi_or_anti_join n.as_join.join_mode && decide (n.as_join.join_predicates.length = 1)
  else false

/-- `is_predicate_style_node(node)` (predicate_reordering_rule.cpp:18-41); a null pointer is
dereferenced when there is no node. -/
def is_predicate_style_node (heap : Heap) (node : Option Nat) : Option Bool :=
  match node with
  | none => none
  | some address => heap[address]?.map LQPNode.is_predicate_style

/-- The weighted cost of a chain node (predicate_reordering_rule.cpp:78-81). `join_penalty` is
`PredicateReorderingRule::JOIN_PENALTY` (predicate_reordering_rule.hpp is missing; 1.5 in the
specification); `estimate_cardinality heap` is the cardinality estimator on the plan in
memory. The cost estimator made by `new_instance()` shares the configuration of the
cardinality estimator, so both estimates come from `estimate_cardinality`. -/
def weighted_cost {F : Type} (ops : FloatArithmetic F) (join_penalty : F)
    (estimate_cardinality : Heap → Nat → F) (heap : Heap) (predicate : Nat) : Option F :=
  match heap[predicate]?, estimate_node_cost ops (estimate_cardinality heap) heap predicate with
  | some n, some node_cost =>
    let output_cardinality := estimate_cardinality heap predicate
    let estimated_cost := ops.sub node_cost output_cardinality
    let penalty := if n.type = .Join then join_penalty else ops.one
    some (ops.add (ops.mul estimated_cost penalty) output_cardinality)
  | _, _ => none

/-- The first loop of `reorder_predicates` (predicate_reordering_rule.cpp:74-83): every chain
node is placed on the input and its weighted cost is estimated there. -/
def estimate_predicates {F : Type} (ops : FloatArithmetic F) (join_penalty : F)
    (estimate_cardinality : Heap → Nat → F) (input : Option Nat) :
    Heap → List Nat → Option (Heap × List (Nat × F))
  | heap, [] => some (heap, [])
  | heap, predicate :: predicates =>
    match weighted_cost ops join_penalty estimate_cardinality
        (heap.set_input predicate .Left input) predicate with
    | none => none
    | some cost =>
      match estimate_predicates ops join_penalty estimate_cardinality input
          (heap.set_input predicate .Left input) predicates with
      | none => none
      | some (estimated, nodes_and_costs) => some (estimated, (predicate, cost) :: nodes_and_costs)

/-- The second loop of `reorder_predicates` (predicate_reordering_rule.cpp:86-88). -/
def remove_predicates : Heap → List Nat → Option Heap
  | heap, [] => some heap
  | heap, predicate :: predicates =>
    match lqp_remove_node heap predicate with
    | none => none
    | some removed => remove_predicates removed predicates

/-- The calls of the last loop of `reorder_predicates` (predicate_reordering_rule.cpp:104-107):
every node of the sorted vector takes the next node as its left input. -/
def chain_calls : List Nat → List (Nat × LQPInputSide × Option Nat)
  | node :: next :: nodes => (node, .Left, some next) :: chain_calls (next :: nodes)
  | _ => []

/-- The calls of predicate_reordering_rule.cpp:95-107 for the sorted nodes: the last node is
placed on the input, the outputs take the first node, and the nodes are chained. -/
def relink_calls (input : Option Nat) (outputs : List (Nat × LQPInputSide))
    (sorted_nodes : List Nat) : List (Nat × LQPInputSide × Option Nat) :=
  match sorted_nodes.getLast?, sorted_nodes.head? with
  | some back, some front =>
    (back, .Left, input) ::
      ((outputs.map fun output => (output.1, output.2, some front)) ++
        chain_calls sorted_nodes)
  | _, _ => []

/-- A comparator is a strict weak ordering, as `std::sort` requires of its comparator: it is
asymmetric, and "not ordered before" is transitive. -/
def strict_weak_ordering {α : Type} (comp : α → α → Bool) : Prop :=
  (∀ a b, comp a b = true → comp b a = false) ∧
  ∀ a b c, comp a b = false → comp b c = false → comp a c = false

/-- The contract of `std::sort(first, last, comp)` of the standard library, `sort comp range`
being the range after the call: for a strict weak ordering `comp` the result is a permutation
of the range in which no element is ordered by `comp` before an element that precedes it. The
order of elements that `comp` does not distinguish is left open. -/
def std_sort_contract {α : Type} (sort : (α → α → Bool) → List α → List α) : Prop :=
  ∀ comp, strict_weak_ordering comp → ∀ range,
    (sort comp range).Perm range ∧ (sort comp range).Pairwise fun a b => comp b a = false

/-- `reorder_predicates` (predicate_reordering_rule.cpp:43-108). `sort comp range` is
`std::sort(range.begin(), range.end(), comp)`; the comparator of lines 91-92 is
`left.second > right.second`. `front()` and `back()` of an empty vector and a null dereference
are failures. -/
def reorder_predicates {F : Type} (ops : FloatArithmetic F) (join_penalty : F)
    (sort : (Nat × F → Nat × F → Bool) → List (Nat × F) → List (Nat × F))
    (estimate_cardinality : Heap → Nat → F)
    (heap : Heap) (predicates : List Nat) : Option Heap :=
  match predicates.getLast? >>= (heap[·]?), predicates.head? with
  | some back, some front =>
    let input := back.left_input
    let outputs := plan_outputs heap front
    match get_input_sides heap front with
    | none => none
    | some input_sides =>
      match estimate_predicates ops join_penalty estimate_cardinality input heap predicates with
      | none => none
      | some (estimated, nodes_and_costs) =>
        match remove_predicates estimated predicates with
        | none => none
        | some removed =>
          match (sort (fun left right => ops.lt right.2 left.2) nodes_and_costs).map
              Prod.fst with
          | [] => none
          | sorted_nodes =>
            some (set_inputs_of removed
              (relink_calls input (outputs.zip input_sides) sorted_nodes))
  | _, _ => none

/-- `LQPVisitation` (declared in lqp_utils.hpp, which is not part of the sources). -/
inductive LQPVisitation
  | VisitInputs
  | DoNotVisitInputs
deriving DecidableEq

/-- Modelled from the spec: `visit_lqp(lqp, visitor)` (lqp_utils.hpp is missing), "traverse the
graph top-down": breadth-first from `lqp`, every node visited once; when the visitor answers
`VisitInputs`, the left and the right input that the node has after the call are enqueued.
`inputs state n` are those inputs in the state the visitor threads; the first argument bounds
the number of dequeued nodes, and running out of it is a failure. -/
def visit_lqp {σ : Type} (inputs : σ → Nat → List Nat)
    (visitor : σ → Nat → Option (LQPVisitation × σ)) :
    Nat → List Nat → List Nat → σ → Option σ
  | _, [], _, state => some state
  | 0, _ :: _, _, _ => none
  | fuel + 1, node :: node_queue, visited_nodes, state =>
    if node ∈ visited_nodes then visit_lqp inputs visitor fuel node_queue visited_nodes state
    else
      match visitor state node with
      | none => none
      | some (.VisitInputs, state2) =>
        visit_lqp inputs visitor fuel (node_queue ++ inputs state2 node) (node :: visited_nodes)
          state2
      | some (.DoNotVisitInputs, state2) =>
        visit_lqp inputs visitor fuel node_queue (node :: visited_nodes) state2

/-- The set inputs of a node, left before right. -/
def plan_inputs (heap : Heap) (node : Nat) : List Nat :=
  match heap[node]? with
  | none => []
  | some n => n.left_input.toList ++ n.right_input.toList

/-- The `while` loop of predicate_reordering_rule.cpp:131-141, bounded by a number of
iterations: the gathered chain. -/
def gather_predicate_nodes (heap : Heap) : Nat → Option Nat → List Nat → Option (List Nat)
  | 0, _, _ => none
  | fuel + 1, current_node, predicate_nodes =>
    match is_predicate_style_node heap current_node, current_node with
    | some true, some current =>
      if (plan_outputs heap current).length > 1 ∧ predicate_nodes ≠ [] then some predicate_nodes
      else
        gather_predicate_nodes heap fuel (heap[current]?.bind (·.left_input))
          (predicate_nodes ++ [current])
    | some false, _ => some predicate_nodes
    | _, _ => none

/-- The visitor of `PredicateReorderingRule::_apply_to_plan_without_subqueries`
(predicate_reordering_rule.cpp:126-152); the state is the plan in memory and the set
`reordered_predicate_nodes`. -/
def reordering_visitor {F : Type} (ops : FloatArithmetic F) (join_penalty : F)
    (sort : (Nat × F → Nat × F → Bool) → List (Nat × F) → List (Nat × F))
    (estimate_cardinality : Heap → Nat → F)
    (state : Heap × List Nat) (node : Nat) : Option (LQPVisitation × Heap × List Nat) :=
  match is_predicate_style_node state.1 (some node) with
  | none => none
  | some style =>
    if style = true ∧ node ∉ state.2 then
      match gather_predicate_nodes state.1 (state.1.length + 1) (some node) [] with
      | none => none
      | some predicate_nodes =>
        if predicate_nodes.length > 1 then
          match reorder_predicates ops join_penalty sort estimate_cardinality state.1
              predicate_nodes with
          | none => none
          | some reordered => some (.VisitInputs, reordered, predicate_nodes ++ state.2)
        else some (.VisitInputs, state)
    else some (.VisitInputs, state)

/-- `PredicateReorderingRule::_apply_to_plan_without_subqueries`
(predicate_reordering_rule.cpp:119-153): the plan in memory after the rule. Every node is
dequeued at most once for each of the at most `2 * heap.length` input slots that hold it. -/
def _apply_to_plan_without_subqueries {F : Type} (ops : FloatArithmetic F) (join_penalty : F)
    (sort : (Nat × F → Nat × F → Bool) → List (Nat × F) → List (Nat × F))
    (estimate_cardinality : Heap → Nat → F)
    (heap : Heap) (lqp_root : Nat) : Option Heap :=
  match heap[lqp_root]? with
  | none => none
  | some root =>
    if root.type ≠ .Root then none
    else
      (visit_lqp (fun state node => plan_inputs state.1 node)
        (reordering_visitor ops join_penalty sort estimate_cardinality)
        (2 * heap.length + 1) [lqp_root] [] (heap, [])).map (·.1)

/-- The node at `node` holds `input` in its slot `side`. -/
def holds_input (heap : Heap) (node : Nat) (side : LQPInputSide) (input : Option Nat) : Prop :=
  ∃ n, heap[node]? = some n ∧ n.input side = input

/-- The input slots that `reorder_predicates` sets: the left slot of every chain node, and for
every output of the top node of the chain the slot that `get_input_side` reports. -/
def reordered_slot (heap : Heap) (predicates : List Nat) (front m : Nat) (s : LQPInputSide) :
    Prop :=
  (m ∈ predicates ∧ s = .Left) ∨
    (m ∈ plan_outputs heap front ∧ get_input_side heap front m = some s)

/-- The plans that occur between the first loop and the last calls of `reorder_predicates`:
the nodes are those of the original plan up to their input slots; a slot either holds what it
held in the original plan and is not the left slot of a chain node, or it is one of the slots
that `reorder_predicates` sets and holds the original input of the chain or nothing. -/
def ReorderInvariant (heap : Heap) (predicates : List Nat) (front : Nat) (input : Option Nat)
    (h : Heap) : Prop :=
  h.map LQPNode.data = heap.map LQPNode.data ∧
  ∀ (m : Nat) (n n2 : LQPNode) (s : LQPInputSide), heap[m]? = some n → h[m]? = some n2 →
    (n2.input s = n.input s ∧ ¬(m ∈ predicates ∧ s = .Left)) ∨
    (reordered_slot heap predicates front m s ∧ (n2.input s = input ∨ n2.input s = none))

/-! ## The meaning of an order dependency on a relation -/

/-- Whether `r ≤ s` in the lexicographic order of the values of a list of expressions; a row
gives a value to every expression. -/
def lex_le {V : Type} [LinearOrder V] (r s : Expression → V) : List Expression → Bool
  | [] => true
  | e :: es => decide (r e < s e) || (decide (r e = s e) && lex_le r s es)

/-- The order dependency holds on a relation (a list of rows): whenever `r ≤ s`
lexicographically on the ordering expressions, `r ≤ s` lexicographically on the ordered
expressions. -/
def OrderDependency.holds_on {V : Type} [LinearOrder V] (od : OrderDependency)
    (relation : List (Expression → V)) : Prop :=
  ∀ r ∈ relation, ∀ s ∈ relation,
    lex_le r s od.ordering_expressions = true → lex_le r s od.ordered_expressions = true

instance {V : Type} [LinearOrder V] (od : OrderDependency) (relation : List (Expression → V)) :
    Decidable (od.holds_on relation) :=
  inferInstanceAs (Decidable (∀ r ∈ relation, ∀ s ∈ relation,
    lex_le r s od.ordering_expressions = true → lex_le r s od.ordered_expressions = true))

/-! ## Equality and hash of order dependencies (order_dependency.cpp:18-57) -/

/-- `OrderDependency::operator==` (order_dependency.cpp:18-39): `false` when the sizes of the
ordering or of the ordered expressions differ, then the two loops that compare the expressions
of equal positions; `expression_equals a b` is `*a == *b` of the expression class. -/
def OrderDependency.operator_equals (expression_equals : Expression → Expression → Bool)
    (lhs rhs : OrderDependency) : Bool :=
  if lhs.ordering_expressions.length ≠ rhs.ordering_expressions.length ∨
      lhs.ordered_expressions.length ≠ rhs.ordered_expressions.length then false
  else if (lhs.ordering_expressions.zip rhs.ordering_expressions).any
      (fun pair => !expression_equals pair.1 pair.2) then false
  else if (lhs.ordered_expressions.zip rhs.ordered_expressions).any
      (fun pair => !expression_equals pair.1 pair.2) then false
  else true

/-- `OrderDependency::hash` (order_dependency.cpp:45-57); `boost::hash_value` of a size is the
size, `hash_combine seed h` is the seed after `boost::hash_combine(seed, v)` for a value with
hash `h`, and `expression_hash e` is `e->hash()`. -/
def OrderDependency.hash (hash_combine : Nat → Nat → Nat) (expression_hash : Expression → Nat)
    (od : OrderDependency) : Nat :=
  let hash := od.ordering_expressions.length
  let hash := od.ordering_expressions.foldl
    (fun hash expression => hash_combine hash (expression_hash expression)) hash
  let hash := hash_combine hash od.ordered_expressions.length
  od.ordered_expressions.foldl
    (fun hash expression => hash_combine hash (expression_hash expression)) hash

/-! ## The debug assertion of `JoinNode::non_trivial_functional_dependencies` -/

/-- The `DebugAssert` "Unexpected number of unique constraints." of
`JoinNode::non_trivial_functional_dependencies` (join_node.cpp:343-345): `none` when the
assertion is not reached (a semi or anti join, a missing input, or one of the three branches
for discarded UCCs of join_node.cpp:324-340), otherwise the value of the asserted condition. -/
def JoinNode.unique_constraint_count_assertion (j : JoinNode) : Option Bool :=
  if is_semi_or_anti_join j.join_mode then none
  else
    match j.left_input, j.right_input with
    | some l, some r =>
      let left_unique_column_combinations := l.unique_column_combinations
      let right_unique_column_combinations := r.unique_column_combinations
      let output_unique_column_combinations :=
        j._output_unique_column_combinations left_unique_column_combinations
          right_unique_column_combinations
      if output_unique_column_combinations = ∅ ∧ left_unique_column_combinations ≠ ∅ ∧
          right_unique_column_combinations ≠ ∅ then none
      else if (output_unique_column_combinations = ∅ ∨
          output_unique_column_combinations = right_unique_column_combinations) ∧
          left_unique_column_combinations ≠ ∅ then none
      else if (output_unique_column_combinations = ∅ ∨
          output_unique_column_combinations = left_unique_column_combinations) ∧
          right_unique_column_combinations ≠ ∅ then none
      else
        some (decide (output_unique_column_combinations.card =
          left_unique_column_combinations.card + right_unique_column_combinations.card))
    | _, _ => none

/-- `JoinNode::non_trivial_functional_dependencies` (join_node.cpp:302-366) in a build that
keeps the `DebugAssert`s: the call fails when the assertion is reached and does not hold. -/
def JoinNode.non_trivial_functional_dependencies_debug (j : JoinNode) (column_id_bits : Nat) :
    Option FunctionalDependencies :=
  if j.unique_constraint_count_assertion = some false then none
  else j.non_trivial_functional_dependencies column_id_bits

/-! ## Predicate chains, as the rule gathers them -/

/-- The left input of a node of the plan. -/
def left_input_of (heap : Heap) (node : Nat) : Option Nat :=
  heap[node]?.bind (·.left_input)

/-- The chain that starts at `current`: a sequence `c0 = current, c1 = left_input(c0), ...` of
predicate-style nodes in which every node has at most one output, except `c0` when it is the
first node of the chain (`is_first`); the sequence is as long as possible: the left input of
its last node is a node that is not predicate-style or has more than one output. -/
def is_predicate_chain (heap : Heap) : Bool → Nat → List Nat → Prop
  | _, _, [] => False
  | is_first, current, [last] =>
    last = current ∧ is_predicate_style_node heap (some last) = some true ∧
      (is_first = true ∨ (plan_outputs heap last).length ≤ 1) ∧
      ∃ stop style, left_input_of heap last = some stop ∧
        is_predicate_style_node heap (some stop) = some style ∧
        (style = false ∨ (plan_outputs heap stop).length > 1)
  | is_first, current, node :: next :: nodes =>
    node = current ∧ is_predicate_style_node heap (some node) = some true ∧
      (is_first = true ∨ (plan_outputs heap node).length ≤ 1) ∧
      left_input_of heap node = some next ∧
      is_predicate_chain heap false next (next :: nodes)

/-! ## The estimator objects of `reorder_predicates` (predicate_reordering_rule.cpp:50-83) -/

/-- A call that a cardinality estimator receives: `guarantee_join_graph(JoinGraph{vertices, {}})`
or `estimate_cardinality(node)`. -/
inductive CardinalityEstimatorCall
  | guarantee_join_graph (vertices : List (Option Nat))
  | estimate_cardinality (node : Nat)
deriving DecidableEq

/-- Modelled from the spec: the estimator objects in memory (cardinality_estimator.hpp and
abstract_cost_estimator.hpp are missing). A cardinality estimator, with the interface
"`estimate_cardinality(node) → float`, `guarantee_join_graph(vertices, edges)` (a caching/scope
hint), `new_instance()`", is held as the sequence of the calls it has received, which
determines its guarantee and the state of its estimation cache; a cost estimator is held as
its member `cardinality_estimator`, the address of a cardinality estimator. -/
structure Estimators where
  cardinality_estimators : List (List CardinalityEstimatorCall)
  cost_estimators : List Nat
deriving DecidableEq

/-- A call on the cardinality estimator at an address; it fails for a pointer to no
estimator. -/
def Estimators.receive (estimators : Estimators) (cardinality_estimator : Nat)
    (call : CardinalityEstimatorCall) : Option Estimators :=
  match estimators.cardinality_estimators[cardinality_estimator]? with
  | none => none
  | some calls =>
    some { estimators with
      cardinality_estimators :=
        estimators.cardinality_estimators.set cardinality_estimator (calls ++ [call]) }

/-- `CostEstimatorLogical::new_instance` (cost_estimator_logical.cpp:38-40): a new cost
estimator on `cardinality_estimator->new_instance()`, which is "a fresh estimator sharing the
same cardinality-estimator configuration but with independent estimation-cache state": a new
cardinality estimator that has received no call. The result is the address of the new cost
estimator. -/
def CostEstimatorLogical.new_instance (estimators : Estimators) (cost_estimator : Nat) :
    Option (Nat × Estimators) :=
  match estimators.cost_estimators[cost_estimator]? with
  | none => none
  | some cardinality_estimator =>
    match estimators.cardinality_estimators[cardinality_estimator]? with
    | none => none
    | some _ =>
      some (estimators.cost_estimators.length,
        { cardinality_estimators := estimators.cardinality_estimators ++ [[]],
          cost_estimators :=
            estimators.cost_estimators ++ [estimators.cardinality_estimators.length] })

/-- The calls of `CostEstimatorLogical::estimate_node_cost(node)` on the cardinality estimator
of the cost estimator (cost_estimator_logical.cpp:43-47): the cardinality of the node, of its
left input and of its right input, when they are set. -/
def CostEstimatorLogical.estimate_node_cost_calls (estimators : Estimators)
    (cost_estimator : Nat) (heap : Heap) (node : Nat) : Option Estimators :=
  match estimators.cost_estimators[cost_estimator]?, heap[node]? with
  | some cardinality_estimator, some n =>
    match estimators.receive cardinality_estimator (.estimate_cardinality node) with
    | none => none
    | some estimators1 =>
      match (match n.left_input with
        | some left => estimators1.receive cardinality_estimator (.estimate_cardinality left)
        | none => some estimators1) with
      | none => none
      | some estimators2 =>
        match n.right_input with
        | some right => estimators2.receive cardinality_estimator (.estimate_cardinality right)
        | none => some estimators2
  | _, _ => none

/-- The estimator calls of the first loop of `reorder_predicates`
(predicate_reordering_rule.cpp:76-83): for every chain node, placed on the input,
`caching_cardinality_estimator->estimate_cardinality(predicate)` and
`caching_cost_estimator->estimate_node_cost(predicate)`. -/
def estimate_predicates_calls (caching_cardinality_estimator caching_cost_estimator : Nat)
    (input : Option Nat) : Estimators → Heap → List Nat → Option Estimators
  | estimators, _, [] => some estimators
  | estimators, heap, predicate :: predicates =>
    match estimators.receive caching_cardinality_estimator
        (.estimate_cardinality predicate) with
    | none => none
    | some estimators1 =>
      match CostEstimatorLogical.estimate_node_cost_calls estimators1 caching_cost_estimator
          (heap.set_input predicate .Left input) predicate with
      | none => none
      | some estimators2 =>
        estimate_predicates_calls caching_cardinality_estimator caching_cost_estimator input
          estimators2 (heap.set_input predicate .Left input) predicates

/-- The estimators after `reorder_predicates(predicates, cost_estimator)`
(predicate_reordering_rule.cpp:46, 54-83; the lines after the first loop call no estimator):
`caching_cost_estimator` is `cost_estimator->new_instance()`, and
`caching_cardinality_estimator` is `cost_estimator->cardinality_estimator` (line 55), which
gets `guarantee_join_graph(JoinGraph{{input}, {}})`. -/
def reorder_predicates_estimators (estimators : Estimators) (cost_estimator : Nat)
    (heap : Heap) (predicates : List Nat) : Option Estimators :=
  match predicates.getLast? >>= (heap[·]?) with
  | none => none
  | some back =>
    let input := back.left_input
    match CostEstimatorLogical.new_instance estimators cost_estimator with
    | none => none
    | some (caching_cost_estimator, estimators1) =>
      match estimators1.cost_estimators[cost_estimator]? with
      | none => none
      | some caching_cardinality_estimator =>
        match estimators1.receive caching_cardinality_estimator
            (.guarantee_join_graph [input]) with
        | none => none
        | some estimators2 =>
          estimate_predicates_calls caching_cardinality_estimator caching_cost_estimator input
            estimators2 heap predicates

/-- No call of the sequence is `guarantee_join_graph`. -/
def no_guarantee (calls : List CardinalityEstimatorCall) : Prop :=
  ∀ vertices, CardinalityEstimatorCall.guarantee_join_graph vertices ∉ calls

/-- What a sequence of calls on one cardinality estimator leaves: the cost estimators and the
other cardinality estimators as they were, and the addressed estimator with the further
calls. -/
def received (estimators result : Estimators) (address : Nat)
    (further : List CardinalityEstimatorCall) : Prop :=
  result.cost_estimators = estimators.cost_estimators ∧
  (∀ calls, estimators.cardinality_estimators[address]? = some calls →
    result.cardinality_estimators[address]? = some (calls ++ further)) ∧
  ∀ other, other ≠ address →
    result.cardinality_estimators[other]? = estimators.cardinality_estimators[other]?

/-! ## The set-based inclusion check of the IND validator
(ind_validation_rule_ablation.cpp:14-125) -/

/-- A segment of an integer column, as the validator reads it (the storage classes are not
part of the sources): a `ValueSegment` with its vector `values()` and the null flag of every
position, a `DictionarySegment` with its dictionary and for every position the index of its
dictionary entry (no index for NULL), or a segment of another encoding, of which the decoded
positions are read. -/
inductive Segment
  | value_segment (values : List Int) (null_values : List Bool)
  | dictionary_segment (dictionary : List Int) (attribute_vector : List (Option Nat))
  | encoded_segment (positions : List (Option Int))
deriving DecidableEq

/-- The positions of a segment as `segment_iterate` decodes them: the value, or nothing for
NULL. -/
def Segment.positions : Segment → List (Option Int)
  | .value_segment values null_values =>
    values.enum.map fun position =>
      if null_values.getD position.1 false then none else some position.2
  | .dictionary_segment dictionary attribute_vector =>
    attribute_vector.map fun value_id => value_id.bind (dictionary[·]?)
  | .encoded_segment positions => positions

/-- A table: `get_chunk(chunk_id)` for every chunk id, a null pointer for a removed chunk; a
chunk has one segment per column. -/
structure Table where
  chunks : List (Option (List Segment))
deriving DecidableEq

/-- `Table::row_count()`: the sum of the sizes of the chunks; the size of a chunk is the size
of its segments. -/
def Table.row_count (table : Table) : Nat :=
  (table.chunks.map fun chunk =>
    match chunk with
    | some (segment :: _) => segment.positions.length
    | _ => 0).sum

/-- The content of a column: the positions of its segments, chunk by chunk. -/
def Table.column (table : Table) (column_id : Nat) : List (Option Int) :=
  table.chunks.flatMap fun chunk =>
    match chunk.bind (·[column_id]?) with
    | some segment => segment.positions
    | none => []

/-- `IndValidationRuleAblation::_collect_values` (ind_validation_rule_ablation.cpp:14-50) on
the chunks of a table. -/
def _collect_values_of_chunks (_skip_bulk_insert : Bool) (column_id : Nat) :
    List (Option (List Segment)) → Finset Int → Option (Finset Int)
  | [], distinct_values => some distinct_values
  | none :: chunks, distinct_values =>
    _collect_values_of_chunks _skip_bulk_insert column_id chunks distinct_values
  | some chunk :: chunks, distinct_values =>
    match chunk[column_id]? with
    | none => none
    | some segment =>
      match _skip_bulk_insert, segment with
      | false, .value_segment values _ =>
        _collect_values_of_chunks _skip_bulk_insert column_id chunks
          (values.foldl (fun set value => insert value set) distinct_values)
      | false, .dictionary_segment dictionary _ =>
        _collect_values_of_chunks _skip_bulk_insert column_id chunks
          (dictionary.foldl (fun set value => insert value set) distinct_values)
      | _, _ =>
        _collect_values_of_chunks _skip_bulk_insert column_id chunks
          (segment.positions.foldl
            (fun set position =>
              match position with
              | some value => insert value set
              | none => set) distinct_values)

/-- `IndValidationRuleAblation::_collect_values` (ind_validation_rule_ablation.cpp:14-50). -/
def _collect_values (_skip_bulk_insert : Bool) (table : Table) (column_id : Nat) :
    Option (Finset Int) :=
  _collect_values_of_chunks _skip_bulk_insert column_id table.chunks ∅

/-- `ValidationStatus` (declared outside the sources), as far as the validator uses it. -/
inductive ValidationStatus
  | Uncertain
  | Valid
  | Invalid
deriving DecidableEq

/-- `KeyConstraintType` (declared outside the sources). -/
inductive KeyConstraintType
  | PRIMARY_KEY
  | UNIQUE
deriving DecidableEq

/-- `TableKeyConstraint(columns, key_type)` (declared outside the sources). -/
structure TableKeyConstraint where
  columns : Finset Nat
  key_type : KeyConstraintType
deriving DecidableEq

/-- `constraints[table] = constraint` on the map from tables to constraints. -/
def assign_constraint (constraints : List (Nat × TableKeyConstraint)) (table : Nat)
    (constraint : TableKeyConstraint) : List (Nat × TableKeyConstraint) :=
  (table, constraint) :: constraints.filter fun entry => entry.1 ≠ table

/-- The probing loop of `_perform_set_based_inclusion_check`
(ind_validation_rule_ablation.cpp:86-124) over the chunks of the included table. -/
def probe_included_chunks (_skip_bulk_insert : Bool) (including_values : Finset Int)
    (included_column_id : Nat) : List (Option (List Segment)) → Option ValidationStatus
  | [] => some .Valid
  | none :: chunks =>
    probe_included_chunks _skip_bulk_insert including_values included_column_id chunks
  | some chunk :: chunks =>
    match chunk[included_column_id]? with
    | none => none
    | some segment =>
      match _skip_bulk_insert, segment with
      | false, .dictionary_segment dictionary _ =>
        if dictionary.any fun value => decide (value ∉ including_values) then some .Invalid
        else probe_included_chunks _skip_bulk_insert including_values included_column_id chunks
      | _, _ =>
        if segment.positions.any fun position =>
            match position with
            | some value => decide (value ∉ including_values)
            | none => false
        then some .Invalid
        else probe_included_chunks _skip_bulk_insert including_values included_column_id chunks

/-- `IndValidationRuleAblation::_perform_set_based_inclusion_check<T>`
(ind_validation_rule_ablation.cpp:52-125) for a signed integral type `T` of `bits` bits: the
status and the map `constraints` after the call. `tables` is the memory holding the tables;
`none` is a failed `Assert`, a null dereference, or the signed overflow of `max - min`.
`static_cast<size_t>`, `row_count() - 1` and `size() - 1` are taken modulo `2^64`. -/
def _perform_set_based_inclusion_check (_skip_bulk_insert _skip_continuousness : Bool)
    (bits : Nat) (tables : List Table) (including_table including_column_id : Nat)
    (included_table included_column_id : Nat) (constraints : List (Nat × TableKeyConstraint))
    (including_min_max included_min_max : Option (Int × Int)) :
    Option (ValidationStatus × List (Nat × TableKeyConstraint)) :=
  match tables[including_table]?, tables[included_table]? with
  | some including, some included =>
    match _collect_values _skip_bulk_insert including including_column_id with
    | none => none
    | some including_values =>
      let probe := fun (constraints : List (Nat × TableKeyConstraint)) =>
        (probe_included_chunks _skip_bulk_insert including_values included_column_id
          included.chunks).map fun status => (status, constraints)
      if _skip_continuousness then probe constraints
      else if including_values = ∅ then none
      else
        match including_min_max with
        | none => probe constraints
        | some (min, max) =>
          if max - min < -(2 ^ (bits - 1) : Int) ∨ (2 ^ (bits - 1) : Int) ≤ max - min then none
          else
            let domain := ((max - min) % (2 ^ 64 : Int)).toNat
            let constraints :=
              if domain = (including.row_count + (2 ^ 64 - 1)) % 2 ^ 64 then
                assign_constraint constraints including_table
                  { columns := {including_column_id}, key_type := .UNIQUE }
              else constraints
            match included_min_max with
            | none => none
            | some (included_min, included_max) =>
              if domain = (including_values.card + (2 ^ 64 - 1)) % 2 ^ 64 ∧
                  min ≤ included_min ∧ max ≥ included_max then some (.Valid, constraints)
              else probe constraints
  | _, _ => none

/-- The values of a column that are not NULL. -/
def Table.column_values (table : Table) (column_id : Nat) : List Int :=
  (table.column column_id).filterMap id

/-! ## Join keys of an equi-join, as the claims describe them -/

/-- One equality predicate of a join between `left_key`, an expression of the left input, and
`right_key`, an expression of the right input; `flipped` tells that the predicate is written
`right_key = left_key`. -/
structure EquiJoinKey where
  left_key : Expression
  right_key : Expression
  flipped : Bool := false

/-- The predicate expression of an `EquiJoinKey`. -/
def EquiJoinKey.predicate (k : EquiJoinKey) : Expression :=
  if k.flipped then .binary_predicate .Equals k.right_key k.left_key
  else .binary_predicate .Equals k.left_key k.right_key

/-- The set `left_keys` of a list of join keys. -/
def left_keys (keys : List EquiJoinKey) : ExpressionUnorderedSet :=
  (keys.map (·.left_key)).toFinset

/-- The set `right_keys` of a list of join keys. -/
def right_keys (keys : List EquiJoinKey) : ExpressionUnorderedSet :=
  (keys.map (·.right_key)).toFinset

/-! ## Concrete plans used as witnesses -/

/-- Column 0 of node 1. -/
def colA : Expression := .lqp_column 1 0
/-- Column 0 of node 2. -/
def colB : Expression := .lqp_column 2 0
/-- Column 1 of node 2. -/
def colC : Expression := .lqp_column 2 1
/-- Column 1 of node 1. -/
def colD : Expression := .lqp_column 1 1

/-- The single-column order dependency `[a] |-> [b]`. -/
def od1 (a b : Expression) : OrderDependency :=
  ⟨[a], [b], List.cons_ne_nil _ _, List.cons_ne_nil _ _⟩

/-- An input whose only UCC is `{colA}` and whose only IND is `[colA] in [colB]`. -/
def inputA : InputNode :=
  { id := 1, output_expressions := [colA, colD],
    unique_column_combinations := {⟨{colA}⟩},
    order_dependencies := {od1 colD colA},
    inclusion_dependencies := {⟨[colA], [colB]⟩} }

/-- An input whose only UCC is `{colB}` and whose only IND is `[colB] in [colA]`. -/
def inputB : InputNode :=
  { id := 2, output_expressions := [colB, colC],
    unique_column_combinations := {⟨{colB}⟩},
    order_dependencies := {od1 colB colC},
    inclusion_dependencies := {⟨[colB], [colA]⟩} }

/-- The join `inputA JOIN inputB ON colA = colB` of the given mode. -/
def equiJoin (mode : JoinMode) : JoinNode :=
  { join_mode := mode, node_expressions := [.binary_predicate .Equals colA colB],
    left_input := some inputA, right_input := some inputB }

/-- The inner join `inputA JOIN inputB ON colD = colC` on two non-unique columns. -/
def nonUniqueKeyJoin : JoinNode :=
  { join_mode := .Inner, node_expressions := [.binary_predicate .Equals colD colC],
    left_input := some inputA, right_input := some inputB }

/-- A left outer join of `inputA` and `inputB` on the non-equality predicate `colA < colB`. -/
def leftJoinLessThan : JoinNode :=
  { join_mode := .Left, node_expressions := [.binary_predicate .LessThan colA colB],
    left_input := some inputA, right_input := some inputB }

/-- An input like `inputA` for which `has_matching_ind` always holds. -/
def inputAllInds (base : InputNode) : InputNode :=
  { base with has_matching_ind := fun _ _ _ => true }

/-- The join `inputA JOIN inputB ON colB = colA AND colD = colC` of the given mode: the first
predicate is written with the right-side operand first. -/
def twoKeyJoin (mode : JoinMode) : JoinNode :=
  { join_mode := mode,
    node_expressions :=
      [.binary_predicate .Equals colB colA, .binary_predicate .Equals colD colC],
    left_input := some (inputAllInds inputA), right_input := some (inputAllInds inputB) }

/-- The join keys of `twoKeyJoin`. -/
def twoKeys : List EquiJoinKey :=
  [{ left_key := colA, right_key := colB, flipped := true },
   { left_key := colD, right_key := colC }]

/-- The semi join `inputA SEMI JOIN inputB ON colA = colB AND colA = colC`: two equality
predicates that share the left key. -/
def sharedKeySemiJoin : JoinNode :=
  { join_mode := .Semi,
    node_expressions :=
      [.binary_predicate .Equals colA colB, .binary_predicate .Equals colA colC],
    left_input := some (inputAllInds inputA), right_input := some (inputAllInds inputB) }

/-- The inner join `L JOIN R ON colA = colB` where the left input has the only OD
`[colC] |-> [colA]` and the right input has the only OD `[colB] |-> [colC]` (the column `colC`
of node 2 is an output of both inputs, as with the plan `(T1 JOIN T2) JOIN T2` that shares the
node `T2`). -/
def sharedColumnJoin : JoinNode :=
  { join_mode := .Inner, node_expressions := [.binary_predicate .Equals colA colB],
    left_input := some { id := 3, output_expressions := [colA, colD, colB, colC],
                         order_dependencies := {od1 colC colA} },
    right_input := some { id := 2, output_expressions := [colB, colC],
                          order_dependencies := {od1 colB colC} } }

/-- The inner join `L JOIN R ON colA = colB` where the left input has the only OD
`[colB, colC] |-> [colA]` and the right input has the only OD `[colB] |-> [colA, colD]`: the
right key occurs in the ordering list of the left OD and the left key in the ordered list of
the right OD. -/
def crossingKeysJoin : JoinNode :=
  { join_mode := .Inner, node_expressions := [.binary_predicate .Equals colA colB],
    left_input := some
      { id := 3, output_expressions := [colA, colD, colB, colC],
        order_dependencies :=
          {⟨[colB, colC], [colA], List.cons_ne_nil _ _, List.cons_ne_nil _ _⟩} },
    right_input := some
      { id := 4, output_expressions := [colB, colC, colA, colD],
        order_dependencies :=
          {⟨[colB], [colA, colD], List.cons_ne_nil _ _, List.cons_ne_nil _ _⟩} } }

/-- The input `inputA` with the trivial FD `{colA} -> {colD}` of its UCC and the non-trivial FD
`{colD} -> {colA}`. -/
def fdInputA : InputNode :=
  { inputA with
    functional_dependencies := {⟨{colA}, {colD}⟩, ⟨{colD}, {colA}⟩},
    non_trivial_functional_dependencies := {⟨{colD}, {colA}⟩},
    is_column_nullable := fun c => decide (c = 1) }

/-- The input `inputB` with the trivial FD `{colB} -> {colC}` of its UCC and no other FD. -/
def fdInputB : InputNode :=
  { inputB with
    functional_dependencies := {⟨{colB}, {colC}⟩},
    non_trivial_functional_dependencies := ∅ }

/-- The join `fdInputA JOIN fdInputB` of the given mode on the given predicates. -/
def fdJoin (mode : JoinMode) (predicates : List Expression) : JoinNode :=
  { join_mode := mode, node_expressions := predicates,
    left_input := some fdInputA, right_input := some fdInputB }

/-- The inner join `fdInputB JOIN fdInputB ON colB = colB` of a shared input with itself (as
when a common table expression is joined with itself on its key): both inputs have the same
UCC set. -/
def sharedInputJoin : JoinNode :=
  { join_mode := .Inner, node_expressions := [.binary_predicate .Equals colB colB],
    left_input := some fdInputB, right_input := some fdInputB }

/-- The hash combination of older boost releases on 64-bit words. -/
def boost_hash_combine (seed h : Nat) : Nat :=
  (seed ^^^ (h + 0x9e3779b9 + (seed <<< 6) + (seed >>> 2))) % 2 ^ 64

/-- A plan with sharing: two stored tables (nodes 0 and 1), a semi join marked as
semi-reduction (node 2) of table 0 with table 1, a cross join (node 3) of table 0 with table 1,
and an inner join (node 4) of the nodes 2 and 3; the tables are reached along several paths. -/
def diamondPlan : Heap :=
  [ { type := .StoredTable, type_specific_data := 7 },
    { type := .StoredTable, type_specific_data := 8 },
    { type := .Join, join_mode := .Semi, _is_semi_reduction := true,
      node_expressions := [.binary_predicate .Equals (.lqp_column 0 0) (.lqp_column 1 0)],
      left_input := some 0, right_input := some 1 },
    { type := .Join, join_mode := .Cross, left_input := some 0, right_input := some 1 },
    { type := .Join, join_mode := .Inner,
      node_expressions := [.binary_predicate .Equals (.lqp_column 0 0) (.lqp_column 1 0)],
      left_input := some 2, right_input := some 3 } ]

/-- The semi-reduction (node 2) of `diamondPlan` as it is after a deep copy: marked, with its
reference to the reduced join unset. -/
def diamondSemiReduction : JoinNode :=
  { join_mode := .Semi, _is_semi_reduction := true,
    node_expressions := [.binary_predicate .Equals (.lqp_column 0 0) (.lqp_column 1 0)] }

/-- The semi join (node 2) of `diamondPlan` before it is marked as a semi-reduction. -/
def diamondSemiJoin : JoinNode :=
  { join_mode := .Semi,
    node_expressions := [.binary_predicate .Equals (.lqp_column 0 0) (.lqp_column 1 0)] }

/-- Exact arithmetic on natural numbers, with the binary logarithm rounded down, to evaluate the
cost formulas on small cardinalities. -/
def natArithmetic : FloatArithmetic Nat :=
  { zero := 0, one := 1, add := fun a b => a + b, sub := fun a b => a - b,
    mul := fun a b => a * b, lt := fun a b => decide (a < b),
    max := fun a b => if a < b then b else a, log := Nat.log2 }

/-- The predicate `a > 5 AND a < 10` on the column `a` of node 0; the conjunction is an
expression with the two comparisons as arguments. -/
def repeatedColumnPredicate : Expression :=
  .arithmetic 0 (.binary_predicate .GreaterThan (.lqp_column 0 0) (.value 5))
    (.binary_predicate .LessThan (.lqp_column 0 0) (.value 10))

/-- A predicate that references the three distinct columns 0, 1 and 2 of node 0. -/
def threeColumnPredicate : Expression :=
  .binary_predicate .LessThan (.arithmetic 0 (.lqp_column 0 0) (.lqp_column 0 1))
    (.lqp_column 0 2)

/-- A plan for the cost estimator: two stored tables (nodes 0 and 1), the predicate
`a > 5 AND a < 10` on table 0 (node 2), a cross join of the tables (node 3), a Union-all node
(node 4) and a position-list Union node (node 5) of the nodes 2 and 3, a predicate on three
columns (node 6) and a Limit node (node 7) on table 0. -/
def costPlan : Heap :=
  [ { type := .StoredTable, type_specific_data := 7 },
    { type := .StoredTable, type_specific_data := 8 },
    { type := .Predicate, node_expressions := [repeatedColumnPredicate], left_input := some 0 },
    { type := .Join, join_mode := .Cross, left_input := some 0, right_input := some 1 },
    { type := .Union, set_operation_mode := .All, left_input := some 2, right_input := some 3 },
    { type := .Union, set_operation_mode := .Positions, left_input := some 2,
      right_input := some 3 },
    { type := .Predicate, node_expressions := [threeColumnPredicate], left_input := some 0 },
    { type := .Limit, left_input := some 0 } ]

/-- Cardinality estimates for the nodes of `costPlan`: 10 and 4 rows in the tables, 3 rows
after each predicate, 40 after the join, 43 after a union, 5 after the limit. -/
def costPlanCardinality : Nat → Nat
  | 0 => 10
  | 1 => 4
  | 2 => 3
  | 3 => 40
  | 4 => 43
  | 5 => 43
  | 6 => 3
  | _ => 5

/-- A Sort node (node 1) on a stored table (node 0). -/
def sortPlan : Heap :=
  [ { type := .StoredTable, type_specific_data := 7 },
    { type := .Sort, left_input := some 0 } ]

/-- A Union node in Union-unique mode (node 2) and a Union node in position-list mode (node 3)
of two stored tables (nodes 0 and 1). -/
def unionPlan : Heap :=
  [ { type := .StoredTable, type_specific_data := 7 },
    { type := .StoredTable, type_specific_data := 8 },
    { type := .Union, set_operation_mode := .Unique, left_input := some 0,
      right_input := some 1 },
    { type := .Union, set_operation_mode := .Positions, left_input := some 0,
      right_input := some 1 } ]

/-- The inner join `inputA JOIN inputB ON colA = colB + 1`: the right operand of the equality
is a computed expression. -/
def computedKeyJoin : JoinNode :=
  { join_mode := .Inner,
    node_expressions := [.binary_predicate .Equals colA (.arithmetic 0 colB (.value 1))],
    left_input := some inputA, right_input := some inputB }

/-- Node 2 is set as left and right input of node 5, its left input is replaced by node 3 and
its right input is cleared. -/
def exampleCalls : List SetInputCall :=
  [.set_left_input 5 (some 2), .set_right_input 5 (some 2), .set_input 5 .Left (some 3),
    .set_input 5 .Right none]

/-- A stable sort by a comparator (sorting by insertion): one of the results `std::sort` may
give. -/
def stable_sort {α : Type} (comp : α → α → Bool) : List α → List α :=
  List.insertionSort fun a b => comp b a = false

/-- A chain of three Predicate nodes (node 1 on node 2 on node 3) on a stored table (node 0)
under a Root node (node 4); the predicates access 4, 1 and 2 columns. -/
def chainPlan : Heap :=
  [ { type := .StoredTable, type_specific_data := 7 },
    { type := .Predicate, left_input := some 2,
      node_expressions :=
        [.arithmetic 0 (.binary_predicate .LessThan (.lqp_column 0 0) (.lqp_column 0 1))
          (.binary_predicate .LessThan (.lqp_column 0 2) (.lqp_column 0 3))] },
    { type := .Predicate, left_input := some 3,
      node_expressions := [.binary_predicate .Equals (.lqp_column 0 0) (.value 5)] },
    { type := .Predicate, left_input := some 0,
      node_expressions := [.binary_predicate .LessThan (.lqp_column 0 0) (.lqp_column 0 1)] },
    { type := .Root, left_input := some 1 } ]

/-- Exact arithmetic on the multiples of 1/2, each held as its double: `n` stands for `n / 2`,
so that `1.0f` is 2 and the join penalty 1.5 is 3; a product is exact when its double is a
natural number. The logarithm is not used by the nodes of a predicate chain. -/
def halvesArithmetic : FloatArithmetic Nat :=
  { zero := 0, one := 2, add := fun a b => a + b, sub := fun a b => a - b,
    mul := fun a b => a * b / 2, lt := fun a b => decide (a < b),
    max := fun a b => if a < b then b else a, log := fun _ => 0 }

/-- Cardinality estimates for `chainPlan` in `halvesArithmetic`, the same for every order of
the chain: 10 rows in the table and after the nodes 1 and 3, no row after node 2. The weighted
costs of the nodes 1, 2 and 3 on the table are 50, 10 and 30. -/
def chainPlanCardinality (_ : Heap) : Nat → Nat
  | 2 => 0
  | _ => 20

/-- A chain of two Predicate nodes (node 1 on node 2) on a stored table (node 0) whose top
node is both the left and the right input of an inner join (node 3) under a Root node
(node 4). -/
def selfJoinPlan : Heap :=
  [ { type := .StoredTable, type_specific_data := 7 },
    { type := .Predicate, left_input := some 2,
      node_expressions := [.binary_predicate .Equals (.lqp_column 0 0) (.value 5)] },
    { type := .Predicate, left_input := some 0,
      node_expressions := [.binary_predicate .LessThan (.lqp_column 0 0) (.lqp_column 0 1)] },
    { type := .Join, join_mode := .Inner, left_input := some 1, right_input := some 1,
      node_expressions := [.binary_predicate .Equals (.lqp_column 0 0) (.lqp_column 0 1)] },
    { type := .Root, left_input := some 3 } ]

/-- Cardinality estimates for `selfJoinPlan` in `halvesArithmetic`: 10 rows everywhere; the
weighted costs of the nodes 1 and 2 on the table are 20 and 30. -/
def selfJoinPlanCardinality (_ : Heap) (_ : Nat) : Nat := 20

/-- A chain of two Predicate nodes and a semi join (node 6 on node 5 on node 4) on a stored
table (node 0) under a Root node (node 7); the right input of the semi join is a chain of two
Predicate nodes (node 3 on node 2) on a second stored table (node 1). -/
def semiJoinChainPlan : Heap :=
  [ { type := .StoredTable, type_specific_data := 7 },
    { type := .StoredTable, type_specific_data := 8 },
    { type := .Predicate, left_input := some 1,
      node_expressions := [.binary_predicate .Equals (.lqp_column 1 0) (.value 5)] },
    { type := .Predicate, left_input := some 2,
      node_expressions := [.binary_predicate .Equals (.lqp_column 1 1) (.value 6)] },
    { type := .Join, join_mode := .Semi, left_input := some 0, right_input := some 3,
      node_expressions := [.binary_predicate .Equals (.lqp_column 0 0) (.lqp_column 1 0)] },
    { type := .Predicate, left_input := some 4,
      node_expressions := [.binary_predicate .Equals (.lqp_column 0 1) (.value 7)] },
    { type := .Predicate, left_input := some 5,
      node_expressions := [.binary_predicate .Equals (.lqp_column 0 2) (.value 8)] },
    { type := .Root, left_input := some 6 } ]

/-- Cardinality estimates for `semiJoinChainPlan` in `halvesArithmetic`, the same for every
order of the chains: 100 rows in both tables, 60 and 30 rows after the nodes 2 and 3, 10 rows
after the semi join, 20 and 50 rows after the nodes 5 and 6. On their inputs the weighted costs
are 160 and 130 for the nodes 2 and 3, and 205, 120 and 150 for the nodes 4, 5 and 6. -/
def semiJoinChainPlanCardinality (_ : Heap) : Nat → Nat
  | 0 => 200
  | 1 => 200
  | 2 => 120
  | 3 => 60
  | 4 => 20
  | 5 => 40
  | _ => 100

/-- The input slots of the nodes of a plan. -/
def plan_links (heap : Heap) : List (Option Nat × Option Nat) :=
  heap.map fun n => (n.left_input, n.right_input)

/-- A row of a relation with the columns 0, 1 and 2 of one node: the value of a column
expression is the entry of its column, every other expression has the value 0. -/
def row_of (values : List Nat) : Expression → Nat
  | .lqp_column _ column_id => values.getD column_id 0
  | _ => 0

/-- Column 2 of node 1. -/
def colE : Expression := .lqp_column 1 2

/-- A relation in which the columns 0, 1 and 2 grow together. -/
def orderedRelation : List (Expression → Nat) :=
  [row_of [1, 10, 100], row_of [2, 10, 100], row_of [3, 30, 200]]

/-- The order dependencies `[col 0] |-> [col 1, col 2]` and `[col 1] |-> [col 2]` of node 1. -/
def chainedOds : OrderDependencies :=
  {⟨[colA], [colD, colE], List.cons_ne_nil _ _, List.cons_ne_nil _ _⟩, od1 colD colE}

/-- A hash of expressions for witnesses: the sum of the original nodes of the columns. -/
def node_sum_hash (expression : Expression) : Nat := expression.original_nodes.sum

/-- Column 0 of node 3. -/
def colF : Expression := .lqp_column 3 0

/-- The inner join `L JOIN R ON colA = colF` in which the left input has the UCCs `{colA}` and
`{colC}` and the right input has the UCCs `{colF}` and `{colC}`: both join keys are unique, and
the inputs share one UCC, as in the plan `(T1 JOIN T2) JOIN (T2 JOIN T3)` that shares the node
`T2`, where `colA` is a key of `T1`, `colC` a key of `T2` and `colF` a key of `T3`. -/
def overlappingUccJoin : JoinNode :=
  { join_mode := .Inner, node_expressions := [.binary_predicate .Equals colA colF],
    left_input := some { id := 4, output_expressions := [colA, colD, colB, colC],
                         unique_column_combinations := {⟨{colA}⟩, ⟨{colC}⟩} },
    right_input := some { id := 5, output_expressions := [colB, colC, colF],
                          unique_column_combinations := {⟨{colF}⟩, ⟨{colC}⟩} } }

/-- The inner join `inputA JOIN inputB ON colA = colB AND colA = colC`: two equality
predicates, each with one operand of each input, that share the left key. -/
def sharedKeyInnerJoin : JoinNode :=
  { join_mode := .Inner,
    node_expressions :=
      [.binary_predicate .Equals colA colB, .binary_predicate .Equals colA colC],
    left_input := some inputA, right_input := some inputB }

/-- A plan with two fan-outs: a stored table (node 0), a Predicate node (node 1) on it, a
Validate node (node 2) on node 1, a Predicate node (node 3) on node 2, a Sort node (node 4)
on node 3, an inner join (node 5) of the nodes 3 and 4, an inner join (node 6) of the nodes 5
and 1, and a Root node (node 7). Node 3 has the outputs 4 and 5, node 1 has the outputs 2
and 6. -/
def fanPlan : Heap :=
  [ { type := .StoredTable, type_specific_data := 7 },
    { type := .Predicate, left_input := some 0,
      node_expressions := [.binary_predicate .Equals (.lqp_column 0 0) (.value 5)] },
    { type := .Validate, left_input := some 1 },
    { type := .Predicate, left_input := some 2,
      node_expressions := [.binary_predicate .LessThan (.lqp_column 0 0) (.lqp_column 0 1)] },
    { type := .Sort, left_input := some 3, node_expressions := [.lqp_column 0 0] },
    { type := .Join, join_mode := .Inner, left_input := some 3, right_input := some 4,
      node_expressions := [.binary_predicate .Equals (.lqp_column 0 0) (.lqp_column 0 1)] },
    { type := .Join, join_mode := .Inner, left_input := some 5, right_input := some 1,
      node_expressions := [.binary_predicate .Equals (.lqp_column 0 0) (.lqp_column 0 2)] },
    { type := .Root, left_input := some 6 } ]

/-- One cost estimator (address 0) on one cardinality estimator (address 0) that has received
no call. -/
def callerEstimators : Estimators :=
  { cardinality_estimators := [[]], cost_estimators := [0] }

/-- Two tables of one integer column. Table 0 (the including table) has the three rows 1, 1
and 3 in one `ValueSegment` without NULLs; table 1 (the included table) has the rows 1 and
3. -/
def duplicateKeyTables : List Table :=
  [ { chunks := [some [.value_segment [1, 1, 3] [false, false, false]]] },
    { chunks := [some [.value_segment [1, 3] [false, false]]] } ]

/-- A chain of three Predicate nodes (node 2 on node 1 on node 3) on a stored table (node 0);
the top node 2 is both the left and the right input of an inner join (node 4, a self-join of
the filtered table) under a Root node (node 5). The predicates of the nodes 1, 2 and 3 access
4, 1 and 2 columns. -/
def sharedTopChainPlan : Heap :=
  [ { type := .StoredTable, type_specific_data := 7 },
    { type := .Predicate, left_input := some 3,
      node_expressions :=
        [.arithmetic 0 (.binary_predicate .LessThan (.lqp_column 0 0) (.lqp_column 0 1))
          (.binary_predicate .LessThan (.lqp_column 0 2) (.lqp_column 0 3))] },
    { type := .Predicate, left_input := some 1,
      node_expressions := [.binary_predicate .Equals (.lqp_column 0 0) (.value 5)] },
    { type := .Predicate, left_input := some 0,
      node_expressions := [.binary_predicate .LessThan (.lqp_column 0 0) (.lqp_column 0 1)] },
    { type := .Join, join_mode := .Inner, left_input := some 2, right_input := some 2,
      node_expressions := [.binary_predicate .Equals (.lqp_column 0 0) (.lqp_column 0 1)] },
    { type := .Root, left_input := some 4 } ]

/-- The inner join `L JOIN R ON colB = colA`, written with the right-side operand first: `colA`
is an output of the left input only, `colB` is an output of both inputs (the column of node 2
reaches the join on both sides, as in the plan `(T1 JOIN T2) JOIN T2` that shares the node
`T2`). The left input has the IND `[colA] in [colB]`, and the right input has a matching IND
for the left key `colA` and the right key `colB`, and for no other keys. -/
def sharedOutputKeyJoin : JoinNode :=
  { join_mode := .Inner, node_expressions := [.binary_predicate .Equals colB colA],
    left_input := some
      { id := 3, output_expressions := [colA, colD, colB, colC],
        inclusion_dependencies := {⟨[colA], [colB]⟩} },
    right_input := some
      { id := 2, output_expressions := [colB, colC],
        has_matching_ind := fun foreign_keys keys _ =>
          decide (foreign_keys = {colA} ∧ keys = {colB}) } }

/-! ## Helper facts on expression lists -/

theorem find_expression_idx_isSome (e : Expression) (es : List Expression) :
    (find_expression_idx e es).isSome = true ↔ e ∈ es := by
  unfold find_expression_idx
  by_cases h : e ∈ es
  · simp [List.indexOf_lt_length.mpr h, h]
  · have : ¬ List.indexOf e es < es.length := fun hlt => h (List.indexOf_lt_length.mp hlt)
    simp [this, h]

/-! ## Unique column combinations of a join -/

theorem contains_matching_ucc_empty (e : ExpressionUnorderedSet) :
    contains_matching_unique_column_combination ∅ e = false := by
  simp [contains_matching_unique_column_combination]

theorem outer_or_inner_not_cross {m : JoinMode}
    (h : m = .Inner ∨ m = .Left ∨ m = .Right ∨ m = .FullOuter) :
    m ≠ .Cross ∧ is_semi_or_anti_join m = false := by
  rcases h with h | h | h | h <;> subst h <;> exact ⟨by decide, by decide⟩

theorem ucc_of_regular_join (j : JoinNode) (l r : InputNode)
    (hmode : j.join_mode = .Inner ∨ j.join_mode = .Left ∨ j.join_mode = .Right ∨
      j.join_mode = .FullOuter)
    (hl : j.left_input = some l) (hr : j.right_input = some r) :
    j.unique_column_combinations =
      some (j._output_unique_column_combinations l.unique_column_combinations
        r.unique_column_combinations) := by
  obtain ⟨h1, h2⟩ := outer_or_inner_not_cross hmode
  simp [JoinNode.unique_column_combinations, h1, h2, hl, hr]

/-- C3: for a join of mode Inner, Left, Right or FullOuter with exactly one predicate, an
equality `lo = ro`, where LU says that the left input has a UCC matching `{lo}` and RU that the
right input has a UCC matching `{ro}`: `unique_column_combinations()` is the union of both
inputs' UCCs when LU and RU hold, the right input's UCCs when only LU holds, and the left
input's UCCs when only RU holds. -/
theorem join_ucc_single_equality (j : JoinNode) (l r : InputNode) (lo ro : Expression)
    (hmode : j.join_mode = .Inner ∨ j.join_mode = .Left ∨ j.join_mode = .Right ∨
      j.join_mode = .FullOuter)
    (hpred : j.join_predicates = [.binary_predicate .Equals lo ro])
    (hl : j.left_input = some l) (hr : j.right_input = some r) :
    (contains_matching_unique_column_combination l.unique_column_combinations {lo} = true →
      contains_matching_unique_column_combination r.unique_column_combinations {ro} = true →
      j.unique_column_combinations =
        some (l.unique_column_combinations ∪ r.unique_column_combinations)) ∧
    (contains_matching_unique_column_combination l.unique_column_combinations {lo} = true →
      contains_matching_unique_column_combination r.unique_column_combinations {ro} = false →
      j.unique_column_combinations = some r.unique_column_combinations) ∧
    (contains_matching_unique_column_combination l.unique_column_combinations {lo} = false →
      contains_matching_unique_column_combination r.unique_column_combinations {ro} = true →
      j.unique_column_combinations = some l.unique_column_combinations) := by
  rw [ucc_of_regular_join j l r hmode hl hr]
  have hne : ∀ (u : UniqueColumnCombinations) (e : ExpressionUnorderedSet),
      contains_matching_unique_column_combination u e = true → u ≠ ∅ := by
    intro u e h hu
    rw [hu, contains_matching_ucc_empty] at h
    exact Bool.false_ne_true h
  refine ⟨fun hL hR => ?_, fun hL hR => ?_, fun hL hR => ?_⟩
  · have h1 := hne _ _ hL
    have h2 := hne _ _ hR
    simp [JoinNode._output_unique_column_combinations, hpred, as_binary_predicate, hL, hR, h1, h2]
  · have h1 := hne _ _ hL
    simp [JoinNode._output_unique_column_combinations, hpred, as_binary_predicate, hL, hR, h1]
  · have h2 := hne _ _ hR
    simp [JoinNode._output_unique_column_combinations, hpred, as_binary_predicate, hL, hR, h2]

/-- Witness of C3 on `inputA JOIN inputB ON colA = colB` (Left outer), where both join keys are
unique. -/
theorem join_ucc_single_equality_witness :
    (equiJoin .Left).unique_column_combinations = some {⟨{colA}⟩, ⟨{colB}⟩} :=
  (join_ucc_single_equality (equiJoin .Left) inputA inputB colA colB (by decide) rfl rfl rfl).1
    (by decide) (by decide)

/-- C4: `unique_column_combinations()` of a join is empty in every "no guarantee" case: a Cross
join; an Inner, Left, Right or FullOuter join with more than one predicate; such a join whose
single predicate is not an equality; and such a join with a single equality predicate `lo = ro`
where neither `lo` is unique on the left input nor `ro` is unique on the right input. -/
theorem join_ucc_no_guarantee (j : JoinNode)
    (hcase : j.join_mode = .Cross ∨
      ∃ l r : InputNode, j.left_input = some l ∧ j.right_input = some r ∧
        (j.join_mode = .Inner ∨ j.join_mode = .Left ∨ j.join_mode = .Right ∨
          j.join_mode = .FullOuter) ∧
        (1 < j.join_predicates.length ∨
          (∃ p, j.join_predicates = [p] ∧ ∀ lo ro, p ≠ .binary_predicate .Equals lo ro) ∨
          (∃ lo ro, j.join_predicates = [.binary_predicate .Equals lo ro] ∧
            contains_matching_unique_column_combination l.unique_column_combinations {lo} =
              false ∧
            contains_matching_unique_column_combination r.unique_column_combinations {ro} =
              false))) :
    j.unique_column_combinations = some ∅ := by
  rcases hcase with h | ⟨l, r, hl, hr, hmode, hcase⟩
  · simp [JoinNode.unique_column_combinations, h]
  rw [ucc_of_regular_join j l r hmode hl hr]
  rcases hcase with hlen | ⟨p, hp, hne⟩ | ⟨lo, ro, hp, hL, hR⟩
  · simp [JoinNode._output_unique_column_combinations, hlen]
  · cases p with
    | binary_predicate c a b =>
      have hc : c ≠ .Equals := fun h => hne a b (by rw [h])
      simp [JoinNode._output_unique_column_combinations, hp, as_binary_predicate, hc]
    | lqp_column n c => simp [JoinNode._output_unique_column_combinations, hp, as_binary_predicate]
    | value v => simp [JoinNode._output_unique_column_combinations, hp, as_binary_predicate]
    | arithmetic o a b =>
      simp [JoinNode._output_unique_column_combinations, hp, as_binary_predicate]
    | lqp_subquery q arguments =>
      simp [JoinNode._output_unique_column_combinations, hp, as_binary_predicate]
  · simp [JoinNode._output_unique_column_combinations, hp, as_binary_predicate, hL, hR]

/-- Witness of C4: the inner join `inputA JOIN inputB ON colD = colC`, whose keys are unique on
neither side although both inputs have UCCs. -/
theorem join_ucc_no_guarantee_witness :
    nonUniqueKeyJoin.unique_column_combinations = some ∅ :=
  join_ucc_no_guarantee nonUniqueKeyJoin
    (Or.inr ⟨inputA, inputB, rfl, rfl, Or.inl rfl,
      Or.inr (Or.inr ⟨colD, colC, rfl, by decide, by decide⟩)⟩)

/-! ## Semi and anti joins forward the left input -/

/-- C5: for a join of mode Semi, AntiNullAsTrue or AntiNullAsFalse, whatever the right input
and the predicates are, `unique_column_combinations()` is the left input's
`unique_column_combinations()` and `order_dependencies()` is the left input's
`order_dependencies()`. -/
theorem semi_anti_join_forwards_left (j : JoinNode) (l : InputNode)
    (is_alive : Nat → Bool) (lqp_equals : Nat → Nat → Bool)
    (hmode : j.join_mode = .Semi ∨ j.join_mode = .AntiNullAsTrue ∨
      j.join_mode = .AntiNullAsFalse)
    (hl : j.left_input = some l) :
    j.unique_column_combinations = some l.unique_column_combinations ∧
    j.order_dependencies is_alive lqp_equals = some l.order_dependencies := by
  have h1 : j.join_mode ≠ .Cross ∧ is_semi_or_anti_join j.join_mode = true := by
    rcases hmode with h | h | h <;> rw [h] <;> exact ⟨by decide, by decide⟩
  constructor
  · simp [JoinNode.unique_column_combinations, h1.1, h1.2,
      JoinNode._forward_left_unique_column_combinations, hl]
  · simp [JoinNode.order_dependencies, h1.2, JoinNode._forward_left_order_dependencies, hl]

/-- Witness of C5: an anti join of `inputA` with no right input at all and a non-equality
predicate. -/
theorem semi_anti_join_forwards_left_witness :
    JoinNode.unique_column_combinations
        { join_mode := .AntiNullAsTrue,
          node_expressions := [.binary_predicate .LessThan colA colB],
          left_input := some inputA } = some inputA.unique_column_combinations ∧
    JoinNode.order_dependencies
        { join_mode := .AntiNullAsTrue,
          node_expressions := [.binary_predicate .LessThan colA colB],
          left_input := some inputA } (fun _ => true) (fun a b => a == b) =
      some inputA.order_dependencies :=
  semi_anti_join_forwards_left _ inputA _ _ (Or.inr (Or.inl rfl)) rfl

/-! ## Order dependencies of an inner equi-join -/

theorem OrderDependency.eq_of_lists {a b : OrderDependency}
    (h1 : a.ordering_expressions = b.ordering_expressions)
    (h2 : a.ordered_expressions = b.ordered_expressions) : a = b := by
  cases a; cases b; simp only [OrderDependency.mk.injEq]; exact ⟨h1, h2⟩

theorem mem_collect_transitive_ods {S : OrderDependencies} {t : OrderDependency} :
    t ∈ collect_transitive_ods S ↔
      ∃ od ∈ S, ∃ c ∈ S, emits_transitive_od S od c = true ∧ transitive_od od c = t := by
  simp only [collect_transitive_ods, Finset.mem_biUnion, Finset.mem_image, Finset.mem_filter]
  constructor
  · rintro ⟨od, hod, c, ⟨hc, he⟩, rfl⟩; exact ⟨od, hod, c, hc, he, rfl⟩
  · rintro ⟨od, hod, c, hc, he, rfl⟩; exact ⟨od, hod, c, ⟨hc, he⟩, rfl⟩

theorem emits_transitive_od_not_mem {S : OrderDependencies} {od c : OrderDependency}
    (h : emits_transitive_od S od c = true) : transitive_od od c ∉ S := by
  intro hmem
  simp [emits_transitive_od, hmem] at h

theorem collect_transitive_ods_disjoint (S : OrderDependencies) :
    ∀ t ∈ collect_transitive_ods S, t ∉ S := by
  intro t ht
  obtain ⟨od, _, c, _, he, rfl⟩ := mem_collect_transitive_ods.mp ht
  exact emits_transitive_od_not_mem he

/-- Every OD of a pass pairs an ordering list and an ordered list that already occur. -/
theorem collect_transitive_ods_lists {A B : Finset (List Expression)} {S : OrderDependencies}
    (hS : ∀ od ∈ S, od.ordering_expressions ∈ A ∧ od.ordered_expressions ∈ B) :
    ∀ od ∈ S ∪ collect_transitive_ods S,
      od.ordering_expressions ∈ A ∧ od.ordered_expressions ∈ B := by
  intro od hod
  rcases Finset.mem_union.mp hod with h | h
  · exact hS od h
  · obtain ⟨o, ho, c, hc, _, rfl⟩ := mem_collect_transitive_ods.mp h
    exact ⟨(hS o ho).1, (hS c hc).2⟩

theorem card_le_of_lists {A B : Finset (List Expression)} {S : OrderDependencies}
    (hS : ∀ od ∈ S, od.ordering_expressions ∈ A ∧ od.ordered_expressions ∈ B) :
    S.card ≤ A.card * B.card := by
  rw [← Finset.card_product]
  apply Finset.card_le_card_of_injOn
    (fun od => (od.ordering_expressions, od.ordered_expressions))
  · intro od hod
    exact Finset.mem_product.mpr (hS od hod)
  · intro a _ b _ hab
    simp only [Prod.mk.injEq] at hab
    exact OrderDependency.eq_of_lists hab.1 hab.2

/-- The bounded loop returns once the number of passes exceeds the number of pairs that are
still missing; its result contains the input and is closed (a further pass finds nothing). -/
theorem build_transitive_od_closure_loop_terminates (A B : Finset (List Expression)) :
    ∀ (passes : Nat) (S : OrderDependencies),
      (∀ od ∈ S, od.ordering_expressions ∈ A ∧ od.ordered_expressions ∈ B) →
      A.card * B.card < passes + S.card →
      ∃ R, build_transitive_od_closure_loop passes S = some R ∧ S ⊆ R ∧
        collect_transitive_ods R = ∅ := by
  intro passes
  induction passes with
  | zero =>
    intro S hS hlt
    have := card_le_of_lists hS
    omega
  | succ n ih =>
    intro S hS hlt
    by_cases hc : collect_transitive_ods S = ∅
    · exact ⟨S, by simp [build_transitive_od_closure_loop, hc], Finset.Subset.refl _, hc⟩
    · have hdisj : Disjoint S (collect_transitive_ods S) :=
        Finset.disjoint_right.mpr (collect_transitive_ods_disjoint S)
      have hcard : (S ∪ collect_transitive_ods S).card =
          S.card + (collect_transitive_ods S).card := Finset.card_union_of_disjoint hdisj
      have hpos : 0 < (collect_transitive_ods S).card :=
        Finset.card_pos.mpr (Finset.nonempty_iff_ne_empty.mpr hc)
      obtain ⟨R, hR, hsub, hclosed⟩ :=
        ih (S ∪ collect_transitive_ods S) (collect_transitive_ods_lists hS) (by omega)
      refine ⟨R, ?_, fun x hx => hsub (Finset.mem_union_left _ hx), hclosed⟩
      simp [build_transitive_od_closure_loop, hc, hR]

/-- `build_transitive_od_closure` always returns: its result contains the given ODs and is a
fixed point of the pass. -/
theorem build_transitive_od_closure_terminates (S : OrderDependencies) :
    ∃ R, build_transitive_od_closure S = some R ∧ S ⊆ R ∧ collect_transitive_ods R = ∅ := by
  apply build_transitive_od_closure_loop_terminates
    (S.image (·.ordering_expressions)) (S.image (·.ordered_expressions))
  · intro od hod
    exact ⟨Finset.mem_image_of_mem _ hod, Finset.mem_image_of_mem _ hod⟩
  · have h1 : (S.image (·.ordering_expressions)).card ≤ S.card := Finset.card_image_le
    have h2 : (S.image (·.ordered_expressions)).card ≤ S.card := Finset.card_image_le
    have := Nat.mul_le_mul h1 h2
    omega

/-- In a closed set, two ODs `A |-> B` and `B |-> C` give `A |-> C` unless an expression of
`A` occurs in `C`. -/
theorem closed_transitive {R : OrderDependencies} (hclosed : collect_transitive_ods R = ∅)
    {od c : OrderDependency} (hod : od ∈ R) (hc : c ∈ R)
    (hmatch : c.ordering_expressions = od.ordered_expressions)
    (hfresh : ∀ e ∈ od.ordering_expressions, e ∉ c.ordered_expressions) :
    transitive_od od c ∈ R := by
  by_contra hnot
  have hemit : emits_transitive_od R od c = true := by
    have hany : (od.ordering_expressions.any fun expression =>
        (find_expression_idx expression c.ordered_expressions).isSome) = false := by
      rw [Bool.eq_false_iff]
      intro h
      obtain ⟨e, he, hsome⟩ := List.any_eq_true.mp h
      exact hfresh e he ((find_expression_idx_isSome _ _).mp hsome)
    have hany' : ((transitive_od od c).ordering_expressions.any fun expression =>
        (find_expression_idx expression c.ordered_expressions).isSome) = false := hany
    simp [emits_transitive_od, hmatch, first_expressions_match, hnot, hany']
  have : transitive_od od c ∈ collect_transitive_ods R :=
    mem_collect_transitive_ods.mpr ⟨od, hod, c, hc, hemit, rfl⟩
  rw [hclosed] at this
  exact absurd this (Finset.not_mem_empty _)

/-- C6 (counterexample): in the inner join `sharedColumnJoin` on `colA = colB`, whose keys are
columns of the distinct nodes 1 and 2, the left input has the OD `[colC] |-> [colA]` and the
right input has the OD `[colB] |-> [colC]`, but the result of `order_dependencies()` does not
contain `[colC] |-> [colC]`: the closure skips an OD whose ordering expression also occurs
among its ordered expressions (order_dependency.cpp:90-97). -/
theorem inner_join_od_closure_skips_shared_expression :
    sharedColumnJoin.join_mode = .Inner ∧
    sharedColumnJoin.join_predicates = [.binary_predicate .Equals colA colB] ∧
    (∃ l r, sharedColumnJoin.left_input = some l ∧ sharedColumnJoin.right_input = some r ∧
      od1 colC colA ∈ l.order_dependencies ∧ od1 colB colC ∈ r.order_dependencies) ∧
    ∃ ods ∈ sharedColumnJoin.order_dependencies (fun _ => true) (fun n m => n == m),
      od1 colC colC ∉ ods :=
  ⟨rfl, rfl, ⟨_, _, rfl, rfl, by decide, by decide⟩, by decide⟩

/-- The side condition on the join keys in the amended C6 is needed: in `crossingKeysJoin` no
expression of `x = [colB, colC]` occurs in `y = [colA, colD]`, but the right key occurs in `x`
and the left key in `y`, and `x |-> y` is not derived. -/
theorem inner_join_od_closure_skips_crossing_keys :
    ∃ ods ∈ crossingKeysJoin.order_dependencies (fun _ => true) (fun n m => n == m),
      (⟨[colB, colC], [colA, colD], List.cons_ne_nil _ _, List.cons_ne_nil _ _⟩ :
        OrderDependency) ∉ ods := by
  decide

/-- C6 (amended): for an Inner join with a single equality predicate `a = b` whose operands
are live columns of original nodes that are not equal under `operator==`: if the left input has
the OD `x |-> [a]`, the right input has the OD `[b] |-> y`, no expression of `x` occurs in `y`,
and `b` does not occur in `x` or `a` does not occur in `y`, then `order_dependencies()` returns
a set that contains the OD `x |-> y`. -/
theorem inner_join_transitive_od (j : JoinNode) (l r : InputNode)
    (is_alive : Nat → Bool) (lqp_equals : Nat → Nat → Bool)
    (n1 c1 n2 c2 : Nat) (x y : List Expression) (hx : x ≠ []) (hy : y ≠ [])
    (hmode : j.join_mode = .Inner)
    (hpred : j.join_predicates =
      [.binary_predicate .Equals (.lqp_column n1 c1) (.lqp_column n2 c2)])
    (hl : j.left_input = some l) (hr : j.right_input = some r)
    (halive1 : is_alive n1 = true) (halive2 : is_alive n2 = true)
    (hdistinct : lqp_equals n1 n2 = false)
    (hxa : (⟨x, [.lqp_column n1 c1], hx, List.cons_ne_nil _ _⟩ : OrderDependency) ∈
      l.order_dependencies)
    (hby : (⟨[.lqp_column n2 c2], y, List.cons_ne_nil _ _, hy⟩ : OrderDependency) ∈
      r.order_dependencies)
    (hxy : ∀ e ∈ x, e ∉ y)
    (hab : Expression.lqp_column n2 c2 ∉ x ∨ Expression.lqp_column n1 c1 ∉ y) :
    ∃ ods, j.order_dependencies is_alive lqp_equals = some ods ∧
      (⟨x, y, hx, hy⟩ : OrderDependency) ∈ ods := by
  obtain ⟨R, hR, hsub, hclosed⟩ := build_transitive_od_closure_terminates
    (insert
      ⟨expression_vector (.lqp_column n2 c2), expression_vector (.lqp_column n1 c1),
        List.cons_ne_nil _ _, List.cons_ne_nil _ _⟩
      (insert
        ⟨expression_vector (.lqp_column n1 c1), expression_vector (.lqp_column n2 c2),
          List.cons_ne_nil _ _, List.cons_ne_nil _ _⟩
        (l.order_dependencies ∪ r.order_dependencies)))
  refine ⟨R, ?_, ?_⟩
  · simp [JoinNode.order_dependencies, hmode, is_semi_or_anti_join, hl, hr, hpred,
      as_binary_predicate, JoinNode.get_original_node, halive1, halive2, hdistinct, hR]
  · have hxa' : (⟨x, [.lqp_column n1 c1], hx, List.cons_ne_nil _ _⟩ : OrderDependency) ∈ R :=
      hsub (by simp [hxa])
    have hby' : (⟨[.lqp_column n2 c2], y, List.cons_ne_nil _ _, hy⟩ : OrderDependency) ∈ R :=
      hsub (by simp [hby])
    have hab' : (⟨[.lqp_column n1 c1], [.lqp_column n2 c2], List.cons_ne_nil _ _,
        List.cons_ne_nil _ _⟩ : OrderDependency) ∈ R :=
      hsub (by simp [expression_vector])
    rcases hab with hb | ha
    · have hxb := closed_transitive hclosed hxa' hab' rfl
        (by intro e he hmem; simp only [List.mem_singleton] at hmem; exact hb (hmem ▸ he))
      exact closed_transitive hclosed hxb hby' rfl hxy
    · have hay := closed_transitive hclosed hab' hby' rfl
        (by intro e he hmem; simp only [List.mem_singleton] at he; exact ha (he ▸ hmem))
      exact closed_transitive hclosed hxa' hay rfl hxy

/-- Witness of C6 (amended): in `inputA JOIN inputB ON colA = colB` the ODs `[colD] |-> [colA]`
of the left input and `[colB] |-> [colC]` of the right input give `[colD] |-> [colC]`. -/
theorem inner_join_transitive_od_witness :
    ∃ ods, (equiJoin .Inner).order_dependencies (fun _ => true) (fun n m => n == m) = some ods ∧
      od1 colD colC ∈ ods :=
  inner_join_transitive_od (equiJoin .Inner) inputA inputB (fun _ => true) (fun n m => n == m)
    1 0 2 0 [colD] [colC] (List.cons_ne_nil _ _) (List.cons_ne_nil _ _) rfl rfl rfl rfl rfl rfl
    (by decide) (by decide) (by decide) (by decide) (by decide)

/-! ## Inclusion dependencies of a join -/

/-- C7: for a join of mode Cross or FullOuter, `inclusion_dependencies()` is the union of the
left input's and the right input's inclusion dependencies. -/
theorem cross_full_outer_join_inds (j : JoinNode) (l r : InputNode)
    (hmode : j.join_mode = .Cross ∨ j.join_mode = .FullOuter)
    (hl : j.left_input = some l) (hr : j.right_input = some r) :
    j.inclusion_dependencies = some (l.inclusion_dependencies ∪ r.inclusion_dependencies) := by
  rcases hmode with h | h <;> simp [JoinNode.inclusion_dependencies, h, hl, hr]

/-- Witness of C7: the cross join of `inputA` and `inputB`. -/
theorem cross_full_outer_join_inds_witness :
    JoinNode.inclusion_dependencies
        { join_mode := .Cross, left_input := some inputA, right_input := some inputB } =
      some {⟨[colA], [colB]⟩, ⟨[colB], [colA]⟩} :=
  cross_full_outer_join_inds _ inputA inputB (Or.inl rfl) rfl rfl

/-- C8 (the code at the failing input): for the left outer join `inputA LEFT JOIN inputB ON
colA < colB` the left input has the IND `[colA] in [colB]`, and `inclusion_dependencies()`
returns the empty set: the `return InclusionDependencies{}` for a non-equality predicate
(join_node.cpp:264) drops the INDs of the preserved side that were inserted at
join_node.cpp:248-252. -/
theorem left_join_non_equality_drops_left_inds :
    leftJoinLessThan.join_mode = .Left ∧
    (∃ l, leftJoinLessThan.left_input = some l ∧
      (⟨[colA], [colB]⟩ : InclusionDependency) ∈ l.inclusion_dependencies) ∧
    leftJoinLessThan.inclusion_dependencies = some ∅ :=
  ⟨rfl, ⟨inputA, rfl, by decide⟩, by decide⟩

/-- The key-mapping loop on predicates that are all equalities with unambiguous sides: the
left-side operands are added to the first set and the right-side operands to the second. -/
theorem map_join_keys_of_equi_keys (left_expressions : List Expression) :
    ∀ (keys : List EquiJoinKey) (lk rk : ExpressionUnorderedSet),
      (∀ k ∈ keys, k.left_key ∈ left_expressions) →
      (∀ k ∈ keys, k.flipped = true → k.right_key ∉ left_expressions) →
      JoinNode.map_join_keys left_expressions (keys.map EquiJoinKey.predicate) (lk, rk) =
        some (lk ∪ left_keys keys, rk ∪ right_keys keys) := by
  intro keys
  induction keys with
  | nil => intro lk rk _ _; simp [JoinNode.map_join_keys, left_keys, right_keys]
  | cons k rest ih =>
    intro lk rk hleft hsides
    have hk := hleft k (List.mem_cons_self _ _)
    have ih1 := fun a b => ih a b (fun q hq => hleft q (List.mem_cons_of_mem _ hq))
      (fun q hq => hsides q (List.mem_cons_of_mem _ hq))
    have hunion : ∀ (a : Expression) (t : ExpressionUnorderedSet) (es : List Expression),
        insert a t ∪ es.toFinset = t ∪ (a :: es).toFinset := by
      intro a t es
      ext z
      simp only [Finset.mem_union, Finset.mem_insert, List.toFinset_cons]
      tauto
    by_cases hf : k.flipped = true
    · have hr := hsides k (List.mem_cons_self _ _) hf
      have h1 : (find_expression_idx k.right_key left_expressions).isSome = false := by
        rw [Bool.eq_false_iff]
        intro h
        exact hr ((find_expression_idx_isSome _ _).mp h)
      simp only [List.map_cons, EquiJoinKey.predicate, hf, if_true, JoinNode.map_join_keys,
        as_binary_predicate, ne_eq, not_true_eq_false, if_false, h1, Bool.false_eq_true]
      rw [ih1]
      simp only [left_keys, right_keys, List.map_cons, hunion]
    · have h1 : (find_expression_idx k.left_key left_expressions).isSome = true :=
        (find_expression_idx_isSome _ _).mpr hk
      simp only [List.map_cons, EquiJoinKey.predicate, hf, if_false, JoinNode.map_join_keys,
        as_binary_predicate, ne_eq, not_true_eq_false, h1, if_true, Bool.false_eq_true]
      rw [ih1]
      simp only [left_keys, right_keys, List.map_cons, hunion]

/-- The key-mapping loop returns early as soon as one predicate is not an equality. -/
theorem map_join_keys_of_non_equality (left_expressions : List Expression) :
    ∀ (predicates : List Expression) (sets : ExpressionUnorderedSet × ExpressionUnorderedSet),
      (∃ p ∈ predicates, ∀ lo ro, p ≠ .binary_predicate .Equals lo ro) →
      JoinNode.map_join_keys left_expressions predicates sets = none := by
  intro predicates
  induction predicates with
  | nil => intro _ h; simp at h
  | cons e rest ih =>
    intro sets h
    obtain ⟨lk, rk⟩ := sets
    cases e with
    | binary_predicate c a b =>
      by_cases hc : c = .Equals
      · subst hc
        have hrest : ∃ p ∈ rest, ∀ lo ro, p ≠ .binary_predicate .Equals lo ro := by
          obtain ⟨p, hp, hne⟩ := h
          rcases List.mem_cons.mp hp with hp | hp
          · exact absurd hp (hne a b)
          · exact ⟨p, hp, hne⟩
        simp only [JoinNode.map_join_keys, as_binary_predicate, ne_eq, not_true_eq_false,
          if_false]
        split <;> exact ih _ hrest
      · simp [JoinNode.map_join_keys, as_binary_predicate, hc]
    | lqp_column n c => simp [JoinNode.map_join_keys, as_binary_predicate]
    | value v => simp [JoinNode.map_join_keys, as_binary_predicate]
    | arithmetic o a b => simp [JoinNode.map_join_keys, as_binary_predicate]
    | lqp_subquery q arguments => simp [JoinNode.map_join_keys, as_binary_predicate]

theorem left_keys_card (keys : List EquiJoinKey) (h : (keys.map (·.left_key)).Nodup) :
    (left_keys keys).card = (keys.map EquiJoinKey.predicate).length := by
  simp [left_keys, List.toFinset_card_of_nodup h]

theorem right_keys_card (keys : List EquiJoinKey) (h : (keys.map (·.right_key)).Nodup) :
    (right_keys keys).card = (keys.map EquiJoinKey.predicate).length := by
  simp [right_keys, List.toFinset_card_of_nodup h]

/-- The inclusion dependencies of an Inner join when the side of every operand is found by the
code: for predicates that are all equalities between one expression of the left input and one
expression of the right input, written in either order (an operand written first that is the
right-side one is not also an output of the left input), with pairwise distinct left keys and
pairwise distinct right keys, `inclusion_dependencies()` is (the left
input's INDs if `right_input.has_matching_ind(left_keys, right_keys, left_input)`, else nothing)
united with (the right input's INDs if
`left_input.has_matching_ind(right_keys, left_keys, right_input)`, else nothing). -/
theorem inner_join_inds (j : JoinNode) (l r : InputNode) (keys : List EquiJoinKey)
    (hmode : j.join_mode = .Inner)
    (hl : j.left_input = some l) (hr : j.right_input = some r)
    (hpreds : j.join_predicates = keys.map EquiJoinKey.predicate)
    (hleft : ∀ k ∈ keys, k.left_key ∈ l.output_expressions)
    (hsides : ∀ k ∈ keys, k.flipped = true → k.right_key ∉ l.output_expressions)
    (hdl : (keys.map (·.left_key)).Nodup) (hdr : (keys.map (·.right_key)).Nodup) :
    j.inclusion_dependencies =
      some ((if r.has_matching_ind (left_keys keys) (right_keys keys) l.id = true
              then l.inclusion_dependencies else ∅) ∪
            (if l.has_matching_ind (right_keys keys) (left_keys keys) r.id = true
              then r.inclusion_dependencies else ∅)) := by
  have hmap := map_join_keys_of_equi_keys l.output_expressions keys ∅ ∅ hleft hsides
  simp only [Finset.empty_union] at hmap
  simp only [JoinNode.inclusion_dependencies, hmode, hl, hr,
    JoinNode._output_inclusion_dependencies, hpreds, hmap, left_keys_card keys hdl,
    right_keys_card keys hdr]
  by_cases h0 : l.inclusion_dependencies = ∅ ∧ r.inclusion_dependencies = ∅
  · simp [h0.1, h0.2]
  · have h0' : ¬(l.inclusion_dependencies = ∅ ∧
        (JoinMode.Inner = JoinMode.Semi ∨ r.inclusion_dependencies = ∅)) := by
      intro h
      exact h0 ⟨h.1, h.2.resolve_left (by decide)⟩
    rw [if_neg h0']
    by_cases h1 : r.has_matching_ind (left_keys keys) (right_keys keys) l.id = true <;>
      by_cases h2 : l.has_matching_ind (right_keys keys) (left_keys keys) r.id = true <;>
      simp [h1, h2]

/-- The join `inputA JOIN inputB ON colB = colA AND colD = colC` with inputs whose
`has_matching_ind` holds: the INDs of both inputs are forwarded. -/
theorem inner_join_inds_witness :
    (twoKeyJoin .Inner).inclusion_dependencies =
      some (inputA.inclusion_dependencies ∪ inputB.inclusion_dependencies) :=
  inner_join_inds (twoKeyJoin .Inner) (inputAllInds inputA) (inputAllInds inputB) twoKeys
    rfl rfl rfl rfl (by decide) (by decide) (by decide) (by decide)

/-- C10 (the code at the failing input): in the semi join `inputA SEMI JOIN inputB ON
colA = colB AND colA = colC` every predicate is an equality and `has_matching_ind` holds for
every key set, but `inclusion_dependencies()` is neither the left input's INDs nor empty: it
fails on the `Assert` "Could not resolve all join predicates." (join_node.cpp:282-283),
although every predicate is resolved, because the two left keys coincide. -/
theorem semi_join_shared_key_fails :
    sharedKeySemiJoin.join_mode = .Semi ∧
    (∀ p ∈ sharedKeySemiJoin.join_predicates, ∃ lo ro, p = .binary_predicate .Equals lo ro) ∧
    (∃ l r, sharedKeySemiJoin.left_input = some l ∧ sharedKeySemiJoin.right_input = some r ∧
      (∀ lk rk, r.has_matching_ind lk rk l.id = true) ∧
      sharedKeySemiJoin.inclusion_dependencies ≠ some l.inclusion_dependencies ∧
      sharedKeySemiJoin.inclusion_dependencies ≠ some ∅) ∧
    sharedKeySemiJoin.inclusion_dependencies = none := by
  refine ⟨rfl, ?_, ⟨_, _, rfl, rfl, fun _ _ => rfl, ?_, ?_⟩, by decide⟩
  · intro p hp
    simp only [sharedKeySemiJoin, JoinNode.join_predicates, List.mem_cons, List.mem_singleton,
      List.not_mem_nil, or_false] at hp
    rcases hp with hp | hp <;> exact ⟨_, _, hp⟩
  · have h : sharedKeySemiJoin.inclusion_dependencies = none := by decide
    rw [h]; exact fun h => Option.noConfusion h
  · have h : sharedKeySemiJoin.inclusion_dependencies = none := by decide
    rw [h]; exact fun h => Option.noConfusion h

/-- A Semi join whose call returns never forwards the right input's INDs. When some join
predicate is not an equality `inclusion_dependencies()` is empty; when all predicates are
equalities between a left-side and a right-side expression with pairwise distinct left keys and
pairwise distinct right keys (an operand written first that is the right-side one not being
an output of the left input), it is the left input's INDs if
`right_input.has_matching_ind(left_keys, right_keys, left_input)` holds and empty otherwise. -/
theorem semi_join_inds (j : JoinNode) (l r : InputNode)
    (hmode : j.join_mode = .Semi)
    (hl : j.left_input = some l) (hr : j.right_input = some r) :
    ((∃ p ∈ j.join_predicates, ∀ lo ro, p ≠ .binary_predicate .Equals lo ro) →
      j.inclusion_dependencies = some ∅) ∧
    (∀ keys : List EquiJoinKey,
      j.join_predicates = keys.map EquiJoinKey.predicate →
      (∀ k ∈ keys, k.left_key ∈ l.output_expressions) →
      (∀ k ∈ keys, k.flipped = true → k.right_key ∉ l.output_expressions) →
      (keys.map (·.left_key)).Nodup → (keys.map (·.right_key)).Nodup →
      j.inclusion_dependencies =
        some (if r.has_matching_ind (left_keys keys) (right_keys keys) l.id = true
          then l.inclusion_dependencies else ∅)) := by
  constructor
  · intro h
    have hmap := map_join_keys_of_non_equality l.output_expressions _ (∅, ∅) h
    simp only [JoinNode.inclusion_dependencies, hmode, hl, hr,
      JoinNode._output_inclusion_dependencies, hmap]
    split <;> rfl
  · intro keys hpreds hleft hsides hdl hdr
    have hmap := map_join_keys_of_equi_keys l.output_expressions keys ∅ ∅ hleft hsides
    simp only [Finset.empty_union] at hmap
    simp only [JoinNode.inclusion_dependencies, hmode, hl, hr,
      JoinNode._output_inclusion_dependencies, hpreds, hmap, left_keys_card keys hdl,
      right_keys_card keys hdr]
    by_cases h0 : l.inclusion_dependencies = ∅
    · simp [h0]
    · by_cases h1 : r.has_matching_ind (left_keys keys) (right_keys keys) l.id = true <;>
        simp [h0, h1]

/-- The two-key semi join forwards exactly the left input's INDs. -/
theorem semi_join_inds_witness :
    (twoKeyJoin .Semi).inclusion_dependencies = some inputA.inclusion_dependencies :=
  (semi_join_inds (twoKeyJoin .Semi) (inputAllInds inputA) (inputAllInds inputB)
    rfl rfl rfl).2 twoKeys rfl (by decide) (by decide) (by decide) (by decide)


/-! ## Deep copy, deep equality and hash of a plan -/

theorem mapping_le_refl (m : LQPNodeMapping) : mapping_le m m := fun _ _ h => h

theorem mapping_le_trans {a b c : LQPNodeMapping} (h1 : mapping_le a b) (h2 : mapping_le b c) :
    mapping_le a c := fun k v h => h2 k v (h1 k v h)

theorem find_cons (k v n : Nat) (m : LQPNodeMapping) :
    LQPNodeMapping.find ((k, v) :: m) n = if n = k then some v else m.find n := rfl

theorem mapping_le_cons {m : LQPNodeMapping} {k : Nat} (v : Nat) (h : m.find k = none) :
    mapping_le m ((k, v) :: m) := by
  intro a b hab
  rw [find_cons]
  by_cases hk : a = k
  · subst hk; rw [h] at hab; exact absurd hab (by simp)
  · simp [hk, hab]

mutual
theorem adapt_mono {m m2 : LQPNodeMapping} (hle : mapping_le m m2) :
    ∀ (e e2 : Expression), expression_adapt_to_different_lqp m e = some e2 →
      expression_adapt_to_different_lqp m2 e = some e2
  | .lqp_column n c, e2, h => by
    simp only [expression_adapt_to_different_lqp] at h ⊢
    cases hf : m.find n with
    | none => simp [hf] at h
    | some v => rw [hf] at h; rw [hle n v hf]; exact h
  | .value v, e2, h => by simpa [expression_adapt_to_different_lqp] using h
  | .binary_predicate pc l r, e2, h => by
    simp only [expression_adapt_to_different_lqp] at h ⊢
    cases hl : expression_adapt_to_different_lqp m l with
    | none => simp [hl] at h
    | some l2 =>
      cases hr : expression_adapt_to_different_lqp m r with
      | none => simp [hl, hr] at h
      | some r2 =>
        rw [hl, hr] at h; rw [adapt_mono hle l l2 hl, adapt_mono hle r r2 hr]; exact h
  | .arithmetic op l r, e2, h => by
    simp only [expression_adapt_to_different_lqp] at h ⊢
    cases hl : expression_adapt_to_different_lqp m l with
    | none => simp [hl] at h
    | some l2 =>
      cases hr : expression_adapt_to_different_lqp m r with
      | none => simp [hl, hr] at h
      | some r2 =>
        rw [hl, hr] at h; rw [adapt_mono hle l l2 hl, adapt_mono hle r r2 hr]; exact h
  | .lqp_subquery q arguments, e2, h => by
    simp only [expression_adapt_to_different_lqp] at h ⊢
    cases ha : expressions_copy_and_adapt_to_different_lqp arguments m with
    | none => simp [ha] at h
    | some adapted => rw [ha] at h; rw [adapt_list_mono hle arguments adapted ha]; exact h
termination_by structural e => e
theorem adapt_list_mono {m m2 : LQPNodeMapping} (hle : mapping_le m m2) :
    ∀ (es es2 : List Expression), expressions_copy_and_adapt_to_different_lqp es m = some es2 →
      expressions_copy_and_adapt_to_different_lqp es m2 = some es2
  | [], es2, h => by simpa [expressions_copy_and_adapt_to_different_lqp] using h
  | e :: rest, es2, h => by
    simp only [expressions_copy_and_adapt_to_different_lqp] at h ⊢
    cases he : expression_adapt_to_different_lqp m e with
    | none => simp [he] at h
    | some e2 =>
      cases hr : expressions_copy_and_adapt_to_different_lqp rest m with
      | none => simp [he, hr] at h
      | some r2 =>
        rw [he, hr] at h; rw [adapt_mono hle e e2 he, adapt_list_mono hle rest r2 hr]; exact h
termination_by structural es => es
end

mutual
theorem adapt_some {m : LQPNodeMapping} :
    ∀ (e : Expression), covers m e.original_nodes →
      ∃ e2, expression_adapt_to_different_lqp m e = some e2
  | .lqp_column n c, h => by
    obtain ⟨v, hv⟩ := h n (by simp [Expression.original_nodes])
    exact ⟨.lqp_column v c, by simp [expression_adapt_to_different_lqp, hv]⟩
  | .value v, _ => ⟨.value v, by simp [expression_adapt_to_different_lqp]⟩
  | .binary_predicate pc l r, h => by
    obtain ⟨l2, hl⟩ := adapt_some l (fun k hk => h k (by simp [Expression.original_nodes, hk]))
    obtain ⟨r2, hr⟩ := adapt_some r (fun k hk => h k (by simp [Expression.original_nodes, hk]))
    exact ⟨.binary_predicate pc l2 r2, by simp [expression_adapt_to_different_lqp, hl, hr]⟩
  | .arithmetic op l r, h => by
    obtain ⟨l2, hl⟩ := adapt_some l (fun k hk => h k (by simp [Expression.original_nodes, hk]))
    obtain ⟨r2, hr⟩ := adapt_some r (fun k hk => h k (by simp [Expression.original_nodes, hk]))
    exact ⟨.arithmetic op l2 r2, by simp [expression_adapt_to_different_lqp, hl, hr]⟩
  | .lqp_subquery q arguments, h => by
    obtain ⟨a2, ha⟩ := adapt_arguments_some arguments
      (fun k hk => h k (by simp [Expression.original_nodes, hk]))
    exact ⟨.lqp_subquery q a2, by simp [expression_adapt_to_different_lqp, ha]⟩
termination_by structural e => e
theorem adapt_arguments_some {m : LQPNodeMapping} :
    ∀ (es : List Expression), covers m (Expression.original_nodes_of_list es) →
      ∃ es2, expressions_copy_and_adapt_to_different_lqp es m = some es2
  | [], _ => ⟨[], by simp [expressions_copy_and_adapt_to_different_lqp]⟩
  | e :: rest, h => by
    obtain ⟨e2, he⟩ := adapt_some e
      (fun k hk => h k (by simp [Expression.original_nodes_of_list, hk]))
    obtain ⟨r2, hr⟩ := adapt_arguments_some rest
      (fun k hk => h k (by simp [Expression.original_nodes_of_list, hk]))
    exact ⟨e2 :: r2, by simp [expressions_copy_and_adapt_to_different_lqp, he, hr]⟩
termination_by structural es => es
end

theorem adapt_list_some {m : LQPNodeMapping} :
    ∀ (es : List Expression), (∀ e ∈ es, covers m e.original_nodes) →
      ∃ es2, expressions_copy_and_adapt_to_different_lqp es m = some es2 := by
  intro es
  induction es with
  | nil => intro _; exact ⟨[], by simp [expressions_copy_and_adapt_to_different_lqp]⟩
  | cons e rest ih =>
    intro h
    obtain ⟨e2, he⟩ := adapt_some e (h e (List.mem_cons_self _ _))
    obtain ⟨r2, hr⟩ := ih (fun x hx => h x (List.mem_cons_of_mem _ hx))
    exact ⟨e2 :: r2, by simp [expressions_copy_and_adapt_to_different_lqp, he, hr]⟩

theorem adapt_list_ne_nil {m : LQPNodeMapping} {es es2 : List Expression}
    (h : expressions_copy_and_adapt_to_different_lqp es m = some es2) (hne : es ≠ []) :
    es2 ≠ [] := by
  cases es with
  | nil => exact absurd rfl hne
  | cons e rest =>
    simp only [expressions_copy_and_adapt_to_different_lqp] at h
    cases he : expression_adapt_to_different_lqp m e with
    | none => simp [he] at h
    | some e2 =>
      cases hr : expressions_copy_and_adapt_to_different_lqp rest m with
      | none => simp [he, hr] at h
      | some r2 =>
        rw [he, hr] at h
        simp only [Option.some.injEq] at h
        rw [← h]
        exact List.cons_ne_nil _ _

theorem well_formed_node {heap : Heap} (hwf : heap.well_formed = true) {n : Nat}
    {node : LQPNode} (h : heap[n]? = some node) : node.well_formed heap n = true := by
  have hn : n < heap.length := by
    by_contra hge
    rw [List.getElem?_eq_none (by omega)] at h
    exact Option.noConfusion h
  have := List.all_eq_true.mp hwf n (List.mem_range.mpr hn)
  simpa [h] using this

theorem well_formed_facts {heap : Heap} {n : Nat} {node : LQPNode}
    (h : node.well_formed heap n = true) :
    (∀ i, node.left_input = some i → i < n) ∧ (∀ i, node.right_input = some i → i < n) ∧
    (∀ e ∈ node.node_expressions, ∀ k ∈ e.original_nodes, k ∈ input_plan_nodes heap n) ∧
    join_invariant node := by
  simp only [LQPNode.well_formed, Bool.and_eq_true, decide_eq_true_eq, List.all_eq_true,
    Bool.or_eq_true, Bool.not_eq_true', Option.mem_def] at h
  obtain ⟨⟨⟨h1, h2⟩, h3⟩, h4⟩ := h
  refine ⟨h1, h2, h3, ?_⟩
  intro hj
  rcases h4 with h4 | ⟨h5, h6⟩
  · exact absurd hj h4
  · refine ⟨h5, fun hs => ?_⟩
    rcases h6 with h6 | h6
    · rw [hs] at h6; exact Bool.noConfusion h6
    · exact h6

theorem on_shallow_copy_mono {m m2 : LQPNodeMapping} (hle : mapping_le m m2) {node sc : LQPNode}
    (h : node._on_shallow_copy m = some sc) : node._on_shallow_copy m2 = some sc := by
  unfold LQPNode._on_shallow_copy LQPNode.other_on_shallow_copy at h ⊢
  by_cases hj : node.type = .Join
  · simp only [hj, if_true, JoinNode._on_shallow_copy] at h ⊢
    by_cases he : node.as_join.join_predicates = []
    · simpa [he] using h
    · simp only [he, if_false] at h ⊢
      cases ha : expressions_copy_and_adapt_to_different_lqp node.as_join.join_predicates m with
      | none => simp [ha] at h
      | some es =>
        rw [ha] at h
        rw [adapt_list_mono hle _ _ ha]
        exact h
  · simp only [hj, if_false] at h ⊢
    cases ha : expressions_copy_and_adapt_to_different_lqp node.node_expressions m with
    | none => simp [ha] at h
    | some es =>
      rw [ha] at h
      rw [adapt_list_mono hle _ _ ha]
      exact h

theorem on_shallow_copy_some {m : LQPNodeMapping} {node : LQPNode} (hinv : join_invariant node)
    {es : List Expression}
    (ha : expressions_copy_and_adapt_to_different_lqp node.node_expressions m = some es) :
    ∃ sc, node._on_shallow_copy m = some sc := by
  unfold LQPNode._on_shallow_copy LQPNode.other_on_shallow_copy
  by_cases hj : node.type = .Join
  · obtain ⟨hcross, _⟩ := hinv hj
    simp only [hj, if_true, JoinNode._on_shallow_copy, JoinNode.join_predicates,
      LQPNode.as_join]
    by_cases he : node.node_expressions = []
    · have hc := hcross.mp he
      simp [he, hc, JoinNode.make]
    · have hc : node.join_mode ≠ .Cross := fun hc => he (hcross.mpr hc)
      have hne := adapt_list_ne_nil ha he
      simp [he, ha, JoinNode.make_with_predicates, hc, hne]
  · simp [hj, ha]

/-- The members of a shallow copy: same type, adapted expressions, same join mode and
semi-reduction flag for a Join node, same type-specific data otherwise. -/
theorem on_shallow_copy_facts {m : LQPNodeMapping} {node sc : LQPNode}
    (hinv : join_invariant node) (h : node._on_shallow_copy m = some sc) :
    sc.type = node.type ∧
    expressions_copy_and_adapt_to_different_lqp node.node_expressions m =
      some sc.node_expressions ∧
    sc.left_input = none ∧ sc.right_input = none ∧
    (node.type = .Join →
      sc.join_mode = node.join_mode ∧ sc._is_semi_reduction = node._is_semi_reduction) ∧
    (node.type ≠ .Join → sc.type_specific_data = node.type_specific_data ∧
      sc.set_operation_mode = node.set_operation_mode) := by
  unfold LQPNode._on_shallow_copy LQPNode.other_on_shallow_copy at h
  by_cases hj : node.type = .Join
  · obtain ⟨hcross, hsemi⟩ := hinv hj
    simp only [hj, if_true, JoinNode._on_shallow_copy, JoinNode.join_predicates,
      LQPNode.as_join] at h
    by_cases he : node.node_expressions = []
    · have hc := hcross.mp he
      have hflag : node._is_semi_reduction = false := by
        cases hf : node._is_semi_reduction with
        | false => rfl
        | true => have := hsemi hf; rw [hc] at this; exact absurd this (by decide)
      simp only [he, if_true, hc, ne_eq, not_true_eq_false, if_false, JoinNode.make,
        Option.map_some', Option.some.injEq] at h
      subst h
      simp [LQPNode.of_join, hj, he, hc, hflag, expressions_copy_and_adapt_to_different_lqp]
    · simp only [he, if_false] at h
      cases ha : expressions_copy_and_adapt_to_different_lqp node.node_expressions m with
      | none => simp [ha] at h
      | some es =>
        have hc : node.join_mode ≠ .Cross := fun hc => he (hcross.mpr hc)
        have hne := adapt_list_ne_nil ha he
        simp only [ha, JoinNode.make_with_predicates, hc, ne_eq, not_false_eq_true, hne,
          and_self, if_true, Option.map_some', Option.some.injEq] at h
        subst h
        simp [LQPNode.of_join, hj]
  · simp only [hj, if_false] at h
    cases ha : expressions_copy_and_adapt_to_different_lqp node.node_expressions m with
    | none => simp [ha] at h
    | some es =>
      simp only [ha, Option.map_some', Option.some.injEq] at h
      subst h
      simp [hj]

theorem set_inputs_fresh (heap : Heap) (sc : LQPNode) (l r : Option Nat) :
    set_inputs (heap ++ [sc]) heap.length l r =
      heap ++ [{ sc with left_input := l, right_input := r }] := by
  simp [set_inputs]

theorem getElem?_some_lt {heap : Heap} {c : Nat} {cp : LQPNode} (h : heap[c]? = some cp) :
    c < heap.length := by
  by_contra hge
  rw [List.getElem?_eq_none (by omega)] at h
  exact Option.noConfusion h

theorem set_inputs_same (heap : Heap) (c : Nat) (cp : LQPNode) (h : heap[c]? = some cp) :
    set_inputs heap c cp.left_input cp.right_input = heap := by
  simp only [set_inputs, h]
  apply List.ext_getElem?
  intro i
  rw [List.getElem?_set]
  by_cases hi : c = i
  · subst hi
    simp [getElem?_some_lt h, h]
  · simp [hi]

theorem find_none_iff (m : LQPNodeMapping) (n : Nat) :
    m.find n = none ↔ n ∉ m.map Prod.fst := by
  induction m with
  | nil => simp [LQPNodeMapping.find]
  | cons kv rest ih =>
    obtain ⟨k, v⟩ := kv
    rw [find_cons]
    by_cases h : n = k
    · simp [h]
    · simp [h, ih]

theorem mem_input_plan_nodes {heap : Heap} {n k : Nat} {node : LQPNode}
    (hnode : heap[n]? = some node) (hk : k ∈ input_plan_nodes heap n) :
    (∃ i, node.left_input = some i ∧ k ∈ subplan_nodes heap n i) ∨
    (∃ i, node.right_input = some i ∧ k ∈ subplan_nodes heap n i) := by
  simp only [input_plan_nodes, subplan_nodes, hnode, List.tail_cons, List.mem_append] at hk
  rcases hk with hk | hk
  · left
    cases hl : node.left_input with
    | none => simp [hl] at hk
    | some i => exact ⟨i, rfl, by simpa [hl] using hk⟩
  · right
    cases hr : node.right_input with
    | none => simp [hr] at hk
    | some i => exact ⟨i, rfl, by simpa [hr] using hk⟩

theorem CopyInvariant.initial (original : Heap) :
    CopyInvariant original { heap := original, node_mapping := [] } where
  extends_heap := ⟨[], by simp⟩
  length_eq := by simp
  keys_nodup := by simp
  entries := by intro n c h; simp [LQPNodeMapping.find] at h

theorem CopyInvariant.original_node {original : Heap} {st : CopyState}
    (hinv : CopyInvariant original st) {n : Nat} (hn : n < original.length) :
    st.heap[n]? = original[n]? := by
  obtain ⟨ext, hext⟩ := hinv.extends_heap
  rw [hext, List.getElem?_append_left hn]

theorem bind_find_mono {m m2 : LQPNodeMapping} (hle : mapping_le m m2) (o : Option Nat)
    (h : ∀ i, o = some i → ∃ v, m.find i = some v) : o.bind m2.find = o.bind m.find := by
  cases o with
  | none => rfl
  | some i =>
    obtain ⟨v, hv⟩ := h i rfl
    simp [hv, hle i v hv]

theorem expected_copy_mono {m m2 : LQPNodeMapping} (hle : mapping_le m m2) {node cp : LQPNode}
    (h : expected_copy node m = some cp)
    (hl : ∀ i, node.left_input = some i → ∃ v, m.find i = some v)
    (hr : ∀ i, node.right_input = some i → ∃ v, m.find i = some v) :
    expected_copy node m2 = some cp := by
  unfold expected_copy at h ⊢
  cases hsc : node._on_shallow_copy m with
  | none => simp [hsc] at h
  | some sc =>
    rw [hsc] at h
    rw [on_shallow_copy_mono hle hsc, bind_find_mono hle _ hl, bind_find_mono hle _ hr]
    exact h

/-- The mapping of a copy state knows the whole plan below every node it knows. -/
theorem CopyInvariant.covers_subplan {original : Heap} {st : CopyState}
    (hinv : CopyInvariant original st) :
    ∀ (depth a : Nat), (∃ c, st.node_mapping.find a = some c) →
      covers st.node_mapping (subplan_nodes original depth a) := by
  intro depth
  induction depth with
  | zero => intro a _ k hk; simp [subplan_nodes] at hk
  | succ d ih =>
    intro a ⟨c, hc⟩ k hk
    obtain ⟨_, node, cp, hnode, _, _, hl, hr⟩ := hinv.entries a c hc
    simp only [subplan_nodes, hnode, List.mem_cons, List.mem_append] at hk
    rcases hk with hk | hk | hk
    · subst hk; exact ⟨c, hc⟩
    · cases hli : node.left_input with
      | none => simp [hli] at hk
      | some i => rw [hli] at hk; exact ih i (hl i hli) k hk
    · cases hri : node.right_input with
      | none => simp [hri] at hk
      | some i => rw [hri] at hk; exact ih i (hr i hri) k hk

/-- Copying (or reusing the copy of) a node whose inputs are already copied, and wiring the
copy to the copied inputs, keeps the invariant and adds at most the node to the mapping. -/
theorem shallow_copy_wire_spec {original : Heap} (hwf : original.well_formed = true)
    {n : Nat} {node : LQPNode} (hnode : original[n]? = some node) {st : CopyState}
    (hinv : CopyInvariant original st)
    (hl : ∀ i, node.left_input = some i → ∃ v, st.node_mapping.find i = some v)
    (hr : ∀ i, node.right_input = some i → ∃ v, st.node_mapping.find i = some v) :
    ∃ c st3, _shallow_copy n st = some (c, st3) ∧
      CopyInvariant original
        { st3 with heap := (set_inputs st3.heap c (node.left_input.bind st.node_mapping.find)
            (node.right_input.bind st.node_mapping.find)) } ∧
      mapping_le st.node_mapping st3.node_mapping ∧ st3.node_mapping.find n = some c ∧
      (∀ k v, st3.node_mapping.find k = some v →
        (∃ w, st.node_mapping.find k = some w) ∨ k = n) := by
  have hn : n < original.length := getElem?_some_lt hnode
  obtain ⟨hlt_l, hlt_r, hrefs, hjoin⟩ := well_formed_facts (well_formed_node hwf hnode)
  cases hfind : st.node_mapping.find n with
  | some c =>
    obtain ⟨_, node2, cp, hnode2, hcp, hexp, _, _⟩ := hinv.entries n c hfind
    rw [hnode] at hnode2
    have hnn : node = node2 := Option.some.inj hnode2
    subst hnn
    have hcl : cp.left_input = node.left_input.bind st.node_mapping.find := by
      unfold expected_copy at hexp
      cases hsc : node._on_shallow_copy st.node_mapping with
      | none => simp [hsc] at hexp
      | some sc => simp only [hsc, Option.map_some', Option.some.injEq] at hexp; rw [← hexp]
    have hcr : cp.right_input = node.right_input.bind st.node_mapping.find := by
      unfold expected_copy at hexp
      cases hsc : node._on_shallow_copy st.node_mapping with
      | none => simp [hsc] at hexp
      | some sc => simp only [hsc, Option.map_some', Option.some.injEq] at hexp; rw [← hexp]
    refine ⟨c, st, by simp [_shallow_copy, hfind], ?_, mapping_le_refl _, hfind,
      fun k v h => Or.inl ⟨v, h⟩⟩
    rw [← hcl, ← hcr, set_inputs_same _ _ _ hcp]
    exact hinv
  | none =>
    have hheap : st.heap[n]? = some node := by rw [hinv.original_node hn]; exact hnode
    have hcov : ∀ e ∈ node.node_expressions, covers st.node_mapping e.original_nodes := by
      intro e he k hk
      rcases mem_input_plan_nodes hnode (hrefs e he k hk) with ⟨i, hi, hki⟩ | ⟨i, hi, hki⟩
      · exact hinv.covers_subplan n i (hl i hi) k hki
      · exact hinv.covers_subplan n i (hr i hi) k hki
    obtain ⟨es, hes⟩ := adapt_list_some node.node_expressions hcov
    obtain ⟨sc, hsc⟩ := on_shallow_copy_some hjoin hes
    have hle : mapping_le st.node_mapping ((n, st.heap.length) :: st.node_mapping) :=
      mapping_le_cons _ hfind
    refine ⟨st.heap.length,
      { heap := st.heap ++ [sc], node_mapping := (n, st.heap.length) :: st.node_mapping },
      by simp [_shallow_copy, hfind, hheap, hsc], ?_, hle, by simp [find_cons], ?_⟩
    · simp only [set_inputs_fresh]
      obtain ⟨ext, hext⟩ := hinv.extends_heap
      refine ⟨⟨ext ++ [_], by rw [hext, List.append_assoc]⟩, ?_, ?_, ?_⟩
      · simp [hinv.length_eq]; omega
      · simp only [List.map_cons, List.nodup_cons]
        exact ⟨(find_none_iff _ _).mp hfind, hinv.keys_nodup⟩
      · intro k v hkv
        rw [find_cons] at hkv
        by_cases hk : k = n
        · subst hk
          simp only [if_true, Option.some.injEq] at hkv
          subst hkv
          refine ⟨by rw [hinv.length_eq]; omega, node,
            { sc with left_input := node.left_input.bind st.node_mapping.find,
                      right_input := node.right_input.bind st.node_mapping.find },
            hnode, by simp, ?_, fun i hi => ?_, fun i hi => ?_⟩
          · unfold expected_copy
            rw [on_shallow_copy_mono hle hsc, bind_find_mono hle _ hl,
              bind_find_mono hle _ hr]
            rfl
          · obtain ⟨v, hv⟩ := hl i hi; exact ⟨v, hle i v hv⟩
          · obtain ⟨v, hv⟩ := hr i hi; exact ⟨v, hle i v hv⟩
        · simp only [hk, if_false] at hkv
          obtain ⟨hge, node2, cp, hnode2, hcp, hexp, hl2, hr2⟩ := hinv.entries k v hkv
          refine ⟨hge, node2, cp, hnode2, ?_, expected_copy_mono hle hexp hl2 hr2,
            fun i hi => ?_, fun i hi => ?_⟩
          · rw [List.getElem?_append_left (getElem?_some_lt hcp)]; exact hcp
          · obtain ⟨w, hw⟩ := hl2 i hi; exact ⟨w, hle i w hw⟩
          · obtain ⟨w, hw⟩ := hr2 i hi; exact ⟨w, hle i w hw⟩
    · intro k v hkv
      rw [find_cons] at hkv
      by_cases hk : k = n
      · exact Or.inr hk
      · simp only [hk, if_false] at hkv
        exact Or.inl ⟨v, hkv⟩

theorem copy_input_spec {original : Heap} {depth : Nat}
    {copier : Nat → CopyState → Option (Nat × CopyState)}
    (hcopier : CopierSpec original depth copier) (o : Option Nat) (st : CopyState)
    (hinv : CopyInvariant original st)
    (ho : ∀ i, o = some i → i < depth ∧ i < original.length) :
    ∃ co st2, copy_input copier o st = some (co, st2) ∧ CopyInvariant original st2 ∧
      mapping_le st.node_mapping st2.node_mapping ∧ co = o.bind st2.node_mapping.find ∧
      (∀ i, o = some i → ∃ v, st2.node_mapping.find i = some v) ∧
      (∀ k v, st2.node_mapping.find k = some v →
        (∃ w, st.node_mapping.find k = some w) ∨
          ∃ i, o = some i ∧ k ∈ subplan_nodes original depth i) := by
  cases o with
  | none =>
    exact ⟨none, st, rfl, hinv, mapping_le_refl _, rfl, fun i hi => Option.noConfusion hi,
      fun k v h => Or.inl ⟨v, h⟩⟩
  | some i =>
    obtain ⟨hd, hlen⟩ := ho i rfl
    obtain ⟨c, st2, hc, hinv2, hle, hfind, hkeys⟩ := hcopier i st hinv hd hlen
    refine ⟨some c, st2, by simp [copy_input, hc], hinv2, hle, by simp [hfind], ?_, ?_⟩
    · intro j hj
      have : i = j := Option.some.inj hj
      subst this
      exact ⟨c, hfind⟩
    · intro k v hkv
      rcases hkeys k v hkv with h | h
      · exact Or.inl h
      · exact Or.inr ⟨i, rfl, h⟩

/-- `_deep_copy_impl` returns on every node of a well-formed memory, given a depth bound above
the node's position. -/
theorem deep_copy_impl_spec {original : Heap} (hwf : original.well_formed = true) :
    ∀ depth, CopierSpec original depth (_deep_copy_impl depth) := by
  intro depth
  induction depth with
  | zero => intro n st _ h _; exact absurd h (Nat.not_lt_zero _)
  | succ d ih =>
    intro n st hinv hnd hn
    have hnode : original[n]? = some original[n] := List.getElem?_eq_getElem hn
    generalize original[n] = node at hnode
    have hheap : st.heap[n]? = some node := by rw [hinv.original_node hn]; exact hnode
    obtain ⟨hlt_l, hlt_r, _, _⟩ := well_formed_facts (well_formed_node hwf hnode)
    obtain ⟨cl, st1, hcl, hinv1, hle1, hcl_eq, hl1, hkeys1⟩ :=
      copy_input_spec ih node.left_input st hinv
        (fun i hi => ⟨by have := hlt_l i hi; omega, by have := hlt_l i hi; omega⟩)
    obtain ⟨cr, st2, hcr, hinv2, hle2, hcr_eq, hr2, hkeys2⟩ :=
      copy_input_spec ih node.right_input st1 hinv1
        (fun i hi => ⟨by have := hlt_r i hi; omega, by have := hlt_r i hi; omega⟩)
    have hl2 : ∀ i, node.left_input = some i → ∃ v, st2.node_mapping.find i = some v := by
      intro i hi
      obtain ⟨v, hv⟩ := hl1 i hi
      exact ⟨v, hle2 i v hv⟩
    obtain ⟨c, st3, hsc, hinv3, hle3, hfind, hkeys3⟩ :=
      shallow_copy_wire_spec hwf hnode hinv2 hl2 hr2
    have hcl2 : cl = node.left_input.bind st2.node_mapping.find := by
      rw [hcl_eq, bind_find_mono hle2 _ hl1]
    rw [← hcl2, ← hcr_eq] at hinv3
    refine ⟨c, _, by simp [_deep_copy_impl, hheap, hcl, hcr, hsc], hinv3,
      mapping_le_trans hle1 (mapping_le_trans hle2 hle3), hfind, ?_⟩
    intro k v hkv
    simp only [subplan_nodes, hnode, List.mem_cons, List.mem_append]
    rcases hkeys3 k v hkv with ⟨w, hw⟩ | h
    · rcases hkeys2 k w hw with ⟨w1, hw1⟩ | ⟨i, hi, hki⟩
      · rcases hkeys1 k w1 hw1 with h0 | ⟨i, hi, hki⟩
        · exact Or.inl h0
        · exact Or.inr (Or.inr (Or.inl (by rw [hi]; exact hki)))
      · exact Or.inr (Or.inr (Or.inr (by rw [hi]; exact hki)))
    · exact Or.inr (Or.inl h)

/-- What the invariant and well-formedness say about a mapped node and its copy. -/
theorem CopyInvariant.entry_facts {original : Heap} (hwf : original.well_formed = true)
    {st : CopyState} (hinv : CopyInvariant original st) {a c : Nat}
    (hfind : st.node_mapping.find a = some c) :
    ∃ node cp, original[a]? = some node ∧ st.heap[a]? = some node ∧ st.heap[c]? = some cp ∧
      cp.type = node.type ∧
      expressions_copy_and_adapt_to_different_lqp node.node_expressions st.node_mapping =
        some cp.node_expressions ∧
      cp.left_input = node.left_input.bind st.node_mapping.find ∧
      cp.right_input = node.right_input.bind st.node_mapping.find ∧
      (node.type = .Join →
        cp.join_mode = node.join_mode ∧ cp._is_semi_reduction = node._is_semi_reduction) ∧
      (node.type ≠ .Join → cp.type_specific_data = node.type_specific_data ∧
        cp.set_operation_mode = node.set_operation_mode) ∧
      (∀ i, node.left_input = some i → i < a ∧ ∃ v, st.node_mapping.find i = some v) ∧
      (∀ i, node.right_input = some i → i < a ∧ ∃ v, st.node_mapping.find i = some v) ∧
      (∀ e ∈ node.node_expressions, ∀ k ∈ e.original_nodes,
        (∃ i, node.left_input = some i ∧ k ∈ subplan_nodes original a i) ∨
        (∃ i, node.right_input = some i ∧ k ∈ subplan_nodes original a i)) := by
  obtain ⟨_, node, cp, hnode, hcp, hexp, hl, hr⟩ := hinv.entries a c hfind
  obtain ⟨hlt_l, hlt_r, hrefs, hjoin⟩ := well_formed_facts (well_formed_node hwf hnode)
  have ha : a < original.length := getElem?_some_lt hnode
  unfold expected_copy at hexp
  cases hsc : node._on_shallow_copy st.node_mapping with
  | none => simp [hsc] at hexp
  | some sc =>
    simp only [hsc, Option.map_some', Option.some.injEq] at hexp
    obtain ⟨h1, h2, _, _, h5, h6⟩ := on_shallow_copy_facts hjoin hsc
    subst hexp
    exact ⟨node, _, hnode, by rw [hinv.original_node ha]; exact hnode, hcp, h1, h2, rfl, rfl, h5,
      h6, fun i hi => ⟨hlt_l i hi, hl i hi⟩, fun i hi => ⟨hlt_r i hi, hr i hi⟩,
      fun e he k hk => mem_input_plan_nodes hnode (hrefs e he k hk)⟩

theorem match_input_slot {original : Heap} {st : CopyState} {f : Nat}
    (ih : MatchSpec original st f) (o : Option Nat) (fuel : Nat) (hfuel : f ≤ fuel)
    (meq : LQPNodeMapping) (hle : mapping_le meq st.node_mapping)
    (ho : ∀ i, o = some i → i < f ∧ ∃ v, st.node_mapping.find i = some v) :
    ∃ meq2, lqp_find_subplan_match st.heap fuel o (o.bind st.node_mapping.find) meq =
        some meq2 ∧
      mapping_le meq2 st.node_mapping ∧ mapping_le meq meq2 ∧
      ∀ d i, o = some i → covers meq2 (subplan_nodes original d i) := by
  cases o with
  | none =>
    refine ⟨meq, ?_, hle, mapping_le_refl _, fun d i hi => Option.noConfusion hi⟩
    cases fuel <;> simp [lqp_find_subplan_match]
  | some i =>
    obtain ⟨hi, v, hv⟩ := ho i rfl
    obtain ⟨meq2, h1, h2, h3, h4⟩ := ih i v fuel meq hi hfuel hv hle
    refine ⟨meq2, by simpa [hv] using h1, h2, h3, ?_⟩
    intro d j hj
    have : i = j := Option.some.inj hj
    subst this
    exact h4 d

/-- The traversal behind `operator==` succeeds on every node and its copy. -/
theorem subplan_match_spec {original : Heap} (hwf : original.well_formed = true)
    {st : CopyState} (hinv : CopyInvariant original st) :
    ∀ f, MatchSpec original st f := by
  intro f
  induction f with
  | zero => intro a c fuel meq h; exact absurd h (Nat.not_lt_zero _)
  | succ f ih =>
    intro a c fuel meq haf hfuel hfind hle
    obtain ⟨node, cp, hnode, hha, hhc, htype, hexprs, hcl, hcr, hjoin, hdata, hl, hr, hrefs⟩ :=
      hinv.entry_facts hwf hfind
    obtain ⟨fuel2, rfl⟩ : ∃ k, fuel = k + 1 := ⟨fuel - 1, by omega⟩
    obtain ⟨meq1, hm1, hle1, hmono1, hcov1⟩ :=
      match_input_slot ih node.left_input fuel2 (by omega) meq hle
        (fun i hi => ⟨by have := (hl i hi).1; omega, (hl i hi).2⟩)
    obtain ⟨meq2, hm2, hle2, hmono2, hcov2⟩ :=
      match_input_slot ih node.right_input fuel2 (by omega) meq1 hle1
        (fun i hi => ⟨by have := (hr i hi).1; omega, (hr i hi).2⟩)
    have hadapt : expressions_copy_and_adapt_to_different_lqp node.node_expressions meq2 =
        some cp.node_expressions := by
      have hcov : ∀ e ∈ node.node_expressions, covers meq2 e.original_nodes := by
        intro e he k hk
        rcases hrefs e he k hk with ⟨i, hi, hki⟩ | ⟨i, hi, hki⟩
        · obtain ⟨v, hv⟩ := hcov1 a i hi k hki
          exact ⟨v, hmono2 k v hv⟩
        · exact hcov2 a i hi k hki
      obtain ⟨es, hes⟩ := adapt_list_some node.node_expressions hcov
      have := adapt_list_mono hle2 _ _ hes
      rw [hexprs] at this
      rw [hes, ← Option.some.inj this]
    have hshallow : node.shallow_equals cp meq2 = true := by
      unfold LQPNode.shallow_equals LQPNode._on_shallow_equals LQPNode.other_on_shallow_equals
      by_cases hj : node.type = .Join
      · obtain ⟨hmode, hflag⟩ := hjoin hj
        simp [htype, hj, JoinNode._on_shallow_equals, LQPNode.as_join, hmode, hflag,
          JoinNode.join_predicates, expressions_equal_to_expressions_in_different_lqp, hadapt]
      · simp [htype, hj, (hdata hj).1, (hdata hj).2,
          expressions_equal_to_expressions_in_different_lqp, hadapt]
    refine ⟨if (meq2.find a).isSome then meq2 else (a, c) :: meq2, ?_, ?_, ?_, ?_⟩
    · simp only [lqp_find_subplan_match, hha, hhc, hcl, hcr, hm1, hm2, hshallow, if_true]
    · split
      · exact hle2
      · intro k v hkv
        rw [find_cons] at hkv
        by_cases hk : k = a
        · subst hk
          simp only [if_true, Option.some.injEq] at hkv
          rw [← hkv]; exact hfind
        · simp only [hk, if_false] at hkv
          exact hle2 k v hkv
    · have hstep : mapping_le meq2 (if (meq2.find a).isSome then meq2 else (a, c) :: meq2) := by
        split
        · exact mapping_le_refl _
        · rename_i hnone
          apply mapping_le_cons
          cases hf : meq2.find a with
          | none => rfl
          | some v => rw [hf] at hnone; exact absurd rfl hnone
      exact mapping_le_trans hmono1 (mapping_le_trans hmono2 hstep)
    · have hstep : mapping_le meq2 (if (meq2.find a).isSome then meq2 else (a, c) :: meq2) := by
        split
        · exact mapping_le_refl _
        · rename_i hnone
          apply mapping_le_cons
          cases hf : meq2.find a with
          | none => rfl
          | some v => rw [hf] at hnone; exact absurd rfl hnone
      have hself : ∃ v, LQPNodeMapping.find
          (if (meq2.find a).isSome then meq2 else (a, c) :: meq2) a = some v := by
        split
        · rename_i hsome
          exact Option.isSome_iff_exists.mp hsome
        · exact ⟨c, by simp [find_cons]⟩
      intro d k hk
      cases d with
      | zero => simp [subplan_nodes] at hk
      | succ d =>
        simp only [subplan_nodes, hnode, List.mem_cons, List.mem_append] at hk
        rcases hk with hk | hk | hk
        · subst hk; exact hself
        · cases hli : node.left_input with
          | none => simp [hli] at hk
          | some i =>
            rw [hli] at hk
            obtain ⟨v, hv⟩ := hcov1 d i hli k hk
            exact ⟨v, hstep k v (hmono2 k v hv)⟩
        · cases hri : node.right_input with
          | none => simp [hri] at hk
          | some i =>
            rw [hri] at hk
            obtain ⟨v, hv⟩ := hcov2 d i hri k hk
            exact ⟨v, hstep k v hv⟩

theorem hash_input_slot {hash_combine : Nat → Nat → Nat} {original : Heap} {st : CopyState}
    {f : Nat} (ih : HashSpec hash_combine original st f) (o : Option Nat) (fuel fuel0 : Nat)
    (hfuel : f ≤ fuel) (hfuel0 : f ≤ fuel0)
    (ho : ∀ i, o = some i → i < f ∧ ∃ v, st.node_mapping.find i = some v) :
    ∃ h, lqp_hash hash_combine original fuel0 o = some h ∧
      lqp_hash hash_combine st.heap fuel (o.bind st.node_mapping.find) = some h := by
  cases o with
  | none =>
    refine ⟨0, ?_, ?_⟩
    · cases fuel0 <;> simp [lqp_hash]
    · cases fuel <;> simp [lqp_hash]
  | some i =>
    obtain ⟨hi, v, hv⟩ := ho i rfl
    obtain ⟨h, h1, h2⟩ := ih i v fuel fuel0 hi hfuel hfuel0 hv
    exact ⟨h, h1, by simpa [hv] using h2⟩

/-- A node and its copy have the same hash. -/
theorem hash_copy_spec (hash_combine : Nat → Nat → Nat) {original : Heap}
    (hwf : original.well_formed = true) {st : CopyState} (hinv : CopyInvariant original st) :
    ∀ f, HashSpec hash_combine original st f := by
  intro f
  induction f with
  | zero => intro a c fuel fuel0 h; exact absurd h (Nat.not_lt_zero _)
  | succ f ih =>
    intro a c fuel fuel0 haf hfuel hfuel0 hfind
    obtain ⟨node, cp, hnode, hha, hhc, htype, hexprs, hcl, hcr, hjoin, hdata, hl, hr, hrefs⟩ :=
      hinv.entry_facts hwf hfind
    obtain ⟨fuel2, rfl⟩ : ∃ k, fuel = k + 1 := ⟨fuel - 1, by omega⟩
    obtain ⟨fuel3, rfl⟩ : ∃ k, fuel0 = k + 1 := ⟨fuel0 - 1, by omega⟩
    obtain ⟨h1, hl1, hl2⟩ := hash_input_slot ih node.left_input fuel2 fuel3 (by omega)
      (by omega) (fun i hi => ⟨by have := (hl i hi).1; omega, (hl i hi).2⟩)
    obtain ⟨h2, hr1, hr2⟩ := hash_input_slot ih node.right_input fuel2 fuel3 (by omega)
      (by omega) (fun i hi => ⟨by have := (hr i hi).1; omega, (hr i hi).2⟩)
    have hshallow : cp._on_shallow_hash hash_combine = node._on_shallow_hash hash_combine := by
      unfold LQPNode._on_shallow_hash LQPNode.other_on_shallow_hash
      by_cases hj : node.type = .Join
      · obtain ⟨hmode, hflag⟩ := hjoin hj
        simp [htype, hj, JoinNode._on_shallow_hash, LQPNode.as_join, hmode, hflag]
      · simp [htype, hj, (hdata hj).1]
    refine ⟨hash_combine
      (hash_combine
        (hash_combine node.type.hash_value (node._on_shallow_hash hash_combine)) h1) h2,
      by simp only [lqp_hash, hnode, hl1, hr1], ?_⟩
    simp only [lqp_hash, hhc, hcl, hcr, hl2, hr2, hshallow, htype]

/-- Following a path of input sides in the copy leads to the copy of the node that the path
reaches in the original plan. -/
theorem follow_inputs_copy {original : Heap} (hwf : original.well_formed = true)
    {st : CopyState} (hinv : CopyInvariant original st) :
    ∀ (p : List LQPInputSide) (a c n : Nat), st.node_mapping.find a = some c →
      follow_inputs original a p = some n →
      ∃ cn, st.node_mapping.find n = some cn ∧ follow_inputs st.heap c p = some cn := by
  intro p
  induction p with
  | nil =>
    intro a c n hfind hfollow
    obtain ⟨node, cp, hnode, _, hhc, _⟩ := hinv.entry_facts hwf hfind
    simp only [follow_inputs, getElem?_some_lt hnode, if_true, Option.some.injEq] at hfollow
    subst hfollow
    exact ⟨c, hfind, by simp [follow_inputs, getElem?_some_lt hhc]⟩
  | cons side rest ih =>
    intro a c n hfind hfollow
    obtain ⟨node, cp, hnode, hha, hhc, htype, hexprs, hcl, hcr, hjoin, hdata, hl, hr, hrefs⟩ :=
      hinv.entry_facts hwf hfind
    simp only [follow_inputs, hnode] at hfollow
    cases hin : node.input side with
    | none => simp [hin] at hfollow
    | some i =>
      simp only [hin] at hfollow
      have hmapped : ∃ v, st.node_mapping.find i = some v := by
        cases side with
        | Left => exact (hl i hin).2
        | Right => exact (hr i hin).2
      obtain ⟨ci, hci⟩ := hmapped
      have hcin : cp.input side = some ci := by
        cases side with
        | Left =>
          have hli : node.left_input = some i := hin
          simp [LQPNode.input, hcl, hli, hci]
        | Right =>
          have hri : node.right_input = some i := hin
          simp [LQPNode.input, hcr, hri, hci]
      obtain ⟨cn, h1, h2⟩ := ih i ci n hci hfollow
      exact ⟨cn, h1, by simp only [follow_inputs, hhc, hcin, h2]⟩

theorem find_some_iff_mem_keys (m : LQPNodeMapping) (n : Nat) :
    (∃ v, m.find n = some v) ↔ n ∈ m.map Prod.fst := by
  rw [← not_iff_not, ← find_none_iff]
  cases m.find n <;> simp

/-- A mapping with distinct keys that knows exactly the nodes of a list has as many entries
as the list has distinct nodes. -/
theorem mapping_length_eq_distinct (m : LQPNodeMapping) (nodes : List Nat)
    (hnodup : (m.map Prod.fst).Nodup)
    (hkeys : ∀ k, (∃ v, m.find k = some v) ↔ k ∈ nodes) :
    m.length = nodes.dedup.length := by
  have h1 : (m.map Prod.fst).toFinset = nodes.toFinset := by
    ext k
    rw [List.mem_toFinset, List.mem_toFinset, ← find_some_iff_mem_keys, hkeys]
  have h2 := List.toFinset_card_of_nodup hnodup
  rw [h1, List.card_toFinset] at h2
  rw [h2, List.length_map]

/-- The deep copy of a well-formed plan returns and leaves the copy invariant. -/
theorem deep_copy_spec {heap : Heap} {root : Nat} (hwf : heap.well_formed = true)
    (hroot : root < heap.length) :
    ∃ c st, deep_copy heap root = some (c, st) ∧ CopyInvariant heap st ∧
      st.node_mapping.find root = some c ∧
      ∀ k, (∃ v, st.node_mapping.find k = some v) ↔ k ∈ subplan_nodes heap heap.length root := by
  obtain ⟨c, st, h1, hinv, _, hfind, hkeys⟩ :=
    deep_copy_impl_spec hwf heap.length root { heap := heap, node_mapping := [] }
      (CopyInvariant.initial heap) hroot hroot
  refine ⟨c, st, h1, hinv, hfind, fun k => ⟨?_, ?_⟩⟩
  · rintro ⟨v, hv⟩
    rcases hkeys k v hv with ⟨w, hw⟩ | h
    · simp [LQPNodeMapping.find] at hw
    · exact h
  · intro hk
    exact hinv.covers_subplan heap.length root ⟨c, hfind⟩ k hk

/-- A successful `JoinNode::_on_shallow_copy` keeps the join mode and, for a join whose
semi-reduction flag is only set in Semi mode, the flag. -/
theorem join_on_shallow_copy_members (j copy : JoinNode) (m : LQPNodeMapping)
    (hsemi : j._is_semi_reduction = true → j.join_mode = .Semi)
    (h : j._on_shallow_copy m = some copy) :
    copy.join_mode = j.join_mode ∧ copy._is_semi_reduction = j._is_semi_reduction := by
  unfold JoinNode._on_shallow_copy at h
  by_cases he : j.join_predicates = []
  · simp only [he, if_true] at h
    by_cases hc : j.join_mode = .Cross
    · have hflag : j._is_semi_reduction = false := by
        cases hf : j._is_semi_reduction with
        | false => rfl
        | true => have := hsemi hf; rw [hc] at this; exact absurd this (by decide)
      simp only [hc, ne_eq, not_true_eq_false, if_false, JoinNode.make, if_true,
        Option.some.injEq] at h
      rw [← h, hc, hflag]
      exact ⟨rfl, rfl⟩
    · simp [hc] at h
  · simp only [he, if_false] at h
    cases ha : expressions_copy_and_adapt_to_different_lqp j.join_predicates m with
    | none => simp [ha] at h
    | some es =>
      simp only [ha] at h
      cases hm : JoinNode.make_with_predicates j.join_mode es with
      | none => simp [hm] at h
      | some made =>
        simp only [hm, Option.some.injEq] at h
        unfold JoinNode.make_with_predicates at hm
        split at hm
        · simp only [Option.some.injEq] at hm
          rw [← h, ← hm]
          exact ⟨rfl, rfl⟩
        · exact Option.noConfusion hm

/-- C1: for a well-formed plan memory (a DAG of plan nodes, Join nodes of every mode and
semi-reductions included) and a root node, `deep_copy` returns a copy made of fresh nodes that
leaves the original nodes untouched; the copy is deep-equal to the original under
`operator==` (the parallel traversal finds no mismatch); sharing is preserved: two input
paths that reach the same node of the original reach one and the same node of the copy; and
exactly one node is allocated per distinct node of the original plan. -/
theorem deep_copy_equal_and_sharing (heap : Heap) (root : Nat)
    (hwf : heap.well_formed = true) (hroot : root < heap.length) :
    ∃ c st, deep_copy heap root = some (c, st) ∧
      (∃ ext, st.heap = heap ++ ext) ∧ heap.length ≤ c ∧
      lqp_equals st.heap root c = true ∧
      (lqp_find_subplan_match st.heap st.heap.length (some root) (some c) []).isSome = true ∧
      (∀ p q n, follow_inputs heap root p = some n → follow_inputs heap root q = some n →
        ∃ cn, heap.length ≤ cn ∧ follow_inputs st.heap c p = some cn ∧
          follow_inputs st.heap c q = some cn) ∧
      st.heap.length = heap.length + (subplan_nodes heap heap.length root).dedup.length := by
  obtain ⟨c, st, hcopy, hinv, hfind, hkeys⟩ := deep_copy_spec hwf hroot
  have hlen : heap.length ≤ st.heap.length := by rw [hinv.length_eq]; omega
  obtain ⟨meq, hmatch, _⟩ := subplan_match_spec hwf hinv heap.length root c st.heap.length []
    hroot hlen hfind (fun k v h => by simp [LQPNodeMapping.find] at h)
  refine ⟨c, st, hcopy, hinv.extends_heap, (hinv.entries root c hfind).1, ?_, ?_, ?_, ?_⟩
  · simp [lqp_equals, hmatch]
  · simp [hmatch]
  · intro p q n hp hq
    obtain ⟨cn, h1, h2⟩ := follow_inputs_copy hwf hinv p root c n hfind hp
    obtain ⟨cn2, h3, h4⟩ := follow_inputs_copy hwf hinv q root c n hfind hq
    rw [h1] at h3
    have : cn = cn2 := Option.some.inj h3
    subst this
    exact ⟨cn, (hinv.entries n cn h1).1, h2, h4⟩
  · rw [hinv.length_eq, mapping_length_eq_distinct _ _ hinv.keys_nodup hkeys]

/-- Witness of C1: the deep copy of `diamondPlan` from its root, the inner join at position 4;
the stored table at position 0 is reached along the paths left-left and right-left. -/
theorem deep_copy_equal_and_sharing_witness :
    ∃ c st, deep_copy diamondPlan 4 = some (c, st) ∧ lqp_equals st.heap 4 c = true ∧
      (∃ cn, follow_inputs st.heap c [.Left, .Left] = some cn ∧
        follow_inputs st.heap c [.Right, .Left] = some cn) ∧
      st.heap.length = 10 := by
  obtain ⟨c, st, h1, _, _, h2, _, h3, h4⟩ :=
    deep_copy_equal_and_sharing diamondPlan 4 (by decide) (by decide)
  obtain ⟨cn, _, h5, h6⟩ := h3 [.Left, .Left] [.Right, .Left] 0 (by decide) (by decide)
  refine ⟨c, st, h1, h2, ⟨cn, h5, h6⟩, ?_⟩
  rw [h4]
  decide

/-- C2: for a well-formed plan memory and a root node, the hash of the plan and the hash of
its deep copy are the same value, for every way `hash_combine` of combining hashes; and for a
`JoinNode` whose semi-reduction flag is only set in Semi mode, the shallow hash (join mode
combined with the semi-reduction flag) of the copy made by `_on_shallow_copy` is the shallow
hash of the original. -/
theorem deep_copy_preserves_hash (hash_combine : Nat → Nat → Nat) (heap : Heap) (root : Nat)
    (hwf : heap.well_formed = true) (hroot : root < heap.length) :
    (∃ c st h, deep_copy heap root = some (c, st) ∧
      hash hash_combine heap root = some h ∧ hash hash_combine st.heap c = some h) ∧
    (∀ (j copy : JoinNode) (m : LQPNodeMapping),
      (j._is_semi_reduction = true → j.join_mode = .Semi) →
      j._on_shallow_copy m = some copy →
      copy._on_shallow_hash hash_combine = j._on_shallow_hash hash_combine) := by
  constructor
  · obtain ⟨c, st, hcopy, hinv, hfind, _⟩ := deep_copy_spec hwf hroot
    have hlen : heap.length ≤ st.heap.length := by rw [hinv.length_eq]; omega
    obtain ⟨h, h1, h2⟩ := hash_copy_spec hash_combine hwf hinv heap.length root c
      st.heap.length heap.length hroot hlen (Nat.le_refl _) hfind
    exact ⟨c, st, h, hcopy, h1, h2⟩
  · intro j copy m hsemi hcopy
    obtain ⟨h1, h2⟩ := join_on_shallow_copy_members j copy m hsemi hcopy
    simp [JoinNode._on_shallow_hash, h1, h2]

/-- Witness of C2: the hash of `diamondPlan` and of its deep copy under the hash combination
of boost. -/
theorem deep_copy_preserves_hash_witness :
    ∃ c st h, deep_copy diamondPlan 4 = some (c, st) ∧
      hash boost_hash_combine diamondPlan 4 = some h ∧
      hash boost_hash_combine st.heap c = some h :=
  (deep_copy_preserves_hash boost_hash_combine diamondPlan 4 (by decide) (by decide)).1

/-! ## Non-trivial functional dependencies of a join -/

theorem non_trivial_fds_of_regular_join (j : JoinNode) (l r : InputNode) (w : Nat)
    (hmode : is_semi_or_anti_join j.join_mode = false)
    (houter : ¬ (j.join_mode = .FullOuter ∨ j.join_mode = .Left ∨ j.join_mode = .Right))
    (hl : j.left_input = some l) (hr : j.right_input = some r) :
    j.non_trivial_functional_dependencies w =
      some (union_fds
        (if j._output_unique_column_combinations l.unique_column_combinations
              r.unique_column_combinations = ∅ ∧ l.unique_column_combinations ≠ ∅ ∧
              r.unique_column_combinations ≠ ∅ then
            (l.functional_dependencies, r.functional_dependencies)
          else if (j._output_unique_column_combinations l.unique_column_combinations
              r.unique_column_combinations = ∅ ∨
              j._output_unique_column_combinations l.unique_column_combinations
                r.unique_column_combinations = r.unique_column_combinations) ∧
              l.unique_column_combinations ≠ ∅ then
            (l.functional_dependencies, r.non_trivial_functional_dependencies)
          else if (j._output_unique_column_combinations l.unique_column_combinations
              r.unique_column_combinations = ∅ ∨
              j._output_unique_column_combinations l.unique_column_combinations
                r.unique_column_combinations = l.unique_column_combinations) ∧
              r.unique_column_combinations ≠ ∅ then
            (l.non_trivial_functional_dependencies, r.functional_dependencies)
          else (l.non_trivial_functional_dependencies,
            r.non_trivial_functional_dependencies)).1
        (if j._output_unique_column_combinations l.unique_column_combinations
              r.unique_column_combinations = ∅ ∧ l.unique_column_combinations ≠ ∅ ∧
              r.unique_column_combinations ≠ ∅ then
            (l.functional_dependencies, r.functional_dependencies)
          else if (j._output_unique_column_combinations l.unique_column_combinations
              r.unique_column_combinations = ∅ ∨
              j._output_unique_column_combinations l.unique_column_combinations
                r.unique_column_combinations = r.unique_column_combinations) ∧
              l.unique_column_combinations ≠ ∅ then
            (l.functional_dependencies, r.non_trivial_functional_dependencies)
          else if (j._output_unique_column_combinations l.unique_column_combinations
              r.unique_column_combinations = ∅ ∨
              j._output_unique_column_combinations l.unique_column_combinations
                r.unique_column_combinations = l.unique_column_combinations) ∧
              r.unique_column_combinations ≠ ∅ then
            (l.non_trivial_functional_dependencies, r.functional_dependencies)
          else (l.non_trivial_functional_dependencies,
            r.non_trivial_functional_dependencies)).2) := by
  simp only [JoinNode.non_trivial_functional_dependencies, hmode, hl, hr, houter, and_false,
    if_false, Bool.false_eq_true]

/-- C11: for a join that is not Semi/Anti, whose inputs both have at least one UCC and whose
would-be output UCC set is empty, `non_trivial_functional_dependencies()` is built from all
functional dependencies of both inputs: for Inner and Cross joins it is
`union_fds(left_input.functional_dependencies(), right_input.functional_dependencies())`, and
for Left, Right and FullOuter joins it is that set, passed through `remove_invalid_fds` when it
is not empty. -/
theorem join_without_uccs_forwards_all_fds (j : JoinNode) (l r : InputNode) (w : Nat)
    (hmode : is_semi_or_anti_join j.join_mode = false)
    (hl : j.left_input = some l) (hr : j.right_input = some r)
    (hlne : l.unique_column_combinations ≠ ∅) (hrne : r.unique_column_combinations ≠ ∅)
    (hout : j._output_unique_column_combinations l.unique_column_combinations
      r.unique_column_combinations = ∅) :
    ((j.join_mode = .Inner ∨ j.join_mode = .Cross) →
      j.non_trivial_functional_dependencies w =
        some (union_fds l.functional_dependencies r.functional_dependencies)) ∧
    ((j.join_mode = .Left ∨ j.join_mode = .Right ∨ j.join_mode = .FullOuter) →
      j.non_trivial_functional_dependencies w =
        if union_fds l.functional_dependencies r.functional_dependencies = ∅ then
          some (union_fds l.functional_dependencies r.functional_dependencies)
        else
          j.remove_invalid_fds w
            (union_fds l.functional_dependencies r.functional_dependencies)) := by
  constructor
  · intro h
    have houter : ¬ (j.join_mode = .FullOuter ∨ j.join_mode = .Left ∨ j.join_mode = .Right) := by
      rcases h with h | h <;> rw [h] <;> decide
    rw [non_trivial_fds_of_regular_join j l r w hmode houter hl hr]
    simp [hout, hlne, hrne]
  · intro h
    have houter : j.join_mode = .FullOuter ∨ j.join_mode = .Left ∨ j.join_mode = .Right := by
      rcases h with h | h | h
      · exact Or.inr (Or.inl h)
      · exact Or.inr (Or.inr h)
      · exact Or.inl h
    simp only [JoinNode.non_trivial_functional_dependencies, hmode, hl, hr, hout, hlne, hrne,
      houter, ne_eq, not_false_eq_true, and_self, if_true, and_true, Bool.false_eq_true,
      if_false]
    by_cases he : union_fds l.functional_dependencies r.functional_dependencies = ∅
    · simp [he]
    · simp [he]

/-- Witness of C11: the cross join of `fdInputA` and `fdInputB` forwards the trivial FDs of both
inputs as well. -/
theorem join_without_uccs_forwards_all_fds_witness :
    (fdJoin .Cross []).non_trivial_functional_dependencies 16 =
      some (union_fds fdInputA.functional_dependencies fdInputB.functional_dependencies) :=
  (join_without_uccs_forwards_all_fds (fdJoin .Cross []) fdInputA fdInputB 16 rfl rfl rfl
    (by decide) (by decide) (by decide)).1 (Or.inr rfl)

theorem output_uccs_of_single_equality (j : JoinNode) (lo ro : Expression)
    (hpred : j.join_predicates = [.binary_predicate .Equals lo ro])
    (lu ru : UniqueColumnCombinations) :
    j._output_unique_column_combinations lu ru =
      if contains_matching_unique_column_combination lu {lo} = true then
        if contains_matching_unique_column_combination ru {ro} = true then lu ∪ ru else ru
      else if contains_matching_unique_column_combination ru {ro} = true then lu else ∅ := by
  have hne : ∀ (u : UniqueColumnCombinations) (e : ExpressionUnorderedSet),
      contains_matching_unique_column_combination u e = true → u ≠ ∅ := by
    intro u e h hu
    rw [hu, contains_matching_ucc_empty] at h
    exact Bool.false_ne_true h
  by_cases hL : contains_matching_unique_column_combination lu {lo} = true <;>
    by_cases hR : contains_matching_unique_column_combination ru {ro} = true
  · simp [JoinNode._output_unique_column_combinations, hpred, as_binary_predicate, hL, hR,
      hne _ _ hL, hne _ _ hR]
  · simp [JoinNode._output_unique_column_combinations, hpred, as_binary_predicate, hL, hR,
      hne _ _ hL]
  · simp [JoinNode._output_unique_column_combinations, hpred, as_binary_predicate, hL, hR,
      hne _ _ hR]
  · by_cases h0 : lu = ∅ ∧ ru = ∅
    · simp [JoinNode._output_unique_column_combinations, h0.1, h0.2, hL, hR]
    · simp [JoinNode._output_unique_column_combinations, hpred, as_binary_predicate, hL, hR, h0]

/-- C12 (the code at the failing input): in the inner join `fdInputB JOIN fdInputB ON
colB = colB` of a shared input with itself both operands are unique and the output UCCs are the
union of both inputs' UCCs (neither side's UCCs are discarded), but
`non_trivial_functional_dependencies()` is not `union_fds` of the non-trivial FDs of both
inputs: the output UCC set equals the right input's UCC set, so the branch "Left UCCs are
discarded" (join_node.cpp:329-334) is taken and forwards the trivial FD `{colB} -> {colC}` of
the left input. -/
theorem shared_input_join_forwards_trivial_fd :
    sharedInputJoin.join_mode = .Inner ∧
    sharedInputJoin.join_predicates = [.binary_predicate .Equals colB colB] ∧
    (∃ l r, sharedInputJoin.left_input = some l ∧ sharedInputJoin.right_input = some r ∧
      contains_matching_unique_column_combination l.unique_column_combinations {colB} = true ∧
      contains_matching_unique_column_combination r.unique_column_combinations {colB} = true ∧
      sharedInputJoin._output_unique_column_combinations l.unique_column_combinations
          r.unique_column_combinations =
        l.unique_column_combinations ∪ r.unique_column_combinations ∧
      ∃ fds ∈ sharedInputJoin.non_trivial_functional_dependencies 16,
        fds ≠ union_fds l.non_trivial_functional_dependencies
            r.non_trivial_functional_dependencies ∧
        (⟨{colB}, {colC}⟩ : FunctionalDependency) ∈ fds) :=
  ⟨rfl, rfl, fdInputB, fdInputB, rfl, rfl, by decide, by decide, by decide, by decide⟩

/-- The branches of `non_trivial_functional_dependencies()` that the set comparisons of
join_node.cpp:324-340 select as their comments say, for an Inner join with a single equality
predicate `lo = ro`: if only the left operand is unique (the output UCCs are the right input's UCCs),
`non_trivial_functional_dependencies()` is `union_fds` of all FDs of the left input and the
non-trivial FDs of the right input; if only the right operand is unique and the UCC sets of the
two inputs differ, it is `union_fds` of the non-trivial FDs of the left input and all FDs of
the right input; if both operands are unique and neither input's UCC set contains the other's,
it is `union_fds` of the non-trivial FDs of both inputs. -/
theorem inner_join_non_trivial_fds (j : JoinNode) (l r : InputNode) (lo ro : Expression)
    (w : Nat) (hmode : j.join_mode = .Inner)
    (hpred : j.join_predicates = [.binary_predicate .Equals lo ro])
    (hl : j.left_input = some l) (hr : j.right_input = some r) :
    (contains_matching_unique_column_combination l.unique_column_combinations {lo} = true →
      contains_matching_unique_column_combination r.unique_column_combinations {ro} = false →
      j.non_trivial_functional_dependencies w =
        some (union_fds l.functional_dependencies r.non_trivial_functional_dependencies)) ∧
    (contains_matching_unique_column_combination l.unique_column_combinations {lo} = false →
      contains_matching_unique_column_combination r.unique_column_combinations {ro} = true →
      l.unique_column_combinations ≠ r.unique_column_combinations →
      j.non_trivial_functional_dependencies w =
        some (union_fds l.non_trivial_functional_dependencies r.functional_dependencies)) ∧
    (contains_matching_unique_column_combination l.unique_column_combinations {lo} = true →
      contains_matching_unique_column_combination r.unique_column_combinations {ro} = true →
      ¬ l.unique_column_combinations ⊆ r.unique_column_combinations →
      ¬ r.unique_column_combinations ⊆ l.unique_column_combinations →
      j.non_trivial_functional_dependencies w =
        some (union_fds l.non_trivial_functional_dependencies
          r.non_trivial_functional_dependencies)) := by
  have hne : ∀ (u : UniqueColumnCombinations) (e : ExpressionUnorderedSet),
      contains_matching_unique_column_combination u e = true → u ≠ ∅ := by
    intro u e h hu
    rw [hu, contains_matching_ucc_empty] at h
    exact Bool.false_ne_true h
  have hsemi : is_semi_or_anti_join j.join_mode = false := by rw [hmode]; rfl
  have houter : ¬ (j.join_mode = .FullOuter ∨ j.join_mode = .Left ∨ j.join_mode = .Right) := by
    rw [hmode]; decide
  rw [non_trivial_fds_of_regular_join j l r w hsemi houter hl hr,
    output_uccs_of_single_equality j lo ro hpred]
  refine ⟨fun hL hR => ?_, fun hL hR hdiff => ?_, fun hL hR h1 h2 => ?_⟩
  · have hl0 := hne _ _ hL
    by_cases hr0 : r.unique_column_combinations = ∅
    · simp [hL, hl0, hr0, contains_matching_ucc_empty]
    · simp [hL, hR, hl0, hr0]
  · have hr0 := hne _ _ hR
    by_cases hl0 : l.unique_column_combinations = ∅
    · simp [hR, hl0, hr0, contains_matching_ucc_empty]
    · simp [hL, hR, hl0, hr0, hdiff]
  · have hl0 := hne _ _ hL
    have hr0 := hne _ _ hR
    have hu0 : l.unique_column_combinations ∪ r.unique_column_combinations ≠ ∅ := by
      intro h
      exact hl0 (Finset.union_eq_empty.mp h).1
    have hu1 : l.unique_column_combinations ∪ r.unique_column_combinations ≠
        r.unique_column_combinations := fun h => h1 (Finset.union_eq_right.mp h)
    have hu2 : l.unique_column_combinations ∪ r.unique_column_combinations ≠
        l.unique_column_combinations := fun h => h2 (Finset.union_eq_left.mp h)
    simp [hL, hR, hl0, hr0, hu0, hu1, hu2]

/-- In `fdInputA JOIN fdInputB ON colA = colC` only the left operand is unique; all FDs of the
left input and the non-trivial FDs of the right input are forwarded. -/
theorem inner_join_non_trivial_fds_witness :
    (fdJoin .Inner [.binary_predicate .Equals colA colC]).non_trivial_functional_dependencies
        16 =
      some (union_fds fdInputA.functional_dependencies
        fdInputB.non_trivial_functional_dependencies) :=
  (inner_join_non_trivial_fds (fdJoin .Inner [.binary_predicate .Equals colA colC]) fdInputA
    fdInputB colA colC 16 rfl rfl rfl rfl).1 (by decide) (by decide)

/-! ## Nullability, output expressions, construction and semi-reduction marking of a join -/

/-- C13: for a join with both inputs set, `n` the number of output expressions of the left
input and a column id `c` (a value of the `column_id_bits` wide `ColumnID`):
`is_column_nullable(c)` is true if the mode is Left and `c >= n`, or the mode is Right and
`c < n`, or the mode is FullOuter; in every other case it is `left_input.is_column_nullable(c)`
when `c < n` and `right_input.is_column_nullable(c - n)` when `c >= n`. -/
theorem join_is_column_nullable (j : JoinNode) (l r : InputNode) (w c : Nat)
    (hl : j.left_input = some l) (hr : j.right_input = some r) (hc : c < 2 ^ w) :
    j.is_column_nullable w c =
      some (if (j.join_mode = .Left ∧ l.output_expressions.length ≤ c) ∨
              (j.join_mode = .Right ∧ c < l.output_expressions.length) ∨
              j.join_mode = .FullOuter then true
            else if c < l.output_expressions.length then l.is_column_nullable c
            else r.is_column_nullable (c - l.output_expressions.length)) := by
  simp only [JoinNode.is_column_nullable, hl, hr, decide_eq_false_iff_not, not_lt,
    decide_eq_true_eq]
  by_cases h1 : j.join_mode = .Left ∧ l.output_expressions.length ≤ c
  · simp [h1]
  · by_cases h2 : j.join_mode = .Right ∧ c < l.output_expressions.length
    · simp [h2]
    · by_cases h3 : j.join_mode = .FullOuter
      · simp [h3]
      · by_cases h4 : c < l.output_expressions.length
        · have hR : ¬((j.join_mode = .Left ∧ l.output_expressions.length ≤ c) ∨
              (j.join_mode = .Right ∧ c < l.output_expressions.length) ∨
              j.join_mode = .FullOuter) := by tauto
          rw [if_neg h1, if_neg h2, if_neg h3, if_pos h4, if_neg hR, if_pos h4]
        · have hn : l.output_expressions.length ≤ c := Nat.le_of_not_lt h4
          have hmod : l.output_expressions.length % 2 ^ w = l.output_expressions.length :=
            Nat.mod_eq_of_lt (by omega)
          have hcast : (((c : Int) - ((l.output_expressions.length % 2 ^ w : Nat) : Int)) %
              ((2 ^ w : Nat) : Int)).toNat = c - l.output_expressions.length := by
            rw [hmod]
            have h5 : ((c : Int) - (l.output_expressions.length : Int)) =
                ((c - l.output_expressions.length : Nat) : Int) := by omega
            rw [h5, ← Int.natCast_mod, Int.toNat_natCast]
            exact Nat.mod_eq_of_lt (by omega)
          have hR : ¬((j.join_mode = .Left ∧ l.output_expressions.length ≤ c) ∨
              (j.join_mode = .Right ∧ c < l.output_expressions.length) ∨
              j.join_mode = .FullOuter) := by tauto
          rw [if_neg h1, if_neg h2, if_neg h3, if_neg h4, if_neg hR, if_neg h4, hcast]

/-- Witness of C13: column 3 of `fdInputA LEFT JOIN fdInputB` is a column of the right input
and nullable; column 1 keeps the nullability of column 1 of the left input. -/
theorem join_is_column_nullable_witness :
    (fdJoin .Left [.binary_predicate .Equals colA colB]).is_column_nullable 16 3 = some true ∧
    (fdJoin .Left [.binary_predicate .Equals colA colB]).is_column_nullable 16 1 =
      some (fdInputA.is_column_nullable 1) :=
  ⟨join_is_column_nullable (fdJoin .Left [.binary_predicate .Equals colA colB]) fdInputA
      fdInputB 16 3 rfl rfl (by decide),
    join_is_column_nullable (fdJoin .Left [.binary_predicate .Equals colA colB]) fdInputA
      fdInputB 16 1 rfl rfl (by decide)⟩

/-- C14: `JoinNode::output_expressions()` fails when the left or the right input is not set,
whatever the join mode; when both are set it returns, computed from the output expressions the
inputs have at the call, the left input's output expressions for Semi/Anti joins and otherwise
the left input's output expressions followed by the right input's (its length is the sum of
both lengths). -/
theorem join_output_expressions (j : JoinNode) :
    ((j.left_input = none ∨ j.right_input = none) → j.output_expressions = none) ∧
    (∀ l r, j.left_input = some l → j.right_input = some r →
      (is_semi_or_anti_join j.join_mode = true →
        j.output_expressions = some l.output_expressions) ∧
      (is_semi_or_anti_join j.join_mode = false →
        j.output_expressions = some (l.output_expressions ++ r.output_expressions) ∧
        ∀ out ∈ j.output_expressions,
          out.length = l.output_expressions.length + r.output_expressions.length)) := by
  refine ⟨fun h => ?_, fun l r hl hr => ⟨fun hs => ?_, fun hs => ?_⟩⟩
  · rcases h with h | h
    · simp [JoinNode.output_expressions, h]
    · cases hl : j.left_input <;> simp [JoinNode.output_expressions, h]
  · simp [JoinNode.output_expressions, hl, hr, hs]
  · have h1 : j.output_expressions = some (l.output_expressions ++ r.output_expressions) := by
      simp [JoinNode.output_expressions, hl, hr, hs]
    refine ⟨h1, fun out hout => ?_⟩
    rw [h1] at hout
    simp only [Option.mem_def, Option.some.injEq] at hout
    rw [← hout, List.length_append]

/-- C15: constructing a `JoinNode` without predicates succeeds iff the join mode is Cross;
constructing it with a predicate list succeeds iff the mode is not Cross and the list is not
empty (with a single predicate: iff the mode is not Cross); so every constructed `JoinNode` has
no join predicate exactly when its mode is Cross. -/
theorem join_node_construction (mode : JoinMode) (predicates : List Expression)
    (predicate : Expression) :
    ((JoinNode.make mode).isSome = true ↔ mode = .Cross) ∧
    ((JoinNode.make_with_predicates mode predicates).isSome = true ↔
      (mode ≠ .Cross ∧ predicates ≠ [])) ∧
    ((JoinNode.make_with_predicate mode predicate).isSome = true ↔ mode ≠ .Cross) ∧
    (∀ j, (JoinNode.make mode = some j ∨ JoinNode.make_with_predicates mode predicates = some j ∨
        JoinNode.make_with_predicate mode predicate = some j) →
      (j.join_mode = mode ∧ (j.join_predicates = [] ↔ j.join_mode = .Cross))) := by
  have hlist : ∀ (ps : List Expression) (j : JoinNode),
      JoinNode.make_with_predicates mode ps = some j →
      (j.join_mode = mode ∧ (j.join_predicates = [] ↔ j.join_mode = .Cross)) := by
    intro ps j hj
    unfold JoinNode.make_with_predicates at hj
    split at hj
    · rename_i hc
      simp only [Option.some.injEq] at hj
      rw [← hj]
      simp [JoinNode.join_predicates, hc.1, hc.2]
    · exact Option.noConfusion hj
  refine ⟨?_, ?_, ?_, ?_⟩
  · by_cases h : mode = .Cross <;> simp [JoinNode.make, h]
  · by_cases h : mode ≠ .Cross ∧ predicates ≠ []
    · simp [JoinNode.make_with_predicates, h]
    · simp only [JoinNode.make_with_predicates, h, if_false, Option.isSome_none,
        Bool.false_eq_true]
  · by_cases h : mode = .Cross <;>
      simp [JoinNode.make_with_predicate, JoinNode.make_with_predicates, h]
  · intro j hj
    rcases hj with hj | hj | hj
    · unfold JoinNode.make at hj
      split at hj
      · rename_i hc
        simp only [Option.some.injEq] at hj
        rw [← hj]
        simp [JoinNode.join_predicates, hc]
      · exact Option.noConfusion hj
    · exact hlist predicates j hj
    · exact hlist [predicate] j hj

/-- C16: `mark_as_semi_reduction(reduced)` succeeds iff the node has not been marked before,
`reduced` is not null and the join mode is Semi; after a successful call `is_semi_reduction()`
is true and the reduced join is cached; every later call on the node fails; and a failing call
leaves the node (its semi-reduction flag and its cached reduced-join reference included)
unchanged. -/
theorem mark_as_semi_reduction_contract (j : JoinNode) (reduced : Option Nat) :
    ((j.mark_as_semi_reduction reduced).1 = true ↔
      (j._is_semi_reduction = false ∧ reduced ≠ none ∧ j.join_mode = .Semi)) ∧
    ((j.mark_as_semi_reduction reduced).1 = true →
      (j.mark_as_semi_reduction reduced).2.is_semi_reduction = true ∧
      (j.mark_as_semi_reduction reduced).2._reduced_join_node = reduced ∧
      ∀ again, ((j.mark_as_semi_reduction reduced).2.mark_as_semi_reduction again).1 = false) ∧
    ((j.mark_as_semi_reduction reduced).1 = false →
      (j.mark_as_semi_reduction reduced).2 = j) := by
  unfold JoinNode.mark_as_semi_reduction
  by_cases h1 : j._is_semi_reduction = true
  · simp [h1]
  · by_cases h2 : reduced = none
    · simp [h1, h2]
    · by_cases h3 : j.join_mode = .Semi
      · simp [h1, h2, h3, JoinNode.is_semi_reduction, JoinNode.mark_as_semi_reduction]
      · simp [h1, h2, h3]

/-- Witness of C14: the inner join of `fdInputA` and `fdInputB` outputs the expressions of both
inputs, the semi join those of `fdInputA`. -/
theorem join_output_expressions_witness :
    (fdJoin .Inner [.binary_predicate .Equals colA colB]).output_expressions =
      some (fdInputA.output_expressions ++ fdInputB.output_expressions) ∧
    (fdJoin .Semi [.binary_predicate .Equals colA colB]).output_expressions =
      some fdInputA.output_expressions :=
  ⟨(((join_output_expressions (fdJoin .Inner [.binary_predicate .Equals colA colB])).2
      fdInputA fdInputB rfl rfl).2 rfl).1,
    ((join_output_expressions (fdJoin .Semi [.binary_predicate .Equals colA colB])).2
      fdInputA fdInputB rfl rfl).1 rfl⟩

/-- Witness of C15: a Cross join is constructed without predicates, an Inner join with one
predicate. -/
theorem join_node_construction_witness :
    (JoinNode.make .Cross).isSome = true ∧
    (JoinNode.make_with_predicates .Inner [.binary_predicate .Equals colA colB]).isSome = true :=
  ⟨(join_node_construction .Cross [] colA).1.2 rfl,
    (join_node_construction .Inner [.binary_predicate .Equals colA colB] colA).2.1.2
      ⟨by decide, List.cons_ne_nil _ _⟩⟩

/-- Witness of C16: marking the semi join of `diamondPlan` with node 4 succeeds and sets the
flag. -/
theorem mark_as_semi_reduction_contract_witness :
    (diamondSemiJoin.mark_as_semi_reduction (some 4)).1 = true ∧
    (diamondSemiJoin.mark_as_semi_reduction (some 4)).2.is_semi_reduction = true :=
  ⟨(mark_as_semi_reduction_contract diamondSemiJoin (some 4)).1.2
      ⟨rfl, fun h => Option.noConfusion h, rfl⟩,
    ((mark_as_semi_reduction_contract diamondSemiJoin (some 4)).2.1 rfl).1⟩

/-! ## The reduced join of a semi-reduction -/

theorem visit_lqp_upwards_invariant {σ : Type} (outputs : Nat → List Nat)
    (visitor : σ → Nat → Option (LQPUpwardVisitation × σ)) (P : σ → Prop) (Q : Nat → Prop)
    (hstep : ∀ s n v s2, P s → Q n → visitor s n = some (v, s2) → P s2)
    (hout : ∀ n m, Q n → m ∈ outputs n → Q m) :
    ∀ (fuel : Nat) (node_queue visited_nodes : List Nat) (s res : σ),
      (∀ n ∈ node_queue, Q n) → P s →
      visit_lqp_upwards outputs visitor fuel node_queue visited_nodes s = some res → P res := by
  intro fuel
  induction fuel with
  | zero =>
    intro node_queue visited_nodes s res hq hs h
    cases node_queue with
    | nil =>
      simp only [visit_lqp_upwards, Option.some.injEq] at h
      exact h ▸ hs
    | cons node rest => simp [visit_lqp_upwards] at h
  | succ fuel ih =>
    intro node_queue visited_nodes s res hq hs h
    cases node_queue with
    | nil =>
      simp only [visit_lqp_upwards, Option.some.injEq] at h
      exact h ▸ hs
    | cons node rest =>
      have hnode : Q node := hq node (List.mem_cons_self _ _)
      have hrest : ∀ n ∈ rest, Q n := fun n hn => hq n (List.mem_cons_of_mem _ hn)
      simp only [visit_lqp_upwards] at h
      split at h
      · exact ih _ _ _ _ hrest hs h
      · split at h
        · exact Option.noConfusion h
        · rename_i s2 hv
          refine ih _ _ _ _ ?_ (hstep _ _ _ _ hs hnode hv) h
          intro n hn
          rcases List.mem_append.1 hn with hn | hn
          · exact hrest n hn
          · exact hout _ _ hnode hn
        · rename_i s2 hv
          exact ih _ _ _ _ hrest (hstep _ _ _ _ hs hnode hv) h

theorem upward_visit_potential_visit (heap : Heap) (outputs : Nat → List Nat)
    (node : Nat) (visited_nodes : List Nat) (hnode : node < heap.length)
    (hnew : node ∉ visited_nodes) :
    (outputs node).length +
      ∑ n in (Finset.range heap.length).filter (fun n => n ∉ node :: visited_nodes),
        (outputs n).length =
    ∑ n in (Finset.range heap.length).filter (fun n => n ∉ visited_nodes),
      (outputs n).length := by
  have hmem : node ∈ (Finset.range heap.length).filter (fun n => n ∉ visited_nodes) := by
    simp [hnode, hnew]
  have herase : (Finset.range heap.length).filter (fun n => n ∉ node :: visited_nodes) =
      ((Finset.range heap.length).filter (fun n => n ∉ visited_nodes)).erase node := by
    ext x
    simp only [Finset.mem_filter, Finset.mem_range, List.mem_cons, not_or, Finset.mem_erase]
    tauto
  rw [herase]
  exact Finset.add_sum_erase _ (fun n => (outputs n).length) hmem

theorem visit_lqp_upwards_terminates {σ : Type} (heap : Heap) (outputs : Nat → List Nat)
    (visitor : σ → Nat → Option (LQPUpwardVisitation × σ))
    (hclosed : ∀ n, n < heap.length → ∀ m ∈ outputs n, m < heap.length)
    (hvisitor : ∀ s n, n < heap.length → (visitor s n).isSome = true) :
    ∀ (fuel : Nat) (node_queue visited_nodes : List Nat) (s : σ),
      (∀ n ∈ node_queue, n < heap.length) →
      upward_visit_potential heap outputs node_queue visited_nodes ≤ fuel →
      (visit_lqp_upwards outputs visitor fuel node_queue visited_nodes s).isSome = true := by
  intro fuel
  induction fuel with
  | zero =>
    intro node_queue visited_nodes s hq hfuel
    cases node_queue with
    | nil => simp [visit_lqp_upwards]
    | cons node rest =>
      simp [upward_visit_potential] at hfuel
  | succ fuel ih =>
    intro node_queue visited_nodes s hq hfuel
    cases node_queue with
    | nil => simp [visit_lqp_upwards]
    | cons node rest =>
      have hnode : node < heap.length := hq node (List.mem_cons_self _ _)
      have hrest : ∀ n ∈ rest, n < heap.length := fun n hn => hq n (List.mem_cons_of_mem _ hn)
      simp only [upward_visit_potential, List.length_cons] at hfuel
      simp only [visit_lqp_upwards]
      split
      · exact ih _ _ _ hrest (by simp only [upward_visit_potential]; omega)
      · rename_i hnew
        have hpot := upward_visit_potential_visit heap outputs node visited_nodes hnode hnew
        have hv := hvisitor s node hnode
        split
        · rename_i hnone
          rw [hnone] at hv
          exact absurd hv (by simp)
        · refine ih _ _ _ ?_ ?_
          · intro n hn
            rcases List.mem_append.1 hn with hn | hn
            · exact hrest n hn
            · exact hclosed _ hnode _ hn
          · simp only [upward_visit_potential, List.length_append]
            omega
        · refine ih _ _ _ hrest ?_
          simp only [upward_visit_potential]
          omega

theorem reduced_join_visitor_spec (heap : Heap) (self : Nat) (p : Expression)
    (s : Option Nat) (n : Nat) (node : LQPNode) (hnode : heap[n]? = some node) :
    (is_reduced_join heap self p n →
      JoinNode.reduced_join_visitor heap self p s n = some (.DoNotVisitOutputs, some n)) ∧
    (¬ is_reduced_join heap self p n →
      JoinNode.reduced_join_visitor heap self p s n = some (.VisitOutputs, s)) := by
  have hiff : is_reduced_join heap self p n ↔
      (node.type = .Join ∧ n ≠ self ∧ p ∈ node.as_join.join_predicates) := by
    constructor
    · rintro ⟨node2, h1, h2⟩
      rw [hnode] at h1
      cases h1
      exact h2
    · intro h
      exact ⟨node, hnode, h⟩
  have hall : (node.as_join.join_predicates.all fun predicate => !decide (predicate = p)) = true ↔
      p ∉ node.as_join.join_predicates := by
    rw [List.all_eq_true]
    constructor
    · intro h hp
      have := h p hp
      simp at this
    · intro h x hx
      have hne : x ≠ p := fun hxp => h (hxp ▸ hx)
      simp [hne]
  constructor
  · intro h
    obtain ⟨h1, h2, h3⟩ := hiff.1 h
    have hnall : ¬ (node.as_join.join_predicates.all fun predicate =>
        !decide (predicate = p)) = true := fun hc => hall.1 hc h3
    simp only [JoinNode.reduced_join_visitor, hnode]
    rw [if_neg (by simp [h1, h2]), if_neg hnall]
  · intro h
    simp only [JoinNode.reduced_join_visitor, hnode]
    by_cases h1 : node.type ≠ .Join ∨ n = self
    · rw [if_pos h1]
    · rw [if_neg h1]
      have h1j : node.type = .Join := by
        by_contra hc
        exact h1 (Or.inl hc)
      have h2 : n ≠ self := fun hc => h1 (Or.inr hc)
      have h3 : p ∉ node.as_join.join_predicates := fun hc => h (hiff.2 ⟨h1j, h2, hc⟩)
      rw [if_pos (hall.2 h3)]

theorem visit_lqp_upwards_complete (heap : Heap) (outputs : Nat → List Nat) (self : Nat)
    (p : Expression) :
    ∀ (fuel : Nat) (node_queue visited_nodes : List Nat) (s res : Option Nat),
      UpwardVisitInvariant heap outputs self p node_queue visited_nodes s →
      visit_lqp_upwards outputs (JoinNode.reduced_join_visitor heap self p) fuel node_queue
        visited_nodes s = some res →
      ∃ visited, UpwardVisitInvariant heap outputs self p [] visited res := by
  intro fuel
  induction fuel with
  | zero =>
    intro node_queue visited_nodes s res hinv h
    cases node_queue with
    | nil =>
      simp only [visit_lqp_upwards, Option.some.injEq] at h
      exact ⟨visited_nodes, h ▸ hinv⟩
    | cons node rest => simp [visit_lqp_upwards] at h
  | succ fuel ih =>
    intro node_queue visited_nodes s res hinv h
    cases node_queue with
    | nil =>
      simp only [visit_lqp_upwards, Option.some.injEq] at h
      exact ⟨visited_nodes, h ▸ hinv⟩
    | cons node rest =>
      simp only [visit_lqp_upwards] at h
      split at h
      · rename_i hold
        refine ih _ _ _ _ ⟨?_, ?_, hinv.found⟩ h
        · rcases hinv.start with hs | hs
          · exact Or.inl hs
          · rcases List.mem_cons.1 hs with hs | hs
            · exact Or.inl (hs ▸ hold)
            · exact Or.inr hs
        · intro v hv hnm m hm
          rcases hinv.closed v hv hnm m hm with hm | hm
          · exact Or.inl hm
          · rcases List.mem_cons.1 hm with hm | hm
            · exact Or.inl (hm ▸ hold)
            · exact Or.inr hm
      · rename_i hnew
        cases hnode : heap[node]? with
        | none =>
          simp [JoinNode.reduced_join_visitor, hnode] at h
        | some nd =>
          have hspec := reduced_join_visitor_spec heap self p s node nd hnode
          by_cases hmatch : is_reduced_join heap self p node
          · rw [hspec.1 hmatch] at h
            simp only at h
            refine ih _ _ _ _ ⟨?_, ?_, ?_⟩ h
            · rcases hinv.start with hs | hs
              · exact Or.inl (List.mem_cons_of_mem _ hs)
              · rcases List.mem_cons.1 hs with hs | hs
                · exact Or.inl (hs ▸ List.mem_cons_self _ _)
                · exact Or.inr hs
            · intro v hv hnm m hm
              rcases List.mem_cons.1 hv with hv | hv
              · exact absurd (hv ▸ hmatch) hnm
              · rcases hinv.closed v hv hnm m hm with hm | hm
                · exact Or.inl (List.mem_cons_of_mem _ hm)
                · rcases List.mem_cons.1 hm with hm | hm
                  · exact Or.inl (hm ▸ List.mem_cons_self _ _)
                  · exact Or.inr hm
            · intro _
              exact ⟨node, rfl, hmatch⟩
          · rw [hspec.2 hmatch] at h
            simp only at h
            refine ih _ _ _ _ ⟨?_, ?_, ?_⟩ h
            · rcases hinv.start with hs | hs
              · exact Or.inl (List.mem_cons_of_mem _ hs)
              · rcases List.mem_cons.1 hs with hs | hs
                · exact Or.inl (hs ▸ List.mem_cons_self _ _)
                · exact Or.inr (List.mem_append_left _ hs)
            · intro v hv hnm m hm
              rcases List.mem_cons.1 hv with hv | hv
              · exact Or.inr (List.mem_append_right _ (hv ▸ hm))
              · rcases hinv.closed v hv hnm m hm with hm | hm
                · exact Or.inl (List.mem_cons_of_mem _ hm)
                · rcases List.mem_cons.1 hm with hm | hm
                  · exact Or.inl (hm ▸ List.mem_cons_self _ _)
                  · exact Or.inr (List.mem_append_left _ hm)
            · rintro ⟨v, hv, hvm⟩
              rcases List.mem_cons.1 hv with hv | hv
              · exact absurd (hv ▸ hvm) hmatch
              · exact hinv.found ⟨v, hv, hvm⟩

theorem upward_closed_reaches_reduced_join (heap : Heap) (outputs : Nat → List Nat) (self : Nat)
    (p : Expression) (visited : List Nat) (res : Option Nat)
    (hinv : UpwardVisitInvariant heap outputs self p [] visited res) (m : Nat)
    (hreach : Relation.ReflTransGen (is_output_of outputs) self m)
    (hm : is_reduced_join heap self p m) :
    ∃ r, res = some r ∧ is_reduced_join heap self p r := by
  have hstart : self ∈ visited := by
    rcases hinv.start with h | h
    · exact h
    · simp at h
  have key : ∀ x, Relation.ReflTransGen (is_output_of outputs) self x →
      x ∈ visited ∨ ∃ v ∈ visited, is_reduced_join heap self p v := by
    intro x hx
    induction hx with
    | refl => exact Or.inl hstart
    | @tail b c _ hstep ih =>
      rcases ih with hb | hb
      · by_cases hbm : is_reduced_join heap self p b
        · exact Or.inr ⟨b, hb, hbm⟩
        · rcases hinv.closed b hb hbm c hstep with hc | hc
          · exact Or.inl hc
          · simp at hc
      · exact Or.inr hb
  rcases key m hreach with h | h
  · exact hinv.found ⟨m, h, hm⟩
  · exact hinv.found h

theorem reduced_join_visitor_result (heap : Heap) (self : Nat) (p : Expression)
    (s s2 : Option Nat) (n : Nat) (v : LQPUpwardVisitation)
    (h : JoinNode.reduced_join_visitor heap self p s n = some (v, s2)) :
    s2 = s ∨ (s2 = some n ∧ is_reduced_join heap self p n) := by
  cases hnode : heap[n]? with
  | none => simp [JoinNode.reduced_join_visitor, hnode] at h
  | some nd =>
    have hspec := reduced_join_visitor_spec heap self p s n nd hnode
    by_cases hmatch : is_reduced_join heap self p n
    · rw [hspec.1 hmatch] at h
      simp only [Option.some.injEq, Prod.mk.injEq] at h
      exact Or.inr ⟨h.2.symm, hmatch⟩
    · rw [hspec.2 hmatch] at h
      simp only [Option.some.injEq, Prod.mk.injEq] at h
      exact Or.inl h.2.symm

theorem found_reduced_join_sound (j : JoinNode) (self : Nat) (heap : Heap)
    (outputs : Nat → List Nat) (is_alive : Nat → Bool)
    (hexp : JoinNode.expired is_alive j._reduced_join_node = true) (r : Nat) (j2 : JoinNode)
    (h : j.get_or_find_reduced_join_node self heap outputs is_alive = some (r, j2)) :
    (∃ p, j.join_predicates.head? = some p ∧ is_reduced_join heap self p r) ∧
    Relation.TransGen (is_output_of outputs) self r ∧
    j2 = { j with _reduced_join_node := some r } ∧
    j2.get_or_find_reduced_join_node self heap outputs is_alive = some (r, j2) := by
  unfold JoinNode.get_or_find_reduced_join_node at h
  by_cases hflag : j._is_semi_reduction = false
  · rw [if_pos hflag] at h
    exact Option.noConfusion h
  · rw [if_neg hflag, if_pos hexp] at h
    cases hp : j.join_predicates[0]? with
    | none =>
      rw [hp] at h
      exact Option.noConfusion h
    | some p =>
      rw [hp] at h
      simp only at h
      cases hvisit : visit_lqp_upwards outputs (JoinNode.reduced_join_visitor heap self p)
          (upward_visit_bound heap outputs) [self] [] j._reduced_join_node with
      | none =>
        rw [hvisit] at h
        exact Option.noConfusion h
      | some found =>
        rw [hvisit] at h
        simp only at h
        by_cases hfound : JoinNode.expired is_alive found = true
        · rw [if_pos hfound] at h
          exact Option.noConfusion h
        · rw [if_neg hfound] at h
          cases hf : found with
          | none =>
            rw [hf] at h
            exact Option.noConfusion h
          | some r2 =>
            rw [hf] at h
            simp only [Option.map_some', Option.some.injEq, Prod.mk.injEq] at h
            obtain ⟨hr, hj2⟩ := h
            subst hr
            have hinv := visit_lqp_upwards_invariant outputs
              (JoinNode.reduced_join_visitor heap self p)
              (fun s => s = j._reduced_join_node ∨
                ∃ x, s = some x ∧ is_reduced_join heap self p x ∧
                  Relation.ReflTransGen (is_output_of outputs) self x)
              (fun n => Relation.ReflTransGen (is_output_of outputs) self n)
              (by
                intro s n v s2 hs hn hv
                rcases reduced_join_visitor_result heap self p s s2 n v hv with h1 | h1
                · exact h1 ▸ hs
                · exact Or.inr ⟨n, h1.1, h1.2, hn⟩)
              (fun n m hn hm => Relation.ReflTransGen.tail hn hm)
              _ _ _ _ _
              (by
                intro n hn
                rw [List.mem_singleton.1 hn])
              (Or.inl rfl) hvisit
            have hmatch : is_reduced_join heap self p r2 ∧
                Relation.ReflTransGen (is_output_of outputs) self r2 := by
              rcases hinv with h1 | ⟨x, h1, h2, h3⟩
              · rw [h1] at hfound
                exact absurd hexp hfound
              · rw [hf] at h1
                cases h1
                exact ⟨h2, h3⟩
            have hne : r2 ≠ self := by
              obtain ⟨_, _, _, h3, _⟩ := hmatch.1
              exact h3
            have htrans : Relation.TransGen (is_output_of outputs) self r2 := by
              rcases Relation.reflTransGen_iff_eq_or_transGen.1 hmatch.2 with h1 | h1
              · exact absurd h1 hne
              · exact h1
            have hflag2 : j._is_semi_reduction = true := by
              cases hb : j._is_semi_reduction
              · exact absurd hb hflag
              · rfl
            have halive : JoinNode.expired is_alive (some r2) = false := by
              rw [hf] at hfound
              cases hb : JoinNode.expired is_alive (some r2)
              · rfl
              · exact absurd hb hfound
            refine ⟨⟨p, ?_, hmatch.1⟩, htrans, hj2.symm, ?_⟩
            · rw [List.head?_eq_getElem?]
              exact hp
            · rw [← hj2]
              simp [JoinNode.get_or_find_reduced_join_node, hflag2, halive]

theorem upward_reach_in_heap (heap : Heap) (outputs : Nat → List Nat) (self : Nat)
    (hself : self < heap.length)
    (hclosed : ∀ n, n < heap.length → ∀ m ∈ outputs n, m < heap.length) (x : Nat)
    (hx : Relation.ReflTransGen (is_output_of outputs) self x) : x < heap.length := by
  induction hx with
  | refl => exact hself
  | tail _ hstep ih => exact hclosed _ ih _ hstep

theorem upward_visit_bound_eq (heap : Heap) (outputs : Nat → List Nat) {self : Nat} :
    upward_visit_potential heap outputs [self] [] ≤ upward_visit_bound heap outputs := by
  have hsum : ∀ N : Nat, ((List.range N).map fun n => (outputs n).length).sum =
      ∑ n in Finset.range N, (outputs n).length := by
    intro N
    induction N with
    | zero => simp
    | succ N ih =>
      rw [List.range_succ, List.map_append, List.sum_append, ih, Finset.sum_range_succ]
      simp
  simp only [upward_visit_potential, upward_visit_bound, hsum, List.length_singleton,
    List.not_mem_nil, not_false_eq_true, Finset.filter_True]
  exact le_refl _

theorem found_reduced_join_complete (j : JoinNode) (self : Nat) (heap : Heap)
    (outputs : Nat → List Nat) (is_alive : Nat → Bool)
    (hexp : JoinNode.expired is_alive j._reduced_join_node = true)
    (hflag : j.is_semi_reduction = true) (hself : self < heap.length)
    (halive : ∀ n, n < heap.length → is_alive n = true)
    (hclosed : ∀ n, n < heap.length → ∀ m ∈ outputs n, m < heap.length)
    (hex : ∃ p r, j.join_predicates.head? = some p ∧ is_reduced_join heap self p r ∧
      Relation.TransGen (is_output_of outputs) self r) :
    (j.get_or_find_reduced_join_node self heap outputs is_alive).isSome = true := by
  obtain ⟨p, r, hp, hr, hreach⟩ := hex
  have hp0 : j.join_predicates[0]? = some p := by
    rw [← List.head?_eq_getElem?]
    exact hp
  have hflag2 : ¬ j._is_semi_reduction = false := by
    simp only [JoinNode.is_semi_reduction] at hflag
    simp [hflag]
  have hterm := visit_lqp_upwards_terminates heap outputs
    (JoinNode.reduced_join_visitor heap self p) hclosed
    (by
      intro s n hn
      have hnode : heap[n]? = some heap[n] := List.getElem?_eq_getElem hn
      by_cases hmatch : is_reduced_join heap self p n
      · rw [(reduced_join_visitor_spec heap self p s n _ hnode).1 hmatch]
        rfl
      · rw [(reduced_join_visitor_spec heap self p s n _ hnode).2 hmatch]
        rfl)
    (upward_visit_bound heap outputs) [self] [] j._reduced_join_node
    (by
      intro n hn
      rw [List.mem_singleton.1 hn]
      exact hself)
    (upward_visit_bound_eq heap outputs)
  obtain ⟨found, hvisit⟩ := Option.isSome_iff_exists.1 hterm
  obtain ⟨visited, hinv⟩ := visit_lqp_upwards_complete heap outputs self p _ _ _ _ _
    ⟨Or.inr (List.mem_singleton_self _), fun v hv => absurd hv (List.not_mem_nil _),
      fun ⟨v, hv, _⟩ => absurd hv (List.not_mem_nil _)⟩ hvisit
  obtain ⟨r2, hfound, hr2⟩ := upward_closed_reaches_reduced_join heap outputs self p visited
    found hinv r hreach.to_reflTransGen hr
  have hr2alive : is_alive r2 = true := by
    obtain ⟨node, hnode, _⟩ := hr2
    exact halive r2 (List.getElem?_eq_some_iff.1 hnode).1
  unfold JoinNode.get_or_find_reduced_join_node
  rw [if_neg hflag2, if_pos hexp, hp0]
  simp only
  rw [hvisit]
  simp [hfound, JoinNode.expired, hr2alive]

/-- C17: `get_or_find_reduced_join_node()` of the join `j` at `self` fails if `j` is not marked
as a semi-reduction; it returns the join passed to `mark_as_semi_reduction` while that join is
alive; when the cached reference has expired, any node it returns is a Join node other than
`self`, reachable from `self` by following outputs upward, with a join predicate equal to the
predicate of `j`, it is cached and a repeated call returns it again; the call fails if no such
node exists; and in a plan whose nodes are alive and whose outputs are nodes of the plan, it
does return a node if such a node exists. -/
theorem get_or_find_reduced_join_node_contract (j : JoinNode) (self : Nat) (heap : Heap)
    (outputs : Nat → List Nat) (is_alive : Nat → Bool) :
    (j.is_semi_reduction = false →
      j.get_or_find_reduced_join_node self heap outputs is_alive = none) ∧
    (∀ reduced, (j.mark_as_semi_reduction (some reduced)).1 = true → is_alive reduced = true →
      (j.mark_as_semi_reduction (some reduced)).2.get_or_find_reduced_join_node self heap outputs
          is_alive = some (reduced, (j.mark_as_semi_reduction (some reduced)).2)) ∧
    (JoinNode.expired is_alive j._reduced_join_node = true →
      (∀ r j2, j.get_or_find_reduced_join_node self heap outputs is_alive = some (r, j2) →
        (∃ p, j.join_predicates.head? = some p ∧ is_reduced_join heap self p r) ∧
        Relation.TransGen (is_output_of outputs) self r ∧
        j2 = { j with _reduced_join_node := some r } ∧
        j2.get_or_find_reduced_join_node self heap outputs is_alive = some (r, j2)) ∧
      ((¬ ∃ p r, j.join_predicates.head? = some p ∧ is_reduced_join heap self p r ∧
          Relation.TransGen (is_output_of outputs) self r) →
        j.get_or_find_reduced_join_node self heap outputs is_alive = none) ∧
      (j.is_semi_reduction = true → self < heap.length →
        (∀ n, n < heap.length → is_alive n = true) →
        (∀ n, n < heap.length → ∀ m ∈ outputs n, m < heap.length) →
        (∃ p r, j.join_predicates.head? = some p ∧ is_reduced_join heap self p r ∧
          Relation.TransGen (is_output_of outputs) self r) →
        (j.get_or_find_reduced_join_node self heap outputs is_alive).isSome = true)) := by
  refine ⟨?_, ?_, fun hexp => ⟨?_, ?_, ?_⟩⟩
  · intro h
    simp only [JoinNode.is_semi_reduction] at h
    simp [JoinNode.get_or_find_reduced_join_node, h]
  · intro reduced hmark halive
    unfold JoinNode.mark_as_semi_reduction at hmark ⊢
    by_cases h1 : j._is_semi_reduction = true
    · simp [h1] at hmark
    · by_cases h3 : j.join_mode = .Semi
      · simp [h1, h3, JoinNode.get_or_find_reduced_join_node, JoinNode.expired, halive]
      · simp [h1, h3] at hmark
  · exact fun r j2 h => found_reduced_join_sound j self heap outputs is_alive hexp r j2 h
  · intro hno
    cases h : j.get_or_find_reduced_join_node self heap outputs is_alive with
    | none => rfl
    | some res =>
      obtain ⟨r, j2⟩ := res
      obtain ⟨⟨p, hp, hr⟩, hreach, _⟩ :=
        found_reduced_join_sound j self heap outputs is_alive hexp r j2 h
      exact absurd ⟨p, r, hp, hr, hreach⟩ hno
  · exact fun hflag hself halive hclosed hex =>
      found_reduced_join_complete j self heap outputs is_alive hexp hflag hself halive hclosed hex

/-- Witness of C17: in `diamondPlan` the semi-reduction at node 2, with its reference unset as
after a deep copy, finds the inner join at node 4, its output with the same predicate; and the
semi join marked with the live node 4 returns node 4. -/
theorem get_or_find_reduced_join_node_contract_witness :
    (diamondSemiReduction.get_or_find_reduced_join_node 2 diamondPlan (plan_outputs diamondPlan)
      (fun n => decide (n < 5))).isSome = true ∧
    (diamondSemiJoin.mark_as_semi_reduction (some 4)).2.get_or_find_reduced_join_node 2
      diamondPlan (plan_outputs diamondPlan) (fun n => decide (n < 5)) =
        some (4, (diamondSemiJoin.mark_as_semi_reduction (some 4)).2) :=
  ⟨((get_or_find_reduced_join_node_contract diamondSemiReduction 2 diamondPlan
      (plan_outputs diamondPlan) (fun n => decide (n < 5))).2.2 rfl).2.2 rfl (by decide)
      (fun n hn => by simpa using hn) (by decide)
      ⟨.binary_predicate .Equals (.lqp_column 0 0) (.lqp_column 1 0), 4, rfl,
        ⟨_, rfl, rfl, by decide, by decide⟩,
        Relation.TransGen.single (by unfold is_output_of; decide)⟩,
    (get_or_find_reduced_join_node_contract diamondSemiJoin 2 diamondPlan
      (plan_outputs diamondPlan) (fun n => decide (n < 5))).2.1 4 rfl rfl⟩

/-! ## The logical cost estimator -/

theorem cost_multiplier_fold {F : Type} (ops : FloatArithmetic F) (l : List Expression) :
    ∀ init : F,
      l.foldl (fun multiplier sub_expression =>
          if sub_expression.is_lqp_column || sub_expression.is_correlated_subquery then
            ops.add multiplier ops.one
          else multiplier) init =
        (fun multiplier => ops.add multiplier ops.one)^[
          (l.filter Expression.is_lqp_column).length +
            (l.filter Expression.is_correlated_subquery).length] init := by
  induction l with
  | nil => intro init; rfl
  | cons e es ih =>
    intro init
    rw [List.foldl_cons, ih]
    cases e with
    | lqp_column n c =>
      simp only [Expression.is_lqp_column, Expression.is_correlated_subquery, Bool.or_false,
        if_true, List.filter_cons_of_pos, List.length_cons, Bool.false_eq_true,
        not_false_eq_true, List.filter_cons_of_neg]
      rw [Nat.add_right_comm, Function.iterate_succ_apply]
    | value v =>
      simp [Expression.is_lqp_column, Expression.is_correlated_subquery]
    | binary_predicate c l r =>
      simp [Expression.is_lqp_column, Expression.is_correlated_subquery]
    | arithmetic op l r =>
      simp [Expression.is_lqp_column, Expression.is_correlated_subquery]
    | lqp_subquery q arguments =>
      by_cases ha : arguments.isEmpty = true
      · simp [Expression.is_lqp_column, Expression.is_correlated_subquery, ha]
      · simp only [Expression.is_lqp_column, Expression.is_correlated_subquery, ha,
          Bool.not_false, Bool.or_true, if_true, Bool.false_eq_true, not_false_eq_true,
          List.filter_cons_of_neg, List.filter_cons_of_pos, List.length_cons, Bool.false_or]
        rw [← Nat.add_assoc, Function.iterate_succ_apply]

/-- The multiplier of the code is the one of the specification for every predicate in which no
column occurs twice. -/
theorem cost_multiplier_of_distinct_columns {F : Type} (ops : FloatArithmetic F)
    (expression : Expression)
    (hdistinct : (expression.sub_expressions.filter Expression.is_lqp_column).Nodup) :
    expression_cost_multiplier ops expression = specified_cost_multiplier ops expression := by
  simp only [expression_cost_multiplier, specified_cost_multiplier, FloatArithmetic.of_count,
    cost_multiplier_fold, List.toFinset_card_of_nodup hdistinct]

/-- C18: the cost of the Predicate node of `costPlan` with the predicate `a > 5 AND a < 10`
on an input of `R_in` rows and with `R_out` output rows is `R_in * max(1, 0 + 1 + 1) + R_out`
in the code, one for each occurrence of the column `a`, whereas the multiplier with the
distinct columns counted is `max(1, 0 + 1)`; with 10 input and 3 output rows the code returns
23 and not 13. -/
theorem predicate_cost_counts_every_column_occurrence :
    (∀ (F : Type) (ops : FloatArithmetic F) (estimate_cardinality : Nat → F),
      estimate_node_cost ops estimate_cardinality costPlan 2 =
        some (ops.add
          (ops.mul (estimate_cardinality 0)
            (ops.max ops.one (ops.add (ops.add ops.zero ops.one) ops.one)))
          (estimate_cardinality 2)) ∧
      specified_cost_multiplier ops repeatedColumnPredicate =
        ops.max ops.one (ops.add ops.zero ops.one)) ∧
    estimate_node_cost natArithmetic costPlanCardinality costPlan 2 = some 23 ∧
    natArithmetic.add
      (natArithmetic.mul (costPlanCardinality 0)
        (specified_cost_multiplier natArithmetic repeatedColumnPredicate))
      (costPlanCardinality 2) = 13 := by
  refine ⟨fun F ops estimate_cardinality => ⟨rfl, ?_⟩, by decide, by decide⟩
  have hcard : ((repeatedColumnPredicate.sub_expressions.filter
      Expression.is_lqp_column).toFinset.card +
      (repeatedColumnPredicate.sub_expressions.filter
        Expression.is_correlated_subquery).length) = 1 := by decide
  simp only [specified_cost_multiplier, hcard]
  rfl

/-- C19: `estimate_node_cost` of a node is `left_card + right_card + output_card` for a Join
node, 0 for a StoredTable node, and `left_card + output_card` for every node type other than
Join, Sort, Union, StoredTable and Predicate, where the cardinality of an absent input is 0. -/
theorem estimate_node_cost_join_table_default {F : Type} (ops : FloatArithmetic F)
    (estimate_cardinality : Nat → F) (heap : Heap) (node : Nat) (n : LQPNode)
    (hnode : heap[node]? = some n) :
    (n.type = .Join →
      estimate_node_cost ops estimate_cardinality heap node =
        some (ops.add
          (ops.add (input_row_count ops estimate_cardinality n.left_input)
            (input_row_count ops estimate_cardinality n.right_input))
          (estimate_cardinality node))) ∧
    (n.type = .StoredTable →
      estimate_node_cost ops estimate_cardinality heap node = some ops.zero) ∧
    ((n.type ≠ .Join ∧ n.type ≠ .Sort ∧ n.type ≠ .Union ∧ n.type ≠ .StoredTable ∧
        n.type ≠ .Predicate) →
      estimate_node_cost ops estimate_cardinality heap node =
        some (ops.add (input_row_count ops estimate_cardinality n.left_input)
          (estimate_cardinality node))) ∧
    (∀ input, input_row_count ops estimate_cardinality (some input) =
      estimate_cardinality input) ∧
    input_row_count ops estimate_cardinality none = ops.zero := by
  refine ⟨fun h => ?_, fun h => ?_, fun h => ?_, fun _ => rfl, rfl⟩
  · simp only [estimate_node_cost, hnode, h]
  · simp only [estimate_node_cost, hnode, h]
  · obtain ⟨h1, h2, h3, h4, h5⟩ := h
    simp only [estimate_node_cost, hnode]

/-- Witness of C19: in `costPlan` the cross join (node 3) costs `10 + 4 + 40`, the stored table
(node 0) costs 0 and the Limit node (node 7) costs `10 + 5`. -/
theorem estimate_node_cost_join_table_default_witness :
    estimate_node_cost natArithmetic costPlanCardinality costPlan 3 = some (10 + 4 + 40) ∧
    estimate_node_cost natArithmetic costPlanCardinality costPlan 0 = some 0 ∧
    estimate_node_cost natArithmetic costPlanCardinality costPlan 7 = some (10 + 5) :=
  ⟨(estimate_node_cost_join_table_default natArithmetic costPlanCardinality costPlan 3 _
      rfl).1 rfl,
    (estimate_node_cost_join_table_default natArithmetic costPlanCardinality costPlan 0 _
      rfl).2.1 rfl,
    (estimate_node_cost_join_table_default natArithmetic costPlanCardinality costPlan 7 _
      rfl).2.2.1 (by decide)⟩

/-- Counterexample to C20: for the Union node of `costPlan` in Union-all mode (node 4),
`estimate_node_cost` does not return 0: it fails. -/
theorem union_all_cost_fails :
    (∃ n, costPlan[4]? = some n ∧ n.type = .Union ∧ n.set_operation_mode = .All) ∧
    estimate_node_cost natArithmetic costPlanCardinality costPlan 4 ≠ some 0 ∧
    ∀ (F : Type) (ops : FloatArithmetic F) (estimate_cardinality : Nat → F),
      estimate_node_cost ops estimate_cardinality costPlan 4 = none :=
  ⟨⟨_, rfl, rfl, rfl⟩, by decide, fun _ _ _ => rfl⟩

/-- C20 (amended): for every Union node whose mode is not the position-list mode (Union-all
and Union-unique), `estimate_node_cost` fails; for a Union node in position-list mode it
returns `left_card * log(left_card) + right_card * log(right_card) + output_card`. -/
theorem union_cost {F : Type} (ops : FloatArithmetic F) (estimate_cardinality : Nat → F)
    (heap : Heap) (node : Nat) (n : LQPNode) (hnode : heap[node]? = some n)
    (htype : n.type = .Union) :
    (n.set_operation_mode ≠ .Positions →
      estimate_node_cost ops estimate_cardinality heap node = none) ∧
    (n.set_operation_mode = .Positions →
      estimate_node_cost ops estimate_cardinality heap node =
        some (ops.add
          (ops.add
            (ops.mul (input_row_count ops estimate_cardinality n.left_input)
              (ops.log (input_row_count ops estimate_cardinality n.left_input)))
            (ops.mul (input_row_count ops estimate_cardinality n.right_input)
              (ops.log (input_row_count ops estimate_cardinality n.right_input))))
          (estimate_cardinality node))) := by
  constructor
  · intro h
    simp only [estimate_node_cost, hnode, htype, h, ne_eq, not_false_eq_true, if_true]
  · intro h
    simp only [estimate_node_cost, hnode, htype, h, ne_eq, not_true_eq_false, if_false]

/-- Witness of C20 (amended): in `costPlan` the Union node in Union-all mode (node 4) has no
cost, and the Union node in position-list mode (node 5) costs
`3 * log 3 + 40 * log 40 + 43`. -/
theorem union_cost_witness :
    estimate_node_cost natArithmetic costPlanCardinality costPlan 4 = none ∧
    estimate_node_cost natArithmetic costPlanCardinality costPlan 5 =
      some (3 * Nat.log2 3 + 40 * Nat.log2 40 + 43) :=
  ⟨(union_cost natArithmetic costPlanCardinality costPlan 4 _ rfl rfl).1 (by decide),
    (union_cost natArithmetic costPlanCardinality costPlan 5 _ rfl rfl).2 rfl⟩

/-- The cost of a Predicate node is `R_in * m + R_out` with the multiplier `m` of the
specification whenever no column occurs twice in its predicate. -/
theorem predicate_cost_of_distinct_columns {F : Type} (ops : FloatArithmetic F)
    (estimate_cardinality : Nat → F) (heap : Heap) (node : Nat) (n : LQPNode)
    (predicate : Expression) (hnode : heap[node]? = some n) (htype : n.type = .Predicate)
    (hpredicate : n.node_expressions.head? = some predicate)
    (hdistinct : (predicate.sub_expressions.filter Expression.is_lqp_column).Nodup) :
    estimate_node_cost ops estimate_cardinality heap node =
      some (ops.add
        (ops.mul (input_row_count ops estimate_cardinality n.left_input)
          (specified_cost_multiplier ops predicate))
        (estimate_cardinality node)) := by
  simp only [estimate_node_cost, hnode, htype, hpredicate,
    cost_multiplier_of_distinct_columns ops predicate hdistinct]

/-- The Predicate node of `costPlan` on three distinct columns costs `10 * 3 + 3`. -/
theorem predicate_cost_of_three_columns :
    estimate_node_cost natArithmetic costPlanCardinality costPlan 6 = some (10 * 3 + 3) :=
  (predicate_cost_of_distinct_columns natArithmetic costPlanCardinality costPlan 6 _
    threeColumnPredicate rfl rfl rfl (by decide)).trans (by decide)

/-- C21: for a Union node, `estimate_node_cost` returns a cost exactly when the mode is the
position-list mode; in every other mode, in particular in Union-unique mode, it fails. -/
theorem union_cost_only_in_positions_mode {F : Type} (ops : FloatArithmetic F)
    (estimate_cardinality : Nat → F) (heap : Heap) (node : Nat) (n : LQPNode)
    (hnode : heap[node]? = some n) (htype : n.type = .Union) :
    ((estimate_node_cost ops estimate_cardinality heap node).isSome = true ↔
      n.set_operation_mode = .Positions) ∧
    (n.set_operation_mode ≠ .Positions →
      estimate_node_cost ops estimate_cardinality heap node = none) ∧
    (n.set_operation_mode = .Unique →
      estimate_node_cost ops estimate_cardinality heap node = none) := by
  have hfail : n.set_operation_mode ≠ .Positions →
      estimate_node_cost ops estimate_cardinality heap node = none := by
    intro h
    simp only [estimate_node_cost, hnode, htype, h, ne_eq, not_false_eq_true, if_true]
  refine ⟨⟨fun h => ?_, fun h => ?_⟩, hfail, fun h => hfail (by rw [h]; decide)⟩
  · by_contra hc
    rw [hfail hc] at h
    exact Bool.false_ne_true h
  · simp only [estimate_node_cost, hnode, htype, h, ne_eq, not_true_eq_false, if_false,
      Option.isSome_some]

/-- Witness of C21: in `unionPlan` the Union-unique node (node 2) has no cost and the
position-list Union node (node 3) has one. -/
theorem union_cost_only_in_positions_mode_witness :
    estimate_node_cost natArithmetic costPlanCardinality unionPlan 2 = none ∧
    (estimate_node_cost natArithmetic costPlanCardinality unionPlan 3).isSome = true :=
  ⟨(union_cost_only_in_positions_mode natArithmetic costPlanCardinality unionPlan 2 _ rfl
      rfl).2.2 rfl,
    (union_cost_only_in_positions_mode natArithmetic costPlanCardinality unionPlan 3 _ rfl
      rfl).1.2 rfl⟩

/-- With exact arithmetic and non-negative cardinalities the cost that `estimate_node_cost`
returns is non-negative for every node that is not a Sort or Union node, and for a Sort or
Union node when the logarithms of its input cardinalities are non-negative (cardinalities of
at least 1). -/
theorem estimate_node_cost_nonneg {F : Type} [LinearOrderedField F] (log : F → F)
    (estimate_cardinality : Nat → F) (hcard : ∀ k, 0 ≤ estimate_cardinality k) (heap : Heap)
    (node : Nat) (n : LQPNode) (cost : F) (hnode : heap[node]? = some n)
    (hcost : estimate_node_cost (exactArithmetic F log) estimate_cardinality heap node =
      some cost)
    (hleft : n.type = .Sort ∨ n.type = .Union →
      0 ≤ log (input_row_count (exactArithmetic F log) estimate_cardinality n.left_input))
    (hright : n.type = .Union →
      0 ≤ log (input_row_count (exactArithmetic F log) estimate_cardinality n.right_input)) :
    0 ≤ cost := by
  have hin : ∀ input : Option Nat,
      0 ≤ input_row_count (exactArithmetic F log) estimate_cardinality input := by
    intro input
    cases input with
    | none => exact le_refl _
    | some i => exact hcard i
  have hmul : ∀ e : Expression, 0 ≤ expression_cost_multiplier (exactArithmetic F log) e := by
    intro e
    simp only [expression_cost_multiplier, exactArithmetic]
    split
    · rename_i h
      exact le_of_lt (lt_trans zero_lt_one h)
    · exact zero_le_one
  have hl := hin n.left_input
  have hr := hin n.right_input
  have ho := hcard node
  simp only [estimate_node_cost, hnode] at hcost
  by_cases hJ : n.type = .Join
  · simp only [hJ, Option.some.injEq] at hcost
    rw [← hcost]
    exact add_nonneg (add_nonneg hl hr) ho
  by_cases hS : n.type = .Sort
  · simp only [hS, Option.some.injEq] at hcost
    rw [← hcost]
    exact add_nonneg (mul_nonneg hl (hleft (Or.inl hS))) ho
  by_cases hU : n.type = .Union
  · simp only [hU] at hcost
    split at hcost
    · exact absurd hcost (by simp)
    · rename_i hmode
      have hmode2 : n.set_operation_mode = .Positions := by
        by_contra hc
        exact hmode hc
      rw [hmode2] at hcost
      simp only [Option.some.injEq] at hcost
      rw [← hcost]
      exact add_nonneg
        (add_nonneg (mul_nonneg hl (hleft (Or.inr hU))) (mul_nonneg hr (hright hU))) ho
  by_cases hT : n.type = .StoredTable
  · simp only [hT, Option.some.injEq] at hcost
    rw [← hcost]
    exact le_refl _
  by_cases hP : n.type = .Predicate
  · simp only [hP] at hcost
    split at hcost
    · exact absurd hcost (by simp)
    · simp only [Option.some.injEq] at hcost
      rw [← hcost]
      exact add_nonneg (mul_nonneg hl (hmul _)) ho
  simp only [hJ, hS, hU, hT, hP, Option.some.injEq] at hcost
  rw [← hcost]
  exact add_nonneg hl ho

/-- C22 (the code at the failing inputs): with real arithmetic and the natural logarithm, a
Sort node whose input has a cardinality strictly between 0 and 1 and whose own cardinality is
smaller than `-(card * log(card))` (for instance 0) gets a negative cost, and so does a
position-list Union node with such an input on both sides: `card * log(card)` is negative. -/
theorem sort_and_union_cost_negative (estimate_cardinality : Nat → ℝ) (heap : Heap)
    (node input : Nat) (n : LQPNode) (hnode : heap[node]? = some n)
    (hinput : n.left_input = some input)
    (_hcard : ∀ k, 0 ≤ estimate_cardinality k)
    (hpos : 0 < estimate_cardinality input) (hlt : estimate_cardinality input < 1)
    (hout : estimate_cardinality node <
      -(estimate_cardinality input * Real.log (estimate_cardinality input))) :
    (n.type = .Sort →
      ∃ cost, estimate_node_cost (exactArithmetic ℝ Real.log) estimate_cardinality heap node =
        some cost ∧ cost < 0) ∧
    (n.type = .Union → n.set_operation_mode = .Positions → n.right_input = some input →
      ∃ cost, estimate_node_cost (exactArithmetic ℝ Real.log) estimate_cardinality heap node =
        some cost ∧ cost < 0) := by
  have hlog : Real.log (estimate_cardinality input) < 0 := Real.log_neg hpos hlt
  have hprod : estimate_cardinality input * Real.log (estimate_cardinality input) < 0 :=
    mul_neg_of_pos_of_neg hpos hlog
  constructor
  · intro ht
    refine ⟨estimate_cardinality input * Real.log (estimate_cardinality input) +
      estimate_cardinality node, ?_, by linarith⟩
    simp only [estimate_node_cost, hnode, ht, input_row_count, hinput, exactArithmetic]
  · intro ht hmode hr
    refine ⟨estimate_cardinality input * Real.log (estimate_cardinality input) +
      estimate_cardinality input * Real.log (estimate_cardinality input) +
      estimate_cardinality node, ?_, by linarith⟩
    simp only [estimate_node_cost, hnode, ht, hmode, ne_eq, not_true_eq_false, if_false,
      input_row_count, hinput, hr, exactArithmetic]

/-- Witness of C22: the Sort node of `sortPlan` with an input cardinality of 1/2 and an output
cardinality of 0 has a negative cost. -/
theorem sort_and_union_cost_negative_witness :
    ∃ cost, estimate_node_cost (exactArithmetic ℝ Real.log)
      (fun k => if k = 0 then (1 / 2 : ℝ) else 0) sortPlan 1 = some cost ∧ cost < 0 :=
  (sort_and_union_cost_negative (fun k => if k = 0 then (1 / 2 : ℝ) else 0) sortPlan 1 0 _ rfl
    rfl
    (by
      intro k
      by_cases hk : k = 0 <;> simp [hk])
    (by norm_num) (by norm_num)
    (by
      have h : Real.log (1 / 2 : ℝ) < 0 := Real.log_neg (by norm_num) (by norm_num)
      have h2 : (1 / 2 : ℝ) * Real.log (1 / 2) < 0 := mul_neg_of_pos_of_neg (by norm_num) h
      simp only [if_true, OfNat.ofNat_ne_zero, if_false, one_ne_zero]
      linarith)).1 rfl

/-! ## Flipping the join predicate of a join operator -/

/-- C27: `OperatorJoinPredicate::flip()` is an involution: applying it twice restores the
column ids (operand order), the predicate condition and the value of `is_flipped()`; a single
`flip()` exchanges the column ids and changes `is_flipped()`. -/
theorem flip_flip (p : OperatorJoinPredicate) :
    p.flip.flip = p ∧
    p.flip.flip.column_ids = p.column_ids ∧
    p.flip.flip.predicate_condition = p.predicate_condition ∧
    p.flip.flip.is_flipped = p.is_flipped ∧
    p.flip.column_ids = (p.column_ids.2, p.column_ids.1) ∧
    p.flip.is_flipped = !p.is_flipped := by
  have hcond : flip_predicate_condition (flip_predicate_condition p.predicate_condition) =
      p.predicate_condition := by
    cases p.predicate_condition <;> rfl
  have h : p.flip.flip = p := by
    cases p with
    | mk column_ids predicate_condition flipped =>
      simp only [OperatorJoinPredicate.flip, Bool.not_not, OperatorJoinPredicate.mk.injEq,
        and_true, true_and]
      cases predicate_condition <;> rfl
  exact ⟨h, by rw [h], by rw [h], by rw [h], rfl, rfl⟩

/-! ## The wiring of inputs and outputs -/

theorem PlanLinks.outputs_set_input (links : PlanLinks) (node : Nat) (side : LQPInputSide)
    (input : Option Nat) (x : Nat) :
    (links.set_input node side input)._outputs x =
      (if links._inputs node side = some x then (links._outputs x).erase node
        else links._outputs x) ++ (if input = some x then [node] else []) := by
  unfold PlanLinks.set_input PlanLinks._add_output_pointer PlanLinks._remove_output_pointer
  cases hcur : links._inputs node side with
  | none =>
    cases input with
    | none => simp
    | some i =>
      simp only [reduceCtorEq, if_false, Option.some.injEq]
      by_cases hx : x = i
      · rw [if_pos hx, if_pos hx.symm]
      · rw [if_neg hx, if_neg (fun h => hx h.symm), List.append_nil]
  | some c =>
    cases input with
    | none =>
      simp only [reduceCtorEq, if_false, Option.some.injEq, List.append_nil]
      by_cases hc : x = c
      · rw [if_pos hc, if_pos hc.symm]
      · rw [if_neg hc, if_neg (fun h => hc h.symm)]
    | some i =>
      simp only [Option.some.injEq]
      by_cases hx : x = i <;> by_cases hc : x = c
      · rw [if_pos hx, if_pos hc, if_pos hc.symm, if_pos hx.symm]
      · rw [if_pos hx, if_neg hc, if_neg (fun h => hc h.symm), if_pos hx.symm]
      · rw [if_neg hx, if_pos hc, if_pos hc.symm, if_neg (fun h => hx h.symm), List.append_nil]
      · rw [if_neg hx, if_neg hc, if_neg (fun h => hc h.symm), if_neg (fun h => hx h.symm),
          List.append_nil]

theorem PlanLinks.inputs_set_input (links : PlanLinks) (node : Nat) (side : LQPInputSide)
    (input : Option Nat) (a : Nat) (s : LQPInputSide) :
    (links.set_input node side input)._inputs a s =
      if a = node ∧ s = side then input else links._inputs a s := by
  unfold PlanLinks.set_input PlanLinks._add_output_pointer PlanLinks._remove_output_pointer
  cases links._inputs node side <;> cases input <;> rfl

/-- One call of `set_input` keeps the wiring invariant. -/
theorem PlanLinks.wired_set_input (links : PlanLinks) (hw : links.wired) (node : Nat)
    (side : LQPInputSide) (input : Option Nat) : (links.set_input node side input).wired := by
  intro a x
  have hax := hw a x
  simp only [PlanLinks.slots_holding] at hax
  simp only [PlanLinks.slots_holding, PlanLinks.outputs_set_input, PlanLinks.inputs_set_input,
    List.count_append]
  by_cases ha : a = node
  · subst ha
    have herase : ((links._outputs x).erase a).count a = (links._outputs x).count a - 1 :=
      List.count_erase_self a _
    cases side with
    | Left =>
      simp only [true_and, if_true, reduceCtorEq, and_false, if_false]
      by_cases hold : links._inputs a .Left = some x <;> by_cases hnew : input = some x
      · simp only [hold, hnew, if_true, herase, List.count_singleton_self] at hax ⊢
        omega
      · simp only [hold, hnew, if_true, if_false, herase, List.count_nil] at hax ⊢
        omega
      · simp only [hold, hnew, if_true, if_false, List.count_singleton_self] at hax ⊢
        omega
      · simp only [hold, hnew, if_false, List.count_nil] at hax ⊢
        omega
    | Right =>
      simp only [true_and, if_true, reduceCtorEq, and_false, if_false]
      by_cases hold : links._inputs a .Right = some x <;> by_cases hnew : input = some x
      · simp only [hold, hnew, if_true, herase, List.count_singleton_self] at hax ⊢
        omega
      · simp only [hold, hnew, if_true, if_false, herase, List.count_nil] at hax ⊢
        omega
      · simp only [hold, hnew, if_true, if_false, List.count_singleton_self] at hax ⊢
        omega
      · simp only [hold, hnew, if_false, List.count_nil] at hax ⊢
        omega
  · have herase : ((links._outputs x).erase node).count a = (links._outputs x).count a :=
      List.count_erase_of_ne ha _
    have hsingle : ([node] : List Nat).count a = 0 :=
      List.count_eq_zero_of_not_mem (by simp [ha])
    simp only [ha, false_and, if_false]
    split <;> split <;> simp only [herase, hsingle, List.count_nil, hax, Nat.add_zero]

/-- Every sequence of calls keeps the wiring invariant. -/
theorem PlanLinks.wired_calls (sequence : List SetInputCall) :
    ∀ links : PlanLinks, links.wired → (links.calls sequence).wired := by
  induction sequence with
  | nil => exact fun _ h => h
  | cons c cs ih =>
    intro links hw
    simp only [PlanLinks.calls, List.foldl_cons]
    apply ih
    cases c with
    | set_left_input node left => exact PlanLinks.wired_set_input links hw node .Left left
    | set_right_input node right => exact PlanLinks.wired_set_input links hw node .Right right
    | set_input node side input => exact PlanLinks.wired_set_input links hw node side input

/-- C28: after any sequence of `set_left_input` / `set_right_input` / `set_input` calls
(calls with a null node included) on nodes without links, every node `a` appears in the
outputs of every node `x` exactly as many times as `x` is held in one of the two input slots
of `a`; and a further call `set_input(side, input)` on `node` whose slot holds `old` removes
one back-reference to `node` from `old` when `input` is another node or null, and attaches
nothing when `input` is null. -/
theorem set_input_wiring (sequence : List SetInputCall) :
    (∀ a x, ((PlanLinks.unlinked.calls sequence)._outputs x).count a =
      (PlanLinks.unlinked.calls sequence).slots_holding a x) ∧
    (∀ (node : Nat) (side : LQPInputSide) (input : Option Nat) (old : Nat),
      (PlanLinks.unlinked.calls sequence)._inputs node side = some old → input ≠ some old →
      (((PlanLinks.unlinked.calls sequence).set_input node side input)._outputs old).count
          node + 1 =
        ((PlanLinks.unlinked.calls sequence)._outputs old).count node) ∧
    (∀ (node : Nat) (side : LQPInputSide) (x : Nat),
      (((PlanLinks.unlinked.calls sequence).set_input node side none)._outputs x) =
        if (PlanLinks.unlinked.calls sequence)._inputs node side = some x then
          ((PlanLinks.unlinked.calls sequence)._outputs x).erase node
        else (PlanLinks.unlinked.calls sequence)._outputs x) := by
  have hw : (PlanLinks.unlinked.calls sequence).wired :=
    PlanLinks.wired_calls sequence _ (fun _ _ => rfl)
  refine ⟨hw, ?_, ?_⟩
  · intro node side input old hold hne
    have hcount := hw node old
    have hpos : 0 < ((PlanLinks.unlinked.calls sequence)._outputs old).count node := by
      rw [hcount]
      simp only [PlanLinks.slots_holding]
      cases side <;> simp only [hold, if_true] <;> omega
    rw [PlanLinks.outputs_set_input, hold, if_pos rfl, if_neg hne, List.append_nil,
      List.count_erase_self]
    omega
  · intro node side x
    rw [PlanLinks.outputs_set_input]
    simp

/-- Witness of C28: after node 2 was set as left and as right input of node 5, node 5 appears
in the outputs of node 2 as often as node 2 is held in a slot of node 5 (twice), and replacing
the left input by node 3 removes one of the two back-references. -/
theorem set_input_wiring_witness :
    ((PlanLinks.unlinked.calls (exampleCalls.take 2))._outputs 2).count 5 =
      (PlanLinks.unlinked.calls (exampleCalls.take 2)).slots_holding 5 2 ∧
    (((PlanLinks.unlinked.calls (exampleCalls.take 2)).set_input 5 .Left
        (some 3))._outputs 2).count 5 + 1 =
      ((PlanLinks.unlinked.calls (exampleCalls.take 2))._outputs 2).count 5 :=
  ⟨(set_input_wiring (exampleCalls.take 2)).1 5 2,
    (set_input_wiring (exampleCalls.take 2)).2.1 5 .Left (some 3) 2 rfl (by decide)⟩

/-- The links after `exampleCalls`: node 5 holds node 3 in its left slot and nothing in its
right slot; node 3 has the output 5 and node 2 has no output left. -/
theorem example_calls_links :
    (PlanLinks.unlinked.calls exampleCalls)._inputs 5 .Left = some 3 ∧
    (PlanLinks.unlinked.calls exampleCalls)._inputs 5 .Right = none ∧
    (PlanLinks.unlinked.calls exampleCalls)._outputs 3 = [5] ∧
    (PlanLinks.unlinked.calls exampleCalls)._outputs 2 = [] ∧
    (PlanLinks.unlinked.calls (exampleCalls.take 2))._outputs 2 = [5, 5] := by
  decide

/-! ## The join-key order dependencies of an inner equi-join -/

/-- C29: for an Inner join with exactly one predicate, an equality `a = b` of two columns of
live original nodes that `operator==` does not find equal (the join is not a self-join),
`order_dependencies()` returns a set that contains `[a] |-> [b]`, `[b] |-> [a]`, every OD of
the left input and every OD of the right input. -/
theorem inner_join_adds_join_key_ods (j : JoinNode) (l r : InputNode)
    (is_alive : Nat → Bool) (lqp_equals : Nat → Nat → Bool) (n1 c1 n2 c2 : Nat)
    (hmode : j.join_mode = .Inner)
    (hpred : j.join_predicates =
      [.binary_predicate .Equals (.lqp_column n1 c1) (.lqp_column n2 c2)])
    (hl : j.left_input = some l) (hr : j.right_input = some r)
    (halive1 : is_alive n1 = true) (halive2 : is_alive n2 = true)
    (hdistinct : lqp_equals n1 n2 = false) :
    ∃ ods, j.order_dependencies is_alive lqp_equals = some ods ∧
      (⟨[.lqp_column n1 c1], [.lqp_column n2 c2], List.cons_ne_nil _ _,
        List.cons_ne_nil _ _⟩ : OrderDependency) ∈ ods ∧
      (⟨[.lqp_column n2 c2], [.lqp_column n1 c1], List.cons_ne_nil _ _,
        List.cons_ne_nil _ _⟩ : OrderDependency) ∈ ods ∧
      l.order_dependencies ⊆ ods ∧ r.order_dependencies ⊆ ods := by
  obtain ⟨R, hR, hsub, _⟩ := build_transitive_od_closure_terminates
    (insert
      ⟨expression_vector (.lqp_column n2 c2), expression_vector (.lqp_column n1 c1),
        List.cons_ne_nil _ _, List.cons_ne_nil _ _⟩
      (insert
        ⟨expression_vector (.lqp_column n1 c1), expression_vector (.lqp_column n2 c2),
          List.cons_ne_nil _ _, List.cons_ne_nil _ _⟩
        (l.order_dependencies ∪ r.order_dependencies)))
  refine ⟨R, ?_, hsub (by simp [expression_vector]), hsub (by simp [expression_vector]), ?_, ?_⟩
  · simp [JoinNode.order_dependencies, hmode, is_semi_or_anti_join, hl, hr, hpred,
      as_binary_predicate, JoinNode.get_original_node, halive1, halive2, hdistinct, hR]
  · intro od hod
    exact hsub (by simp [hod])
  · intro od hod
    exact hsub (by simp [hod])

/-- Witness of C29: `inputA JOIN inputB ON colA = colB` has the ODs `[colA] |-> [colB]` and
`[colB] |-> [colA]` and the ODs of both inputs. -/
theorem inner_join_adds_join_key_ods_witness :
    ∃ ods, (equiJoin .Inner).order_dependencies (fun _ => true) (fun n m => n == m) = some ods ∧
      od1 colA colB ∈ ods ∧ od1 colB colA ∈ ods ∧
      inputA.order_dependencies ⊆ ods ∧ inputB.order_dependencies ⊆ ods :=
  inner_join_adds_join_key_ods (equiJoin .Inner) inputA inputB (fun _ => true)
    (fun n m => n == m) 1 0 2 0 rfl rfl rfl rfl rfl rfl (by decide)

/-- A join that is not Semi/Anti returns the union of the ODs of its inputs when its mode is
not Inner, when it does not have exactly one predicate, when the predicate is not an equality,
when the left operand is not a column of a live node, or when both operands are columns of
nodes that `operator==` finds equal. -/
theorem order_dependencies_union (j : JoinNode) (l r : InputNode) (is_alive : Nat → Bool)
    (lqp_equals : Nat → Nat → Bool) (hmode : is_semi_or_anti_join j.join_mode = false)
    (hl : j.left_input = some l) (hr : j.right_input = some r)
    (hcase : j.join_mode ≠ .Inner ∨ j.join_predicates.length ≠ 1 ∨
      (∃ p, j.join_predicates = [p] ∧
        (as_binary_predicate p = none ∨
          ∃ c a b, as_binary_predicate p = some (c, a, b) ∧
            (c ≠ .Equals ∨ JoinNode.get_original_node is_alive a = none ∨
              ∃ n1 n2, JoinNode.get_original_node is_alive a = some n1 ∧
                JoinNode.get_original_node is_alive b = some n2 ∧ lqp_equals n1 n2 = true)))) :
    j.order_dependencies is_alive lqp_equals =
      some (l.order_dependencies ∪ r.order_dependencies) := by
  unfold JoinNode.order_dependencies
  simp only [hmode, Bool.false_eq_true, if_false, hl, hr]
  by_cases h1 : j.join_mode ≠ .Inner ∨ j.join_predicates.length ≠ 1
  · rw [if_pos h1]
  · rw [if_neg h1]
    rcases hcase with h | h | ⟨p, hp, h⟩
    · exact absurd (Or.inl h) h1
    · exact absurd (Or.inr h) h1
    · rcases h with h | ⟨c, a, b, hbin, h⟩
      · simp [hp, h]
      · by_cases hc : c ≠ .Equals
        · simp [hp, hbin, hc]
        · rcases h with h | h | ⟨n1, n2, h1n, h2n, heq⟩
          · exact absurd h hc
          · simp [hp, hbin, h]
          · simp [hp, hbin, h1n, h2n, heq]

/-- An Inner join with the single predicate `a = b`, where `a` is a column of a live node and
`b` is not a column, dereferences the null pointer that `get_original_node(join_key_2)`
returns. -/
theorem order_dependencies_of_computed_right_key (j : JoinNode) (l r : InputNode)
    (is_alive : Nat → Bool) (lqp_equals : Nat → Nat → Bool) (n1 c1 : Nat) (b : Expression)
    (hmode : j.join_mode = .Inner)
    (hpred : j.join_predicates = [.binary_predicate .Equals (.lqp_column n1 c1) b])
    (hl : j.left_input = some l) (hr : j.right_input = some r)
    (halive1 : is_alive n1 = true) (hb : JoinNode.get_original_node is_alive b = none) :
    j.order_dependencies is_alive lqp_equals = none := by
  have ha : JoinNode.get_original_node is_alive (.lqp_column n1 c1) = some n1 := by
    simp [JoinNode.get_original_node, halive1]
  simp [JoinNode.order_dependencies, hmode, is_semi_or_anti_join, hl, hr, hpred,
    as_binary_predicate, ha, hb]

/-- C30 (the code at the failing input): for the Inner join `inputA JOIN inputB ON
colA = colB + 1`, whose right operand is a computed expression, `order_dependencies()` does not
return the union of the ODs of its inputs: the comparison
`*original_node_1 == *get_original_node(join_key_2)` (join_node.cpp:189) dereferences a null
pointer; with the operands exchanged, `colB + 1 = colA`, it returns the union. -/
theorem inner_join_computed_right_key_fails :
    computedKeyJoin.join_mode = .Inner ∧
    computedKeyJoin.join_predicates =
      [.binary_predicate .Equals colA (.arithmetic 0 colB (.value 1))] ∧
    computedKeyJoin.order_dependencies (fun _ => true) (fun n m => n == m) = none ∧
    ({ computedKeyJoin with
        node_expressions :=
          [.binary_predicate .Equals (.arithmetic 0 colB (.value 1)) colA] } :
      JoinNode).order_dependencies (fun _ => true) (fun n m => n == m) =
        some (inputA.order_dependencies ∪ inputB.order_dependencies) :=
  ⟨rfl, rfl, by decide, rfl⟩

/-! ## Setting inputs of a plan in memory -/

theorem LQPNode.data_with_input (n : LQPNode) (side : LQPInputSide) (input : Option Nat) :
    (n.with_input side input).data = n.data := by
  cases side <;> rfl

theorem LQPNode.input_with_input (n : LQPNode) (side s : LQPInputSide) (input : Option Nat) :
    (n.with_input side input).input s = if s = side then input else n.input s := by
  cases side <;> cases s <;> rfl

theorem getElem?_set_input (heap : Heap) (node : Nat) (side : LQPInputSide)
    (input : Option Nat) (m : Nat) :
    (heap.set_input node side input)[m]? =
      if m = node then heap[node]?.map (·.with_input side input) else heap[m]? := by
  unfold Heap.set_input
  cases hn : heap[node]? with
  | none =>
    by_cases hm : m = node
    · rw [if_pos hm, hm, hn]
      rfl
    · rw [if_neg hm]
  | some n =>
    simp only [List.getElem?_set, Option.map_some']
    by_cases hm : m = node
    · rw [if_pos hm, if_pos hm.symm, if_pos (getElem?_some_lt hn)]
    · rw [if_neg hm, if_neg (fun h => hm h.symm)]

theorem map_data_set_input (heap : Heap) (node : Nat) (side : LQPInputSide)
    (input : Option Nat) :
    (heap.set_input node side input).map LQPNode.data = heap.map LQPNode.data := by
  apply List.ext_getElem?
  intro m
  rw [List.getElem?_map, List.getElem?_map, getElem?_set_input]
  by_cases hm : m = node
  · rw [if_pos hm, hm]
    cases heap[node]? with
    | none => rfl
    | some n => simp [LQPNode.data_with_input]
  · rw [if_neg hm]

theorem map_data_set_inputs_of (calls : List (Nat × LQPInputSide × Option Nat)) :
    ∀ heap : Heap, (set_inputs_of heap calls).map LQPNode.data = heap.map LQPNode.data := by
  induction calls with
  | nil => exact fun _ => rfl
  | cons c cs ih =>
    intro heap
    simp only [set_inputs_of, List.foldl_cons]
    exact (ih _).trans (map_data_set_input heap _ _ _)

/-- Plans with the same nodes up to their input slots have a node at the same addresses, with
the same members. -/
theorem data_of_map_data {heap heap2 : Heap}
    (h : heap2.map LQPNode.data = heap.map LQPNode.data) {m : Nat} {n : LQPNode}
    (hn : heap[m]? = some n) : ∃ n2, heap2[m]? = some n2 ∧ n2.data = n.data := by
  have h1 : (heap2.map LQPNode.data)[m]? = (heap.map LQPNode.data)[m]? := by rw [h]
  rw [List.getElem?_map, List.getElem?_map, hn] at h1
  cases h2 : heap2[m]? with
  | none => simp [h2] at h1
  | some n2 =>
    simp only [h2, Option.map_some', Option.some.injEq] at h1
    exact ⟨n2, rfl, h1⟩

theorem length_of_map_data {heap heap2 : Heap}
    (h : heap2.map LQPNode.data = heap.map LQPNode.data) : heap2.length = heap.length := by
  have := congrArg List.length h
  simpa using this

/-- After a list of calls, a slot holds `input` if every call on the slot sets `input` and
either the slot held `input` before or there is a call on it. -/
theorem set_inputs_of_slot (m : Nat) (s : LQPInputSide) (input : Option Nat) :
    ∀ (calls : List (Nat × LQPInputSide × Option Nat)) (heap : Heap),
      (∀ c ∈ calls, c.1 = m → c.2.1 = s → c.2.2 = input) →
      (holds_input heap m s input ∨
        ((heap[m]?).isSome = true ∧ ∃ c ∈ calls, c.1 = m ∧ c.2.1 = s)) →
      holds_input (set_inputs_of heap calls) m s input := by
  intro calls
  induction calls with
  | nil =>
    intro heap _ h
    rcases h with h | ⟨_, c, hc, _⟩
    · exact h
    · exact absurd hc (List.not_mem_nil _)
  | cons c cs ih =>
    intro heap hall h
    simp only [set_inputs_of, List.foldl_cons]
    apply ih
    · exact fun c2 hc2 => hall c2 (List.mem_cons_of_mem _ hc2)
    · have hsome : (heap[m]?).isSome = true := by
        rcases h with ⟨n, hn, _⟩ | ⟨h, _⟩
        · rw [hn]; rfl
        · exact h
      obtain ⟨n, hn⟩ := Option.isSome_iff_exists.1 hsome
      by_cases htarget : c.1 = m ∧ c.2.1 = s
      · left
        refine ⟨n.with_input c.2.1 c.2.2, ?_, ?_⟩
        · rw [getElem?_set_input, if_pos htarget.1.symm, htarget.1, hn]
          rfl
        · rw [LQPNode.input_with_input, if_pos htarget.2.symm]
          exact hall c (List.mem_cons_self _ _) htarget.1 htarget.2
      · rcases h with ⟨n2, hn2, hv⟩ | ⟨_, c2, hc2, ht2⟩
        · left
          rw [hn] at hn2
          cases hn2
          by_cases hm : c.1 = m
          · refine ⟨n.with_input c.2.1 c.2.2, ?_, ?_⟩
            · rw [getElem?_set_input, if_pos hm.symm, hm, hn]
              rfl
            · rw [LQPNode.input_with_input, if_neg (fun hs => htarget ⟨hm, hs.symm⟩)]
              exact hv
          · refine ⟨n, ?_, hv⟩
            rw [getElem?_set_input, if_neg (fun h => hm h.symm)]
            exact hn
        · right
          constructor
          · rw [getElem?_set_input]
            by_cases hm : m = c.1
            · rw [if_pos hm, ← hm, hn]
              rfl
            · rw [if_neg hm]
              exact hsome
          · rcases List.mem_cons.1 hc2 with hc2 | hc2
            · rw [hc2] at ht2
              exact absurd ht2 htarget
            · exact ⟨c2, hc2, ht2⟩

/-- A list of calls leaves a node that no call is made on as it is. -/
theorem set_inputs_of_other (m : Nat) :
    ∀ (calls : List (Nat × LQPInputSide × Option Nat)) (heap : Heap),
      (∀ c ∈ calls, c.1 ≠ m) → (set_inputs_of heap calls)[m]? = heap[m]? := by
  intro calls
  induction calls with
  | nil => exact fun _ _ => rfl
  | cons c cs ih =>
    intro heap hall
    simp only [set_inputs_of, List.foldl_cons]
    have h1 := ih (heap.set_input c.1 c.2.1 c.2.2)
      (fun c2 hc2 => hall c2 (List.mem_cons_of_mem _ hc2))
    simp only [set_inputs_of] at h1
    rw [h1, getElem?_set_input, if_neg (fun h => hall c (List.mem_cons_self _ _) h.symm)]

theorem mem_plan_outputs {heap : Heap} {node output : Nat} :
    output ∈ plan_outputs heap node ↔
      ∃ o, heap[output]? = some o ∧ (o.left_input = some node ∨ o.right_input = some node) := by
  unfold plan_outputs
  rw [List.mem_flatMap]
  constructor
  · rintro ⟨m, _, hm⟩
    cases ho : heap[m]? with
    | none => simp [ho] at hm
    | some o =>
      simp only [ho, List.mem_append] at hm
      rcases hm with hm | hm
      · by_cases hl : o.left_input = some node
        · simp only [hl, if_true, List.mem_singleton] at hm
          exact ⟨o, hm ▸ ho, Or.inl hl⟩
        · simp [hl] at hm
      · by_cases hr : o.right_input = some node
        · simp only [hr, if_true, List.mem_singleton] at hm
          exact ⟨o, hm ▸ ho, Or.inr hr⟩
        · simp [hr] at hm
  · rintro ⟨o, ho, h⟩
    refine ⟨output, List.mem_range.2 (getElem?_some_lt ho), ?_⟩
    simp only [ho, List.mem_append]
    rcases h with h | h
    · left
      simp [h]
    · right
      simp [h]

theorem get_input_side_of_output {heap : Heap} {node output : Nat}
    (h : output ∈ plan_outputs heap node) :
    ∃ side, get_input_side heap node output = some side ∧
      holds_input heap output side (some node) := by
  obtain ⟨o, ho, hslot⟩ := mem_plan_outputs.1 h
  unfold get_input_side
  rw [ho]
  by_cases hl : o.left_input = some node
  · exact ⟨.Left, by simp [hl], o, ho, hl⟩
  · have hr : o.right_input = some node := by
      rcases hslot with h | h
      · exact absurd h hl
      · exact h
    exact ⟨.Right, by simp [hl, hr], o, ho, hr⟩

theorem get_input_sides_of_outputs (heap : Heap) (node : Nat) :
    ∀ outputs : List Nat, (∀ o ∈ outputs, o ∈ plan_outputs heap node) →
      ∃ sides, get_input_sides_of heap node outputs = some sides ∧
        sides.length = outputs.length ∧
        ∀ pair ∈ outputs.zip sides, get_input_side heap node pair.1 = some pair.2 := by
  intro outputs
  induction outputs with
  | nil => exact fun _ => ⟨[], rfl, rfl, fun _ h => absurd h (List.not_mem_nil _)⟩
  | cons o os ih =>
    intro hall
    obtain ⟨sides, hsides, hlen, hzip⟩ := ih (fun o2 h => hall o2 (List.mem_cons_of_mem _ h))
    obtain ⟨side, hside, _⟩ := get_input_side_of_output (hall o (List.mem_cons_self _ _))
    refine ⟨side :: sides, by simp [get_input_sides_of, hside, hsides], by simp [hlen], ?_⟩
    intro pair hp
    simp only [List.zip_cons_cons, List.mem_cons] at hp
    rcases hp with hp | hp
    · rw [hp]
      exact hside
    · exact hzip pair hp

theorem get_input_sides_some (heap : Heap) (node : Nat) :
    ∃ sides, get_input_sides heap node = some sides ∧
      sides.length = (plan_outputs heap node).length ∧
      ∀ pair ∈ (plan_outputs heap node).zip sides,
        get_input_side heap node pair.1 = some pair.2 :=
  get_input_sides_of_outputs heap node _ (fun _ h => h)
/-! ## The loops of `reorder_predicates` -/

theorem lqp_remove_node_some (heap : Heap) (node : Nat) (n : LQPNode)
    (hn : heap[node]? = some n) :
    ∃ removed, lqp_remove_node heap node = some removed ∧
      removed.map LQPNode.data = heap.map LQPNode.data := by
  obtain ⟨sides, hsides, _, _⟩ := get_input_sides_some heap node
  refine ⟨set_inputs_of (heap.set_input node .Left none)
    (((plan_outputs heap node).zip sides).map fun output => (output.1, output.2, n.left_input)),
    by simp only [lqp_remove_node, hn, hsides], ?_⟩
  exact (map_data_set_inputs_of _ _).trans (map_data_set_input _ _ _ _)

theorem remove_predicates_some :
    ∀ (predicates : List Nat) (heap : Heap), (∀ p ∈ predicates, (heap[p]?).isSome = true) →
      ∃ removed, remove_predicates heap predicates = some removed ∧
        removed.map LQPNode.data = heap.map LQPNode.data := by
  intro predicates
  induction predicates with
  | nil => exact fun heap _ => ⟨heap, rfl, rfl⟩
  | cons p ps ih =>
    intro heap hall
    obtain ⟨n, hn⟩ := Option.isSome_iff_exists.1 (hall p (List.mem_cons_self _ _))
    obtain ⟨removed, hremoved, hdata⟩ := lqp_remove_node_some heap p n hn
    obtain ⟨result, hresult, hdata2⟩ := ih removed (by
      intro q hq
      obtain ⟨m, hm⟩ := Option.isSome_iff_exists.1 (hall q (List.mem_cons_of_mem _ hq))
      obtain ⟨m2, hm2, _⟩ := data_of_map_data hdata hm
      rw [hm2]
      rfl)
    exact ⟨result, by simp only [remove_predicates, hremoved, hresult], hdata2.trans hdata⟩

/-- The node is a node that `reorder_predicates` can estimate: a predicate-style node, with a
predicate when it is a Predicate node. -/
theorem estimate_node_cost_of_predicate_style {F : Type} (ops : FloatArithmetic F)
    (estimate_cardinality : Nat → F) (heap : Heap) (node : Nat) (n : LQPNode)
    (hn : heap[node]? = some n) (hstyle : n.is_predicate_style = true)
    (hpredicate : n.type = .Predicate → n.node_expressions ≠ []) :
    (estimate_node_cost ops estimate_cardinality heap node).isSome = true := by
  simp only [estimate_node_cost, hn]
  by_cases hP : n.type = .Predicate
  · obtain ⟨e, es, he⟩ := List.exists_cons_of_ne_nil (hpredicate hP)
    simp [hP, he]
  · by_cases hV : n.type = .Validate
    · simp [hV]
    · by_cases hJ : n.type = .Join
      · simp [hJ]
      · simp [LQPNode.is_predicate_style, hP, hV, hJ] at hstyle

theorem predicate_style_of_data {n n2 : LQPNode} (h : n2.data = n.data) :
    n2.is_predicate_style = n.is_predicate_style ∧ n2.type = n.type ∧
      n2.node_expressions = n.node_expressions := by
  have ht : n2.type = n.type := by
    have h1 : n2.data.type = n.data.type := by rw [h]
    exact h1
  have he : n2.node_expressions = n.node_expressions := by
    have h1 : n2.data.node_expressions = n.data.node_expressions := by rw [h]
    exact h1
  have hm : n2.join_mode = n.join_mode := by
    have h1 : n2.data.join_mode = n.data.join_mode := by rw [h]
    exact h1
  refine ⟨?_, ht, he⟩
  simp only [LQPNode.is_predicate_style, LQPNode.as_join, JoinNode.join_predicates, ht, he, hm]

theorem estimate_predicates_some {F : Type} (ops : FloatArithmetic F) (join_penalty : F)
    (estimate_cardinality : Heap → Nat → F) (input : Option Nat) :
    ∀ (predicates : List Nat) (heap : Heap),
      (∀ p ∈ predicates, ∃ n, heap[p]? = some n ∧ n.is_predicate_style = true ∧
        (n.type = .Predicate → n.node_expressions ≠ [])) →
      ∃ estimated nodes_and_costs,
        estimate_predicates ops join_penalty estimate_cardinality input heap predicates =
          some (estimated, nodes_and_costs) ∧
        nodes_and_costs.map Prod.fst = predicates ∧
        estimated.map LQPNode.data = heap.map LQPNode.data := by
  intro predicates
  induction predicates with
  | nil => exact fun heap _ => ⟨heap, [], rfl, rfl, rfl⟩
  | cons p ps ih =>
    intro heap hall
    have hdata := map_data_set_input heap p .Left input
    obtain ⟨n, hn, hstyle, hpred⟩ := hall p (List.mem_cons_self _ _)
    obtain ⟨n2, hn2, hd2⟩ := data_of_map_data hdata hn
    obtain ⟨hs2, ht2, he2⟩ := predicate_style_of_data hd2
    have hcost := estimate_node_cost_of_predicate_style ops
      (estimate_cardinality (heap.set_input p .Left input)) (heap.set_input p .Left input) p n2
      hn2 (hs2.trans hstyle) (fun h => by rw [he2]; exact hpred (ht2 ▸ h))
    obtain ⟨cost, hcost⟩ := Option.isSome_iff_exists.1 hcost
    obtain ⟨estimated, costs, hrest, hfst, hdata2⟩ := ih (heap.set_input p .Left input) (by
      intro q hq
      obtain ⟨m, hm, hms, hmp⟩ := hall q (List.mem_cons_of_mem _ hq)
      obtain ⟨m2, hm2, hmd⟩ := data_of_map_data hdata hm
      obtain ⟨h1, h2, h3⟩ := predicate_style_of_data hmd
      exact ⟨m2, hm2, h1.trans hms, fun h => by rw [h3]; exact hmp (h2 ▸ h)⟩)
    have hw : ∃ w, weighted_cost ops join_penalty estimate_cardinality
        (heap.set_input p .Left input) p = some w := by
      simp only [weighted_cost, hn2, hcost]
      exact ⟨_, rfl⟩
    obtain ⟨w, hw⟩ := hw
    refine ⟨estimated, (p, w) :: costs, ?_, by simp [hfst], hdata2.trans hdata⟩
    simp only [estimate_predicates, hw, hrest]

/-! ## The calls that chain the sorted nodes -/

theorem chain_calls_target :
    ∀ (nodes : List Nat) (back : Nat), nodes.Nodup → nodes.getLast? = some back →
      ∀ c ∈ chain_calls nodes, c.1 ∈ nodes ∧ c.1 ≠ back ∧ c.2.1 = .Left := by
  intro nodes
  induction nodes with
  | nil => intro _ _ _ c hc; simp [chain_calls] at hc
  | cons a rest ih =>
    intro back hnodup hlast c hc
    cases rest with
    | nil => simp [chain_calls] at hc
    | cons b rest2 =>
      have hlast2 : (b :: rest2).getLast? = some back := by
        rw [List.getLast?_cons_cons] at hlast
        exact hlast
      have hback : back ∈ b :: rest2 := List.mem_of_mem_getLast? hlast2
      have ha : a ∉ b :: rest2 := (List.nodup_cons.1 hnodup).1
      simp only [chain_calls, List.mem_cons] at hc
      rcases hc with hc | hc
      · rw [hc]
        refine ⟨List.mem_cons_self _ _, fun h => ha ?_, rfl⟩
        have h2 : a = back := h
        rw [h2]
        exact hback
      · obtain ⟨h1, h2, h3⟩ := ih back (List.nodup_cons.1 hnodup).2 hlast2 c hc
        exact ⟨List.mem_cons_of_mem _ h1, h2, h3⟩

theorem chain_calls_value :
    ∀ nodes : List Nat, nodes.Nodup →
      ∀ c ∈ chain_calls nodes, ∀ c2 ∈ chain_calls nodes, c.1 = c2.1 → c.2.2 = c2.2.2 := by
  intro nodes
  induction nodes with
  | nil => intro _ c hc; simp [chain_calls] at hc
  | cons a rest ih =>
    intro hnodup c hc c2 hc2 heq
    cases rest with
    | nil => simp [chain_calls] at hc
    | cons b rest2 =>
      have ha : a ∉ b :: rest2 := (List.nodup_cons.1 hnodup).1
      have hrest := (List.nodup_cons.1 hnodup).2
      have htarget : ∀ c3 ∈ chain_calls (b :: rest2), c3.1 ≠ a := by
        intro c3 hc3 h
        obtain ⟨z, hz⟩ := Option.isSome_iff_exists.1
          (List.getLast?_isSome.2 (List.cons_ne_nil b rest2))
        exact ha (h ▸ (chain_calls_target _ z hrest hz c3 hc3).1)
      simp only [chain_calls, List.mem_cons] at hc hc2
      rcases hc with hc | hc <;> rcases hc2 with hc2 | hc2
      · rw [hc, hc2]
      · rw [hc] at heq
        exact absurd heq.symm (htarget c2 hc2)
      · rw [hc2] at heq
        exact absurd heq (htarget c hc)
      · exact ih hrest c hc c2 hc2 heq

theorem chain_of_chain_calls (R : Nat → Nat → Prop) :
    ∀ nodes : List Nat, (∀ a b, (a, LQPInputSide.Left, some b) ∈ chain_calls nodes → R a b) →
      nodes.Chain' R := by
  intro nodes
  induction nodes with
  | nil => exact fun _ => List.chain'_nil
  | cons a rest ih =>
    intro h
    cases rest with
    | nil => exact List.chain'_singleton a
    | cons b rest2 =>
      rw [List.chain'_cons]
      refine ⟨h a b (by simp [chain_calls]), ih (fun x y hxy => h x y ?_)⟩
      simp only [chain_calls, List.mem_cons]
      exact Or.inr hxy

/-! ## The order of a reordered predicate chain -/

theorem mem_zip_of_mem_left {α β : Type} :
    ∀ (l : List α) (l2 : List β), l2.length = l.length → ∀ a ∈ l, ∃ b, (a, b) ∈ l.zip l2 := by
  intro l
  induction l with
  | nil => intro _ _ a ha; exact absurd ha (List.not_mem_nil _)
  | cons x xs ih =>
    intro l2 hlen a ha
    cases l2 with
    | nil => simp at hlen
    | cons y ys =>
      rcases List.mem_cons.1 ha with ha | ha
      · exact ⟨y, by simp [ha]⟩
      · obtain ⟨b, hb⟩ := ih ys (by simpa using hlen) a ha
        exact ⟨b, by simp [hb]⟩

theorem get_input_side_of_slot {heap : Heap} {node output : Nat} {o : LQPNode}
    {side : LQPInputSide} (ho : heap[output]? = some o) (hslot : o.input side = some node)
    (hboth : ¬(o.left_input = some node ∧ o.right_input = some node)) :
    get_input_side heap node output = some side := by
  unfold get_input_side
  rw [ho]
  cases side
  · have hl : o.left_input = some node := hslot
    simp [hl]
  · have hr : o.right_input = some node := hslot
    have hl : ¬ o.left_input = some node := fun hl => hboth ⟨hl, hr⟩
    simp [hl, hr]

/-- Sorting by insertion meets the contract of `std::sort`. -/
theorem stable_sort_contract {α : Type} :
    std_sort_contract (stable_sort : (α → α → Bool) → List α → List α) := by
  intro comp hcomp range
  haveI : IsTotal α (fun a b => comp b a = false) :=
    ⟨fun a b => by
      cases h : comp b a
      · exact Or.inl rfl
      · exact Or.inr (hcomp.1 b a h)⟩
  haveI : IsTrans α (fun a b => comp b a = false) :=
    ⟨fun a b c h1 h2 => hcomp.2 c b a h2 h1⟩
  exact ⟨List.perm_insertionSort _ range, List.sorted_insertionSort _ range⟩

theorem halves_strict_weak_ordering : strict_weak_ordering halvesArithmetic.lt := by
  constructor
  · intro a b h
    simp only [halvesArithmetic, decide_eq_true_eq, decide_eq_false_iff_not] at h ⊢
    omega
  · intro a b c h1 h2
    simp only [halvesArithmetic, decide_eq_false_iff_not] at h1 h2 ⊢
    omega

/-- The order of a reordered chain when every output of the top node holds it in one slot
only. For every `std::sort` (a function that meets the contract of the standard library) and
costs compared by a strict weak ordering, `reorder_predicates` on a chain of distinct
predicate-style nodes returns, and in the plan it leaves the chain nodes are linked in the
order in which `std::sort` with the comparator `left.second > right.second` leaves the costs
that the first loop computed: no node of the sorted vector has a smaller cost than a later one
(read from the input upward the costs do not decrease), the last node of the sorted vector
(lowest cost) has the original input as its left input, every other node has the next node of
the vector as its left input, and every slot that held the top of the chain holds the first
node (highest cost). -/
theorem reorder_predicates_order {F : Type} (ops : FloatArithmetic F) (join_penalty : F)
    (sort : (Nat × F → Nat × F → Bool) → List (Nat × F) → List (Nat × F))
    (estimate_cardinality : Heap → Nat → F)
    (heap : Heap) (predicates : List Nat) (front back : Nat)
    (hsort : std_sort_contract sort) (hlt : strict_weak_ordering ops.lt)
    (hnodup : predicates.Nodup)
    (hfront : predicates.head? = some front) (hback : predicates.getLast? = some back)
    (hstyle : ∀ p ∈ predicates, ∃ n, heap[p]? = some n ∧ n.is_predicate_style = true ∧
      (n.type = .Predicate → n.node_expressions ≠ []))
    (houtputs : ∀ o ∈ plan_outputs heap front, o ∉ predicates)
    (hboth : ∀ (m : Nat) (n : LQPNode), heap[m]? = some n →
      ¬(n.left_input = some front ∧ n.right_input = some front)) :
    ∃ (input : Option Nat) (estimated result : Heap) (nodes_and_costs : List (Nat × F)),
      holds_input heap back .Left input ∧
      estimate_predicates ops join_penalty estimate_cardinality input heap predicates =
        some (estimated, nodes_and_costs) ∧
      reorder_predicates ops join_penalty sort estimate_cardinality heap predicates =
        some result ∧
      ((sort (fun left right => ops.lt right.2 left.2) nodes_and_costs).map Prod.fst).Perm
        predicates ∧
      (sort (fun left right => ops.lt right.2 left.2) nodes_and_costs).Pairwise
        (fun upper lower => ops.lt upper.2 lower.2 = false) ∧
      (∃ bottom,
        ((sort (fun left right => ops.lt right.2 left.2) nodes_and_costs).map Prod.fst).getLast? = some bottom ∧
        holds_input result bottom .Left input) ∧
      ((sort (fun left right => ops.lt right.2 left.2) nodes_and_costs).map Prod.fst).Chain'
        (fun upper lower => holds_input result upper .Left (some lower)) ∧
      (∃ top,
        ((sort (fun left right => ops.lt right.2 left.2) nodes_and_costs).map Prod.fst).head? = some top ∧
        ∀ (o : Nat) (n : LQPNode) (side : LQPInputSide), heap[o]? = some n →
          n.input side = some front → holds_input result o side (some top)) := by
  have hcomp : strict_weak_ordering (fun left right : Nat × F => ops.lt right.2 left.2) :=
    ⟨fun a b h => hlt.1 _ _ h, fun a b c h1 h2 => hlt.2 _ _ _ h2 h1⟩
  obtain ⟨nb, hnb, _, _⟩ := hstyle back (List.mem_of_mem_getLast? hback)
  obtain ⟨sides, hsides, hlen, hzip⟩ := get_input_sides_some heap front
  obtain ⟨estimated, costs, hest, hfst, hd1⟩ := estimate_predicates_some ops join_penalty
    estimate_cardinality nb.left_input predicates heap hstyle
  obtain ⟨removed, hrem, hd2⟩ := remove_predicates_some predicates estimated (by
    intro p hp
    obtain ⟨n, hn, _⟩ := hstyle p hp
    obtain ⟨n2, hn2, _⟩ := data_of_map_data hd1 hn
    rw [hn2]
    rfl)
  have hd : removed.map LQPNode.data = heap.map LQPNode.data := hd2.trans hd1
  have hvalid : ∀ (m : Nat) (n : LQPNode), heap[m]? = some n →
      (removed[m]?).isSome = true := by
    intro m n hn
    obtain ⟨n2, hn2, _⟩ := data_of_map_data hd hn
    rw [hn2]
    rfl
  have hperm : ((sort (fun left right => ops.lt right.2 left.2) costs).map Prod.fst).Perm predicates := by
    have h := (hsort _ hcomp costs).1.map Prod.fst
    rw [hfst] at h
    exact h
  have hsn : ((sort (fun left right => ops.lt right.2 left.2) costs).map Prod.fst).Nodup := hperm.nodup_iff.2 hnodup
  have hmem : ∀ x, x ∈ (sort (fun left right => ops.lt right.2 left.2) costs).map Prod.fst → x ∈ predicates := fun x hx => hperm.subset hx
  have hne : (sort (fun left right => ops.lt right.2 left.2) costs).map Prod.fst ≠ [] := by
    intro h
    rw [h] at hperm
    have := hperm.symm.eq_nil
    rw [this] at hfront
    exact Option.noConfusion hfront
  obtain ⟨bk, hbk⟩ := Option.isSome_iff_exists.1 (List.getLast?_isSome.2 hne)
  have htp : ((sort (fun left right => ops.lt right.2 left.2) costs).map Prod.fst).head? = some (((sort (fun left right => ops.lt right.2 left.2) costs).map Prod.fst).head hne) :=
    List.head?_eq_head hne
  generalize ((sort (fun left right => ops.lt right.2 left.2) costs).map Prod.fst).head hne = tp at htp
  have hbkmem : bk ∈ predicates := hmem bk (List.mem_of_mem_getLast? hbk)
  have hresult : reorder_predicates ops join_penalty sort estimate_cardinality heap predicates =
      some (set_inputs_of removed
        ((bk, .Left, nb.left_input) ::
          ((((plan_outputs heap front).zip sides).map fun output =>
            (output.1, output.2, some tp)) ++ chain_calls ((sort (fun left right => ops.lt right.2 left.2) costs).map Prod.fst)))) := by
    simp only [reorder_predicates, hback, Option.some_bind, hnb, hfront, hsides, hest, hrem,
      Option.bind_eq_bind]
    cases hs : (sort (fun left right => ops.lt right.2 left.2) costs).map Prod.fst with
    | nil => exact absurd hs hne
    | cons a as =>
      rw [hs] at hbk htp
      simp only [relink_calls, hbk, htp]
  have hw2 : ∀ c ∈ ((plan_outputs heap front).zip sides).map
      (fun output => (output.1, output.2, some tp)),
      c.1 ∉ predicates ∧ c.2.2 = some tp := by
    intro c hc
    obtain ⟨pair, hpair, hcp⟩ := List.mem_map.1 hc
    rw [← hcp]
    exact ⟨houtputs _ (List.of_mem_zip hpair).1, rfl⟩
  refine ⟨nb.left_input, estimated, _, costs, ⟨nb, hnb, rfl⟩, hest, hresult, hperm,
    (hsort _ hcomp costs).2, ⟨bk, hbk, ?_⟩, ?_, ⟨tp, htp, ?_⟩⟩
  · apply set_inputs_of_slot
    · intro c hc h1 _
      rcases List.mem_cons.1 hc with hc | hc
      · rw [hc]
      · rcases List.mem_append.1 hc with hc | hc
        · exact absurd (h1 ▸ hbkmem) (hw2 c hc).1
        · exact absurd h1 (chain_calls_target _ bk hsn hbk c hc).2.1
    · right
      obtain ⟨n, hn, _⟩ := hstyle bk hbkmem
      exact ⟨hvalid bk n hn, (bk, .Left, nb.left_input), List.mem_cons_self _ _, rfl, rfl⟩
  · apply chain_of_chain_calls
    intro a b hab
    have hatarget := chain_calls_target _ bk hsn hbk _ hab
    have hamem : a ∈ predicates := hmem a hatarget.1
    apply set_inputs_of_slot
    · intro c hc h1 _
      rcases List.mem_cons.1 hc with hc | hc
      · rw [hc] at h1
        exact absurd h1.symm hatarget.2.1
      · rcases List.mem_append.1 hc with hc | hc
        · exact absurd (h1 ▸ hamem) (hw2 c hc).1
        · exact chain_calls_value _ hsn c hc _ hab h1
    · right
      obtain ⟨n, hn, _⟩ := hstyle a hamem
      refine ⟨hvalid a n hn, (a, .Left, some b), ?_, rfl, rfl⟩
      exact List.mem_cons_of_mem _ (List.mem_append_right _ hab)
  · intro o no side hno hslot
    have ho : o ∈ plan_outputs heap front :=
      mem_plan_outputs.2 ⟨no, hno, by cases side <;> simp [LQPNode.input] at hslot <;> simp [hslot]⟩
    have hside : get_input_side heap front o = some side :=
      get_input_side_of_slot hno hslot (hboth o no hno)
    obtain ⟨s2, hs2⟩ := mem_zip_of_mem_left _ sides hlen o ho
    have hs2eq : s2 = side := by
      have := hzip _ hs2
      rw [hside] at this
      exact (Option.some.inj this).symm
    rw [hs2eq] at hs2
    have honot := houtputs o ho
    apply set_inputs_of_slot
    · intro c hc h1 _
      rcases List.mem_cons.1 hc with hc | hc
      · rw [hc] at h1
        exact absurd (h1 ▸ hbkmem) honot
      · rcases List.mem_append.1 hc with hc | hc
        · exact (hw2 c hc).2
        · exact absurd (h1 ▸ hmem _ (chain_calls_target _ bk hsn hbk c hc).1) honot
    · right
      obtain ⟨n, hn, _⟩ := mem_plan_outputs.1 ho
      refine ⟨hvalid o n hn, (o, side, some tp), ?_, rfl, rfl⟩
      apply List.mem_cons_of_mem
      apply List.mem_append_left
      exact List.mem_map.2 ⟨(o, side), hs2, rfl⟩

/-- The chain of `chainPlan`, with the weighted costs 50, 10 and 30 from top to bottom, is
linked in the sorted order by `reorder_predicates`. -/
theorem reorder_predicates_order_of_chain_plan :
    ∃ (input : Option Nat) (estimated result : Heap) (nodes_and_costs : List (Nat × Nat)),
      holds_input chainPlan 3 .Left input ∧
      estimate_predicates halvesArithmetic 3 chainPlanCardinality input chainPlan [1, 2, 3] =
        some (estimated, nodes_and_costs) ∧
      reorder_predicates halvesArithmetic 3 stable_sort chainPlanCardinality chainPlan
        [1, 2, 3] = some result ∧
      ((stable_sort (fun left right => halvesArithmetic.lt right.2 left.2) nodes_and_costs).map Prod.fst).Perm [1, 2, 3] ∧
      (stable_sort (fun left right => halvesArithmetic.lt right.2 left.2) nodes_and_costs).Pairwise
        (fun upper lower => halvesArithmetic.lt upper.2 lower.2 = false) ∧
      (∃ bottom,
        ((stable_sort (fun left right => halvesArithmetic.lt right.2 left.2) nodes_and_costs).map Prod.fst).getLast? = some bottom ∧
        holds_input result bottom .Left input) ∧
      ((stable_sort (fun left right => halvesArithmetic.lt right.2 left.2) nodes_and_costs).map Prod.fst).Chain'
        (fun upper lower => holds_input result upper .Left (some lower)) ∧
      (∃ top,
        ((stable_sort (fun left right => halvesArithmetic.lt right.2 left.2) nodes_and_costs).map Prod.fst).head? = some top ∧
        ∀ (o : Nat) (n : LQPNode) (side : LQPInputSide), chainPlan[o]? = some n →
          n.input side = some 1 → holds_input result o side (some top)) :=
  reorder_predicates_order halvesArithmetic 3 stable_sort chainPlanCardinality chainPlan
    [1, 2, 3] 1 3 stable_sort_contract halves_strict_weak_ordering (by decide) rfl rfl
    (by
      intro p hp
      simp only [List.mem_cons, List.mem_singleton, List.not_mem_nil, or_false] at hp
      rcases hp with hp | hp | hp <;> subst hp <;> exact ⟨_, rfl, rfl, fun _ => by decide⟩)
    (by decide)
    (by
      intro m n hn hboth
      have hm : m < 5 := getElem?_some_lt hn
      interval_cases m <;> simp [chainPlan] at hn <;> subst hn <;> simp at hboth)

/-- The chain of `chainPlan` with the weighted costs 50, 10 and 30 (top to bottom) after
`reorder_predicates`: node 2 (cost 10) is on the table, node 3 (cost 30) on node 2, node 1
(cost 50) on node 3, and the Root node holds node 1. -/
theorem reorder_predicates_of_chain_plan :
    (estimate_predicates halvesArithmetic 3 chainPlanCardinality (some 0) chainPlan
      [1, 2, 3]).map (·.2) = some [(1, 2 * 50), (2, 2 * 10), (3, 2 * 30)] ∧
    (reorder_predicates halvesArithmetic 3 stable_sort
      chainPlanCardinality chainPlan [1, 2, 3]).map plan_links =
      some [(none, none), (some 3, none), (some 0, none), (some 2, none), (some 1, none)] := by
  decide

/-- C24 (the code at the failing input): in `selfJoinPlan` the join (node 3) holds the top of
the chain (node 1) in both input slots, so node 1 has the outputs `[3, 3]` and
`get_input_sides()` is `[Left, Left]`; `reorder_predicates` makes node 2 the new top of the
chain and sets the left slot of the join to node 2, but the right slot of the join still holds
node 1, which is now the bottom of the chain. -/
theorem reorder_predicates_keeps_second_slot :
    plan_links selfJoinPlan =
      [(none, none), (some 2, none), (some 0, none), (some 1, some 1), (some 3, none)] ∧
    gather_predicate_nodes selfJoinPlan (selfJoinPlan.length + 1) (some 1) [] = some [1, 2] ∧
    plan_outputs selfJoinPlan 1 = [3, 3] ∧
    get_input_sides selfJoinPlan 1 = some [.Left, .Left] ∧
    (estimate_predicates halvesArithmetic 3 selfJoinPlanCardinality (some 0) selfJoinPlan
      [1, 2]).map (·.2) = some [(1, 2 * 20), (2, 2 * 30)] ∧
    (reorder_predicates halvesArithmetic 3 stable_sort
      selfJoinPlanCardinality selfJoinPlan [1, 2]).map plan_links =
      some [(none, none), (some 0, none), (some 1, none), (some 2, some 1), (some 3, none)] := by
  decide

/-- C26 (the code at the failing input): in `semiJoinChainPlan` the first pass sorts the chain
of the nodes 6, 5 and 4 (weighted costs 150, 120 and 205) so that the semi join (node 4)
becomes its top; the traversal continues from the inputs of node 6, where the chain was found,
and never visits the semi join, so the chain of the nodes 3 and 2 (weighted costs 130 and 160)
in the right input of the semi join stays as it is. The second pass finds the semi join at the
top, visits its right input and sorts that chain: the plan after two passes is not the plan
after one pass. -/
theorem second_pass_reorders_skipped_chain :
    (estimate_predicates halvesArithmetic 3 semiJoinChainPlanCardinality (some 0)
      semiJoinChainPlan [6, 5, 4]).map (·.2) = some [(6, 2 * 150), (5, 2 * 120), (4, 2 * 205)] ∧
    (estimate_predicates halvesArithmetic 3 semiJoinChainPlanCardinality (some 1)
      semiJoinChainPlan [3, 2]).map (·.2) = some [(3, 2 * 130), (2, 2 * 160)] ∧
    plan_links semiJoinChainPlan =
      [(none, none), (none, none), (some 1, none), (some 2, none), (some 0, some 3),
        (some 4, none), (some 5, none), (some 6, none)] ∧
    (_apply_to_plan_without_subqueries halvesArithmetic 3
      stable_sort semiJoinChainPlanCardinality semiJoinChainPlan
      7).map plan_links =
      some [(none, none), (none, none), (some 1, none), (some 2, none), (some 6, some 3),
        (some 0, none), (some 5, none), (some 4, none)] ∧
    ((_apply_to_plan_without_subqueries halvesArithmetic 3
      stable_sort semiJoinChainPlanCardinality semiJoinChainPlan
      7).bind fun once =>
        _apply_to_plan_without_subqueries halvesArithmetic 3
          stable_sort semiJoinChainPlanCardinality once
          7).map plan_links =
      some [(none, none), (none, none), (some 3, none), (some 1, none), (some 6, some 2),
        (some 0, none), (some 5, none), (some 4, none)] := by
  decide

/-- A second pass over `chainPlan`, a chain of three Predicate nodes, leaves the plan of the
first pass as it is. -/
theorem second_pass_keeps_chain_plan :
    ((_apply_to_plan_without_subqueries halvesArithmetic 3
      stable_sort chainPlanCardinality chainPlan 4).bind
        fun once =>
          _apply_to_plan_without_subqueries halvesArithmetic 3
            stable_sort chainPlanCardinality once 4) =
      _apply_to_plan_without_subqueries halvesArithmetic 3
        stable_sort chainPlanCardinality chainPlan 4 ∧
    (_apply_to_plan_without_subqueries halvesArithmetic 3
      stable_sort chainPlanCardinality chainPlan 4).map
        plan_links =
      some [(none, none), (some 3, none), (some 0, none), (some 2, none), (some 1, none)] := by
  decide

theorem estimate_predicates_some_fst {F : Type} (ops : FloatArithmetic F) (join_penalty : F)
    (estimate_cardinality : Heap → Nat → F) (input : Option Nat) :
    ∀ (predicates : List Nat) (heap estimated : Heap) (nodes_and_costs : List (Nat × F)),
      estimate_predicates ops join_penalty estimate_cardinality input heap predicates =
        some (estimated, nodes_and_costs) →
      nodes_and_costs.map Prod.fst = predicates := by
  intro predicates
  induction predicates with
  | nil =>
    intro heap estimated nodes_and_costs h
    simp only [estimate_predicates, Option.some.injEq, Prod.mk.injEq] at h
    rw [← h.2]
    rfl
  | cons p ps ih =>
    intro heap estimated nodes_and_costs h
    simp only [estimate_predicates] at h
    cases hw : weighted_cost ops join_penalty estimate_cardinality
        (heap.set_input p .Left input) p with
    | none => simp [hw] at h
    | some w =>
      cases hrest : estimate_predicates ops join_penalty estimate_cardinality input
          (heap.set_input p .Left input) ps with
      | none => simp [hw, hrest] at h
      | some rest =>
        obtain ⟨estimated2, costs⟩ := rest
        simp only [hw, hrest, Option.some.injEq, Prod.mk.injEq] at h
        rw [← h.2, List.map_cons, ih _ _ _ hrest]

/-! ## The frame of `reorder_predicates` -/

theorem estimate_predicates_heap {F : Type} (ops : FloatArithmetic F) (join_penalty : F)
    (estimate_cardinality : Heap → Nat → F) (input : Option Nat) :
    ∀ (predicates : List Nat) (heap estimated : Heap) (nodes_and_costs : List (Nat × F)),
      estimate_predicates ops join_penalty estimate_cardinality input heap predicates =
        some (estimated, nodes_and_costs) →
      estimated = set_inputs_of heap (predicates.map fun p => (p, .Left, input)) := by
  intro predicates
  induction predicates with
  | nil =>
    intro heap estimated nodes_and_costs h
    simp only [estimate_predicates, Option.some.injEq, Prod.mk.injEq] at h
    exact h.1.symm
  | cons p ps ih =>
    intro heap estimated nodes_and_costs h
    simp only [estimate_predicates] at h
    cases hw : weighted_cost ops join_penalty estimate_cardinality
        (heap.set_input p .Left input) p with
    | none => simp [hw] at h
    | some w =>
      cases hrest : estimate_predicates ops join_penalty estimate_cardinality input
          (heap.set_input p .Left input) ps with
      | none => simp [hw, hrest] at h
      | some rest =>
        obtain ⟨estimated2, costs⟩ := rest
        simp only [hw, hrest, Option.some.injEq, Prod.mk.injEq] at h
        rw [← h.1, ih _ _ _ hrest]
        rfl

/-- A list of calls leaves a slot that no call is made on as it is. -/
theorem set_inputs_of_other_slot (m : Nat) (s : LQPInputSide) :
    ∀ (calls : List (Nat × LQPInputSide × Option Nat)) (heap : Heap) (n2 : LQPNode),
      (∀ c ∈ calls, ¬(c.1 = m ∧ c.2.1 = s)) → (set_inputs_of heap calls)[m]? = some n2 →
      ∃ n1, heap[m]? = some n1 ∧ n2.input s = n1.input s := by
  intro calls
  induction calls with
  | nil => exact fun heap n2 _ h => ⟨n2, h, rfl⟩
  | cons c cs ih =>
    intro heap n2 hall h
    simp only [set_inputs_of, List.foldl_cons] at h
    obtain ⟨n1, hn1, heq⟩ := ih (heap.set_input c.1 c.2.1 c.2.2) n2
      (fun c2 hc2 => hall c2 (List.mem_cons_of_mem _ hc2)) h
    rw [getElem?_set_input] at hn1
    by_cases hm : m = c.1
    · rw [if_pos hm, ← hm] at hn1
      cases h0 : heap[m]? with
      | none => simp [h0] at hn1
      | some n0 =>
        simp only [h0, Option.map_some', Option.some.injEq] at hn1
        refine ⟨n0, rfl, ?_⟩
        rw [heq, ← hn1, LQPNode.input_with_input,
          if_neg (fun hs => hall c (List.mem_cons_self _ _) ⟨hm.symm, hs.symm⟩)]
    · rw [if_neg hm] at hn1
      exact ⟨n1, hn1, heq⟩

/-- Calls that set the original input of the chain or nothing on slots of `reordered_slot`
keep the invariant; calls that clear the left slot of a chain node as well. -/
theorem reorder_invariant_set_inputs_of {heap : Heap} {predicates : List Nat} {front : Nat}
    {input : Option Nat} :
    ∀ (calls : List (Nat × LQPInputSide × Option Nat)) (h : Heap),
      ReorderInvariant heap predicates front input h →
      (∀ c ∈ calls, reordered_slot heap predicates front c.1 c.2.1 ∧
        (c.2.2 = input ∨ c.2.2 = none)) →
      ReorderInvariant heap predicates front input (set_inputs_of h calls) := by
  intro calls
  induction calls with
  | nil => exact fun h hinv _ => hinv
  | cons c cs ih =>
    intro h hinv hall
    simp only [set_inputs_of, List.foldl_cons]
    refine ih _ ?_ (fun c2 hc2 => hall c2 (List.mem_cons_of_mem _ hc2))
    obtain ⟨hslot, hvalue⟩ := hall c (List.mem_cons_self _ _)
    refine ⟨(map_data_set_input _ _ _ _).trans hinv.1, ?_⟩
    intro m n n2 s hn hn2
    rw [getElem?_set_input] at hn2
    by_cases hm : m = c.1
    · rw [if_pos hm, ← hm] at hn2
      cases h0 : h[m]? with
      | none => simp [h0] at hn2
      | some n0 =>
        simp only [h0, Option.map_some', Option.some.injEq] at hn2
        rw [← hn2, LQPNode.input_with_input]
        by_cases hs : s = c.2.1
        · rw [if_pos hs]
          right
          rw [hm, hs]
          exact ⟨hslot, hvalue⟩
        · rw [if_neg hs]
          exact hinv.2 m n n0 s hn h0
    · rw [if_neg hm] at hn2
      exact hinv.2 m n n2 s hn hn2

theorem holds_of_get_input_side {heap : Heap} {node output : Nat} {side : LQPInputSide}
    (h : get_input_side heap node output = some side) :
    holds_input heap output side (some node) := by
  unfold get_input_side at h
  cases ho : heap[output]? with
  | none => simp [ho] at h
  | some o =>
    simp only [ho] at h
    by_cases hl : o.left_input = some node
    · simp only [hl, if_true, Option.some.injEq] at h
      exact ⟨o, ho, h ▸ hl⟩
    · by_cases hr : o.right_input = some node
      · simp only [hl, hr, if_true, if_false, Option.some.injEq] at h
        exact ⟨o, ho, h ▸ hr⟩
      · simp [hl, hr] at h

/-- In a plan of the invariant, a slot that holds a chain node holds the top of the chain and
is the slot of an original output that `get_input_side` reported. -/
theorem holder_of_chain_node {heap : Heap} {predicates : List Nat} {front : Nat}
    {input : Option Nat} {h : Heap}
    (hinput : ∀ i, input = some i → i ∉ predicates)
    (hsingle : ∀ p ∈ predicates, p ≠ front → ∀ (m : Nat) (n : LQPNode) (s : LQPInputSide),
      heap[m]? = some n → n.input s = some p → m ∈ predicates ∧ s = .Left)
    (hboth : ∀ (m : Nat) (n : LQPNode), heap[m]? = some n →
      ¬(n.left_input = some front ∧ n.right_input = some front))
    (hinv : ReorderInvariant heap predicates front input h)
    {m p : Nat} {n2 : LQPNode} {s : LQPInputSide} (hp : p ∈ predicates)
    (hn2 : h[m]? = some n2) (hslot : n2.input s = some p) :
    m ∈ plan_outputs heap front ∧ get_input_side heap front m = some s := by
  obtain ⟨n, hn, _⟩ := data_of_map_data hinv.1.symm hn2
  rcases hinv.2 m n n2 s hn hn2 with ⟨heq, hnot⟩ | ⟨_, hvalue | hvalue⟩
  · rw [hslot] at heq
    by_cases hpf : p = front
    · rw [hpf] at heq
      have hmem : m ∈ plan_outputs heap front := by
        apply mem_plan_outputs.2
        refine ⟨n, hn, ?_⟩
        cases s
        · exact Or.inl heq.symm
        · exact Or.inr heq.symm
      refine ⟨hmem, ?_⟩
      unfold get_input_side
      rw [hn]
      cases s
      · have hl : n.left_input = some front := heq.symm
        simp [hl]
      · have hr : n.right_input = some front := heq.symm
        have hl : ¬ n.left_input = some front := fun hl => hboth m n hn ⟨hl, hr⟩
        simp [hl, hr]
    · exact absurd (hsingle p hp hpf m n s hn heq.symm) hnot
  · rw [hslot] at hvalue
    exact absurd hp (hinput p hvalue.symm)
  · rw [hslot] at hvalue
    exact Option.noConfusion hvalue

theorem lqp_remove_node_invariant {heap : Heap} {predicates : List Nat} {front : Nat}
    {input : Option Nat} {h : Heap}
    (hinput : ∀ i, input = some i → i ∉ predicates)
    (hsingle : ∀ p ∈ predicates, p ≠ front → ∀ (m : Nat) (n : LQPNode) (s : LQPInputSide),
      heap[m]? = some n → n.input s = some p → m ∈ predicates ∧ s = .Left)
    (hboth : ∀ (m : Nat) (n : LQPNode), heap[m]? = some n →
      ¬(n.left_input = some front ∧ n.right_input = some front))
    (hinv : ReorderInvariant heap predicates front input h)
    {p : Nat} (hp : p ∈ predicates) (removed : Heap)
    (hremoved : lqp_remove_node h p = some removed) :
    ReorderInvariant heap predicates front input removed := by
  unfold lqp_remove_node at hremoved
  cases hn : h[p]? with
  | none => simp [hn] at hremoved
  | some n =>
    obtain ⟨sides, hsides, _, hzip⟩ := get_input_sides_some h p
    simp only [hn, hsides, Option.some.injEq] at hremoved
    rw [← hremoved]
    have hcalls : set_inputs_of (h.set_input p .Left none)
        (((plan_outputs h p).zip sides).map fun output =>
          (output.1, output.2, n.left_input)) =
      set_inputs_of h ((p, .Left, none) ::
        (((plan_outputs h p).zip sides).map fun output =>
          (output.1, output.2, n.left_input))) := rfl
    rw [hcalls]
    apply reorder_invariant_set_inputs_of _ _ hinv
    intro c hc
    rcases List.mem_cons.1 hc with hc | hc
    · rw [hc]
      exact ⟨Or.inl ⟨hp, rfl⟩, Or.inr rfl⟩
    · obtain ⟨pair, hpair, hcp⟩ := List.mem_map.1 hc
      rw [← hcp]
      obtain ⟨o, ho, hslot⟩ := holds_of_get_input_side (hzip pair hpair)
      refine ⟨Or.inr (holder_of_chain_node hinput hsingle hboth hinv hp ho hslot), ?_⟩
      obtain ⟨n0, hn0, _⟩ := data_of_map_data hinv.1.symm hn
      rcases hinv.2 p n0 n .Left hn0 hn with ⟨_, hnot⟩ | ⟨_, hvalue⟩
      · exact absurd ⟨hp, rfl⟩ hnot
      · exact hvalue

theorem remove_predicates_invariant {heap : Heap} {predicates : List Nat} {front : Nat}
    {input : Option Nat}
    (hinput : ∀ i, input = some i → i ∉ predicates)
    (hsingle : ∀ p ∈ predicates, p ≠ front → ∀ (m : Nat) (n : LQPNode) (s : LQPInputSide),
      heap[m]? = some n → n.input s = some p → m ∈ predicates ∧ s = .Left)
    (hboth : ∀ (m : Nat) (n : LQPNode), heap[m]? = some n →
      ¬(n.left_input = some front ∧ n.right_input = some front)) :
    ∀ (nodes : List Nat) (h removed : Heap), (∀ p ∈ nodes, p ∈ predicates) →
      ReorderInvariant heap predicates front input h →
      remove_predicates h nodes = some removed →
      ReorderInvariant heap predicates front input removed := by
  intro nodes
  induction nodes with
  | nil =>
    intro h removed _ hinv hr
    simp only [remove_predicates, Option.some.injEq] at hr
    exact hr ▸ hinv
  | cons p ps ih =>
    intro h removed hsub hinv hr
    simp only [remove_predicates] at hr
    cases h1 : lqp_remove_node h p with
    | none => simp [h1] at hr
    | some h2 =>
      simp only [h1] at hr
      exact ih h2 removed (fun q hq => hsub q (List.mem_cons_of_mem _ hq))
        (lqp_remove_node_invariant hinput hsingle hboth hinv
          (hsub p (List.mem_cons_self _ _)) h2 h1) hr

theorem estimated_invariant (heap : Heap) (predicates : List Nat) (front : Nat)
    (input : Option Nat) :
    ReorderInvariant heap predicates front input
      (set_inputs_of heap (predicates.map fun p => (p, .Left, input))) := by
  refine ⟨map_data_set_inputs_of _ _, ?_⟩
  intro m n n2 s hn hn2
  by_cases hslot : m ∈ predicates ∧ s = .Left
  · right
    refine ⟨Or.inl hslot, Or.inl ?_⟩
    obtain ⟨n3, hn3, hvalue⟩ := set_inputs_of_slot m s input
      (predicates.map fun p => (p, .Left, input)) heap
      (by
        intro c hc _ _
        obtain ⟨p, _, hpc⟩ := List.mem_map.1 hc
        rw [← hpc])
      (Or.inr ⟨by rw [hn]; rfl, (m, .Left, input),
        List.mem_map.2 ⟨m, hslot.1, rfl⟩, rfl, hslot.2.symm⟩)
    rw [hn2] at hn3
    cases hn3
    exact hvalue
  · left
    refine ⟨?_, hslot⟩
    obtain ⟨n1, hn1, heq⟩ := set_inputs_of_other_slot m s _ heap n2
      (by
        intro c hc htarget
        obtain ⟨p, hp, hpc⟩ := List.mem_map.1 hc
        rw [← hpc] at htarget
        exact hslot ⟨htarget.1 ▸ hp, htarget.2.symm⟩)
      hn2
    rw [hn] at hn1
    cases hn1
    exact heq

/-- The frame of `reorder_predicates` on a chain whose nodes other than the top are held by
chain nodes only (each has a single output), whose original input is not a chain node, and
whose top node is held by none of its outputs in both input slots: the nodes of the plan keep
their members, and every input slot keeps what it held, except the left slots of the chain
nodes and, for every output of the top node, the slot in which it held the top node. In
particular the right inputs of the chain nodes and all nodes outside the chain and its outputs
are as they were. -/
theorem reorder_predicates_frame {F : Type} (ops : FloatArithmetic F) (join_penalty : F)
    (sort : (Nat × F → Nat × F → Bool) → List (Nat × F) → List (Nat × F))
    (estimate_cardinality : Heap → Nat → F)
    (heap : Heap) (predicates : List Nat) (front : Nat) (result : Heap)
    (hsort : ∀ comp range, (sort comp range).Perm range)
    (hnodup : predicates.Nodup) (hfront : predicates.head? = some front)
    (hinput : ∀ (back : Nat) (nb : LQPNode) (i : Nat), predicates.getLast? = some back →
      heap[back]? = some nb → nb.left_input = some i → i ∉ predicates)
    (hsingle : ∀ p ∈ predicates, p ≠ front → ∀ (m : Nat) (n : LQPNode) (s : LQPInputSide),
      heap[m]? = some n → n.input s = some p → m ∈ predicates ∧ s = .Left)
    (hboth : ∀ (m : Nat) (n : LQPNode), heap[m]? = some n →
      ¬(n.left_input = some front ∧ n.right_input = some front))
    (hresult : reorder_predicates ops join_penalty sort estimate_cardinality heap predicates =
      some result) :
    result.map LQPNode.data = heap.map LQPNode.data ∧
    ∀ (m : Nat) (n n2 : LQPNode) (s : LQPInputSide), heap[m]? = some n →
      result[m]? = some n2 → ¬ reordered_slot heap predicates front m s →
      n2.input s = n.input s := by
  unfold reorder_predicates at hresult
  cases hback : predicates.getLast? with
  | none => simp [hback] at hresult
  | some back =>
    cases hnb : heap[back]? with
    | none => simp [hback, hnb] at hresult
    | some nb =>
      obtain ⟨sides, hsides, _, hzip⟩ := get_input_sides_some heap front
      simp only [hback, Option.some_bind, hnb, hfront, hsides, Option.bind_eq_bind] at hresult
      cases hest : estimate_predicates ops join_penalty estimate_cardinality nb.left_input heap
          predicates with
      | none => simp [hest] at hresult
      | some est =>
        obtain ⟨estimated, costs⟩ := est
        simp only [hest] at hresult
        cases hrem : remove_predicates estimated predicates with
        | none => simp [hrem] at hresult
        | some removed =>
          simp only [hrem] at hresult
          have hin : ∀ i, nb.left_input = some i → i ∉ predicates :=
            fun i hi => hinput back nb i hback hnb hi
          have hinv1 : ReorderInvariant heap predicates front nb.left_input estimated := by
            rw [estimate_predicates_heap ops join_penalty estimate_cardinality nb.left_input
              predicates heap estimated costs hest]
            exact estimated_invariant heap predicates front nb.left_input
          have hinv2 : ReorderInvariant heap predicates front nb.left_input removed :=
            remove_predicates_invariant hin hsingle hboth predicates estimated removed
              (fun _ h => h) hinv1 hrem
          have hfst : costs.map Prod.fst = predicates :=
            (estimate_predicates_some_fst ops join_penalty estimate_cardinality nb.left_input
              predicates heap estimated costs hest)
          have hperm : ((sort (fun left right => ops.lt right.2 left.2) costs).map Prod.fst).Perm predicates := by
            have h := (hsort (fun left right => ops.lt right.2 left.2) costs).map Prod.fst
            rw [hfst] at h
            exact h
          have hsn : ((sort (fun left right => ops.lt right.2 left.2) costs).map Prod.fst).Nodup := hperm.nodup_iff.2 hnodup
          cases hs : (sort (fun left right => ops.lt right.2 left.2) costs).map Prod.fst with
          | nil => simp [hs] at hresult
          | cons a as =>
            rw [hs] at hperm hsn
            simp only [hs, Option.some.injEq] at hresult
            obtain ⟨bk, hbk⟩ := Option.isSome_iff_exists.1
              (List.getLast?_isSome.2 (List.cons_ne_nil a as))
            have hcalls : ∀ c ∈ relink_calls nb.left_input ((plan_outputs heap front).zip sides)
                (a :: as), reordered_slot heap predicates front c.1 c.2.1 := by
              intro c hc
              simp only [relink_calls, hbk, List.head?_cons, List.mem_cons, List.mem_append,
                List.mem_map] at hc
              rcases hc with hc | ⟨pair, hpair, hcp⟩ | hc
              · rw [hc]
                exact Or.inl ⟨hperm.subset (List.mem_of_mem_getLast? hbk), rfl⟩
              · rw [← hcp]
                exact Or.inr ⟨(List.of_mem_zip hpair).1, hzip pair hpair⟩
              · obtain ⟨h1, _, h3⟩ := chain_calls_target _ bk hsn hbk c hc
                exact Or.inl ⟨hperm.subset h1, h3⟩
            rw [← hresult]
            refine ⟨(map_data_set_inputs_of _ _).trans hinv2.1, ?_⟩
            intro m n n2 s hn hn2 hnot
            obtain ⟨n1, hn1, heq⟩ := set_inputs_of_other_slot m s _ removed n2
              (fun c hc htarget => hnot (htarget.1 ▸ htarget.2 ▸ hcalls c hc)) hn2
            rcases hinv2.2 m n n1 s hn hn1 with ⟨h1, _⟩ | ⟨h1, _⟩
            · rw [heq, h1]
            · exact absurd h1 hnot

/-! ## Fixed point, termination and soundness of the closure of order dependencies -/

theorem emits_transitive_od_take {S : OrderDependencies} {od c : OrderDependency}
    (h : emits_transitive_od S od c = true) :
    c.ordering_expressions.length ≤ od.ordered_expressions.length ∧
      od.ordered_expressions.take c.ordering_expressions.length = c.ordering_expressions := by
  unfold emits_transitive_od at h
  by_cases hlen : od.ordered_expressions.length < c.ordering_expressions.length
  · simp [hlen] at h
  · by_cases hmatch : first_expressions_match c.ordering_expressions od.ordered_expressions = true
    · have hle : c.ordering_expressions.length ≤ od.ordered_expressions.length := by omega
      refine ⟨hle, ?_⟩
      unfold first_expressions_match at hmatch
      rw [Nat.min_eq_left hle, List.take_length] at hmatch
      exact (beq_iff_eq.1 hmatch).symm
    · simp [hlen, hmatch] at h

theorem emits_transitive_od_fresh {S : OrderDependencies} {od c : OrderDependency}
    (h : emits_transitive_od S od c = true) :
    ∀ e ∈ od.ordering_expressions, e ∉ c.ordered_expressions := by
  intro e he hmem
  have hany : ((transitive_od od c).ordering_expressions.any fun expression =>
      (find_expression_idx expression c.ordered_expressions).isSome) = true :=
    List.any_eq_true.2 ⟨e, he, (find_expression_idx_isSome _ _).2 hmem⟩
  unfold emits_transitive_od at h
  simp [hany] at h

/-- A pair of ODs `A |-> B`, `B2 |-> C` in which `B2` is a leading part of `B` is emitted by a
pass unless `A |-> C` is known or an expression of `A` occurs in `C`. -/
theorem emits_transitive_od_of_take {S : OrderDependencies} {od c : OrderDependency}
    (hlen : c.ordering_expressions.length ≤ od.ordered_expressions.length)
    (htake : od.ordered_expressions.take c.ordering_expressions.length = c.ordering_expressions)
    (hnew : transitive_od od c ∉ S)
    (hfresh : ∀ e ∈ od.ordering_expressions, e ∉ c.ordered_expressions) :
    emits_transitive_od S od c = true := by
  have hany : ((transitive_od od c).ordering_expressions.any fun expression =>
      (find_expression_idx expression c.ordered_expressions).isSome) = false := by
    rw [Bool.eq_false_iff]
    intro h
    obtain ⟨e, he, hsome⟩ := List.any_eq_true.1 h
    exact hfresh e he ((find_expression_idx_isSome _ _).1 hsome)
  have hmatch : first_expressions_match c.ordering_expressions od.ordered_expressions = true := by
    unfold first_expressions_match
    rw [Nat.min_eq_left hlen, List.take_length, htake]
    exact beq_self_eq_true _
  have hnot : ¬ od.ordered_expressions.length < c.ordering_expressions.length := by omega
  unfold emits_transitive_od
  simp [hnot, hmatch, hnew, hany]

theorem build_transitive_od_closure_loop_lists (A B : Finset (List Expression)) :
    ∀ (passes : Nat) (S R : OrderDependencies),
      (∀ od ∈ S, od.ordering_expressions ∈ A ∧ od.ordered_expressions ∈ B) →
      build_transitive_od_closure_loop passes S = some R →
      ∀ od ∈ R, od.ordering_expressions ∈ A ∧ od.ordered_expressions ∈ B := by
  intro passes
  induction passes with
  | zero =>
    intro S R _ h
    simp [build_transitive_od_closure_loop] at h
  | succ n ih =>
    intro S R hS h
    by_cases hc : collect_transitive_ods S = ∅
    · simp only [build_transitive_od_closure_loop, hc, if_true, Option.some.injEq] at h
      exact h ▸ hS
    · simp only [build_transitive_od_closure_loop, hc, if_false] at h
      exact ih _ R (collect_transitive_ods_lists hS) h

/-- More passes than needed do not change the result of the bounded loop. -/
theorem build_transitive_od_closure_loop_more :
    ∀ (passes : Nat) (S R : OrderDependencies),
      build_transitive_od_closure_loop passes S = some R →
      ∀ more, passes ≤ more → build_transitive_od_closure_loop more S = some R := by
  intro passes
  induction passes with
  | zero =>
    intro S R h
    simp [build_transitive_od_closure_loop] at h
  | succ n ih =>
    intro S R h more hmore
    obtain ⟨m, rfl⟩ : ∃ m, more = m + 1 := ⟨more - 1, by omega⟩
    by_cases hc : collect_transitive_ods S = ∅
    · simp only [build_transitive_od_closure_loop, hc, if_true] at h ⊢
      exact h
    · simp only [build_transitive_od_closure_loop, hc, if_false] at h ⊢
      exact ih _ R h m (by omega)

theorem lex_le_take {V : Type} [LinearOrder V] (r s : Expression → V) :
    ∀ (l : List Expression) (n : Nat), lex_le r s l = true → lex_le r s (l.take n) = true := by
  intro l
  induction l with
  | nil =>
    intro n h
    rw [List.take_nil]
    exact h
  | cons e es ih =>
    intro n h
    cases n with
    | zero => rfl
    | succ n =>
      rw [List.take_succ_cons]
      simp only [lex_le, Bool.or_eq_true, Bool.and_eq_true] at h ⊢
      rcases h with h | ⟨h1, h2⟩
      · exact Or.inl h
      · exact Or.inr ⟨h1, ih n h2⟩

/-- The ODs of a pass hold on every relation on which the ODs of the set hold. -/
theorem collect_transitive_ods_sound {V : Type} [LinearOrder V]
    (relation : List (Expression → V)) {S : OrderDependencies}
    (hS : ∀ od ∈ S, od.holds_on relation) :
    ∀ od ∈ S ∪ collect_transitive_ods S, od.holds_on relation := by
  intro t ht
  rcases Finset.mem_union.1 ht with h | h
  · exact hS t h
  · obtain ⟨od, hod, c, hc, hemit, rfl⟩ := mem_collect_transitive_ods.1 h
    obtain ⟨_, htake⟩ := emits_transitive_od_take hemit
    intro r hr s hs hle
    have h1 : lex_le r s od.ordered_expressions = true := hS od hod r hr s hs hle
    have h2 := lex_le_take r s od.ordered_expressions c.ordering_expressions.length h1
    rw [htake] at h2
    exact hS c hc r hr s hs h2

theorem build_transitive_od_closure_loop_sound {V : Type} [LinearOrder V]
    (relation : List (Expression → V)) :
    ∀ (passes : Nat) (S R : OrderDependencies), (∀ od ∈ S, od.holds_on relation) →
      build_transitive_od_closure_loop passes S = some R →
      ∀ od ∈ R, od.holds_on relation := by
  intro passes
  induction passes with
  | zero =>
    intro S R _ h
    simp [build_transitive_od_closure_loop] at h
  | succ n ih =>
    intro S R hS h
    by_cases hc : collect_transitive_ods S = ∅
    · simp only [build_transitive_od_closure_loop, hc, if_true, Option.some.injEq] at h
      exact h ▸ hS
    · simp only [build_transitive_od_closure_loop, hc, if_false] at h
      exact ih _ R (collect_transitive_ods_sound relation hS) h

/-- C31: `build_transitive_od_closure` returns, and the set it leaves contains every OD it was
given and is a fixed point: a further pass finds nothing, and for every two ODs `A |-> B` and
`B2 |-> C` of the set such that `B` is at least as long as `B2` and the first `|B2|`
expressions of `B` are those of `B2`, either `A |-> C` is in the set or some expression of `A`
also occurs in `C`. -/
theorem build_transitive_od_closure_fixed_point (order_dependencies : OrderDependencies) :
    ∃ closure, build_transitive_od_closure order_dependencies = some closure ∧
      order_dependencies ⊆ closure ∧ collect_transitive_ods closure = ∅ ∧
      ∀ od ∈ closure, ∀ candidate_od ∈ closure,
        candidate_od.ordering_expressions.length ≤ od.ordered_expressions.length →
        od.ordered_expressions.take candidate_od.ordering_expressions.length =
          candidate_od.ordering_expressions →
        transitive_od od candidate_od ∈ closure ∨
          ∃ e ∈ od.ordering_expressions, e ∈ candidate_od.ordered_expressions := by
  obtain ⟨R, hR, hsub, hclosed⟩ := build_transitive_od_closure_terminates order_dependencies
  refine ⟨R, hR, hsub, hclosed, ?_⟩
  intro od hod c hc hlen htake
  by_contra hnot
  rw [not_or] at hnot
  have hfresh : ∀ e ∈ od.ordering_expressions, e ∉ c.ordered_expressions :=
    fun e he hmem => hnot.2 ⟨e, he, hmem⟩
  have hmem : transitive_od od c ∈ collect_transitive_ods R :=
    mem_collect_transitive_ods.2
      ⟨od, hod, c, hc, emits_transitive_od_of_take hlen htake hnot.1 hfresh, rfl⟩
  rw [hclosed] at hmem
  exact absurd hmem (Finset.not_mem_empty _)

/-- Witness of C31: the closure of `[col 0] |-> [col 1, col 2]` and `[col 1] |-> [col 2]`
contains `[col 0] |-> [col 2]`: the ordering list `[col 1]` is the first expression of the
ordered list `[col 1, col 2]`. -/
theorem build_transitive_od_closure_fixed_point_witness :
    ∃ closure, build_transitive_od_closure chainedOds = some closure ∧
      chainedOds ⊆ closure ∧ od1 colA colE ∈ closure := by
  obtain ⟨closure, h, hsub, _, hfix⟩ := build_transitive_od_closure_fixed_point chainedOds
  refine ⟨closure, h, hsub, ?_⟩
  rcases hfix ⟨[colA], [colD, colE], List.cons_ne_nil _ _, List.cons_ne_nil _ _⟩
      (hsub (by decide)) (od1 colD colE) (hsub (by decide)) (by decide) (by decide) with h1 | h1
  · exact h1
  · exact absurd h1 (by decide)

/-- C32: `build_transitive_od_closure` terminates for every finite set of ODs: a pass of the
loop either finds nothing and returns the set, or it adds at least one OD that the set did not
contain and goes on with the larger set; the loop returns within `|input|^2 + 1` passes (more
passes allowed give the same result); every OD of the result pairs the ordering list of an
input OD with the ordered list of an input OD; and the result has at most `|input|^2` ODs. -/
theorem build_transitive_od_closure_passes (order_dependencies : OrderDependencies) :
    (∀ (passes : Nat) (current : OrderDependencies),
      (collect_transitive_ods current = ∅ ∧
        build_transitive_od_closure_loop (passes + 1) current = some current) ∨
      (current.card < (current ∪ collect_transitive_ods current).card ∧
        build_transitive_od_closure_loop (passes + 1) current =
          build_transitive_od_closure_loop passes (current ∪ collect_transitive_ods current))) ∧
    ∃ closure, build_transitive_od_closure order_dependencies = some closure ∧
      (∀ passes, order_dependencies.card * order_dependencies.card < passes →
        build_transitive_od_closure_loop passes order_dependencies = some closure) ∧
      (∀ od ∈ closure, ∃ a ∈ order_dependencies, ∃ b ∈ order_dependencies,
        od.ordering_expressions = a.ordering_expressions ∧
        od.ordered_expressions = b.ordered_expressions) ∧
      closure.card ≤ order_dependencies.card * order_dependencies.card := by
  refine ⟨?_, ?_⟩
  · intro passes current
    by_cases hc : collect_transitive_ods current = ∅
    · exact Or.inl ⟨hc, by simp [build_transitive_od_closure_loop, hc]⟩
    · right
      have hdisj : Disjoint current (collect_transitive_ods current) :=
        Finset.disjoint_right.mpr (collect_transitive_ods_disjoint current)
      have hcard := Finset.card_union_of_disjoint hdisj
      have hpos : 0 < (collect_transitive_ods current).card :=
        Finset.card_pos.mpr (Finset.nonempty_iff_ne_empty.mpr hc)
      exact ⟨by omega, by simp [build_transitive_od_closure_loop, hc]⟩
  · obtain ⟨R, hR, _, _⟩ := build_transitive_od_closure_terminates order_dependencies
    have hS : ∀ od ∈ order_dependencies,
        od.ordering_expressions ∈ order_dependencies.image (·.ordering_expressions) ∧
        od.ordered_expressions ∈ order_dependencies.image (·.ordered_expressions) :=
      fun od hod => ⟨Finset.mem_image_of_mem _ hod, Finset.mem_image_of_mem _ hod⟩
    have hlists := build_transitive_od_closure_loop_lists _ _ _ _ R hS hR
    refine ⟨R, hR, ?_, ?_, ?_⟩
    · intro passes hpasses
      exact build_transitive_od_closure_loop_more _ _ R hR passes (by omega)
    · intro od hod
      obtain ⟨h1, h2⟩ := hlists od hod
      obtain ⟨a, ha, hae⟩ := Finset.mem_image.1 h1
      obtain ⟨b, hb, hbe⟩ := Finset.mem_image.1 h2
      exact ⟨a, ha, b, hb, hae.symm, hbe.symm⟩
    · have h1 : (order_dependencies.image (·.ordering_expressions)).card ≤
          order_dependencies.card := Finset.card_image_le
      have h2 : (order_dependencies.image (·.ordered_expressions)).card ≤
          order_dependencies.card := Finset.card_image_le
      exact (card_le_of_lists hlists).trans (Nat.mul_le_mul h1 h2)

/-- Witness of C32: five passes are more than the square of the two given ODs, and the loop
returns with them. -/
theorem build_transitive_od_closure_passes_witness :
    ∃ closure, build_transitive_od_closure chainedOds = some closure ∧
      build_transitive_od_closure_loop 5 chainedOds = some closure ∧ closure.card ≤ 4 := by
  obtain ⟨closure, h, hpasses, _, hcard⟩ :=
    (build_transitive_od_closure_passes chainedOds).2
  exact ⟨closure, h, hpasses 5 (by decide), hcard⟩

/-- C37: the closure is sound for the meaning of order dependencies: on every relation on
which all given ODs hold (`r ≤ s` lexicographically on the ordering expressions implies
`r ≤ s` lexicographically on the ordered expressions, for all rows `r`, `s`),
`build_transitive_od_closure` returns and every OD of the set it leaves holds as well. -/
theorem build_transitive_od_closure_sound {V : Type} [LinearOrder V]
    (relation : List (Expression → V)) (order_dependencies : OrderDependencies)
    (hholds : ∀ od ∈ order_dependencies, od.holds_on relation) :
    ∃ closure, build_transitive_od_closure order_dependencies = some closure ∧
      ∀ od ∈ closure, od.holds_on relation := by
  obtain ⟨R, hR, _, _⟩ := build_transitive_od_closure_terminates order_dependencies
  exact ⟨R, hR, build_transitive_od_closure_loop_sound relation _ _ R hholds hR⟩

/-- Witness of C37: the two ODs of `chainedOds` hold on `orderedRelation`, and so does every OD
of their closure. -/
theorem build_transitive_od_closure_sound_witness :
    (∀ od ∈ chainedOds, od.holds_on orderedRelation) ∧
    ∃ closure, build_transitive_od_closure chainedOds = some closure ∧
      ∀ od ∈ closure, od.holds_on orderedRelation :=
  ⟨by decide, build_transitive_od_closure_sound orderedRelation chainedOds (by decide)⟩

/-! ## Equality and hash of join nodes and order dependencies -/

theorem map_eq_of_zip_all {α β : Type} (equals : α → α → Bool) (hash : α → β)
    (hequals : ∀ a b, equals a b = true → hash a = hash b) :
    ∀ (l1 l2 : List α), l1.length = l2.length →
      (l1.zip l2).any (fun pair => !equals pair.1 pair.2) = false →
      l1.map hash = l2.map hash := by
  intro l1
  induction l1 with
  | nil =>
    intro l2 hlen _
    cases l2 with
    | nil => rfl
    | cons b bs => simp at hlen
  | cons a as ih =>
    intro l2 hlen hall
    cases l2 with
    | nil => simp at hlen
    | cons b bs =>
      simp only [List.zip_cons_cons, List.any_cons, Bool.or_eq_false_iff,
        Bool.not_eq_false_eq_eq_true] at hall
      simp only [List.length_cons, Nat.succ.injEq, add_left_inj] at hlen
      simp only [List.map_cons]
      rw [hequals a b (by simpa using hall.1), ih bs hlen hall.2]

/-- With the structural equality of expressions, `operator==` of order dependencies is the
equality of the two expression lists. -/
theorem OrderDependency.operator_equals_iff (x y : OrderDependency) :
    x.operator_equals (fun a b => decide (a = b)) y = true ↔ x = y := by
  constructor
  · intro h
    unfold OrderDependency.operator_equals at h
    by_cases hlen : x.ordering_expressions.length ≠ y.ordering_expressions.length ∨
        x.ordered_expressions.length ≠ y.ordered_expressions.length
    · simp [hlen] at h
    · rw [not_or, not_not, not_not] at hlen
      rw [if_neg (by rw [not_or, not_not, not_not]; exact hlen)] at h
      by_cases h1 : (x.ordering_expressions.zip y.ordering_expressions).any
          (fun pair => !decide (pair.1 = pair.2)) = true
      · simp only [h1, if_true] at h
        exact absurd h (by decide)
      · by_cases h2 : (x.ordered_expressions.zip y.ordered_expressions).any
            (fun pair => !decide (pair.1 = pair.2)) = true
        · simp only [h1, h2, if_true, if_false] at h
          exact absurd h (by simp)
        · have e1 := map_eq_of_zip_all (fun a b : Expression => decide (a = b))
            (fun e => e) (fun a b hab => of_decide_eq_true hab) _ _ hlen.1
            (by simpa using h1)
          have e2 := map_eq_of_zip_all (fun a b : Expression => decide (a = b))
            (fun e => e) (fun a b hab => of_decide_eq_true hab) _ _ hlen.2
            (by simpa using h2)
          exact OrderDependency.eq_of_lists (by simpa using e1) (by simpa using e2)
  · intro h
    subst h
    unfold OrderDependency.operator_equals
    have hself : ∀ l : List Expression,
        (l.zip l).any (fun pair => !decide (pair.1 = pair.2)) = false := by
      intro l
      induction l with
      | nil => rfl
      | cons a as ih => simp [ih]
    simp [hself]

/-- C38: equality and hash are consistent. For all join nodes `a` and `b` and every node
mapping, `a._on_shallow_equals(b, mapping)` implies
`a._on_shallow_hash() == b._on_shallow_hash()`; and for all order dependencies `x` and `y`,
`x == y` implies `x.hash() == y.hash()`, given that equal expressions have equal hashes. -/
theorem equal_implies_equal_hash (hash_combine : Nat → Nat → Nat)
    (expression_equals : Expression → Expression → Bool) (expression_hash : Expression → Nat)
    (hexpressions : ∀ a b, expression_equals a b = true → expression_hash a = expression_hash b) :
    (∀ (a b : JoinNode) (node_mapping : LQPNodeMapping),
      a._on_shallow_equals b node_mapping = true →
      a._on_shallow_hash hash_combine = b._on_shallow_hash hash_combine) ∧
    (∀ x y : OrderDependency, x.operator_equals expression_equals y = true →
      x.hash hash_combine expression_hash = y.hash hash_combine expression_hash) := by
  constructor
  · intro a b node_mapping h
    unfold JoinNode._on_shallow_equals at h
    by_cases hne : a.join_mode ≠ b.join_mode ∨ a._is_semi_reduction ≠ b._is_semi_reduction
    · simp [hne] at h
    · rw [not_or, not_not, not_not] at hne
      unfold JoinNode._on_shallow_hash
      rw [hne.1, hne.2]
  · intro x y h
    unfold OrderDependency.operator_equals at h
    by_cases hlen : x.ordering_expressions.length ≠ y.ordering_expressions.length ∨
        x.ordered_expressions.length ≠ y.ordered_expressions.length
    · simp [hlen] at h
    · rw [not_or, not_not, not_not] at hlen
      rw [if_neg (by rw [not_or, not_not, not_not]; exact hlen)] at h
      by_cases h1 : (x.ordering_expressions.zip y.ordering_expressions).any
          (fun pair => !expression_equals pair.1 pair.2) = true
      · simp only [h1, if_true] at h
        exact absurd h (by decide)
      · by_cases h2 : (x.ordered_expressions.zip y.ordered_expressions).any
            (fun pair => !expression_equals pair.1 pair.2) = true
        · simp only [h1, h2, if_true, if_false] at h
          exact absurd h (by simp)
        · have e1 := map_eq_of_zip_all expression_equals expression_hash hexpressions
            _ _ hlen.1 (by simpa using h1)
          have e2 := map_eq_of_zip_all expression_equals expression_hash hexpressions
            _ _ hlen.2 (by simpa using h2)
          have hfold : ∀ (l : List Expression) (seed : Nat),
              l.foldl (fun hash expression => hash_combine hash (expression_hash expression))
                seed = (l.map expression_hash).foldl hash_combine seed := by
            intro l seed
            rw [List.foldl_map]
          unfold OrderDependency.hash
          simp only [hfold, e1, e2, hlen.1, hlen.2]

/-- Witness of C38: the join `inputA JOIN inputB ON colA = colB` equals the join node with the
same mode and predicate and no inputs under the identity mapping of the nodes 1 and 2, and
their hashes agree; likewise for the order dependency `[colA] |-> [colB]`, with the structural
equality of expressions and the sum of the original nodes as their hash. -/
theorem equal_implies_equal_hash_witness :
    ((equiJoin .Inner)._on_shallow_equals
        { join_mode := .Inner, node_expressions := [.binary_predicate .Equals colA colB] }
        [(1, 1), (2, 2)] = true ∧
      (equiJoin .Inner)._on_shallow_hash boost_hash_combine =
        JoinNode._on_shallow_hash boost_hash_combine
          { join_mode := .Inner, node_expressions := [.binary_predicate .Equals colA colB] }) ∧
    ((od1 colA colB).operator_equals (fun a b => decide (a = b)) (od1 colA colB) = true ∧
      (od1 colA colB).hash boost_hash_combine node_sum_hash =
        (od1 colA colB).hash boost_hash_combine node_sum_hash) :=
  have h := equal_implies_equal_hash boost_hash_combine (fun a b => decide (a = b))
    node_sum_hash (fun a b hab => by rw [of_decide_eq_true hab])
  ⟨⟨by decide, h.1 _ _ [(1, 1), (2, 2)] (by decide)⟩, ⟨by decide, h.2 _ _ (by decide)⟩⟩

/-! ## The count of unique constraints asserted by `non_trivial_functional_dependencies` -/

/-- When the assertion "Unexpected number of unique constraints." is reached, the output UCCs
are the union of the UCCs of both inputs, so the asserted count holds exactly when the two
inputs have no UCC in common. -/
theorem unique_constraint_count_assertion_iff (j : JoinNode) (l r : InputNode) (holds : Bool)
    (hl : j.left_input = some l) (hr : j.right_input = some r)
    (h : j.unique_constraint_count_assertion = some holds) :
    (holds = true ↔ Disjoint l.unique_column_combinations r.unique_column_combinations) := by
  unfold JoinNode.unique_constraint_count_assertion at h
  by_cases hsemi : is_semi_or_anti_join j.join_mode = true
  · simp [hsemi] at h
  · simp only [hsemi, hl, hr] at h
    by_cases h1 : j._output_unique_column_combinations l.unique_column_combinations
          r.unique_column_combinations = ∅ ∧ l.unique_column_combinations ≠ ∅ ∧
        r.unique_column_combinations ≠ ∅
    · simp [h1] at h
    · by_cases h2 : (j._output_unique_column_combinations l.unique_column_combinations
            r.unique_column_combinations = ∅ ∨
          j._output_unique_column_combinations l.unique_column_combinations
            r.unique_column_combinations = r.unique_column_combinations) ∧
          l.unique_column_combinations ≠ ∅
      · simp [h1, h2] at h
      · by_cases h3 : (j._output_unique_column_combinations l.unique_column_combinations
              r.unique_column_combinations = ∅ ∨
            j._output_unique_column_combinations l.unique_column_combinations
              r.unique_column_combinations = l.unique_column_combinations) ∧
            r.unique_column_combinations ≠ ∅
        · simp [h1, h2, h3] at h
        · rw [if_neg h1, if_neg h2, if_neg h3] at h
          simp only [Bool.false_eq_true, if_false, Option.some.injEq] at h
          rw [← h, decide_eq_true_iff]
          by_cases hout : j._output_unique_column_combinations l.unique_column_combinations
              r.unique_column_combinations = ∅
          · have hL : l.unique_column_combinations = ∅ := by
              by_contra hne
              exact h2 ⟨Or.inl hout, hne⟩
            have hR : r.unique_column_combinations = ∅ := by
              by_contra hne
              exact h3 ⟨Or.inl hout, hne⟩
            rw [hout, hL, hR]
            simp
          · have hLne : l.unique_column_combinations ≠ ∅ ∨ r.unique_column_combinations ≠ ∅ := by
              by_contra hboth
              rw [not_or, not_not, not_not] at hboth
              apply hout
              unfold JoinNode._output_unique_column_combinations
              rw [if_pos hboth]
            have hunion : j._output_unique_column_combinations l.unique_column_combinations
                r.unique_column_combinations =
                l.unique_column_combinations ∪ r.unique_column_combinations := by
              have hcases : ∀ out, out = j._output_unique_column_combinations
                  l.unique_column_combinations r.unique_column_combinations →
                  out = ∅ ∨ out = l.unique_column_combinations ∪ r.unique_column_combinations ∨
                  (out = r.unique_column_combinations ∧ l.unique_column_combinations ≠ ∅) ∨
                  (out = l.unique_column_combinations ∧ r.unique_column_combinations ≠ ∅) := by
                intro out hdef
                unfold JoinNode._output_unique_column_combinations at hdef
                dsimp only at hdef
                split_ifs at hdef with c1 c2
                · exact Or.inl hdef
                · exact Or.inl hdef
                · split at hdef
                  · exact Or.inl hdef
                  · split_ifs at hdef with c3 c4 c5 c6
                    · exact Or.inl hdef
                    · exact Or.inr (Or.inl hdef)
                    · refine Or.inr (Or.inr (Or.inl ⟨hdef, ?_⟩))
                      intro hempty
                      simp [hempty] at c5
                    · refine Or.inr (Or.inr (Or.inr ⟨hdef, ?_⟩))
                      intro hempty
                      simp [hempty] at c6
                    · exact Or.inl hdef
              rcases hcases _ rfl with hc | hc | ⟨hc, hne⟩ | ⟨hc, hne⟩
              · exact absurd hc hout
              · exact hc
              · exact absurd ⟨Or.inr hc, hne⟩ h2
              · exact absurd ⟨Or.inr hc, hne⟩ h3
            rw [hunion]
            constructor
            · intro hcard
              exact Finset.card_union_eq_card_add_card.1 hcard
            · intro hdisj
              exact Finset.card_union_of_disjoint hdisj

/-- C34 (failing input): in the inner join `overlappingUccJoin` on `colA = colF` both join keys
are unique, the left input has the UCCs `{colA}`, `{colC}` and the right input the UCCs
`{colF}`, `{colC}`. None of the three branches for discarded UCCs is taken, the output has 3
UCCs and the inputs have 2 + 2: the `DebugAssert` "Unexpected number of unique constraints."
fails, while a build without it returns the non-trivial FDs of the inputs. -/
theorem overlapping_uccs_fail_unique_constraint_count :
    overlappingUccJoin.join_mode = .Inner ∧
    (overlappingUccJoin._output_unique_column_combinations {⟨{colA}⟩, ⟨{colC}⟩}
      {⟨{colF}⟩, ⟨{colC}⟩}).card = 3 ∧
    overlappingUccJoin.unique_constraint_count_assertion = some false ∧
    overlappingUccJoin.non_trivial_functional_dependencies_debug 16 = none ∧
    (overlappingUccJoin.non_trivial_functional_dependencies 16).isSome = true := by
  decide

/-! ## Joins with two predicates on one key -/

/-- C36 (failing inputs): for every Left, Right, Semi or Inner join with the two predicates
`a = b` and `a = c`, where `a` is an output expression of the left input and the left input
has an IND, `inclusion_dependencies()` fails: the two predicates give one left key, and the
`Assert` "Could not resolve all join predicates." compares the number of keys with the number
of predicates. -/
theorem join_with_shared_left_key_fails (j : JoinNode) (l r : InputNode) (a b c : Expression)
    (hmode : j.join_mode = .Left ∨ j.join_mode = .Right ∨ j.join_mode = .Semi ∨
      j.join_mode = .Inner)
    (hpredicates : j.join_predicates =
      [.binary_predicate .Equals a b, .binary_predicate .Equals a c])
    (hl : j.left_input = some l) (hr : j.right_input = some r)
    (ha : a ∈ l.output_expressions) (hinds : l.inclusion_dependencies ≠ ∅) :
    j.inclusion_dependencies = none := by
  have hfind : (find_expression_idx a l.output_expressions).isSome = true :=
    (find_expression_idx_isSome _ _).2 ha
  have hkeys : JoinNode.map_join_keys l.output_expressions
      [.binary_predicate .Equals a b, .binary_predicate .Equals a c] (∅, ∅) =
      some (insert a (insert a ∅), insert c (insert b ∅)) := by
    simp [JoinNode.map_join_keys, as_binary_predicate, hfind]
  have hcard : (insert a (insert a (∅ : ExpressionUnorderedSet))).card = 1 := by simp
  have hout : j._output_inclusion_dependencies l r l.inclusion_dependencies
      r.inclusion_dependencies = none := by
    unfold JoinNode._output_inclusion_dependencies
    rw [if_neg (fun h => hinds h.1)]
    simp only [hpredicates, hkeys, hcard, List.length_cons, List.length_nil]
    simp
  rcases hmode with h | h | h | h <;>
    simp only [JoinNode.inclusion_dependencies, h, hl, hr, hout]

/-- Witness of C36 (failing input): the inner join
`inputA JOIN inputB ON colA = colB AND colA = colC`. -/
theorem join_with_shared_left_key_fails_witness :
    sharedKeyInnerJoin.inclusion_dependencies = none :=
  join_with_shared_left_key_fails sharedKeyInnerJoin inputA inputB colA colB colC
    (Or.inr (Or.inr (Or.inr rfl))) rfl rfl rfl (by decide) (by decide)

/-! ## The chain gathered at a predicate-style node -/

theorem LQPNode.is_predicate_style_iff (n : LQPNode) :
    n.is_predicate_style = true ↔
      (n.type = .Predicate ∨ n.type = .Validate ∨
        (n.type = .Join ∧
          (n.as_join.join_mode = .Semi ∨ n.as_join.join_mode = .AntiNullAsTrue ∨
            n.as_join.join_mode = .AntiNullAsFalse) ∧
          n.as_join.join_predicates.length = 1)) := by
  unfold LQPNode.is_predicate_style
  by_cases h1 : n.type = .Predicate
  · simp [h1]
  · by_cases h2 : n.type = .Validate
    · simp [h2]
    · by_cases h3 : n.type = .Join
      · simp [h3, is_semi_or_anti_join, or_assoc]
      · simp [h1, h2, h3]

theorem is_predicate_chain_head {heap : Heap} {is_first : Bool} {current node : Nat}
    {nodes : List Nat} (h : is_predicate_chain heap is_first current (node :: nodes)) :
    node = current ∧ is_predicate_style_node heap (some node) = some true ∧
      (is_first = true ∨ (plan_outputs heap node).length ≤ 1) := by
  cases nodes with
  | nil => exact ⟨h.1, h.2.1, h.2.2.1⟩
  | cons next rest => exact ⟨h.1, h.2.1, h.2.2.1⟩

/-- The loop that gathers a chain returns the chain when it is given more iterations than the
chain has nodes. -/
theorem gather_predicate_nodes_of_chain (heap : Heap) :
    ∀ (chain : List Nat) (is_first : Bool) (current : Nat) (predicate_nodes : List Nat)
      (fuel : Nat), is_predicate_chain heap is_first current chain →
      (is_first = true → predicate_nodes = []) → (is_first = false → predicate_nodes ≠ []) →
      chain.length < fuel →
      gather_predicate_nodes heap fuel (some current) predicate_nodes =
        some (predicate_nodes ++ chain) := by
  intro chain
  induction chain with
  | nil =>
    intro is_first current predicate_nodes fuel h
    exact absurd h (by simp [is_predicate_chain])
  | cons node nodes ih =>
    intro is_first current predicate_nodes fuel h hfirst hlater hfuel
    obtain ⟨hcur, hstyle, houtputs⟩ := is_predicate_chain_head h
    subst hcur
    have hno_break : ¬((plan_outputs heap node).length > 1 ∧ predicate_nodes ≠ []) := by
      rintro ⟨h1, h2⟩
      rcases houtputs with hf | ho
      · exact h2 (hfirst hf)
      · omega
    obtain ⟨f, rfl⟩ : ∃ f, fuel = f + 1 := ⟨fuel - 1, by omega⟩
    cases nodes with
    | nil =>
      obtain ⟨_, _, _, stop, style, hleft, hstop, hend⟩ := h
      obtain ⟨f2, rfl⟩ : ∃ f2, f = f2 + 1 := ⟨f - 1, by simp at hfuel; omega⟩
      have hleft2 : heap[node]?.bind (·.left_input) = some stop := hleft
      simp only [gather_predicate_nodes, hstyle, if_neg hno_break, hleft2, hstop]
      cases style with
      | false => rfl
      | true =>
        rcases hend with hend | hend
        · exact absurd hend (by decide)
        · simp [hend]
    | cons next rest =>
      obtain ⟨_, _, _, hleft, hrest⟩ := h
      have hleft2 : heap[node]?.bind (·.left_input) = some next := hleft
      simp only [gather_predicate_nodes, hstyle, if_neg hno_break, hleft2]
      rw [ih false next (predicate_nodes ++ [node]) f hrest (by simp) (by simp)
        (by simp at hfuel ⊢; omega)]
      simp

/-- The chain that starts at a node is determined by the plan. -/
theorem is_predicate_chain_unique (heap : Heap) :
    ∀ (chain other : List Nat) (b1 b2 : Bool) (current : Nat),
      is_predicate_chain heap b1 current chain → is_predicate_chain heap b2 current other →
      chain = other := by
  intro chain
  induction chain with
  | nil =>
    intro other b1 b2 current h
    exact absurd h (by simp [is_predicate_chain])
  | cons node nodes ih =>
    intro other b1 b2 current h1 h2
    cases other with
    | nil => exact absurd h2 (by simp [is_predicate_chain])
    | cons node2 nodes2 =>
      have e1 := (is_predicate_chain_head h1).1
      have e2 := (is_predicate_chain_head h2).1
      subst e1
      subst e2
      cases nodes with
      | nil =>
        cases nodes2 with
        | nil => rfl
        | cons next2 rest2 =>
          obtain ⟨_, _, _, stop, style, hleft, hstop, hend⟩ := h1
          obtain ⟨_, _, _, hleft2, hrest2⟩ := h2
          rw [hleft] at hleft2
          cases hleft2
          obtain ⟨_, hstyle, houtputs⟩ := is_predicate_chain_head hrest2
          rw [hstop] at hstyle
          cases hstyle
          rcases hend with hend | hend
          · exact absurd hend (by decide)
          · rcases houtputs with ho | ho
            · exact absurd ho (by decide)
            · omega
      | cons next rest =>
        cases nodes2 with
        | nil =>
          obtain ⟨_, _, _, stop, style, hleft, hstop, hend⟩ := h2
          obtain ⟨_, _, _, hleft1, hrest1⟩ := h1
          rw [hleft] at hleft1
          cases hleft1
          obtain ⟨_, hstyle, houtputs⟩ := is_predicate_chain_head hrest1
          rw [hstop] at hstyle
          cases hstyle
          rcases hend with hend | hend
          · exact absurd hend (by decide)
          · rcases houtputs with ho | ho
            · exact absurd ho (by decide)
            · omega
        | cons next2 rest2 =>
          obtain ⟨_, _, _, hleft1, hrest1⟩ := h1
          obtain ⟨_, _, _, hleft2, hrest2⟩ := h2
          rw [hleft1] at hleft2
          cases hleft2
          rw [ih (next :: rest2) false false next hrest1 hrest2]

/-- The part of a chain that starts at one of its later nodes is the chain of that node. -/
theorem is_predicate_chain_tail (heap : Heap) :
    ∀ (chain : List Nat) (is_first : Bool) (current : Nat) (before : List Nat) (node : Nat)
      (after : List Nat), is_predicate_chain heap is_first current chain →
      chain = before ++ node :: after → before ≠ [] →
      is_predicate_chain heap false node (node :: after) := by
  intro chain
  induction chain with
  | nil =>
    intro is_first current before node after h
    exact absurd h (by simp [is_predicate_chain])
  | cons first nodes ih =>
    intro is_first current before node after h hsplit hbefore
    cases before with
    | nil => exact absurd rfl hbefore
    | cons b bs =>
      simp only [List.cons_append, List.cons.injEq] at hsplit
      obtain ⟨_, hnodes⟩ := hsplit
      cases nodes with
      | nil =>
        cases bs <;> simp at hnodes
      | cons next rest =>
        obtain ⟨_, _, _, _, hrest⟩ := h
        cases bs with
        | nil =>
          simp only [List.nil_append, List.cons.injEq] at hnodes
          rw [← hnodes.1, ← hnodes.2]
          exact hrest
        | cons b2 bs2 =>
          exact ih false next (b2 :: bs2) node after hrest hnodes (List.cons_ne_nil _ _)

theorem is_predicate_chain_nodup (heap : Heap) :
    ∀ (chain : List Nat) (is_first : Bool) (current : Nat),
      is_predicate_chain heap is_first current chain → chain.Nodup := by
  intro chain
  induction chain with
  | nil =>
    intro is_first current h
    exact List.nodup_nil
  | cons node nodes ih =>
    intro is_first current h
    have htail : nodes.Nodup := by
      cases nodes with
      | nil => exact List.nodup_nil
      | cons next rest => exact ih false next h.2.2.2.2
    refine List.nodup_cons.2 ⟨?_, htail⟩
    intro hmem
    obtain ⟨before, after, hsplit⟩ := List.append_of_mem hmem
    have hsuffix := is_predicate_chain_tail heap (node :: nodes) is_first current
      (node :: before) node after h (by rw [hsplit]; rfl) (List.cons_ne_nil _ _)
    have hcur := (is_predicate_chain_head h).1
    have heq := is_predicate_chain_unique heap (node :: nodes) (node :: after) is_first false
      current h (hcur ▸ hsuffix)
    have hlen := congrArg List.length heq
    rw [hsplit] at hlen
    simp at hlen
    omega

theorem is_predicate_chain_valid (heap : Heap) :
    ∀ (chain : List Nat) (is_first : Bool) (current : Nat),
      is_predicate_chain heap is_first current chain → ∀ node ∈ chain, node < heap.length := by
  intro chain
  induction chain with
  | nil =>
    intro is_first current _ node hnode
    exact absurd hnode (List.not_mem_nil _)
  | cons first nodes ih =>
    intro is_first current h node hnode
    rcases List.mem_cons.1 hnode with hn | hn
    · obtain ⟨_, hstyle, _⟩ := is_predicate_chain_head h
      rw [hn]
      unfold is_predicate_style_node at hstyle
      cases hf : heap[first]? with
      | none => simp [hf] at hstyle
      | some n => exact getElem?_some_lt hf
    · cases nodes with
      | nil => exact absurd hn (List.not_mem_nil _)
      | cons next rest => exact ih false next h.2.2.2.2 node hn

/-- A chain has at most as many nodes as the plan. -/
theorem is_predicate_chain_length {heap : Heap} {chain : List Nat} {is_first : Bool}
    {current : Nat} (h : is_predicate_chain heap is_first current chain) :
    chain.length ≤ heap.length := by
  have hnodup := is_predicate_chain_nodup heap chain is_first current h
  have hvalid := is_predicate_chain_valid heap chain is_first current h
  have hsub : chain.toFinset ⊆ Finset.range heap.length := by
    intro x hx
    exact Finset.mem_range.2 (hvalid x (List.mem_toFinset.1 hx))
  have hcard := Finset.card_le_card hsub
  rw [List.toFinset_card_of_nodup hnodup, Finset.card_range] at hcard
  exact hcard

/-- C33: chain detection. A node is predicate-style iff it is a Predicate node, a Validate
node, or a Join node of mode Semi, AntiNullAsTrue or AntiNullAsFalse with exactly one join
predicate. For an unvisited predicate-style node `node` whose chain is `chain` (the longest
sequence `c0 = node, c1 = left_input(c0), ...` of predicate-style nodes in which every node
after `c0` has at most one output, ended by a node that is there), the loop of the visitor
gathers exactly `chain`; with fewer than 2 nodes the visitor leaves the plan and the set of
reordered nodes as they are, otherwise it calls `reorder_predicates` on `chain`. -/
theorem predicate_chain_detection {F : Type} (ops : FloatArithmetic F) (join_penalty : F)
    (sort : (Nat × F → Nat × F → Bool) → List (Nat × F) → List (Nat × F))
    (estimate_cardinality : Heap → Nat → F)
    (heap : Heap) (reordered_predicate_nodes : List Nat) (node : Nat) (chain : List Nat)
    (hchain : is_predicate_chain heap true node chain)
    (hunvisited : node ∉ reordered_predicate_nodes) :
    (∀ n : LQPNode, n.is_predicate_style = true ↔
      (n.type = .Predicate ∨ n.type = .Validate ∨
        (n.type = .Join ∧
          (n.as_join.join_mode = .Semi ∨ n.as_join.join_mode = .AntiNullAsTrue ∨
            n.as_join.join_mode = .AntiNullAsFalse) ∧
          n.as_join.join_predicates.length = 1))) ∧
    gather_predicate_nodes heap (heap.length + 1) (some node) [] = some chain ∧
    (∀ fuel, chain.length < fuel →
      gather_predicate_nodes heap fuel (some node) [] = some chain) ∧
    (chain.length < 2 →
      reordering_visitor ops join_penalty sort estimate_cardinality
        (heap, reordered_predicate_nodes) node =
        some (.VisitInputs, heap, reordered_predicate_nodes)) ∧
    (2 ≤ chain.length →
      reordering_visitor ops join_penalty sort estimate_cardinality
        (heap, reordered_predicate_nodes) node =
        (reorder_predicates ops join_penalty sort estimate_cardinality heap chain).map
          fun reordered => (.VisitInputs, reordered, chain ++ reordered_predicate_nodes)) := by
  have hgather : ∀ fuel, chain.length < fuel →
      gather_predicate_nodes heap fuel (some node) [] = some chain := by
    intro fuel hfuel
    have h := gather_predicate_nodes_of_chain heap chain true node [] fuel hchain
      (fun _ => rfl) (fun h => absurd h (by decide)) hfuel
    rw [List.nil_append] at h
    exact h
  have hlength := is_predicate_chain_length hchain
  have hfull := hgather (heap.length + 1) (by omega)
  have hstyle : is_predicate_style_node heap (some node) = some true := by
    cases chain with
    | nil => exact absurd hchain (by simp [is_predicate_chain])
    | cons first nodes =>
      obtain ⟨hcur, hstyle, _⟩ := is_predicate_chain_head hchain
      rw [← hcur]
      exact hstyle
  refine ⟨LQPNode.is_predicate_style_iff, hfull, hgather, ?_, ?_⟩
  · intro hshort
    unfold reordering_visitor
    simp only [hstyle, hfull]
    rw [if_pos ⟨trivial, hunvisited⟩, if_neg (by omega)]
  · intro hlong
    unfold reordering_visitor
    simp only [hstyle, hfull]
    rw [if_pos ⟨trivial, hunvisited⟩, if_pos (by omega)]
    cases reorder_predicates ops join_penalty sort estimate_cardinality heap chain <;> rfl

/-- Witness of C33: in `fanPlan` the chain of node 3 (which has two outputs) is `[3, 2]`: its
left input 2 is a Validate node with one output, and the Predicate node 1 below has two
outputs and ends the chain; the visitor calls `reorder_predicates` on it, which returns. -/
theorem predicate_chain_detection_witness :
    is_predicate_chain fanPlan true 3 [3, 2] ∧
    gather_predicate_nodes fanPlan (fanPlan.length + 1) (some 3) [] = some [3, 2] ∧
    (reorder_predicates halvesArithmetic 3 stable_sort
      selfJoinPlanCardinality fanPlan [3, 2]).isSome = true ∧
    reordering_visitor halvesArithmetic 3 stable_sort
      selfJoinPlanCardinality (fanPlan, []) 3 =
      (reorder_predicates halvesArithmetic 3 stable_sort
        selfJoinPlanCardinality fanPlan [3, 2]).map
        fun reordered => (.VisitInputs, reordered, [3, 2] ++ []) :=
  have hchain : is_predicate_chain fanPlan true 3 [3, 2] :=
    ⟨rfl, by decide, Or.inl rfl, by decide, rfl, by decide, Or.inr (by decide),
      1, true, by decide, by decide, Or.inr (by decide)⟩
  have h := predicate_chain_detection halvesArithmetic 3
    stable_sort selfJoinPlanCardinality fanPlan [] 3 [3, 2]
    hchain (by decide)
  ⟨hchain, h.2.1, rfl, h.2.2.2.2 (by decide)⟩

/-! ## The estimators that `reorder_predicates` calls -/

theorem lt_length_of_getElem? {α : Type} {l : List α} {i : Nat} {a : α}
    (h : l[i]? = some a) : i < l.length := by
  by_contra hge
  rw [List.getElem?_eq_none (by omega)] at h
  exact Option.noConfusion h

theorem Estimators.received_of_receive {estimators result : Estimators} {address : Nat}
    {call : CardinalityEstimatorCall} (h : estimators.receive address call = some result) :
    received estimators result address [call] := by
  unfold Estimators.receive at h
  cases hcalls : estimators.cardinality_estimators[address]? with
  | none => simp [hcalls] at h
  | some calls =>
    simp only [hcalls, Option.some.injEq] at h
    rw [← h]
    refine ⟨rfl, ?_, ?_⟩
    · intro calls2 hcalls2
      rw [hcalls] at hcalls2
      cases hcalls2
      have hlt := lt_length_of_getElem? hcalls
      simp [List.getElem?_set, hlt]
    · intro other hother
      simp [List.getElem?_set, Ne.symm hother]

theorem received_refl (estimators : Estimators) (address : Nat) :
    received estimators estimators address [] :=
  ⟨rfl, fun calls h => by rw [List.append_nil]; exact h, fun _ _ => rfl⟩

theorem received_trans {a b c : Estimators} {address : Nat}
    {first second : List CardinalityEstimatorCall} (hab : received a b address first)
    (hbc : received b c address second) : received a c address (first ++ second) := by
  refine ⟨hbc.1.trans hab.1, ?_, ?_⟩
  · intro calls hcalls
    rw [← List.append_assoc]
    exact hbc.2.1 _ (hab.2.1 calls hcalls)
  · intro other hother
    rw [hbc.2.2 other hother, hab.2.2 other hother]

theorem no_guarantee_estimate (nodes : List Nat) :
    no_guarantee (nodes.map CardinalityEstimatorCall.estimate_cardinality) := by
  intro vertices hmem
  obtain ⟨_, _, h⟩ := List.mem_map.1 hmem
  cases h

theorem no_guarantee_append {first second : List CardinalityEstimatorCall}
    (h1 : no_guarantee first) (h2 : no_guarantee second) : no_guarantee (first ++ second) := by
  intro vertices hmem
  rcases List.mem_append.1 hmem with h | h
  · exact h1 vertices h
  · exact h2 vertices h

/-- The cost estimation of a node calls only the cardinality estimator of the cost estimator,
and only `estimate_cardinality`. -/
theorem estimate_node_cost_calls_received {estimators result : Estimators}
    {cost_estimator cardinality_estimator : Nat} {heap : Heap} {node : Nat}
    (hcost : estimators.cost_estimators[cost_estimator]? = some cardinality_estimator)
    (h : CostEstimatorLogical.estimate_node_cost_calls estimators cost_estimator heap node =
      some result) :
    ∃ further, received estimators result cardinality_estimator further ∧
      no_guarantee further := by
  unfold CostEstimatorLogical.estimate_node_cost_calls at h
  cases hn : heap[node]? with
  | none => simp [hcost, hn] at h
  | some n =>
    simp only [hcost, hn] at h
    cases h1 : estimators.receive cardinality_estimator (.estimate_cardinality node) with
    | none => simp [h1] at h
    | some estimators1 =>
      simp only [h1] at h
      have r1 := Estimators.received_of_receive h1
      have hleft : ∃ (estimators2 : Estimators) (nodes2 : List Nat),
          (match n.left_input with
            | some left => estimators1.receive cardinality_estimator (.estimate_cardinality left)
            | none => some estimators1) = some estimators2 ∧
          received estimators1 estimators2 cardinality_estimator
            (nodes2.map CardinalityEstimatorCall.estimate_cardinality) := by
        cases hl : n.left_input with
        | none => exact ⟨estimators1, [], rfl, received_refl _ _⟩
        | some left =>
          cases h2 : estimators1.receive cardinality_estimator (.estimate_cardinality left) with
          | none => simp [hl, h2] at h
          | some estimators2 =>
            exact ⟨estimators2, [left], h2, Estimators.received_of_receive h2⟩
      obtain ⟨estimators2, nodes2, h2, r2⟩ := hleft
      rw [h2] at h
      simp only at h
      cases hr : n.right_input with
      | none =>
        simp only [hr, Option.some.injEq] at h
        rw [← h]
        refine ⟨_, received_trans r1 r2, ?_⟩
        exact no_guarantee_append (no_guarantee_estimate [node]) (no_guarantee_estimate nodes2)
      | some right =>
        simp only [hr] at h
        have r3 := Estimators.received_of_receive h
        refine ⟨_, received_trans (received_trans r1 r2) r3, ?_⟩
        exact no_guarantee_append
          (no_guarantee_append (no_guarantee_estimate [node]) (no_guarantee_estimate nodes2))
          (no_guarantee_estimate [right])

/-- The first loop of `reorder_predicates` sends one `estimate_cardinality` call per chain node
to `caching_cardinality_estimator`, and only `estimate_cardinality` calls to the cardinality
estimator of `caching_cost_estimator`. -/
theorem estimate_predicates_calls_spec (caching_cardinality_estimator caching_cost_estimator
    fresh : Nat) (input : Option Nat) (hfresh : fresh ≠ caching_cardinality_estimator) :
    ∀ (predicates : List Nat) (estimators : Estimators) (heap : Heap) (result : Estimators),
      estimators.cost_estimators[caching_cost_estimator]? = some fresh →
      estimate_predicates_calls caching_cardinality_estimator caching_cost_estimator input
        estimators heap predicates = some result →
      result.cost_estimators = estimators.cost_estimators ∧
      (∀ calls, estimators.cardinality_estimators[caching_cardinality_estimator]? = some calls →
        result.cardinality_estimators[caching_cardinality_estimator]? =
          some (calls ++ predicates.map CardinalityEstimatorCall.estimate_cardinality)) ∧
      (∀ calls, estimators.cardinality_estimators[fresh]? = some calls → no_guarantee calls →
        ∃ calls2, result.cardinality_estimators[fresh]? = some calls2 ∧
          no_guarantee calls2) := by
  intro predicates
  induction predicates with
  | nil =>
    intro estimators heap result _ h
    simp only [estimate_predicates_calls, Option.some.injEq] at h
    rw [← h]
    exact ⟨rfl, fun calls hc => by rw [List.map_nil, List.append_nil]; exact hc,
      fun calls hc hn => ⟨calls, hc, hn⟩⟩
  | cons predicate predicates ih =>
    intro estimators heap result hcost h
    simp only [estimate_predicates_calls] at h
    cases h1 : estimators.receive caching_cardinality_estimator
        (.estimate_cardinality predicate) with
    | none => simp [h1] at h
    | some estimators1 =>
      simp only [h1] at h
      have r1 := Estimators.received_of_receive h1
      cases h2 : CostEstimatorLogical.estimate_node_cost_calls estimators1
          caching_cost_estimator (heap.set_input predicate .Left input) predicate with
      | none => simp [h2] at h
      | some estimators2 =>
        simp only [h2] at h
        have hcost1 : estimators1.cost_estimators[caching_cost_estimator]? = some fresh := by
          rw [r1.1]
          exact hcost
        obtain ⟨further, r2, hfurther⟩ := estimate_node_cost_calls_received hcost1 h2
        have hcost2 : estimators2.cost_estimators[caching_cost_estimator]? = some fresh := by
          rw [r2.1]
          exact hcost1
        obtain ⟨c1, c2, c3⟩ := ih estimators2 _ result hcost2 h
        refine ⟨c1.trans (r2.1.trans r1.1), ?_, ?_⟩
        · intro calls hcalls
          have e1 := r1.2.1 calls hcalls
          have e2 : estimators2.cardinality_estimators[caching_cardinality_estimator]? =
              some (calls ++ [CardinalityEstimatorCall.estimate_cardinality predicate]) := by
            rw [r2.2.2 _ (Ne.symm hfresh)]
            exact e1
          rw [c2 _ e2, List.map_cons, List.append_assoc]
          rfl
        · intro calls hcalls hno
          have e1 : estimators1.cardinality_estimators[fresh]? = some calls := by
            rw [r1.2.2 _ hfresh]
            exact hcalls
          exact c3 _ (r2.2.1 calls e1) (no_guarantee_append hno hfurther)

/-- C35 (divergence): whenever `reorder_predicates` gets through its estimations, the
cardinality estimator of the cost estimator supplied by the caller has received, after its
earlier calls, `guarantee_join_graph(JoinGraph{{input}, {}})` and one `estimate_cardinality`
call for every chain node; the cardinality estimator of the fresh cost estimator made by
`new_instance()` has received no `guarantee_join_graph` call. -/
theorem reorder_predicates_guarantees_on_given_estimator (estimators : Estimators)
    (cost_estimator cardinality_estimator : Nat) (calls : List CardinalityEstimatorCall)
    (heap : Heap) (predicates : List Nat) (back : LQPNode) (result : Estimators)
    (hcost : estimators.cost_estimators[cost_estimator]? = some cardinality_estimator)
    (hcalls : estimators.cardinality_estimators[cardinality_estimator]? = some calls)
    (hback : predicates.getLast? >>= (heap[·]?) = some back)
    (hresult : reorder_predicates_estimators estimators cost_estimator heap predicates =
      some result) :
    result.cardinality_estimators[cardinality_estimator]? =
      some (calls ++ CardinalityEstimatorCall.guarantee_join_graph [back.left_input] ::
        predicates.map CardinalityEstimatorCall.estimate_cardinality) ∧
    result.cost_estimators[estimators.cost_estimators.length]? =
      some estimators.cardinality_estimators.length ∧
    ∃ fresh_calls,
      result.cardinality_estimators[estimators.cardinality_estimators.length]? =
        some fresh_calls ∧ no_guarantee fresh_calls := by
  have hlt : cardinality_estimator < estimators.cardinality_estimators.length :=
    lt_length_of_getElem? hcalls
  have hclt : cost_estimator < estimators.cost_estimators.length :=
    lt_length_of_getElem? hcost
  have hcost1 : (estimators.cost_estimators ++
      [estimators.cardinality_estimators.length])[cost_estimator]? =
      some cardinality_estimator := by
    rw [List.getElem?_append_left hclt]
    exact hcost
  unfold reorder_predicates_estimators at hresult
  simp only [hback, CostEstimatorLogical.new_instance, hcost, hcalls, hcost1] at hresult
  cases h1 : Estimators.receive
      { cardinality_estimators := estimators.cardinality_estimators ++ [[]],
        cost_estimators :=
          estimators.cost_estimators ++ [estimators.cardinality_estimators.length] }
      cardinality_estimator (.guarantee_join_graph [back.left_input]) with
  | none => simp [h1] at hresult
  | some estimators2 =>
    simp only [h1] at hresult
    have r1 := Estimators.received_of_receive h1
    have hfresh : estimators.cardinality_estimators.length ≠ cardinality_estimator := by omega
    have hcost2 : estimators2.cost_estimators[estimators.cost_estimators.length]? =
        some estimators.cardinality_estimators.length := by
      rw [r1.1]
      simp
    obtain ⟨c1, c2, c3⟩ := estimate_predicates_calls_spec cardinality_estimator
      estimators.cost_estimators.length estimators.cardinality_estimators.length
      back.left_input hfresh predicates estimators2 heap result hcost2 hresult
    have e1 : estimators2.cardinality_estimators[cardinality_estimator]? =
        some (calls ++ [CardinalityEstimatorCall.guarantee_join_graph [back.left_input]]) := by
      apply r1.2.1
      show (estimators.cardinality_estimators ++ [[]])[cardinality_estimator]? = some calls
      rw [List.getElem?_append_left hlt]
      exact hcalls
    have e2 : estimators2.cardinality_estimators[estimators.cardinality_estimators.length]? =
        some [] := by
      rw [r1.2.2 _ hfresh]
      show (estimators.cardinality_estimators ++ [[]])[
        estimators.cardinality_estimators.length]? = some []
      simp
    refine ⟨?_, ?_, ?_⟩
    · rw [c2 _ e1, List.append_assoc]
      rfl
    · rw [c1]
      exact hcost2
    · exact c3 [] e2 (fun _ h => absurd h (List.not_mem_nil _))

/-- Witness of C35 (failing input): the chain `[1, 2, 3]` of `chainPlan` on the stored table 0,
reordered with a cost estimator whose cardinality estimator has received no call: after the
estimations that cardinality estimator has received `guarantee_join_graph` for the table and
an `estimate_cardinality` call for each of the three nodes. -/
theorem reorder_predicates_guarantees_on_given_estimator_witness :
    ∃ result, reorder_predicates_estimators callerEstimators 0 chainPlan [1, 2, 3] =
        some result ∧
      callerEstimators.cardinality_estimators[0]? = some [] ∧
      result.cardinality_estimators[0]? =
        some [.guarantee_join_graph [some 0], .estimate_cardinality 1,
          .estimate_cardinality 2, .estimate_cardinality 3] := by
  obtain ⟨result, h⟩ := Option.isSome_iff_exists.1
    (show (reorder_predicates_estimators callerEstimators 0 chainPlan [1, 2, 3]).isSome = true
      by decide)
  exact ⟨result, h, rfl,
    (reorder_predicates_guarantees_on_given_estimator callerEstimators 0 0 [] chainPlan
      [1, 2, 3] _ result rfl rfl rfl h).1⟩

/-! ## The key constraint recorded by the set-based inclusion check -/

/-- With `including_min_max` given, the set-based inclusion check records a key constraint for
the including table exactly when `max - min` is `row_count() - 1` (modulo `2^64`); the values
of the column are not looked at for this. -/
theorem set_based_inclusion_check_records_iff (_skip_bulk_insert : Bool) (bits : Nat)
    (tables : List Table) (including_table including_column_id : Nat)
    (included_table included_column_id : Nat) (min max : Int)
    (included_min_max : Option (Int × Int)) (including : Table) (status : ValidationStatus)
    (constraints : List (Nat × TableKeyConstraint))
    (hincluding : tables[including_table]? = some including)
    (h : _perform_set_based_inclusion_check _skip_bulk_insert false bits tables including_table
      including_column_id included_table included_column_id [] (some (min, max))
      included_min_max = some (status, constraints)) :
    (((max - min) % (2 ^ 64 : Int)).toNat = (including.row_count + (2 ^ 64 - 1)) % 2 ^ 64 →
      constraints =
        [(including_table, { columns := {including_column_id}, key_type := .UNIQUE })]) ∧
    (((max - min) % (2 ^ 64 : Int)).toNat ≠ (including.row_count + (2 ^ 64 - 1)) % 2 ^ 64 →
      constraints = []) := by
  unfold _perform_set_based_inclusion_check at h
  cases hincluded : tables[included_table]? with
  | none => simp [hincluding, hincluded] at h
  | some included =>
    cases hvalues : _collect_values _skip_bulk_insert including including_column_id with
    | none => simp [hincluding, hincluded, hvalues] at h
    | some including_values =>
      simp only [hincluding, hincluded, hvalues, Bool.false_eq_true, if_false] at h
      by_cases hempty : including_values = ∅
      · simp [hempty] at h
      · rw [if_neg hempty] at h
        by_cases hover : max - min < -(2 ^ (bits - 1) : Int) ∨ (2 ^ (bits - 1) : Int) ≤ max - min
        · rw [if_pos hover] at h
          exact Option.noConfusion h
        · rw [if_neg hover] at h
          cases included_min_max with
          | none => exact Option.noConfusion h
          | some included =>
            obtain ⟨included_min, included_max⟩ := included
            simp only at h
            have hprobe : ∀ (cs : List (Nat × TableKeyConstraint)),
                ((if ((max - min) % (2 ^ 64 : Int)).toNat =
                      (including_values.card + (2 ^ 64 - 1)) % 2 ^ 64 ∧
                    min ≤ included_min ∧ max ≥ included_max then
                  some (ValidationStatus.Valid, cs)
                else
                  (probe_included_chunks _skip_bulk_insert including_values included_column_id
                    included.chunks).map fun status => (status, cs)) =
                  some (status, constraints)) → constraints = cs := by
              intro cs hcs
              split_ifs at hcs
              · simp only [Option.some.injEq, Prod.mk.injEq] at hcs
                exact hcs.2.symm
              · obtain ⟨st, _, hst⟩ := Option.map_eq_some'.1 hcs
                simp only [Prod.mk.injEq] at hst
                exact hst.2.symm
            constructor
            · intro heq
              rw [if_pos heq] at h
              exact hprobe _ h
            · intro hne
              rw [if_neg hne] at h
              exact hprobe _ h

/-- C39 (failing input): the including column of table 0 of `duplicateKeyTables` holds the
values 1, 1 and 3, and its true minimum 1 and maximum 3 are passed as `including_min_max`.
`max - min` is 2, which is `row_count() - 1`, so `_perform_set_based_inclusion_check` records
a UNIQUE key constraint for the column, although the value 1 occurs twice (for every setting
of `_skip_bulk_insert`, and for 32-bit and 64-bit integers). -/
theorem set_based_inclusion_check_records_unique_for_duplicates :
    (∃ including ∈ duplicateKeyTables[0]?,
      including.column_values 0 = [1, 1, 3] ∧ including.row_count = 3 ∧
      ¬ (including.column_values 0).Nodup ∧
      (including.column_values 0).min? = some 1 ∧
      (including.column_values 0).max? = some 3) ∧
    ∀ _skip_bulk_insert : Bool, ∀ bits ∈ [32, 64],
      _perform_set_based_inclusion_check _skip_bulk_insert false bits duplicateKeyTables 0 0 1 0
        [] (some (1, 3)) (some (1, 3)) =
        some (.Valid, [(0, { columns := {0}, key_type := .UNIQUE })]) := by
  decide

/-! ## Failing inputs of the side resolution of join keys and of the relinking of outputs -/

/-- C9 (the code at the failing input): the inner join `sharedOutputKeyJoin` has the single
predicate `colB = colA`, an equality between the expression `colA` of the left input (it is no
output of the right input) and the expression `colB` of the right input; the left key is
`colA` and the right key is `colB`, the right input has a matching IND for them, and so the
left input's IND `[colA] in [colB]` is to be forwarded. `colB` also is an output of the left
input, and the code takes the first operand for the left key whenever the left input has it
(join_node.cpp:267-271): it asks for a matching IND with the keys swapped and
`inclusion_dependencies()` is empty. -/
theorem inner_join_shared_output_key_drops_inds :
    sharedOutputKeyJoin.join_mode = .Inner ∧
    sharedOutputKeyJoin.join_predicates = [.binary_predicate .Equals colB colA] ∧
    (∃ l r, sharedOutputKeyJoin.left_input = some l ∧
      sharedOutputKeyJoin.right_input = some r ∧
      colA ∈ l.output_expressions ∧ colA ∉ r.output_expressions ∧
      colB ∈ r.output_expressions ∧ colB ∈ l.output_expressions ∧
      r.has_matching_ind {colA} {colB} l.id = true ∧
      l.has_matching_ind {colB} {colA} r.id = false ∧
      ((if r.has_matching_ind {colA} {colB} l.id = true then l.inclusion_dependencies else ∅) ∪
        (if l.has_matching_ind {colB} {colA} r.id = true then r.inclusion_dependencies
          else ∅)) = {⟨[colA], [colB]⟩} ∧
      (∃ sets ∈ JoinNode.map_join_keys l.output_expressions
          sharedOutputKeyJoin.join_predicates (∅, ∅), sets = ({colB}, {colA})) ∧
      r.has_matching_ind {colB} {colA} l.id = false) ∧
    ∃ inclusion_dependencies ∈ sharedOutputKeyJoin.inclusion_dependencies,
      inclusion_dependencies = ∅ := by
  refine ⟨rfl, rfl, ⟨_, _, rfl, rfl, ?_⟩, ?_⟩ <;> decide

/-- C23 (the code at the failing input): in `sharedTopChainPlan` the chain `[2, 1, 3]` has the
weighted costs 10, 50 and 30 from top to bottom, and its top node 2 is held by the join
(node 4) in both input slots. `reorder_predicates` links the chain in the order 10, 30, 50 from
the table upward (node 2 on the table, node 3 on node 2, node 1 on node 3) and sets the left
slot of the join to the node with the highest cost (node 1), but the right slot of the join
still holds node 2, which now is the node on the table with the lowest cost: the original
output does not reference the node with the highest weighted cost on its right side, and read
from the table upward that side passes the node of cost 10 only. The rule leaves the plan in
this state. -/
theorem reorder_predicates_output_holds_cheapest_node :
    plan_links sharedTopChainPlan =
      [(none, none), (some 3, none), (some 1, none), (some 0, none), (some 2, some 2),
        (some 4, none)] ∧
    gather_predicate_nodes sharedTopChainPlan (sharedTopChainPlan.length + 1) (some 2) [] =
      some [2, 1, 3] ∧
    plan_outputs sharedTopChainPlan 2 = [4, 4] ∧
    get_input_sides sharedTopChainPlan 2 = some [.Left, .Left] ∧
    (estimate_predicates halvesArithmetic 3 chainPlanCardinality (some 0) sharedTopChainPlan
      [2, 1, 3]).map (·.2) = some [(2, 2 * 10), (1, 2 * 50), (3, 2 * 30)] ∧
    (reorder_predicates halvesArithmetic 3 stable_sort chainPlanCardinality sharedTopChainPlan
      [2, 1, 3]).map plan_links =
      some [(none, none), (some 3, none), (some 0, none), (some 2, none), (some 1, some 2),
        (some 4, none)] ∧
    (_apply_to_plan_without_subqueries halvesArithmetic 3 stable_sort chainPlanCardinality
      sharedTopChainPlan 5).map plan_links =
      some [(none, none), (some 3, none), (some 0, none), (some 2, none), (some 1, some 2),
        (some 4, none)] := by
  decide

end hyrise
